import Mathlib

/-! A shallow embedding of `bigcompare.c` and `smallcompare.c` (bigfile-diff-compare).

Both programs map two files, build one pointer per line for each of them and
compare the files line by line.

* Bytes are natural numbers; the newline byte is `10` and the NUL byte is `0`.
* A `char *` into a mapped file is an offset into the list of its bytes.
* A `char **` into a pointer table is the table together with an element offset.
* A C `int` is a `Nat` where the code keeps it non-negative and an `Int`
  elsewhere; files of more than `2^31` lines are not modelled.
* A read outside the pointer-table entries written by the indexer, or outside
  the mapped bytes, is undefined in C and is the result `Res.oob` here.
* Both `main` functions ask `calloc` for `Alines+1` pointers and store
  `Alines+2`. What `calloc` returns is a parameter: `indexer`, `exec` and
  `program` are given the number of pointers that each block has room for, and
  a store outside a block is the result `Res.oob`. `buildTable`, `run` and
  `main` are the same code on tables that hold every pointer stored.
* Loops whose bound is not structural take a step budget; an exhausted budget
  is the result `Res.timeout`.
* The fields `trace` are a log that the embedding keeps next to standard
  output, so that statements can speak of records, matched lines and calls; the
  programs keep no such log and nothing in the embedding reads it.
-/

namespace Compare

/-- Result of running a piece of the program. -/
inductive Res (α : Type) where
  | ok (a : α)
  | oob
  | timeout
  deriving DecidableEq, Repr

/-- Sequencing of results: the first fault wins. -/
def Res.bind {α β : Type} : Res α → (α → Res β) → Res β
  | .ok a, f => f a
  | .oob, _ => .oob
  | .timeout, _ => .timeout

instance : Monad Res where
  pure := Res.ok
  bind := Res.bind

/-- One mapped file with its pointer table: `conad` is the mapped content,
`AA` the line pointers (offsets into `conad`) and `lines` the final value of
`Alines` / `Blines`. -/
structure LineTable where
  conad : List Nat
  AA : List Nat
  lines : Nat
  deriving DecidableEq, Repr

/-- The loop `for (p = conad; p < conad+flen; p++) if (*p == '\n') AA[Aline++] = p+1;`
started at offset `p`: the pointers it stores, in order. -/
def lineStarts : List Nat → Nat → List Nat
  | [], _ => []
  | c :: cs, p => if c = 10 then (p + 1) :: lineStarts cs (p + 1) else lineStarts cs (p + 1)

/-- The indexer of both `main` functions: `AA[0] = conad`, one pointer after
every newline, then `AA[Aline] = conad+flen` and `Alines = Aline-1`: the
`Alines+2` pointers stored, in order. The block that they are stored to is the
matter of `indexer`. -/
def buildTable (conad : List Nat) : LineTable :=
  let starts := 0 :: lineStarts conad 0
  { conad := conad, AA := starts ++ [conad.length], lines := starts.length - 1 }

/-- The argument of `calloc(Alines+1, sizeof(char *))`: the newline bytes counted
by `for (p = conad; p < conad+flen; p++) if (*p == '\n') Alines++;`, plus one. -/
def asked (conad : List Nat) : Nat := conad.count 10 + 1

/-- The indexer together with the block that its pointers go to. `slots` is the
number of pointers that the block returned by `calloc` has room for: the
`asked` ones, and as many more as the allocator happened to give. The indexer
stores at the indices `0 .. Alines+1`, one pointer more than it asked for; a
store outside the block is undefined in C and is the result `Res.oob`. -/
def indexer (slots : Nat) (conad : List Nat) : Res LineTable :=
  if (buildTable conad).AA.length ≤ slots then .ok (buildTable conad) else .oob

/-- Read of entry `i` of a pointer table. -/
def rd (tbl : List Nat) (i : Nat) : Res Nat :=
  match tbl[i]? with
  | some p => .ok p
  | none => .oob

/-- The C library `strncmp` on the bytes found at two pointers: compares at
most `n` bytes, stops at the first difference or at a NUL present in both. -/
def strncmp : List Nat → List Nat → Nat → Res Int
  | _, _, 0 => .ok 0
  | c1 :: s1, c2 :: s2, n + 1 =>
    if c1 ≠ c2 then .ok ((c1 : Int) - (c2 : Int))
    else if c1 = 0 then .ok 0
    else strncmp s1 s2 n
  | _, _, _ + 1 => .oob

/-- What `%s` with a non-negative precision `n` prints: at most `n` bytes,
stopping at a NUL. -/
def putsN : List Nat → Nat → Res (List Nat)
  | _, 0 => .ok []
  | [], _ + 1 => .oob
  | c :: s, n + 1 => if c = 0 then .ok [] else (putsN s n).bind (fun r => .ok (c :: r))

/-- What `%s` without precision prints: every byte up to a NUL. -/
def putsAll : List Nat → Res (List Nat)
  | [] => .oob
  | c :: s => if c = 0 then .ok [] else (putsAll s).bind (fun r => .ok (c :: r))

/-- The conversion `%.*s` of `printf`: a negative precision is taken as if it
were omitted. -/
def fmtS (prec : Int) (s : List Nat) : Res (List Nat) :=
  if prec < 0 then putsAll s else putsN s prec.toNat

/-- One line written to standard output. -/
inductive OutLine where
  | text (Flag : Nat) (num : Int) (content : List Nat)
  | dashes
  deriving DecidableEq, Repr

/-- A `char **`: a pointer table and an element offset into it. -/
structure LinePtr where
  tbl : LineTable
  off : Nat
  deriving DecidableEq, Repr

/-- The element `AA[i]`. -/
def LinePtr.get (p : LinePtr) (i : Nat) : Res Nat := rd p.tbl.AA (p.off + i)

/-- The pointer `&AA[k]`. -/
def LinePtr.add (p : LinePtr) (k : Nat) : LinePtr := { p with off := p.off + k }

/-- Body shared by the two `Match` functions:
`if (AA[Aline+1]-AA[Aline] != BB[Bline+1]-BB[Bline]) return FALSE;`
`return strncmp(AA[Aline],BB[Bline],AA[Aline+1]-AA[Aline])==0;`
The pointers of a table never decrease, so the byte count handed to `strncmp`
is the natural number `a1 - a0`. -/
def Match (AA : LinePtr) (Aline : Nat) (BB : LinePtr) (Bline : Nat) : Res Bool := do
  let a1 ← AA.get (Aline + 1)
  let a0 ← AA.get Aline
  let b1 ← BB.get (Bline + 1)
  let b0 ← BB.get Bline
  if (a1 : Int) - (a0 : Int) ≠ (b1 : Int) - (b0 : Int) then pure false
  else do
    let r ← strncmp (AA.tbl.conad.drop a0) (BB.tbl.conad.drop b0) (a1 - a0)
    pure (decide (r = 0))

/-- One `fprintf(stdout, "\"%s\", %4d: %.*s\n", File[Flag], num, AB[I+1]-AB[I]-1, AB[I])`. -/
def printLine (AB : LinePtr) (I : Nat) (Flag : Nat) (num : Int) : Res OutLine := do
  let p1 ← AB.get (I + 1)
  let p0 ← AB.get I
  let s ← fmtS ((p1 : Int) - (p0 : Int) - 1) (AB.tbl.conad.drop p0)
  pure (OutLine.text Flag num s)

end Compare

namespace bigcompare
open Compare

/-- The spec's ChangeRecord, with the 1-based line numbers that are printed. -/
inductive ChangeRecord where
  | Deletion (lo hi : Nat)
  | Insertion (lo hi : Nat)
  | Replacement (a b : Nat)
  deriving DecidableEq, Repr

/-- What one iteration of the main loop did: it skipped a matching pair of
lines (0-based cursors) or it printed one record. -/
inductive Ev where
  | matched (a b : Nat)
  | record (r : ChangeRecord)
  deriving DecidableEq, Repr

/-- The globals the main loop works on, the lines written to standard output,
and a log with one entry per iteration. -/
structure State where
  BaseA : Nat
  BaseB : Nat
  Same : Bool
  LastLine : Int
  LastFlag : Int
  stdout : List OutLine
  trace : List Ev
  deriving DecidableEq, Repr

/-- The function `Match(Aline, Bline)` on the global tables. -/
def Match (TA TB : LineTable) (Aline Bline : Nat) : Res Bool :=
  Compare.Match ⟨TA, 0⟩ Aline ⟨TB, 0⟩ Bline

/-- The loop `do fprintf(...) while (++I <= High)` with `r = High - I`. -/
def PrintLoop (AB : LineTable) (Flag : Nat) : Nat → Nat → Res (List OutLine)
  | I, 0 => do
    let l ← printLine ⟨AB, 0⟩ I Flag ((I : Int) + 1)
    pure [l]
  | I, r + 1 => do
    let l ← printLine ⟨AB, 0⟩ I Flag ((I : Int) + 1)
    let ls ← PrintLoop AB Flag (I + 1) r
    pure (l :: ls)

/-- The function `Print(AB, Low, High, Flag)`: lines `Low..High` inclusive, at
least one. -/
def Print (AB : LineTable) (Low High : Nat) (Flag : Nat) : Res (List OutLine) :=
  PrintLoop AB Flag Low (High - Low)

/-- The function `Separator(Line, Flag)`. -/
def Separator (Line Flag : Int) (st : State) : State :=
  if Flag = st.LastFlag ∧ Line = st.LastLine + 1 then
    { st with LastLine := Line, LastFlag := Flag }
  else
    { st with stdout := st.stdout ++ [OutLine.dashes], LastLine := Line, LastFlag := Flag }

/-- The first inner loop: `Bline = Bline+1; if (Bline >= Blines) {noMatchForA = TRUE; break;}`
`if (Match(Aline, Bline)) break;`. Returns the final `Bline` and `noMatchForA`. -/
def scanB (TA TB : LineTable) (Aline : Nat) : Nat → Nat → Res (Nat × Bool)
  | 0, _ => .timeout
  | k + 1, Bline =>
    if Bline + 1 ≥ TB.lines then .ok (Bline + 1, true)
    else do
      let m ← Match TA TB Aline (Bline + 1)
      if m then pure (Bline + 1, false) else scanB TA TB Aline k (Bline + 1)

/-- The second inner loop: `Aline = Aline+1; if (Aline >= Alines) {noMatchForB = TRUE; break;}`
`if (Match(Aline, Bline)) break;`. Returns the final `Aline` and `noMatchForB`. -/
def scanA (TA TB : LineTable) (Bline : Nat) : Nat → Nat → Res (Nat × Bool)
  | 0, _ => .timeout
  | k + 1, Aline =>
    if Aline + 1 ≥ TA.lines then .ok (Aline + 1, true)
    else do
      let m ← Match TA TB (Aline + 1) Bline
      if m then pure (Aline + 1, false) else scanA TA TB Bline k (Aline + 1)

/-- Log one record. -/
def State.log (st : State) (r : ChangeRecord) : State :=
  { st with trace := st.trace ++ [Ev.record r] }

/-- The two-line replacement block: `Separator(-1,-1); Print(AA, Base[A], Base[A], A);`
`Print(BB, Base[B], Base[B], B); Base[A]++; Base[B]++; Same = FALSE;`. -/
def replaceOne (TA TB : LineTable) (st : State) : Res State := do
  let st1 := Separator (-1) (-1) st
  let la ← Print TA st.BaseA st.BaseA 0
  let lb ← Print TB st.BaseB st.BaseB 1
  pure ({ st1 with stdout := st1.stdout ++ la ++ lb, BaseA := st.BaseA + 1, BaseB := st.BaseB + 1,
                   Same := false }.log (.Replacement (st.BaseA + 1) (st.BaseB + 1)))

/-- One iteration of the main loop; `none` is the `break`. -/
def step (TA TB : LineTable) (st : State) : Res (Option State) :=
  if st.BaseA ≥ TA.lines ∧ st.BaseB ≥ TB.lines then .ok none
  else if st.BaseA ≥ TA.lines then do
    let st1 := Separator ((TB.lines : Int) - 1) 1 st
    let ls ← Print TB st.BaseB (TB.lines - 1) 1
    pure (some ({ st1 with stdout := st1.stdout ++ ls, Same := false, BaseB := TB.lines }.log
      (.Insertion (st.BaseB + 1) TB.lines)))
  else if st.BaseB ≥ TB.lines then do
    let st1 := Separator ((TA.lines : Int) - 1) 0 st
    let ls ← Print TA st.BaseA (TA.lines - 1) 0
    pure (some ({ st1 with stdout := st1.stdout ++ ls, Same := false, BaseA := TA.lines }.log
      (.Deletion (st.BaseA + 1) TA.lines)))
  else do
    let m ← Match TA TB st.BaseA st.BaseB
    if m then
      pure (some { st with BaseA := st.BaseA + 1, BaseB := st.BaseB + 1,
                           trace := st.trace ++ [Ev.matched st.BaseA st.BaseB] })
    else do
      let st := { st with Same := false }
      let (Bline, noMatchForA) ← scanB TA TB st.BaseA TB.lines st.BaseB
      let Bcount := Bline - st.BaseB
      let (Aline, noMatchForB) ← scanA TA TB st.BaseB TA.lines st.BaseA
      let Acount := Aline - st.BaseA
      if noMatchForA && noMatchForB then do
        let st2 ← replaceOne TA TB st
        pure (some st2)
      else if noMatchForA then do
        let st1 := Separator st.BaseA 0 st
        let ls ← Print TA st.BaseA st.BaseA 0
        pure (some ({ st1 with stdout := st1.stdout ++ ls, BaseA := st.BaseA + 1, Same := false }.log
          (.Deletion (st.BaseA + 1) (st.BaseA + 1))))
      else if noMatchForB then do
        let st1 := Separator st.BaseB 1 st
        let ls ← Print TB st.BaseB st.BaseB 1
        pure (some ({ st1 with stdout := st1.stdout ++ ls, BaseB := st.BaseB + 1, Same := false }.log
          (.Insertion (st.BaseB + 1) (st.BaseB + 1))))
      else if Acount < Bcount then do
        let st1 := Separator ((st.BaseA : Int) + Acount - 1) 0 st
        let ls ← Print TA st.BaseA (st.BaseA + Acount - 1) 0
        pure (some ({ st1 with stdout := st1.stdout ++ ls, BaseA := st.BaseA + Acount, Same := false }.log
          (.Deletion (st.BaseA + 1) (st.BaseA + Acount))))
      else if Bcount < Acount then do
        let st1 := Separator ((st.BaseB : Int) + Bcount - 1) 1 st
        let ls ← Print TB st.BaseB (st.BaseB + Bcount - 1) 1
        pure (some ({ st1 with stdout := st1.stdout ++ ls, BaseB := st.BaseB + Bcount, Same := false }.log
          (.Insertion (st.BaseB + 1) (st.BaseB + Bcount))))
      else do
        let st2 ← replaceOne TA TB st
        pure (some st2)

/-- The main loop `for (;;) { ... }` under a budget of iterations. -/
def mainLoop (TA TB : LineTable) : Nat → State → Res State
  | 0, _ => .timeout
  | k + 1, st => do
    match ← step TA TB st with
    | none => pure st
    | some st1 => mainLoop TA TB k st1

/-- The globals as `main` sets them before the main loop. -/
def initState : State :=
  { BaseA := 0, BaseB := 0, Same := true, LastLine := -1, LastFlag := -1, stdout := [], trace := [] }

/-- The main loop on the tables of two files, from the initial globals, with
one iteration per line of either file and one for the `break`. -/
def run (Aconad Bconad : List Nat) : Res State :=
  let TA := buildTable Aconad
  let TB := buildTable Bconad
  mainLoop TA TB (TA.lines + TB.lines + 1) initState

/-- What `main` leaves behind: standard output, and whether
`Files are identical` went to standard error. -/
structure Report where
  stdout : List OutLine
  identical : Bool
  deriving DecidableEq, Repr

/-- The end of `main`: `if (Same) fprintf(stderr, "Files are identical\n"); else Separator(-1,-1);`. -/
def main (Aconad Bconad : List Nat) : Res Report := do
  let st ← run Aconad Bconad
  if st.Same then pure { stdout := st.stdout, identical := true }
  else pure { stdout := (Separator (-1) (-1) st).stdout, identical := false }

/-- The function `main` from the indexer to the end of the main loop, on blocks
with room for `slotsA` and `slotsB` pointers: both tables are filled, then the
main loop runs from the initial globals. -/
def exec (slotsA slotsB : Nat) (Aconad Bconad : List Nat) : Res State := do
  let TA ← indexer slotsA Aconad
  let TB ← indexer slotsB Bconad
  mainLoop TA TB (TA.lines + TB.lines + 1) initState

/-- The function `main` from the indexer to its end, on blocks with room for
`slotsA` and `slotsB` pointers. -/
def program (slotsA slotsB : Nat) (Aconad Bconad : List Nat) : Res Report := do
  let st ← exec slotsA slotsB Aconad Bconad
  if st.Same then pure { stdout := st.stdout, identical := true }
  else pure { stdout := (Separator (-1) (-1) st).stdout, identical := false }

end bigcompare

namespace smallcompare
open Compare

/-- The function `Match(AA, Aline, BB, Bline)`. -/
def Match (AA : LinePtr) (Aline : Nat) (BB : LinePtr) (Bline : Nat) : Res Bool :=
  Compare.Match AA Aline BB Bline

/-- What `COMPARE` did, for the log: it was entered on two ranges (table
positions and sizes), it passed the table entry at a position to `printf`, or
it found a common block and recursed around it. -/
inductive Ev where
  | call (posA : Nat) (Alines : Int) (posB : Nat) (Blines : Int)
  | printed (Flag : Nat) (pos : Nat)
  | block (posA posB len : Nat)
  deriving DecidableEq, Repr

/-- Standard output, the flag `*Same`, and the log. -/
structure Out where
  stdout : List OutLine
  Same : Bool
  trace : List Ev
  deriving DecidableEq, Repr

/-- The loop `do fprintf(...) while (++I < High)` with `r = High - 1 - I`. -/
def PrintLoop (AB : LinePtr) (Base : Int) (Flag : Nat) : Nat → Nat → Res (List OutLine)
  | I, 0 => do
    let l ← printLine AB I Flag (Base + I + 1)
    pure [l]
  | I, r + 1 => do
    let l ← printLine AB I Flag (Base + I + 1)
    let ls ← PrintLoop AB Base Flag (I + 1) r
    pure (l :: ls)

/-- The function `Print(File, AB, Base, Low, High, Flag)`: lines `Low..High-1`. -/
def Print (AB : LinePtr) (Base : Int) (Low High : Nat) (Flag : Nat) : Res (List OutLine) :=
  if Low = High then .ok [] else PrintLoop AB Base Flag Low (High - 1 - Low)

/-- The loop of `Matches`: `for (; line < maxlen; line++) if (!Match(AA,line, BB,line)) return FALSE;`
with `k = maxlen - line`. -/
def MatchesLoop (AA BB : LinePtr) : Nat → Nat → Res Bool
  | _, 0 => .ok true
  | line, k + 1 => do
    let m ← Match AA line BB line
    if m then MatchesLoop AA BB (line + 1) k else pure false

/-- The function `Matches(AA, BB, maxlen)`. -/
def Matches (AA BB : LinePtr) (maxlen : Nat) : Res Bool := MatchesLoop AA BB 0 maxlen

/-- The loop `do { if (Matches(&AA[Ap], &BB[Bp], maxlines)) ...; Ap += 1; } while (Ap <= Alines);`
with `Bp = 0` and `r = Alines - Ap`: the first `Ap` at which the window matches. -/
def slideA (AA BB : LinePtr) (maxlines : Nat) : Nat → Nat → Res (Option Nat)
  | Ap, 0 => do
    let m ← Matches (AA.add Ap) (BB.add 0) maxlines
    if m then pure (some Ap) else pure none
  | Ap, r + 1 => do
    let m ← Matches (AA.add Ap) (BB.add 0) maxlines
    if m then pure (some Ap) else slideA AA BB maxlines (Ap + 1) r

/-- The loop `do { if (Matches(&AA[Ap], &BB[Bp], maxlines)) ...; Bp += 1; } while (Bp <= Blines);`
with `Ap = 0` and `r = Blines - Bp`: the first `Bp` at which the window matches. -/
def slideB (AA BB : LinePtr) (maxlines : Nat) : Nat → Nat → Res (Option Nat)
  | Bp, 0 => do
    let m ← Matches (AA.add 0) (BB.add Bp) maxlines
    if m then pure (some Bp) else pure none
  | Bp, r + 1 => do
    let m ← Matches (AA.add 0) (BB.add Bp) maxlines
    if m then pure (some Bp) else slideB AA BB maxlines (Bp + 1) r

/-- Where the search loop of `COMPARE` left: in the first inner loop (window
slid down the A file) or in the second one (window slid down the B file), with
the window length. -/
inductive Hit where
  | inA (Ap maxlines : Nat)
  | inB (Bp maxlines : Nat)
  deriving DecidableEq, Repr

/-- The loop `while (maxlines > 0) { ...; maxlines -= 1; }` up to the point where
a window matches; `none` when the loop runs to its end. -/
def search (AA : LinePtr) (Alines : Nat) (BB : LinePtr) (Blines : Nat) : Nat → Res (Option Hit)
  | 0 => .ok none
  | m + 1 => do
    match ← slideA AA BB (m + 1) 0 Alines with
    | some Ap => pure (some (Hit.inA Ap (m + 1)))
    | none =>
      match ← slideB AA BB (m + 1) 0 Blines with
      | some Bp => pure (some (Hit.inB Bp (m + 1)))
      | none => search AA Alines BB Blines m

/-- The log entries for a call of `Print` on lines `0..n-1` at a table pointer. -/
def printedEvs (Flag : Nat) (AB : LinePtr) (n : Nat) : List Ev :=
  (List.range n).map (fun i => Ev.printed Flag (AB.off + i))

/-- The function `COMPARE(File, AA, Alines, Abase, BB, Blines, Bbase, Same)`
under a budget of nested calls. The search loop is run first and the two
nested calls of the branch it left through come after it, as in the source,
where each branch ends with `return`. Past the three tests on `Alines` and
`Blines` both are positive, so `toNat` loses nothing. In the second branch
`Ap` is `Astart`, which is 0, and the bases passed on are
`Abase+Astart+maxlines` and `Bbase+Bstart+maxlines`, as the source has them. -/
def COMPARE : Nat → LinePtr → Int → Int → LinePtr → Int → Int → Out → Res Out
  | 0, _, _, _, _, _, _, _ => .timeout
  | fuel + 1, AA, Alines, Abase, BB, Blines, Bbase, st0 =>
    let st : Out := { st0 with trace := st0.trace ++ [Ev.call AA.off Alines BB.off Blines] }
    if Alines ≤ 0 ∧ Blines ≤ 0 then .ok st
    else if Alines ≤ 0 then do
      let ls ← Print BB Bbase 0 Blines.toNat 1
      pure { stdout := st.stdout ++ ls ++ [OutLine.dashes], Same := false,
             trace := st.trace ++ printedEvs 1 BB Blines.toNat }
    else if Blines ≤ 0 then do
      let ls ← Print AA Abase 0 Alines.toNat 0
      pure { stdout := st.stdout ++ ls ++ [OutLine.dashes], Same := false,
             trace := st.trace ++ printedEvs 0 AA Alines.toNat }
    else do
      let maxlines := if Blines < Alines then Blines else Alines
      match ← search AA Alines.toNat BB Blines.toNat maxlines.toNat with
      | some (Hit.inA Ap maxlines) =>
        let st1 : Out := { st with trace := st.trace ++ [Ev.block (AA.off + Ap) BB.off maxlines] }
        let st2 ← COMPARE fuel AA Ap Abase BB 0 Bbase st1
        COMPARE fuel (AA.add (Ap + maxlines)) (Alines - Ap - maxlines) (Abase + Ap + maxlines)
          (BB.add (0 + maxlines)) (Blines - 0 - maxlines) (Bbase + 0 + maxlines) st2
      | some (Hit.inB Bp maxlines) =>
        let st1 : Out := { st with trace := st.trace ++ [Ev.block AA.off (BB.off + Bp) maxlines] }
        let st2 ← COMPARE fuel AA 0 Abase BB Bp Bbase st1
        COMPARE fuel (AA.add (0 + maxlines)) (Alines - 0 - maxlines) (Abase + 0 + maxlines)
          (BB.add (Bp + maxlines)) (Blines - Bp - maxlines) (Bbase + 0 + maxlines) st2
      | none =>
        let la ← Print AA Abase 0 1 0
        let lb ← Print BB Bbase 0 1 1
        let st1 : Out := { stdout := st.stdout ++ la ++ lb ++ [OutLine.dashes], Same := false,
                           trace := st.trace ++ [Ev.printed 0 AA.off, Ev.printed 1 BB.off] }
        COMPARE fuel (AA.add 1) (Alines - 1) (Abase + 1) (BB.add 1) (Blines - 1) (Bbase + 1) st1

/-- The call `Same = TRUE; COMPARE(File, AA, Alines, 0, BB, Blines, 0, &Same);`
of `main` on the tables of two files, with one nested call per line of either
file and one more. -/
def run (Aconad Bconad : List Nat) : Res Out :=
  let TA := buildTable Aconad
  let TB := buildTable Bconad
  COMPARE (TA.lines + TB.lines + 1) ⟨TA, 0⟩ TA.lines 0 ⟨TB, 0⟩ TB.lines 0
    { stdout := [], Same := true, trace := [] }

/-- What `main` leaves behind: standard output, and whether
`Files are identical` went to standard error. -/
structure Report where
  stdout : List OutLine
  identical : Bool
  deriving DecidableEq, Repr

/-- The end of `main`: `if (Same) fprintf(stderr, "Files are identical\n");`. -/
def main (Aconad Bconad : List Nat) : Res Report := do
  let st ← run Aconad Bconad
  pure { stdout := st.stdout, identical := st.Same }

/-- The function `main` from the indexer to the return of `COMPARE`, on blocks
with room for `slotsA` and `slotsB` pointers. -/
def exec (slotsA slotsB : Nat) (Aconad Bconad : List Nat) : Res Out := do
  let TA ← indexer slotsA Aconad
  let TB ← indexer slotsB Bconad
  COMPARE (TA.lines + TB.lines + 1) ⟨TA, 0⟩ TA.lines 0 ⟨TB, 0⟩ TB.lines 0
    { stdout := [], Same := true, trace := [] }

/-- The function `main` from the indexer to its end, on blocks with room for
`slotsA` and `slotsB` pointers. -/
def program (slotsA slotsB : Nat) (Aconad Bconad : List Nat) : Res Report := do
  let st ← exec slotsA slotsB Aconad Bconad
  pure { stdout := st.stdout, identical := st.Same }

end smallcompare

/-! ## Definitions for the statements and the proofs

The definitions above follow the two source files. Those below do not: they
describe a file as a list of lines, restate the loops of the two engines over a
matrix of `Match` answers, and name the invariants that the proofs carry. -/

namespace Compare

/-- Bytes of span `i` of a table: from `AA[i]` up to `AA[i+1]`. -/
def span (T : LineTable) (i : Nat) : List Nat :=
  (T.conad.drop (T.AA.getD i 0)).take (T.AA.getD (i + 1) 0 - T.AA.getD i 0)

/-- A list of bytes read as a C string: the bytes before its first NUL. -/
def cstr (s : List Nat) : List Nat := s.takeWhile (fun c => c ≠ 0)

/-- The file made of the given lines, each followed by a newline byte. -/
def unlines (ls : List (List Nat)) : List Nat := ls.flatMap (fun l => l ++ [10])

/-- A line of text: it holds neither a newline nor a NUL byte. -/
def TextLine (l : List Nat) : Prop := ∀ c ∈ l, c ≠ 10 ∧ c ≠ 0

instance (l : List Nat) : Decidable (TextLine l) := by
  unfold TextLine
  infer_instance

end Compare

namespace bigcompare
open Compare

/-- The records of a log, in order. -/
def records : List Ev → List ChangeRecord
  | [] => []
  | Ev.record r :: es => r :: records es
  | Ev.matched _ _ :: es => records es

/-- The A line numbers (1-based) an entry of the log accounts for. -/
def coverA : Ev → List Nat
  | Ev.matched a _ => [a + 1]
  | Ev.record (.Deletion lo hi) => List.range' lo (hi + 1 - lo)
  | Ev.record (.Insertion _ _) => []
  | Ev.record (.Replacement a _) => [a]

/-- The B line numbers (1-based) an entry of the log accounts for. -/
def coverB : Ev → List Nat
  | Ev.matched _ b => [b + 1]
  | Ev.record (.Deletion _ _) => []
  | Ev.record (.Insertion lo hi) => List.range' lo (hi + 1 - lo)
  | Ev.record (.Replacement _ b) => [b]

/-- A record names at least one line on each side it reports. -/
def ChangeRecord.wf : ChangeRecord → Prop
  | .Deletion lo hi => lo ≤ hi
  | .Insertion lo hi => lo ≤ hi
  | .Replacement _ _ => True

end bigcompare

namespace Compare

/-- Pointer table of a file cut into consecutive spans, the first at offset `p`. -/
def offsets : List (List Nat) → Nat → List Nat
  | [], p => [p]
  | s :: sp, p => p :: offsets sp (p + s.length)

/-- Spans of the file made of the lines `ls` and the unterminated bytes `t`. -/
def spansOf (ls : List (List Nat)) (t : List Nat) : List (List Nat) :=
  ls.map (fun l => l ++ [10]) ++ [t]

/-- What `Match` decides about two spans: equal lengths, and equal bytes as far
as `strncmp` looks. -/
def lineEq (s s2 : List Nat) : Bool := decide (s.length = s2.length ∧ cstr s = cstr s2)

/-- The answers of `Match` on two files cut into spans. -/
def Mof (spA spB : List (List Nat)) (a b : Nat) : Bool := lineEq (spA.getD a []) (spB.getD b [])

/-- The table `T` is the pointer table of the file cut into the spans `sp`. -/
structure IsTable (T : LineTable) (sp : List (List Nat)) : Prop where
  conad : T.conad = sp.flatten
  AA : T.AA = offsets sp 0
  lines : T.lines + 1 = sp.length

end Compare

namespace bigcompare
open Compare

/-- Both tables answer every in-range `Match` as the matrix `M` says. -/
def MatchIs (TA TB : LineTable) (M : Nat → Nat → Bool) : Prop :=
  ∀ a b, a < TA.lines → b < TB.lines → Match TA TB a b = Res.ok (M a b)

/-- The lines `Low..High` of a table as `Print` writes them. -/
def printed (T : LineTable) (Flag Low High : Nat) : List OutLine :=
  (List.range' Low (High + 1 - Low)).map
    (fun (I : Nat) => OutLine.text Flag ((I : Int) + 1) (cstr (span T I).dropLast))

/-- `Print` succeeds on every range of real lines. -/
def PrintIs (T : LineTable) : Prop :=
  ∀ Low High Flag, Low ≤ High → High < T.lines →
    Print T Low High Flag = Res.ok (printed T Flag Low High)

/-- The first inner loop over a matrix of answers. -/
def pscanB (M : Nat → Nat → Bool) (nB a : Nat) : Nat → Nat → Nat × Bool
  | 0, b => (b + 1, true)
  | k + 1, b =>
    if b + 1 ≥ nB then (b + 1, true)
    else if M a (b + 1) then (b + 1, false) else pscanB M nB a k (b + 1)

/-- The second inner loop over a matrix of answers. -/
def pscanA (M : Nat → Nat → Bool) (nA b : Nat) : Nat → Nat → Nat × Bool
  | 0, a => (a + 1, true)
  | k + 1, a =>
    if a + 1 ≥ nA then (a + 1, true)
    else if M (a + 1) b then (a + 1, false) else pscanA M nA b k (a + 1)

/-- The replacement block over a matrix of answers. -/
def preplaceOne (TA TB : LineTable) (st : State) : State :=
  let st1 := Separator (-1) (-1) st
  { st1 with stdout := st1.stdout ++ printed TA 0 st.BaseA st.BaseA ++ printed TB 1 st.BaseB st.BaseB,
             BaseA := st.BaseA + 1, BaseB := st.BaseB + 1,
             Same := false }.log (.Replacement (st.BaseA + 1) (st.BaseB + 1))

/-- One iteration of the main loop over a matrix of answers. -/
def pstep (M : Nat → Nat → Bool) (TA TB : LineTable) (st : State) : Option State :=
  if st.BaseA ≥ TA.lines ∧ st.BaseB ≥ TB.lines then none
  else if st.BaseA ≥ TA.lines then
    let st1 := Separator ((TB.lines : Int) - 1) 1 st
    some ({ st1 with stdout := st1.stdout ++ printed TB 1 st.BaseB (TB.lines - 1), Same := false,
                     BaseB := TB.lines }.log (.Insertion (st.BaseB + 1) TB.lines))
  else if st.BaseB ≥ TB.lines then
    let st1 := Separator ((TA.lines : Int) - 1) 0 st
    some ({ st1 with stdout := st1.stdout ++ printed TA 0 st.BaseA (TA.lines - 1), Same := false,
                     BaseA := TA.lines }.log (.Deletion (st.BaseA + 1) TA.lines))
  else if M st.BaseA st.BaseB then
    some { st with BaseA := st.BaseA + 1, BaseB := st.BaseB + 1,
                   trace := st.trace ++ [Ev.matched st.BaseA st.BaseB] }
  else
    let st0 : State := { st with Same := false }
    let rb := pscanB M TB.lines st.BaseA TB.lines st.BaseB
    let ra := pscanA M TA.lines st.BaseB TA.lines st.BaseA
    let Bcount := rb.1 - st.BaseB
    let Acount := ra.1 - st.BaseA
    if rb.2 && ra.2 then some (preplaceOne TA TB st0)
    else if rb.2 then
      let st1 := Separator st.BaseA 0 st0
      some ({ st1 with stdout := st1.stdout ++ printed TA 0 st.BaseA st.BaseA,
                       BaseA := st.BaseA + 1, Same := false }.log
        (.Deletion (st.BaseA + 1) (st.BaseA + 1)))
    else if ra.2 then
      let st1 := Separator st.BaseB 1 st0
      some ({ st1 with stdout := st1.stdout ++ printed TB 1 st.BaseB st.BaseB,
                       BaseB := st.BaseB + 1, Same := false }.log
        (.Insertion (st.BaseB + 1) (st.BaseB + 1)))
    else if Acount < Bcount then
      let st1 := Separator ((st.BaseA : Int) + Acount - 1) 0 st0
      some ({ st1 with stdout := st1.stdout ++ printed TA 0 st.BaseA (st.BaseA + Acount - 1),
                       BaseA := st.BaseA + Acount, Same := false }.log
        (.Deletion (st.BaseA + 1) (st.BaseA + Acount)))
    else if Bcount < Acount then
      let st1 := Separator ((st.BaseB : Int) + Bcount - 1) 1 st0
      some ({ st1 with stdout := st1.stdout ++ printed TB 1 st.BaseB (st.BaseB + Bcount - 1),
                       BaseB := st.BaseB + Bcount, Same := false }.log
        (.Insertion (st.BaseB + 1) (st.BaseB + Bcount)))
    else some (preplaceOne TA TB st0)

/-- The cursors are inside their tables. -/
def State.inside (TA TB : LineTable) (st : State) : Prop :=
  st.BaseA ≤ TA.lines ∧ st.BaseB ≤ TB.lines

/-- What one iteration that does not leave the loop does to the cursors, the
flag `Same` and the log. -/
def Moved (M : Nat → Nat → Bool) (nA nB : Nat) (st st2 : State) (ev : Ev) : Prop :=
  (ev = Ev.matched st.BaseA st.BaseB ∧ M st.BaseA st.BaseB = true ∧ st.BaseA < nA ∧
      st.BaseB < nB ∧ st2.BaseA = st.BaseA + 1 ∧ st2.BaseB = st.BaseB + 1 ∧
      st2.Same = st.Same ∧ st2.stdout = st.stdout ∧ st2.LastLine = st.LastLine ∧
      st2.LastFlag = st.LastFlag)
  ∨ (∃ k, 1 ≤ k ∧ ev = Ev.record (.Deletion (st.BaseA + 1) (st.BaseA + k)) ∧
      st.BaseA + k ≤ nA ∧ st2.BaseA = st.BaseA + k ∧ st2.BaseB = st.BaseB ∧ st2.Same = false ∧
      (nB ≤ st.BaseB ∨ M st.BaseA st.BaseB = false))
  ∨ (∃ k, 1 ≤ k ∧ ev = Ev.record (.Insertion (st.BaseB + 1) (st.BaseB + k)) ∧
      st.BaseB + k ≤ nB ∧ st2.BaseA = st.BaseA ∧ st2.BaseB = st.BaseB + k ∧ st2.Same = false ∧
      (nA ≤ st.BaseA ∨ M st.BaseA st.BaseB = false))
  ∨ (ev = Ev.record (.Replacement (st.BaseA + 1) (st.BaseB + 1)) ∧ st.BaseA < nA ∧
      st.BaseB < nB ∧ M st.BaseA st.BaseB = false ∧ st2.BaseA = st.BaseA + 1 ∧
      st2.BaseB = st.BaseB + 1 ∧ st2.Same = false)

/-- The log accounts for the lines below the cursors, each once and in order. -/
def Covered (st : State) : Prop :=
  st.trace.flatMap coverA = List.range' 1 st.BaseA ∧
  st.trace.flatMap coverB = List.range' 1 st.BaseB ∧
  ∀ r ∈ records st.trace, r.wf

end bigcompare

namespace Compare

/-- The lines of a file and the bytes after its last newline. -/
def splitLines : List Nat → List (List Nat) × List Nat
  | [] => ([], [])
  | c :: cs =>
    if c = 10 then ([] :: (splitLines cs).1, (splitLines cs).2)
    else
      match (splitLines cs).1 with
      | [] => ([], c :: (splitLines cs).2)
      | l :: ls => ((c :: l) :: ls, (splitLines cs).2)

end Compare

namespace smallcompare
open Compare

/-- Answers of `Match` along two windows of `k` lines starting at `a` and `b`. -/
def win (M : Nat → Nat → Bool) : Nat → Nat → Nat → Bool
  | _, _, 0 => true
  | a, b, k + 1 => M a b && win M (a + 1) (b + 1) k

/-- The span after the last newline of either file matches no line of the other. -/
def Guarded (M : Nat → Nat → Bool) (nA nB : Nat) : Prop :=
  (∀ j, j < nB → M nA j = false) ∧ (∀ i, i < nA → M i nB = false)

/-- First position from `p` on, among `r + 1` of them, at which `W` holds. -/
def pslide (W : Nat → Bool) : Nat → Nat → Option Nat
  | p, 0 => if W p then some p else none
  | p, r + 1 => if W p then some p else pslide W (p + 1) r

/-- The search loop of `COMPARE` over window tests `WA L Ap` and `WB L Bp`. -/
def psearch (WA WB : Nat → Nat → Bool) (Alines Blines : Nat) : Nat → Option Hit
  | 0 => none
  | m + 1 =>
    match pslide (WA (m + 1)) 0 Alines with
    | some Ap => some (Hit.inA Ap (m + 1))
    | none =>
      match pslide (WB (m + 1)) 0 Blines with
      | some Bp => some (Hit.inB Bp (m + 1))
      | none => psearch WA WB Alines Blines m

/-- The window test of the first inner loop: the `L` lines of A from `oa + Ap`
are lines of the file and match the `L` lines of B from `ob`. -/
def WA (M : Nat → Nat → Bool) (nA oa ob : Nat) (L Ap : Nat) : Bool :=
  decide (oa + Ap + L ≤ nA) && win M (oa + Ap) ob L

/-- The window test of the second inner loop. -/
def WB (M : Nat → Nat → Bool) (nB oa ob : Nat) (L Bp : Nat) : Bool :=
  decide (ob + Bp + L ≤ nB) && win M oa (ob + Bp) L

/-- The `n` lines from table position `off` as `Print` writes them with base `Base`. -/
def printedB (T : LineTable) (Flag off : Nat) (Base : Int) (n : Nat) : List OutLine :=
  (List.range n).map
    (fun (i : Nat) => OutLine.text Flag (Base + (i : Int) + 1) (cstr (span T (off + i)).dropLast))

end smallcompare

namespace Compare

/-- The two files have the same number of lines and `Match` holds on every
pair of lines with the same number. -/
def Agree (M : Nat → Nat → Bool) (nA nB : Nat) : Prop :=
  nA = nB ∧ ∀ i, i < nA → M i i = true

end Compare

namespace bigcompare
open Compare

/-- The flag `Same` and the log say whether the lines below the cursors agree. -/
def SameInv (M : Nat → Nat → Bool) (nA nB : Nat) (st : State) : Prop :=
  (st.Same = true ↔ records st.trace = []) ∧
  (st.Same = true → st.BaseA = st.BaseB ∧ ∀ i, i < st.BaseA → M i i = true) ∧
  (st.Same = false → ¬ Agree M nA nB)

end bigcompare

namespace smallcompare
open Compare

/-- The two ranges have the same size and `Match` holds along them. -/
def agr (M : Nat → Nat → Bool) (oa a ob b : Nat) : Prop := a = b ∧ win M oa ob a = true

/-- What a call of `COMPARE` adds to standard output and does to `*Same`,
depending on whether its two ranges agree. -/
def SameRel (M : Nat → Nat → Bool) (oa a : Nat) (_Abase : Int) (ob b : Nat) (_Bbase : Int)
    (st st2 : Out) : Prop :=
  ∃ extra, st2.stdout = st.stdout ++ extra ∧ (extra = [] ↔ agr M oa a ob b) ∧
    (agr M oa a ob b → st2.Same = st.Same) ∧ (¬ agr M oa a ob b → st2.Same = false)

end smallcompare

namespace bigcompare
open Compare

/-- The A-side line ranges (1-based, inclusive) of the Deletion and Replacement
records of a log, in order. -/
def rangesA : List Ev → List (Nat × Nat)
  | [] => []
  | Ev.record (.Deletion lo hi) :: es => (lo, hi) :: rangesA es
  | Ev.record (.Replacement a _) :: es => (a, a) :: rangesA es
  | Ev.record (.Insertion _ _) :: es => rangesA es
  | Ev.matched _ _ :: es => rangesA es

/-- The B-side line ranges (1-based, inclusive) of the Insertion and Replacement
records of a log, in order. -/
def rangesB : List Ev → List (Nat × Nat)
  | [] => []
  | Ev.record (.Insertion lo hi) :: es => (lo, hi) :: rangesB es
  | Ev.record (.Replacement _ b) :: es => (b, b) :: rangesB es
  | Ev.record (.Deletion _ _) :: es => rangesB es
  | Ev.matched _ _ :: es => rangesB es

/-- The ranges of a list lie in `1..n`, are not empty, and each ends before the
next one starts. -/
def Ascending (rs : List (Nat × Nat)) (n : Nat) : Prop :=
  rs.Pairwise (fun r q => r.2 < q.1) ∧ ∀ r ∈ rs, 1 ≤ r.1 ∧ r.1 ≤ r.2 ∧ r.2 ≤ n

end bigcompare

namespace smallcompare
open Compare

/-- Every call entry of a log is on ranges of combined size below `s`. -/
def callsBelow (s : Int) (es : List Ev) : Prop :=
  ∀ oa a ob b, Ev.call oa a ob b ∈ es → a + b < s

/-- Every call entry of a log is on ranges of non-negative sizes that lie
inside the tables of `nA` and `nB` lines, and a call on two non-empty ranges is
on ranges that end where the lines of the tables end. -/
def callsInside (nA nB : Nat) (es : List Ev) : Prop :=
  ∀ oa a ob b, Ev.call oa a ob b ∈ es →
    0 ≤ a ∧ 0 ≤ b ∧ (oa : Int) + a ≤ nA ∧ (ob : Int) + b ≤ nB ∧
    (0 < a → 0 < b → (oa : Int) + a = nA ∧ (ob : Int) + b = nB)

end smallcompare

namespace bigcompare
open Compare

/-- The record with its two files exchanged: a Deletion of lines becomes the
Insertion of the same lines and conversely, a Replacement has its sides
swapped. -/
def ChangeRecord.swap : ChangeRecord → ChangeRecord
  | .Deletion lo hi => .Insertion lo hi
  | .Insertion lo hi => .Deletion lo hi
  | .Replacement a b => .Replacement b a

/-- What one iteration of the main loop decides at the cursors `(a, b)`, apart
from what it prints: `none` for the `break`, otherwise the new cursors and the
record it logs, if any. -/
def pdecide (M : Nat → Nat → Bool) (nA nB a b : Nat) : Option (Nat × Nat × Option ChangeRecord) :=
  if a ≥ nA ∧ b ≥ nB then none
  else if a ≥ nA then some (a, nB, some (.Insertion (b + 1) nB))
  else if b ≥ nB then some (nA, b, some (.Deletion (a + 1) nA))
  else if M a b then some (a + 1, b + 1, none)
  else
    let rb := pscanB M nB a nB b
    let ra := pscanA M nA b nA a
    let Bcount := rb.1 - b
    let Acount := ra.1 - a
    if rb.2 && ra.2 then some (a + 1, b + 1, some (.Replacement (a + 1) (b + 1)))
    else if rb.2 then some (a + 1, b, some (.Deletion (a + 1) (a + 1)))
    else if ra.2 then some (a, b + 1, some (.Insertion (b + 1) (b + 1)))
    else if Acount < Bcount then some (a + Acount, b, some (.Deletion (a + 1) (a + Acount)))
    else if Bcount < Acount then some (a, b + Bcount, some (.Insertion (b + 1) (b + Bcount)))
    else some (a + 1, b + 1, some (.Replacement (a + 1) (b + 1)))

/-- The two runs are at exchanged cursors and have logged exchanged records. -/
def Swapped (st st2 : State) : Prop :=
  st2.BaseA = st.BaseB ∧ st2.BaseB = st.BaseA ∧ st2.Same = st.Same ∧
  records st2.trace = (records st.trace).map ChangeRecord.swap

/-- The line numbers in `1..n` that lie in none of the ranges `rs`, in
increasing order. -/
def kept (rs : List (Nat × Nat)) (n : Nat) : List Nat :=
  (List.range' 1 n).filter (fun i => rs.all (fun r => !(decide (r.1 ≤ i) && decide (i ≤ r.2))))

/-- The pairs of line numbers (1-based) that the main loop skipped as matching,
in order. -/
def pairs : List Ev → List (Nat × Nat)
  | [] => []
  | Ev.matched a b :: es => (a + 1, b + 1) :: pairs es
  | Ev.record _ :: es => pairs es

/-- The lines below the cursors that no record covers are the lines of the
skipped pairs, and the lines of every skipped pair match. -/
def Sound (M : Nat → Nat → Bool) (st : State) : Prop :=
  kept (rangesA st.trace) st.BaseA = (pairs st.trace).map Prod.fst ∧
  kept (rangesB st.trace) st.BaseB = (pairs st.trace).map Prod.snd ∧
  ∀ p ∈ pairs st.trace, M (p.1 - 1) (p.2 - 1) = true

/-- The arguments `(Line, Flag)` of the call of `Separator` made before a
record is printed: the last line of the record (0-based) and its file, or
`(-1, -1)` for a Replacement. -/
def sepArgs : ChangeRecord → Int × Int
  | .Deletion _ hi => ((hi : Int) - 1, 0)
  | .Insertion _ hi => ((hi : Int) - 1, 1)
  | .Replacement _ _ => (-1, -1)

/-- The lines of a record as they are printed. -/
def linesOf (TA TB : LineTable) : ChangeRecord → List OutLine
  | .Deletion lo hi => printed TA 0 (lo - 1) (hi - 1)
  | .Insertion lo hi => printed TB 1 (lo - 1) (hi - 1)
  | .Replacement a b => printed TA 0 (a - 1) (a - 1) ++ printed TB 1 (b - 1) (b - 1)

/-- The rule of the spec: the two records are of the same file and the first
line of the second one follows the last line of the first one. -/
def adjacent : ChangeRecord → ChangeRecord → Bool
  | .Deletion _ hi, .Deletion lo2 _ => decide (lo2 = hi + 1)
  | .Insertion _ hi, .Insertion lo2 _ => decide (lo2 = hi + 1)
  | _, _ => false

/-- The record reports a single line of one file. -/
def single : ChangeRecord → Bool
  | .Deletion lo hi => decide (lo = hi)
  | .Insertion lo hi => decide (lo = hi)
  | .Replacement _ _ => false

/-- The rule of the code: the rule of the spec holds and the second record is
a single line. -/
def merged (p r : ChangeRecord) : Bool := adjacent p r && single r

/-- The separator line printed before the record `r` that comes after `prev`. -/
def sepBefore (rule : ChangeRecord → ChangeRecord → Bool) (prev : Option ChangeRecord)
    (r : ChangeRecord) : List OutLine :=
  match prev with
  | none => [OutLine.dashes]
  | some p => if rule p r then [] else [OutLine.dashes]

/-- The report of a sequence of records under a rule for leaving out the
separator: before each record a separator unless the rule holds of the record
before it and the record, then the lines of the record. -/
def render (rule : ChangeRecord → ChangeRecord → Bool) (TA TB : LineTable) :
    Option ChangeRecord → List ChangeRecord → List OutLine
  | _, [] => []
  | prev, r :: rs => sepBefore rule prev r ++ linesOf TA TB r ++ render rule TA TB (some r) rs

/-- The last record of a log, or the given one when it has none. -/
def lastOr (prev : Option ChangeRecord) (rs : List ChangeRecord) : Option ChangeRecord :=
  match rs.getLast? with
  | some r => some r
  | none => prev

/-- The second record starts after the last line of the first one when both
are of the same file, and is not empty. -/
def follows : ChangeRecord → ChangeRecord → Prop
  | .Deletion _ hi, .Deletion lo2 hi2 => hi < lo2 ∧ lo2 ≤ hi2
  | .Insertion _ hi, .Insertion lo2 hi2 => hi < lo2 ∧ lo2 ≤ hi2
  | _, _ => True

/-- The last line of a record is below the cursor of its file. -/
def below (st : State) : ChangeRecord → Prop
  | .Deletion _ hi => 1 ≤ hi ∧ hi ≤ st.BaseA
  | .Insertion _ hi => 1 ≤ hi ∧ hi ≤ st.BaseB
  | .Replacement _ _ => True

/-- Standard output is the report of the records logged so far, and the
globals `LastLine` and `LastFlag` are those of the last record. -/
def Rendered (TA TB : LineTable) (st : State) : Prop :=
  st.stdout = render merged TA TB none (records st.trace) ∧
  (match (records st.trace).getLast? with
    | none => st.LastLine = -1 ∧ st.LastFlag = -1
    | some p => st.LastLine = (sepArgs p).1 ∧ st.LastFlag = (sepArgs p).2 ∧ below st p)

end bigcompare

namespace smallcompare
open Compare

/-- The `L` lines from position `p` on of a file given as the list of its lines. -/
def window (ls : List (List Nat)) (p L : Nat) : List (List Nat) := (ls.drop p).take L

/-- The window of `L` lines at offset `q` lies inside the range of `a` lines
that starts at position `oa` of A, and equals the first `L` lines of the range
that starts at position `ob` of B. -/
def qualA (lsA lsB : List (List Nat)) (oa a ob : Nat) (L q : Nat) : Prop :=
  q + L ≤ a ∧ window lsA (oa + q) L = window lsB ob L

/-- The window of `L` lines at offset `q` lies inside the range of `b` lines
that starts at position `ob` of B, and equals the first `L` lines of the range
that starts at position `oa` of A. -/
def qualB (lsA lsB : List (List Nat)) (oa ob b : Nat) (L q : Nat) : Prop :=
  q + L ≤ b ∧ window lsA oa L = window lsB (ob + q) L

/-- The block of `L` lines at the table positions `(pa, pb)` is the one the
claim describes for the ranges `(oa, a)` of A and `(ob, b)` of B: `L` is the
greatest length in `1..min a b` at which a window of either range qualifies;
if a window of the A range qualifies at `L`, the block is at the start of the
B range and at the least qualifying offset of the A range; otherwise it is at
the start of the A range and at the least qualifying offset of the B range. -/
def Selected (lsA lsB : List (List Nat)) (oa a ob b : Nat) (pa pb L : Nat) : Prop :=
  1 ≤ L ∧ L ≤ min a b ∧
  (∀ L2, L < L2 → L2 ≤ min a b →
    (∀ q, ¬ qualA lsA lsB oa a ob L2 q) ∧ (∀ q, ¬ qualB lsA lsB oa ob b L2 q)) ∧
  ((∃ q, qualA lsA lsB oa a ob L q) →
    pb = ob ∧ oa ≤ pa ∧ qualA lsA lsB oa a ob L (pa - oa) ∧
    ∀ q, q < pa - oa → ¬ qualA lsA lsB oa a ob L q) ∧
  ((¬ ∃ q, qualA lsA lsB oa a ob L q) →
    pa = oa ∧ ob ≤ pb ∧ qualB lsA lsB oa ob b L (pb - ob) ∧
    ∀ q, q < pb - ob → ¬ qualB lsA lsB oa ob b L q)

/-- The rule on two neighbours of the log: a block entry comes directly after
the entry of the call that found it, and is the block selected for the ranges
of that call. -/
def BlockRule (lsA lsB : List (List Nat)) (x y : Ev) : Prop :=
  ∀ pa pb L, y = Ev.block pa pb L →
    ∃ oa a ob b, x = Ev.call oa a ob b ∧ 0 < a ∧ 0 < b ∧
      Selected lsA lsB oa a.toNat ob b.toNat pa pb L

/-- The table positions of the file `Flag` that the log shows as passed to
`printf`, in the order of the log. -/
def printedPos (Flag : Nat) (es : List Ev) : List Nat :=
  es.filterMap (fun e => match e with
    | Ev.printed F p => if F = Flag then some p else none
    | _ => none)

/-- The table positions of A that lie in the blocks of the log, in the order of
the log. -/
def blockA (es : List Ev) : List Nat :=
  es.flatMap (fun e => match e with
    | Ev.block pa _ L => List.range' pa L
    | _ => [])

/-- The table positions of B that lie in the blocks of the log, in the order of
the log. -/
def blockB (es : List Ev) : List Nat :=
  es.flatMap (fun e => match e with
    | Ev.block _ pb L => List.range' pb L
    | _ => [])

/-- The table positions `0..n-1` of the file `Flag` that the log does not show
as passed to `printf`, in increasing order. -/
def unprinted (Flag n : Nat) (es : List Ev) : List Nat :=
  (List.range n).filter (fun i => decide (i ∉ printedPos Flag es))

/-- What the log entries `d` of one call of `COMPARE` on the ranges `(oa, a)`
and `(ob, b)` say: every position of either range is printed once or lies in
one block, the block positions are in increasing order on both sides and hold
pairwise equal lines, and there is no block when one of the ranges is empty. -/
def SoundB (TA TB : LineTable) (oa a ob b : Nat) (d : List Ev) : Prop :=
  (printedPos 0 d ++ blockA d).Perm (List.range' oa a) ∧
  (printedPos 1 d ++ blockB d).Perm (List.range' ob b) ∧
  (blockA d).Sorted (fun x y => x < y) ∧ (blockB d).Sorted (fun x y => x < y) ∧
  List.Forall₂ (fun i j => span TA i = span TB j) (blockA d) (blockB d) ∧
  ((a = 0 ∨ b = 0) → blockA d = [] ∧ blockB d = [])

end smallcompare

namespace bigcompare
open Compare

/-- The lines of standard output other than the separator lines. -/
def textLines (out : List OutLine) : List OutLine :=
  out.filter (fun l => decide (l ≠ OutLine.dashes))

end bigcompare

namespace Compare

/-- The pointer table as far as a block of `slots` pointers holds it: the
entries `AA[0 .. slots-1]`. A read of a further entry is a read outside the
block. -/
def LineTable.cut (T : LineTable) (slots : Nat) : LineTable := { T with AA := T.AA.take slots }

end Compare

/-! ## Lemmas -/

namespace Compare

@[simp] theorem Res.bind_ok {α β : Type} (a : α) (f : α → Res β) : (Res.ok a).bind f = f a := rfl
@[simp] theorem Res.bind_oob {α β : Type} (f : α → Res β) : (Res.oob : Res α).bind f = Res.oob := rfl
@[simp] theorem Res.bind_timeout {α β : Type} (f : α → Res β) : (Res.timeout : Res α).bind f = Res.timeout := rfl
@[simp] theorem Res.bind_eq {α β : Type} (x : Res α) (f : α → Res β) : (x >>= f) = x.bind f := rfl
@[simp] theorem Res.pure_eq {α : Type} (a : α) : (pure a : Res α) = Res.ok a := rfl

theorem lineStarts_cons (c : Nat) (cs : List Nat) (p : Nat) :
    lineStarts (c :: cs) p
      = if c = 10 then (p + 1) :: lineStarts cs (p + 1) else lineStarts cs (p + 1) := rfl

theorem lineStarts_noNL (l r : List Nat) (p : Nat) (h : 10 ∉ l) :
    lineStarts (l ++ r) p = lineStarts r (p + l.length) := by
  induction l generalizing p with
  | nil => simp
  | cons c cs ih =>
    have hc : c ≠ 10 := fun e => h (by simp [e])
    have hcs : 10 ∉ cs := fun e => h (by simp [e])
    have e : p + 1 + cs.length = p + (cs.length + 1) := by omega
    rw [List.cons_append, lineStarts_cons, if_neg hc, ih (p + 1) hcs, List.length_cons, e]

theorem lineStarts_nil_of_noNL (t : List Nat) (p : Nat) (h : 10 ∉ t) : lineStarts t p = [] := by
  have := lineStarts_noNL t [] p h
  simpa [lineStarts] using this

theorem table_offsets (ls : List (List Nat)) (t : List Nat) (p : Nat)
    (hls : ∀ l ∈ ls, 10 ∉ l) (ht : 10 ∉ t) :
    p :: lineStarts (unlines ls ++ t) p ++ [p + (unlines ls ++ t).length]
      = offsets (spansOf ls t) p := by
  induction ls generalizing p with
  | nil => simp [unlines, spansOf, offsets, lineStarts_nil_of_noNL t p ht]
  | cons l ls ih =>
    have hl : 10 ∉ l := hls l (by simp)
    have hls2 : ∀ x ∈ ls, 10 ∉ x := fun x hx => hls x (by simp [hx])
    have e : unlines (l :: ls) ++ t = l ++ (10 :: (unlines ls ++ t)) := by
      simp [unlines]
    have ih2 := ih (p + l.length + 1) hls2
    have e2 : spansOf (l :: ls) t = (l ++ [10]) :: spansOf ls t := rfl
    have e3 : p + (l ++ 10 :: (unlines ls ++ t)).length
        = p + l.length + 1 + (unlines ls ++ t).length := by
      simp only [List.length_append, List.length_cons]; omega
    have e4 : p + (l ++ [10]).length = p + l.length + 1 := by simp; omega
    rw [e, lineStarts_noNL _ _ _ hl, e2, offsets, e3, e4, ← ih2]
    simp [lineStarts_cons]

theorem offsets_length (sp : List (List Nat)) (p : Nat) : (offsets sp p).length = sp.length + 1 := by
  induction sp generalizing p with
  | nil => rfl
  | cons s sp ih => simp [offsets, ih]

theorem offsets_get (sp : List (List Nat)) (p i : Nat) (h : i ≤ sp.length) :
    (offsets sp p)[i]? = some (p + (sp.take i).flatten.length) := by
  induction sp generalizing p i with
  | nil =>
    have : i = 0 := by simpa using h
    subst this; simp [offsets]
  | cons s sp ih =>
    cases i with
    | zero => simp [offsets]
    | succ i =>
      have hi : i ≤ sp.length := by simpa using h
      simp [offsets, ih _ _ hi]
      omega

theorem rd_offsets (sp : List (List Nat)) (i : Nat) (h : i ≤ sp.length) :
    rd (offsets sp 0) i = Res.ok (sp.take i).flatten.length := by
  simp [rd, offsets_get sp 0 i h]

theorem rd_offsets_oob (sp : List (List Nat)) (i : Nat) (h : sp.length < i) :
    rd (offsets sp 0) i = Res.oob := by
  have : (offsets sp 0)[i]? = none := by
    apply List.getElem?_eq_none
    rw [offsets_length]; omega
  simp [rd, this]

theorem take_succ_flatten_length (sp : List (List Nat)) (i : Nat) (s : List Nat)
    (h : sp[i]? = some s) :
    (sp.take (i + 1)).flatten.length = (sp.take i).flatten.length + s.length := by
  rw [List.take_succ, h]
  simp

theorem drop_flatten (sp : List (List Nat)) (i : Nat) :
    sp.flatten.drop (sp.take i).flatten.length = (sp.drop i).flatten := by
  conv_lhs => rw [← List.take_append_drop i sp, List.flatten_append]
  simp

theorem drop_flatten_at (sp : List (List Nat)) (i : Nat) (s : List Nat) (h : sp[i]? = some s) :
    sp.flatten.drop (sp.take i).flatten.length = s ++ (sp.drop (i + 1)).flatten := by
  rw [drop_flatten]
  have hi : i < sp.length := by
    by_contra hc
    rw [List.getElem?_eq_none (by omega)] at h
    cases h
  have hs : sp[i] = s := by
    rw [List.getElem?_eq_getElem hi] at h
    exact Option.some.inj h
  rw [List.drop_eq_getElem_cons hi, hs]
  simp

theorem strncmp_spec (s s2 r r2 : List Nat) (h : s.length = s2.length) :
    ∃ v : Int, strncmp (s ++ r) (s2 ++ r2) s.length = Res.ok v ∧ (v = 0 ↔ cstr s = cstr s2) := by
  induction s generalizing s2 with
  | nil =>
    cases s2 with
    | nil => exact ⟨0, by simp [strncmp], by simp⟩
    | cons c cs => simp at h
  | cons c cs ih =>
    cases s2 with
    | nil => simp at h
    | cons c2 cs2 =>
      have hl : cs.length = cs2.length := by simpa using h
      by_cases hc : c = c2
      · subst hc
        by_cases h0 : c = 0
        · subst h0
          exact ⟨0, by simp [strncmp], by simp [cstr]⟩
        · obtain ⟨v, hv, hiff⟩ := ih cs2 hl
          refine ⟨v, ?_, ?_⟩
          · simp [strncmp, h0, hv]
          · rw [hiff]; simp [cstr, List.takeWhile_cons, h0]
      · refine ⟨(c : Int) - (c2 : Int), by simp [strncmp, hc], ?_⟩
        constructor
        · intro hv
          exfalso; apply hc; omega
        · intro hv
          exfalso
          simp only [cstr, List.takeWhile_cons] at hv
          by_cases h0 : c = 0 <;> by_cases h02 : c2 = 0 <;> simp_all

theorem unlines_append_eq (ls : List (List Nat)) (t : List Nat) :
    unlines ls ++ t = (spansOf ls t).flatten := by
  induction ls with
  | nil => simp [unlines, spansOf]
  | cons l ls ih =>
    have : unlines (l :: ls) = l ++ [10] ++ unlines ls := by simp [unlines]
    rw [this, List.append_assoc, ih]
    simp [spansOf]

theorem buildTable_isTable (ls : List (List Nat)) (t : List Nat)
    (hls : ∀ l ∈ ls, 10 ∉ l) (ht : 10 ∉ t) :
    IsTable (buildTable (unlines ls ++ t)) (spansOf ls t) := by
  have h := table_offsets ls t 0 hls ht
  have hlen := congrArg List.length h
  rw [offsets_length] at hlen
  simp only [List.length_cons, List.length_append, List.length_nil, spansOf, List.length_map] at hlen
  refine ⟨unlines_append_eq ls t, ?_, ?_⟩
  · rw [← h]; simp [buildTable]
  · simp only [buildTable, List.length_cons, spansOf, List.length_append, List.length_map,
      List.length_nil]
    omega

theorem Match_spec (TA TB : LineTable) (spA spB : List (List Nat)) (hA : IsTable TA spA)
    (hB : IsTable TB spB) (oa i ob j : Nat) (s s2 : List Nat)
    (hs : spA[oa + i]? = some s) (hs2 : spB[ob + j]? = some s2) :
    Compare.Match ⟨TA, oa⟩ i ⟨TB, ob⟩ j = Res.ok (lineEq s s2) := by
  have hi : oa + i < spA.length := by
    by_contra hc
    rw [List.getElem?_eq_none (by omega)] at hs
    cases hs
  have hj : ob + j < spB.length := by
    by_contra hc
    rw [List.getElem?_eq_none (by omega)] at hs2
    cases hs2
  have a1 : rd (offsets spA 0) (oa + (i + 1)) = Res.ok ((spA.take (oa + i)).flatten.length + s.length) := by
    rw [show oa + (i + 1) = oa + i + 1 by omega, rd_offsets _ _ (by omega),
      take_succ_flatten_length _ _ _ hs]
  have a0 := rd_offsets spA (oa + i) (by omega)
  have b1 : rd (offsets spB 0) (ob + (j + 1)) = Res.ok ((spB.take (ob + j)).flatten.length + s2.length) := by
    rw [show ob + (j + 1) = ob + j + 1 by omega, rd_offsets _ _ (by omega),
      take_succ_flatten_length _ _ _ hs2]
  have b0 := rd_offsets spB (ob + j) (by omega)
  simp only [Compare.Match, LinePtr.get, hA.AA, hB.AA, a1, a0, b1, b0, Res.bind_eq, Res.bind_ok,
    hA.conad, hB.conad, Res.pure_eq]
  by_cases hl : s.length = s2.length
  · obtain ⟨v, hv, hiff⟩ := strncmp_spec s s2 (spA.drop (oa + i + 1)).flatten
      (spB.drop (ob + j + 1)).flatten hl
    rw [drop_flatten_at _ _ _ hs, drop_flatten_at _ _ _ hs2]
    simp only [Nat.add_sub_cancel_left, hv, Res.bind_ok]
    have : ¬ ((((spA.take (oa + i)).flatten.length + s.length : Nat) : Int)
        - ((spA.take (oa + i)).flatten.length : Int)
        ≠ (((spB.take (ob + j)).flatten.length + s2.length : Nat) : Int)
        - ((spB.take (ob + j)).flatten.length : Int)) := by
      push_cast; omega
    rw [if_neg this]
    simp [lineEq, hl, hiff]
  · have : ((((spA.take (oa + i)).flatten.length + s.length : Nat) : Int)
        - ((spA.take (oa + i)).flatten.length : Int)
        ≠ (((spB.take (ob + j)).flatten.length + s2.length : Nat) : Int)
        - ((spB.take (ob + j)).flatten.length : Int)) := by
      push_cast; omega
    rw [if_pos this]
    simp [lineEq, hl]

theorem putsN_spec (s r : List Nat) (n : Nat) (h : n ≤ s.length) :
    putsN (s ++ r) n = Res.ok (cstr (s.take n)) := by
  induction n generalizing s with
  | zero => cases s <;> simp [putsN, cstr]
  | succ n ih =>
    cases s with
    | nil => simp at h
    | cons c cs =>
      have hn : n ≤ cs.length := by simpa using h
      by_cases h0 : c = 0
      · simp [putsN, cstr, h0]
      · simp [putsN, cstr, h0, ih cs hn, List.takeWhile_cons]

theorem spansOf_get_line (ls : List (List Nat)) (t : List Nat) (i : Nat) (l : List Nat)
    (h : ls[i]? = some l) : (spansOf ls t)[i]? = some (l ++ [10]) := by
  obtain ⟨hi, hx⟩ := List.getElem?_eq_some.1 h
  simp [spansOf, List.getElem?_append_left, hi, hx]

theorem spansOf_get_last (ls : List (List Nat)) (t : List Nat) :
    (spansOf ls t)[ls.length]? = some t := by
  simp [spansOf, List.getElem?_append_right]

theorem spansOf_length (ls : List (List Nat)) (t : List Nat) :
    (spansOf ls t).length = ls.length + 1 := by
  simp [spansOf]

theorem IsTable.lines_eq {T : LineTable} {ls : List (List Nat)} {t : List Nat}
    (h : IsTable T (spansOf ls t)) : T.lines = ls.length := by
  have := h.lines
  rw [spansOf_length] at this
  omega

theorem span_eq (T : LineTable) (sp : List (List Nat)) (hT : IsTable T sp) (i : Nat)
    (s : List Nat) (hs : sp[i]? = some s) : span T i = s := by
  have hi : i < sp.length := by
    by_contra hc
    rw [List.getElem?_eq_none (by omega)] at hs
    cases hs
  have g0 := offsets_get sp 0 i (by omega)
  have g1 := offsets_get sp 0 (i + 1) (by omega)
  rw [take_succ_flatten_length _ _ _ hs] at g1
  simp only [span, hT.AA, hT.conad, List.getD_eq_getElem?_getD, g0, g1, Option.getD_some,
    Nat.zero_add, Nat.add_sub_cancel_left]
  rw [drop_flatten_at _ _ _ hs]
  simp

theorem printLine_spec (T : LineTable) (sp : List (List Nat)) (hT : IsTable T sp) (off I : Nat)
    (s : List Nat) (hs : sp[off + I]? = some s) (hpos : 1 ≤ s.length) (Flag : Nat) (num : Int) :
    printLine ⟨T, off⟩ I Flag num = Res.ok (OutLine.text Flag num (cstr s.dropLast)) := by
  have hi : off + I < sp.length := by
    by_contra hc
    rw [List.getElem?_eq_none (by omega)] at hs
    cases hs
  have a1 : rd (offsets sp 0) (off + (I + 1))
      = Res.ok ((sp.take (off + I)).flatten.length + s.length) := by
    rw [show off + (I + 1) = off + I + 1 by omega, rd_offsets _ _ (by omega),
      take_succ_flatten_length _ _ _ hs]
  have a0 := rd_offsets sp (off + I) (by omega)
  have hprec : ((((sp.take (off + I)).flatten.length + s.length : Nat) : Int)
      - ((sp.take (off + I)).flatten.length : Int) - 1) = ((s.length - 1 : Nat) : Int) := by
    push_cast; omega
  simp only [printLine, LinePtr.get, hT.AA, a1, a0, Res.bind_eq, Res.bind_ok, hT.conad,
    Res.pure_eq, hprec, fmtS]
  rw [drop_flatten_at _ _ _ hs]
  have hneg : ¬ (((s.length - 1 : Nat) : Int) < 0) := by omega
  rw [if_neg hneg, Int.toNat_ofNat, putsN_spec _ _ _ (by omega)]
  simp [List.dropLast_eq_take]

end Compare

namespace bigcompare
open Compare

theorem pscanB_spec (M : Nat → Nat → Bool) (nB a : Nat) (fuel b : Nat)
    (hf : nB ≤ b + fuel) (hpos : 0 < fuel) :
    b < (pscanB M nB a fuel b).1 ∧
    (∀ k, b < k → k < (pscanB M nB a fuel b).1 → k < nB → M a k = false) ∧
    ((pscanB M nB a fuel b).2 = false → (pscanB M nB a fuel b).1 < nB ∧
      M a (pscanB M nB a fuel b).1 = true) ∧
    ((pscanB M nB a fuel b).2 = true → nB ≤ (pscanB M nB a fuel b).1) := by
  induction fuel generalizing b with
  | zero => omega
  | succ k ih =>
    unfold pscanB
    by_cases h1 : b + 1 ≥ nB
    · rw [if_pos h1]
      dsimp only
      refine ⟨by omega, ?_, by simp, fun _ => h1⟩
      intro k hk1 hk2 hk3; omega
    · rw [if_neg h1]
      by_cases h2 : M a (b + 1) = true
      · rw [if_pos h2]
        dsimp only
        refine ⟨by omega, ?_, fun _ => ⟨by omega, h2⟩, by simp⟩
        intro k hk1 hk2 hk3; omega
      · rw [if_neg h2]
        obtain ⟨i1, i2, i3, i4⟩ := ih (b + 1) (by omega) (by omega)
        refine ⟨by omega, ?_, i3, i4⟩
        intro k hk1 hk2 hk3
        by_cases hk : k = b + 1
        · subst hk; simpa using h2
        · exact i2 k (by omega) hk2 hk3

theorem pscanA_spec (M : Nat → Nat → Bool) (nA b : Nat) (fuel a : Nat)
    (hf : nA ≤ a + fuel) (hpos : 0 < fuel) :
    a < (pscanA M nA b fuel a).1 ∧
    (∀ k, a < k → k < (pscanA M nA b fuel a).1 → k < nA → M k b = false) ∧
    ((pscanA M nA b fuel a).2 = false → (pscanA M nA b fuel a).1 < nA ∧
      M (pscanA M nA b fuel a).1 b = true) ∧
    ((pscanA M nA b fuel a).2 = true → nA ≤ (pscanA M nA b fuel a).1) := by
  induction fuel generalizing a with
  | zero => omega
  | succ k ih =>
    unfold pscanA
    by_cases h1 : a + 1 ≥ nA
    · rw [if_pos h1]
      dsimp only
      refine ⟨by omega, ?_, by simp, fun _ => h1⟩
      intro k hk1 hk2 hk3; omega
    · rw [if_neg h1]
      by_cases h2 : M (a + 1) b = true
      · rw [if_pos h2]
        dsimp only
        refine ⟨by omega, ?_, fun _ => ⟨by omega, h2⟩, by simp⟩
        intro k hk1 hk2 hk3; omega
      · rw [if_neg h2]
        obtain ⟨i1, i2, i3, i4⟩ := ih (a + 1) (by omega) (by omega)
        refine ⟨by omega, ?_, i3, i4⟩
        intro k hk1 hk2 hk3
        by_cases hk : k = a + 1
        · subst hk; simpa using h2
        · exact i2 k (by omega) hk2 hk3

theorem scanB_eq (TA TB : LineTable) (M : Nat → Nat → Bool) (hM : MatchIs TA TB M) (a : Nat)
    (ha : a < TA.lines) (fuel b : Nat) (hf : TB.lines ≤ b + fuel) (hpos : 0 < fuel) :
    scanB TA TB a fuel b = Res.ok (pscanB M TB.lines a fuel b) := by
  induction fuel generalizing b with
  | zero => omega
  | succ k ih =>
    unfold scanB pscanB
    by_cases h1 : b + 1 ≥ TB.lines
    · simp only [h1, if_true]
    · simp only [h1, if_false]
      rw [hM a (b + 1) ha (by omega)]
      by_cases h2 : M a (b + 1) = true
      · simp [h2]
      · simp only [h2, Res.bind_eq, Res.bind_ok]
        simpa using ih (b + 1) (by omega) (by omega)

theorem scanA_eq (TA TB : LineTable) (M : Nat → Nat → Bool) (hM : MatchIs TA TB M) (b : Nat)
    (hb : b < TB.lines) (fuel a : Nat) (hf : TA.lines ≤ a + fuel) (hpos : 0 < fuel) :
    scanA TA TB b fuel a = Res.ok (pscanA M TA.lines b fuel a) := by
  induction fuel generalizing a with
  | zero => omega
  | succ k ih =>
    unfold scanA pscanA
    by_cases h1 : a + 1 ≥ TA.lines
    · simp only [h1, if_true]
    · simp only [h1, if_false]
      rw [hM (a + 1) b (by omega) hb]
      by_cases h2 : M (a + 1) b = true
      · simp [h2]
      · simp only [h2, Res.bind_eq, Res.bind_ok]
        simpa using ih (a + 1) (by omega) (by omega)

theorem replaceOne_eq (TA TB : LineTable) (hPA : PrintIs TA) (hPB : PrintIs TB) (st : State)
    (ha : st.BaseA < TA.lines) (hb : st.BaseB < TB.lines) :
    replaceOne TA TB st = Res.ok (preplaceOne TA TB st) := by
  simp [replaceOne, preplaceOne, hPA _ _ 0 (le_refl _) ha, hPB _ _ 1 (le_refl _) hb]

theorem step_eq (TA TB : LineTable) (M : Nat → Nat → Bool) (hM : MatchIs TA TB M)
    (hPA : PrintIs TA) (hPB : PrintIs TB) (st : State) :
    step TA TB st = Res.ok (pstep M TA TB st) := by
  unfold step pstep
  by_cases h1 : st.BaseA ≥ TA.lines ∧ st.BaseB ≥ TB.lines
  · rw [if_pos h1, if_pos h1]
  · rw [if_neg h1, if_neg h1]
    by_cases h2 : st.BaseA ≥ TA.lines
    · rw [if_pos h2, if_pos h2]
      have hb : st.BaseB < TB.lines := by omega
      rw [hPB _ _ 1 (by omega) (by omega)]
      rfl
    · rw [if_neg h2, if_neg h2]
      by_cases h3 : st.BaseB ≥ TB.lines
      · rw [if_pos h3, if_pos h3]
        rw [hPA _ _ 0 (by omega) (by omega)]
        rfl
      · rw [if_neg h3, if_neg h3]
        have ha : st.BaseA < TA.lines := by omega
        have hb : st.BaseB < TB.lines := by omega
        rw [hM _ _ ha hb]
        by_cases h4 : M st.BaseA st.BaseB = true
        · simp [h4]
        · have h4f : M st.BaseA st.BaseB = false := by simpa using h4
          have eB := scanB_eq TA TB M hM st.BaseA ha TB.lines st.BaseB (by omega) (by omega)
          have eA := scanA_eq TA TB M hM st.BaseB hb TA.lines st.BaseA (by omega) (by omega)
          obtain ⟨sb1, _, sb3, _⟩ := pscanB_spec M TB.lines st.BaseA TB.lines st.BaseB
            (by omega) (by omega)
          obtain ⟨sa1, _, sa3, _⟩ := pscanA_spec M TA.lines st.BaseB TA.lines st.BaseA
            (by omega) (by omega)
          rcases hrb : pscanB M TB.lines st.BaseA TB.lines st.BaseB with ⟨b2, fb⟩
          rcases hra : pscanA M TA.lines st.BaseB TA.lines st.BaseA with ⟨a2, fa⟩
          rw [hrb] at eB sb1 sb3
          rw [hra] at eA sa1 sa3
          dsimp only at sb1 sb3 sa1 sa3
          have rep := replaceOne_eq TA TB hPA hPB { st with Same := false } ha hb
          simp only [h4f, Res.bind_eq, Res.bind_ok, eB, eA, Bool.false_eq_true, if_false]
          cases fb <;> cases fa <;> simp [rep]
          · have hA2 := (sa3 rfl).1
            have hB2 := (sb3 rfl).1
            by_cases c1 : a2 - st.BaseA < b2 - st.BaseB
            · simp [c1]
              rw [hPA _ _ 0 (by omega) (by omega)]
              rfl
            · by_cases c2 : b2 - st.BaseB < a2 - st.BaseA
              · simp [c1, c2]
                rw [hPB _ _ 1 (by omega) (by omega)]
                rfl
              · simp [c1, c2, rep]
          · rw [hPB _ _ 1 (by omega) (by omega)]
            rfl
          · rw [hPA _ _ 0 (by omega) (by omega)]
            rfl

theorem matchIs_of_tables (TA TB : LineTable) (spA spB : List (List Nat)) (hA : IsTable TA spA)
    (hB : IsTable TB spB) : MatchIs TA TB (Mof spA spB) := by
  intro a b ha hb
  have hla := hA.lines
  have hlb := hB.lines
  have ea : spA[0 + a]? = some (spA.getD a []) := by
    rw [Nat.zero_add, List.getD_eq_getElem?_getD, List.getElem?_eq_getElem (by omega)]; rfl
  have eb : spB[0 + b]? = some (spB.getD b []) := by
    rw [Nat.zero_add, List.getD_eq_getElem?_getD, List.getElem?_eq_getElem (by omega)]; rfl
  exact Match_spec TA TB spA spB hA hB 0 a 0 b _ _ ea eb

end bigcompare

namespace Compare

theorem printLine_line (T : LineTable) (ls : List (List Nat)) (t : List Nat)
    (hT : IsTable T (spansOf ls t)) (off I : Nat) (h : off + I < ls.length) (Flag : Nat) (num : Int) :
    printLine ⟨T, off⟩ I Flag num
      = Res.ok (OutLine.text Flag num (cstr (span T (off + I)).dropLast)) := by
  have e := spansOf_get_line ls t (off + I) ls[off + I] (List.getElem?_eq_getElem h)
  rw [span_eq T _ hT (off + I) _ e]
  exact printLine_spec T _ hT off I _ e (by simp) Flag num

end Compare

namespace bigcompare
open Compare

theorem PrintLoop_eq (T : LineTable) (ls : List (List Nat)) (t : List Nat)
    (hT : IsTable T (spansOf ls t)) (Flag : Nat) (r I : Nat) (h : I + r < ls.length) :
    PrintLoop T Flag I r = Res.ok ((List.range' I (r + 1)).map
      (fun (J : Nat) => OutLine.text Flag ((J : Int) + 1) (cstr (span T J).dropLast))) := by
  induction r generalizing I with
  | zero =>
    have := printLine_line T ls t hT 0 I (by omega) Flag ((I : Int) + 1)
    simp only [Nat.zero_add] at this
    simp [PrintLoop, this]
  | succ r ih =>
    have := printLine_line T ls t hT 0 I (by omega) Flag ((I : Int) + 1)
    simp only [Nat.zero_add] at this
    have ih2 := ih (I + 1) (by omega)
    rw [PrintLoop]
    simp only [this, ih2, Res.bind_eq, Res.bind_ok, Res.pure_eq]
    rw [List.range'_succ I (r + 1)]
    simp

theorem printIs_of_table (T : LineTable) (ls : List (List Nat)) (t : List Nat)
    (hT : IsTable T (spansOf ls t)) : PrintIs T := by
  intro Low High Flag hle hlt
  rw [hT.lines_eq] at hlt
  have := PrintLoop_eq T ls t hT Flag (High - Low) Low (by omega)
  rw [Print, this, printed]
  congr 3
  omega

theorem Separator_cursor (Line Flag : Int) (st : State) :
    (Separator Line Flag st).BaseA = st.BaseA ∧ (Separator Line Flag st).BaseB = st.BaseB ∧
    (Separator Line Flag st).trace = st.trace ∧ (Separator Line Flag st).Same = st.Same := by
  unfold Separator
  split <;> simp

theorem pstep_none (M : Nat → Nat → Bool) (TA TB : LineTable) (st : State) :
    pstep M TA TB st = none ↔ st.BaseA ≥ TA.lines ∧ st.BaseB ≥ TB.lines := by
  unfold pstep
  constructor
  · intro h
    by_contra hc
    rw [if_neg hc] at h
    split at h
    · simp at h
    · split at h
      · simp at h
      · split at h
        · simp at h
        · dsimp only at h
          split at h
          · simp at h
          · split at h
            · simp at h
            · split at h
              · simp at h
              · split at h
                · simp at h
                · split at h <;> simp at h
  · intro h
    rw [if_pos h]

@[simp] theorem Separator_BaseA (Line Flag : Int) (st : State) :
    (Separator Line Flag st).BaseA = st.BaseA := (Separator_cursor Line Flag st).1
@[simp] theorem Separator_BaseB (Line Flag : Int) (st : State) :
    (Separator Line Flag st).BaseB = st.BaseB := (Separator_cursor Line Flag st).2.1
@[simp] theorem Separator_trace (Line Flag : Int) (st : State) :
    (Separator Line Flag st).trace = st.trace := (Separator_cursor Line Flag st).2.2.1
@[simp] theorem Separator_Same (Line Flag : Int) (st : State) :
    (Separator Line Flag st).Same = st.Same := (Separator_cursor Line Flag st).2.2.2

theorem pstep_some (M : Nat → Nat → Bool) (TA TB : LineTable) (st st2 : State)
    (h : pstep M TA TB st = some st2) :
    ∃ ev, st2.trace = st.trace ++ [ev] ∧ Moved M TA.lines TB.lines st st2 ev := by
  unfold pstep at h
  by_cases h1 : st.BaseA ≥ TA.lines ∧ st.BaseB ≥ TB.lines
  · rw [if_pos h1] at h; cases h
  rw [if_neg h1] at h
  by_cases h2 : st.BaseA ≥ TA.lines
  · rw [if_pos h2] at h
    have e := Option.some.inj h
    subst e
    refine ⟨Ev.record (.Insertion (st.BaseB + 1) TB.lines), by simp [State.log], ?_⟩
    right; right; left
    refine ⟨TB.lines - st.BaseB, by omega, ?_, by omega, by simp [State.log], ?_, by simp [State.log],
      Or.inl h2⟩
    · congr 2; omega
    · simp [State.log]; omega
  rw [if_neg h2] at h
  by_cases h3 : st.BaseB ≥ TB.lines
  · rw [if_pos h3] at h
    have e := Option.some.inj h
    subst e
    refine ⟨Ev.record (.Deletion (st.BaseA + 1) TA.lines), by simp [State.log], ?_⟩
    right; left
    refine ⟨TA.lines - st.BaseA, by omega, ?_, by omega, ?_, by simp [State.log], by simp [State.log],
      Or.inl h3⟩
    · congr 2; omega
    · simp [State.log]; omega
  rw [if_neg h3] at h
  have ha : st.BaseA < TA.lines := by omega
  have hb : st.BaseB < TB.lines := by omega
  by_cases h4 : M st.BaseA st.BaseB = true
  · rw [if_pos h4] at h
    have e := Option.some.inj h
    subst e
    exact ⟨Ev.matched st.BaseA st.BaseB, rfl, Or.inl ⟨rfl, h4, ha, hb, rfl, rfl, rfl, rfl, rfl, rfl⟩⟩
  rw [if_neg h4] at h
  have h4f : M st.BaseA st.BaseB = false := by simpa using h4
  obtain ⟨sb1, _, sb3, _⟩ := pscanB_spec M TB.lines st.BaseA TB.lines st.BaseB (by omega) (by omega)
  obtain ⟨sa1, _, sa3, _⟩ := pscanA_spec M TA.lines st.BaseB TA.lines st.BaseA (by omega) (by omega)
  rcases hrb : pscanB M TB.lines st.BaseA TB.lines st.BaseB with ⟨b2, fb⟩
  rcases hra : pscanA M TA.lines st.BaseB TA.lines st.BaseA with ⟨a2, fa⟩
  rw [hrb] at sb1 sb3
  rw [hra] at sa1 sa3
  dsimp only at sb1 sb3 sa1 sa3
  have repl : ∃ ev, (preplaceOne TA TB { st with Same := false }).trace = st.trace ++ [ev] ∧
      Moved M TA.lines TB.lines st (preplaceOne TA TB { st with Same := false }) ev := by
    refine ⟨Ev.record (.Replacement (st.BaseA + 1) (st.BaseB + 1)), by simp [preplaceOne, State.log], ?_⟩
    right; right; right
    exact ⟨rfl, ha, hb, h4f, by simp [preplaceOne, State.log], by simp [preplaceOne, State.log],
      by simp [preplaceOne, State.log]⟩
  have del1 : ∀ (L : Int) (k : Nat) (out : List OutLine), 1 ≤ k → st.BaseA + k ≤ TA.lines →
      ∃ ev, (State.log { Separator L 0 { st with Same := false } with
          stdout := out, BaseA := st.BaseA + k, Same := false }
          (.Deletion (st.BaseA + 1) (st.BaseA + k))).trace = st.trace ++ [ev] ∧
        Moved M TA.lines TB.lines st (State.log { Separator L 0 { st with Same := false } with
          stdout := out, BaseA := st.BaseA + k, Same := false }
          (.Deletion (st.BaseA + 1) (st.BaseA + k))) ev := by
    intro L k out hk hle
    refine ⟨Ev.record (.Deletion (st.BaseA + 1) (st.BaseA + k)), by simp [State.log], ?_⟩
    right; left
    exact ⟨k, hk, rfl, hle, by simp [State.log], by simp [State.log], by simp [State.log], Or.inr h4f⟩
  have ins1 : ∀ (L : Int) (k : Nat) (out : List OutLine), 1 ≤ k → st.BaseB + k ≤ TB.lines →
      ∃ ev, (State.log { Separator L 1 { st with Same := false } with
          stdout := out, BaseB := st.BaseB + k, Same := false }
          (.Insertion (st.BaseB + 1) (st.BaseB + k))).trace = st.trace ++ [ev] ∧
        Moved M TA.lines TB.lines st (State.log { Separator L 1 { st with Same := false } with
          stdout := out, BaseB := st.BaseB + k, Same := false }
          (.Insertion (st.BaseB + 1) (st.BaseB + k))) ev := by
    intro L k out hk hle
    refine ⟨Ev.record (.Insertion (st.BaseB + 1) (st.BaseB + k)), by simp [State.log], ?_⟩
    right; right; left
    exact ⟨k, hk, rfl, hle, by simp [State.log], by simp [State.log], by simp [State.log], Or.inr h4f⟩
  rw [hrb, hra] at h
  dsimp only at h
  cases fb <;> cases fa <;> simp only [Bool.and_true, Bool.and_false, Bool.false_eq_true,
    if_false, if_true, Bool.and_self] at h
  · have hA2 := (sa3 rfl).1
    have hB2 := (sb3 rfl).1
    by_cases c1 : a2 - st.BaseA < b2 - st.BaseB
    · rw [if_pos c1] at h
      have e := Option.some.inj h
      subst e
      exact del1 _ (a2 - st.BaseA) _ (by omega) (by omega)
    · rw [if_neg c1] at h
      by_cases c2 : b2 - st.BaseB < a2 - st.BaseA
      · rw [if_pos c2] at h
        have e := Option.some.inj h
        subst e
        exact ins1 _ (b2 - st.BaseB) _ (by omega) (by omega)
      · rw [if_neg c2] at h
        have e := Option.some.inj h
        subst e
        exact repl
  · have e := Option.some.inj h
    subst e
    exact ins1 _ 1 _ (by omega) (by omega)
  · have e := Option.some.inj h
    subst e
    exact del1 _ 1 _ (by omega) (by omega)
  · have e := Option.some.inj h
    subst e
    exact repl

theorem Moved_progress (M : Nat → Nat → Bool) (nA nB : Nat) (st st2 : State) (ev : Ev)
    (h : Moved M nA nB st st2 ev) (hin : st.BaseA ≤ nA ∧ st.BaseB ≤ nB) :
    (st2.BaseA ≤ nA ∧ st2.BaseB ≤ nB) ∧ st.BaseA ≤ st2.BaseA ∧ st.BaseB ≤ st2.BaseB ∧
      st.BaseA + st.BaseB < st2.BaseA + st2.BaseB := by
  rcases h with h | ⟨k, h⟩ | ⟨k, h⟩ | h <;> omega

theorem mainLoop_inv (TA TB : LineTable) (M : Nat → Nat → Bool) (hM : MatchIs TA TB M)
    (hPA : PrintIs TA) (hPB : PrintIs TB) (P : State → Prop)
    (hstep : ∀ st st2, st.inside TA TB → P st → pstep M TA TB st = some st2 → P st2)
    (fuel : Nat) (st : State) (hin : st.inside TA TB) (hP : P st)
    (hfuel : (TA.lines - st.BaseA) + (TB.lines - st.BaseB) < fuel) :
    ∃ st2, mainLoop TA TB fuel st = Res.ok st2 ∧ P st2 ∧ st2.BaseA = TA.lines ∧
      st2.BaseB = TB.lines := by
  induction fuel generalizing st with
  | zero => omega
  | succ k ih =>
    rw [mainLoop, step_eq TA TB M hM hPA hPB st]
    cases hp : pstep M TA TB st with
    | none =>
      have hn := (pstep_none M TA TB st).1 hp
      refine ⟨st, rfl, hP, ?_, ?_⟩
      · have := hin.1; omega
      · have := hin.2; omega
    | some st1 =>
      obtain ⟨ev, _, hmv⟩ := pstep_some M TA TB st st1 hp
      obtain ⟨hin1, _, _, hlt⟩ := Moved_progress M _ _ st st1 ev hmv hin
      have h1 := hin.1
      have h2 := hin.2
      have h3 := hin1.1
      have h4 := hin1.2
      obtain ⟨st2, e, r⟩ := ih st1 hin1 (hstep st st1 hin hP hp) (by omega)
      exact ⟨st2, by simpa using e, r⟩

theorem records_append (xs ys : List Ev) : records (xs ++ ys) = records xs ++ records ys := by
  induction xs with
  | nil => rfl
  | cons e es ih => cases e <;> simp [records, ih]

theorem range_snoc (a k : Nat) : List.range' 1 a ++ List.range' (a + 1) k = List.range' 1 (a + k) := by
  have := List.range'_append 1 a k 1
  simp only [Nat.one_mul] at this
  rw [Nat.add_comm 1 a] at this
  rw [this, Nat.add_comm]

theorem Covered_step (M : Nat → Nat → Bool) (nA nB : Nat) (st st2 : State) (ev : Ev)
    (ht : st2.trace = st.trace ++ [ev]) (h : Moved M nA nB st st2 ev) (hc : Covered st) :
    Covered st2 := by
  obtain ⟨cA, cB, cW⟩ := hc
  unfold Covered
  rw [ht, List.flatMap_append, List.flatMap_append, cA, cB, records_append]
  rcases h with ⟨e, _, _, _, eA, eB, _⟩ | ⟨k, hk, e, _, eA, eB, _⟩ | ⟨k, hk, e, _, eA, eB, _⟩ |
    ⟨e, _, _, _, eA, eB, _⟩
  · subst e
    rw [eA, eB]
    refine ⟨?_, ?_, ?_⟩
    · simpa [coverA] using range_snoc st.BaseA 1
    · simpa [coverB] using range_snoc st.BaseB 1
    · simpa [records] using cW
  · subst e
    rw [eA, eB]
    refine ⟨?_, ?_, ?_⟩
    · have : st.BaseA + k + 1 - (st.BaseA + 1) = k := by omega
      simpa [coverA, this] using range_snoc st.BaseA k
    · simp [coverB]
    · intro r hr
      simp only [records, List.mem_append, List.mem_singleton] at hr
      rcases hr with hr | hr
      · exact cW r hr
      · subst hr; simp only [ChangeRecord.wf]; omega
  · subst e
    rw [eA, eB]
    refine ⟨?_, ?_, ?_⟩
    · simp [coverA]
    · have : st.BaseB + k + 1 - (st.BaseB + 1) = k := by omega
      simpa [coverB, this] using range_snoc st.BaseB k
    · intro r hr
      simp only [records, List.mem_append, List.mem_singleton] at hr
      rcases hr with hr | hr
      · exact cW r hr
      · subst hr; simp only [ChangeRecord.wf]; omega
  · subst e
    rw [eA, eB]
    refine ⟨?_, ?_, ?_⟩
    · simpa [coverA] using range_snoc st.BaseA 1
    · simpa [coverB] using range_snoc st.BaseB 1
    · intro r hr
      simp only [records, List.mem_append, List.mem_singleton] at hr
      rcases hr with hr | hr
      · exact cW r hr
      · subst hr; simp only [ChangeRecord.wf]

end bigcompare

namespace Compare

theorem splitLines_spec (buf : List Nat) :
    unlines (splitLines buf).1 ++ (splitLines buf).2 = buf ∧
    (∀ l ∈ (splitLines buf).1, 10 ∉ l) ∧ 10 ∉ (splitLines buf).2 := by
  induction buf with
  | nil => simp [splitLines, unlines]
  | cons c cs ih =>
    obtain ⟨i1, i2, i3⟩ := ih
    rw [splitLines]
    by_cases hc : c = 10
    · rw [if_pos hc]
      refine ⟨?_, ?_, i3⟩
      · have : unlines ([] :: (splitLines cs).1) = 10 :: unlines (splitLines cs).1 := by
          simp [unlines]
        rw [this, List.cons_append, i1, hc]
      · intro l hl
        simp only [List.mem_cons] at hl
        rcases hl with hl | hl
        · subst hl; simp
        · exact i2 l hl
    · rw [if_neg hc]
      cases hs : (splitLines cs).1 with
      | nil =>
        rw [hs] at i1
        simp only [unlines, List.flatMap_nil, List.nil_append] at i1 ⊢
        refine ⟨by rw [i1], by simp, ?_⟩
        simp only [List.mem_cons, not_or]
        exact ⟨fun e => hc e.symm, i3⟩
      | cons l ls =>
        rw [hs] at i1 i2
        refine ⟨?_, ?_, i3⟩
        · have e1 : unlines ((c :: l) :: ls) = c :: unlines (l :: ls) := by simp [unlines]
          rw [e1, List.cons_append, i1]
        · intro x hx
          simp only [List.mem_cons] at hx
          rcases hx with hx | hx
          · subst hx
            simp only [List.mem_cons, not_or]
            exact ⟨fun e => hc e.symm, i2 l (by simp)⟩
          · exact i2 x (by simp [hx])

theorem buildTable_split (buf : List Nat) :
    IsTable (buildTable buf) (spansOf (splitLines buf).1 (splitLines buf).2) := by
  obtain ⟨h1, h2, h3⟩ := splitLines_spec buf
  have := buildTable_isTable _ _ h2 h3
  rwa [h1] at this

theorem lineStarts_length (buf : List Nat) (p : Nat) :
    (lineStarts buf p).length = buf.count 10 := by
  induction buf generalizing p with
  | nil => rfl
  | cons c cs ih =>
    rw [lineStarts_cons]
    by_cases hc : c = 10
    · subst hc; simp [ih]
    · rw [if_neg hc, ih, List.count_cons_of_ne (fun e => hc e.symm)]

theorem buildTable_lines (buf : List Nat) : (buildTable buf).lines = buf.count 10 := by
  simp [buildTable, lineStarts_length]

theorem lineEq_refl (s : List Nat) : lineEq s s = true := by simp [lineEq]

theorem cstr_of_noNUL (s : List Nat) (h : 0 ∉ s) : cstr s = s := by
  unfold cstr
  rw [List.takeWhile_eq_self_iff]
  intro c hc
  have : c ≠ 0 := fun e => h (e ▸ hc)
  simpa using this

theorem lineEq_of_noNUL (s s2 : List Nat) (h : 0 ∉ s ∨ 0 ∉ s2) :
    lineEq s s2 = decide (s = s2) := by
  have key : ∀ u v : List Nat, 0 ∉ u → (u.length = v.length ∧ cstr u = cstr v ↔ u = v) := by
    intro u v hu
    constructor
    · rintro ⟨hl, hc⟩
      rw [cstr_of_noNUL u hu] at hc
      have hp : cstr v <+: v := List.takeWhile_prefix _
      have := hp.eq_of_length (by rw [← hc, hl])
      rw [hc, this]
    · intro e; subst e; exact ⟨rfl, rfl⟩
  unfold lineEq
  rcases h with h | h
  · simp only [key s s2 h]
  · have := key s2 s h
    have e : (s.length = s2.length ∧ cstr s = cstr s2) ↔ s = s2 := by
      constructor
      · intro ⟨a, b⟩; exact (this.1 ⟨a.symm, b.symm⟩).symm
      · intro e; subst e; exact ⟨rfl, rfl⟩
    simp only [e]

end Compare

namespace bigcompare
open Compare

theorem Mof_refl (sp : List (List Nat)) (a : Nat) : Mof sp sp a a = true := lineEq_refl _

theorem run_inv (Aconad Bconad : List Nat) (lsA lsB : List (List Nat)) (tA tB : List Nat)
    (hA : IsTable (buildTable Aconad) (spansOf lsA tA))
    (hB : IsTable (buildTable Bconad) (spansOf lsB tB))
    (P : State → Prop) (h0 : P initState)
    (hstep : ∀ st st2, st.inside (buildTable Aconad) (buildTable Bconad) → P st →
      pstep (Mof (spansOf lsA tA) (spansOf lsB tB))
        (buildTable Aconad) (buildTable Bconad) st = some st2 → P st2) :
    ∃ st, run Aconad Bconad = Res.ok st ∧ P st ∧ st.BaseA = (buildTable Aconad).lines ∧
      st.BaseB = (buildTable Bconad).lines :=
  mainLoop_inv _ _ _ (matchIs_of_tables _ _ _ _ hA hB) (printIs_of_table _ _ _ hA)
    (printIs_of_table _ _ _ hB) P hstep _ initState
    ⟨Nat.zero_le _, Nat.zero_le _⟩ h0 (by simp [initState])

end bigcompare

namespace smallcompare
open Compare

theorem Match_eq (TA TB : LineTable) (spA spB : List (List Nat)) (hA : IsTable TA spA)
    (hB : IsTable TB spB) (oa i ob j : Nat) (hi : oa + i ≤ TA.lines) (hj : ob + j ≤ TB.lines) :
    Match ⟨TA, oa⟩ i ⟨TB, ob⟩ j = Res.ok (Mof spA spB (oa + i) (ob + j)) := by
  have hla := hA.lines
  have hlb := hB.lines
  have ea : spA[oa + i]? = some (spA.getD (oa + i) []) := by
    rw [List.getD_eq_getElem?_getD, List.getElem?_eq_getElem (by omega)]; rfl
  have eb : spB[ob + j]? = some (spB.getD (ob + j) []) := by
    rw [List.getD_eq_getElem?_getD, List.getElem?_eq_getElem (by omega)]; rfl
  exact Match_spec TA TB spA spB hA hB oa i ob j _ _ ea eb

theorem MatchesLoop_A (TA TB : LineTable) (spA spB : List (List Nat)) (hA : IsTable TA spA)
    (hB : IsTable TB spB) (hG : ∀ j, j < TB.lines → Mof spA spB TA.lines j = false)
    (a0 b0 k line : Nat) (ha : a0 + line ≤ TA.lines) (hb : b0 + line + k ≤ TB.lines) :
    MatchesLoop ⟨TA, a0⟩ ⟨TB, b0⟩ line k
      = Res.ok (decide (a0 + line + k ≤ TA.lines) && win (Mof spA spB) (a0 + line) (b0 + line) k) := by
  induction k generalizing line with
  | zero => simp [MatchesLoop, win, ha]
  | succ k ih =>
    rw [MatchesLoop, Match_eq TA TB spA spB hA hB a0 line b0 line ha (by omega)]
    simp only [Res.bind_eq, Res.bind_ok, win]
    by_cases hm : Mof spA spB (a0 + line) (b0 + line) = true
    · have hne : a0 + line ≠ TA.lines := by
        intro e
        rw [e, hG _ (by omega)] at hm
        cases hm
      rw [if_pos hm, ih (line + 1) (by omega) (by omega), hm]
      simp only [Bool.true_and]
      congr 2
      · have : a0 + (line + 1) + k = a0 + line + (k + 1) := by omega
        rw [this]
    · have hf : Mof spA spB (a0 + line) (b0 + line) = false := by simpa using hm
      rw [if_neg hm, hf]
      simp

theorem MatchesLoop_B (TA TB : LineTable) (spA spB : List (List Nat)) (hA : IsTable TA spA)
    (hB : IsTable TB spB) (hG : ∀ i, i < TA.lines → Mof spA spB i TB.lines = false)
    (a0 b0 k line : Nat) (ha : a0 + line + k ≤ TA.lines) (hb : b0 + line ≤ TB.lines) :
    MatchesLoop ⟨TA, a0⟩ ⟨TB, b0⟩ line k
      = Res.ok (decide (b0 + line + k ≤ TB.lines) && win (Mof spA spB) (a0 + line) (b0 + line) k) := by
  induction k generalizing line with
  | zero => simp [MatchesLoop, win, hb]
  | succ k ih =>
    rw [MatchesLoop, Match_eq TA TB spA spB hA hB a0 line b0 line (by omega) hb]
    simp only [Res.bind_eq, Res.bind_ok, win]
    by_cases hm : Mof spA spB (a0 + line) (b0 + line) = true
    · have hne : b0 + line ≠ TB.lines := by
        intro e
        rw [e, hG _ (by omega)] at hm
        cases hm
      rw [if_pos hm, ih (line + 1) (by omega) (by omega), hm]
      simp only [Bool.true_and]
      congr 2
      · have : b0 + (line + 1) + k = b0 + line + (k + 1) := by omega
        rw [this]
    · have hf : Mof spA spB (a0 + line) (b0 + line) = false := by simpa using hm
      rw [if_neg hm, hf]
      simp

theorem slideA_eq (AA BB : LinePtr) (L : Nat) (W : Nat → Bool) (r p0 : Nat)
    (h : ∀ p, p0 ≤ p → p ≤ p0 + r → Matches (AA.add p) (BB.add 0) L = Res.ok (W p)) :
    slideA AA BB L p0 r = Res.ok (pslide W p0 r) := by
  induction r generalizing p0 with
  | zero =>
    rw [slideA, h p0 (le_refl _) (by omega), pslide]
    by_cases hw : W p0 = true <;> simp [hw]
  | succ r ih =>
    rw [slideA, h p0 (le_refl _) (by omega), pslide]
    by_cases hw : W p0 = true
    · simp [hw]
    · simp only [hw, Res.bind_eq, Res.bind_ok]
      simpa using ih (p0 + 1) (fun p h1 h2 => h p (by omega) (by omega))

theorem slideB_eq (AA BB : LinePtr) (L : Nat) (W : Nat → Bool) (r p0 : Nat)
    (h : ∀ p, p0 ≤ p → p ≤ p0 + r → Matches (AA.add 0) (BB.add p) L = Res.ok (W p)) :
    slideB AA BB L p0 r = Res.ok (pslide W p0 r) := by
  induction r generalizing p0 with
  | zero =>
    rw [slideB, h p0 (le_refl _) (by omega), pslide]
    by_cases hw : W p0 = true <;> simp [hw]
  | succ r ih =>
    rw [slideB, h p0 (le_refl _) (by omega), pslide]
    by_cases hw : W p0 = true
    · simp [hw]
    · simp only [hw, Res.bind_eq, Res.bind_ok]
      simpa using ih (p0 + 1) (fun p h1 h2 => h p (by omega) (by omega))

theorem search_eq (AA BB : LinePtr) (Alines Blines : Nat) (wa wb : Nat → Nat → Bool) (m : Nat)
    (hwa : ∀ L p, 1 ≤ L → L ≤ m → p ≤ Alines →
      Matches (AA.add p) (BB.add 0) L = Res.ok (wa L p))
    (hwb : ∀ L p, 1 ≤ L → L ≤ m → p ≤ Blines →
      Matches (AA.add 0) (BB.add p) L = Res.ok (wb L p)) :
    search AA Alines BB Blines m = Res.ok (psearch wa wb Alines Blines m) := by
  induction m with
  | zero => rfl
  | succ m ih =>
    rw [search, psearch,
      slideA_eq AA BB (m + 1) (wa (m + 1)) Alines 0
        (fun p _ h2 => hwa (m + 1) p (by omega) (le_refl _) (by omega)),
      slideB_eq AA BB (m + 1) (wb (m + 1)) Blines 0
        (fun p _ h2 => hwb (m + 1) p (by omega) (le_refl _) (by omega))]
    simp only [Res.bind_eq, Res.bind_ok]
    cases pslide (wa (m + 1)) 0 Alines with
    | some Ap => rfl
    | none =>
      simp only
      cases pslide (wb (m + 1)) 0 Blines with
      | some Bp => rfl
      | none =>
        simp only
        exact ih (fun L p h1 h2 h3 => hwa L p h1 (by omega) h3)
          (fun L p h1 h2 h3 => hwb L p h1 (by omega) h3)

theorem search_tables (TA TB : LineTable) (spA spB : List (List Nat)) (hA : IsTable TA spA)
    (hB : IsTable TB spB) (hG : Guarded (Mof spA spB) TA.lines TB.lines)
    (oa ob a b m : Nat) (ha : oa + a ≤ TA.lines) (hb : ob + b ≤ TB.lines)
    (hma : m ≤ a) (hmb : m ≤ b) :
    search ⟨TA, oa⟩ a ⟨TB, ob⟩ b m
      = Res.ok (psearch (WA (Mof spA spB) TA.lines oa ob) (WB (Mof spA spB) TB.lines oa ob) a b m) := by
  apply search_eq
  · intro L p h1 h2 h3
    have := MatchesLoop_A TA TB spA spB hA hB hG.1 (oa + p) (ob + 0) L 0 (by omega) (by omega)
    simpa [Matches, LinePtr.add, WA] using this
  · intro L p h1 h2 h3
    have := MatchesLoop_B TA TB spA spB hA hB hG.2 (oa + 0) (ob + p) L 0 (by omega) (by omega)
    simpa [Matches, LinePtr.add, WB] using this

theorem pslide_some (W : Nat → Bool) (r p0 p : Nat) (h : pslide W p0 r = some p) :
    p0 ≤ p ∧ p ≤ p0 + r ∧ W p = true ∧ ∀ q, p0 ≤ q → q < p → W q = false := by
  induction r generalizing p0 with
  | zero =>
    rw [pslide] at h
    by_cases hw : W p0 = true
    · rw [if_pos hw] at h
      have e := Option.some.inj h
      subst e
      exact ⟨le_refl _, by omega, hw, fun q h1 h2 => by omega⟩
    · rw [if_neg hw] at h; cases h
  | succ r ih =>
    rw [pslide] at h
    by_cases hw : W p0 = true
    · rw [if_pos hw] at h
      have e := Option.some.inj h
      subst e
      exact ⟨le_refl _, by omega, hw, fun q h1 h2 => by omega⟩
    · rw [if_neg hw] at h
      obtain ⟨i1, i2, i3, i4⟩ := ih (p0 + 1) h
      refine ⟨by omega, by omega, i3, ?_⟩
      intro q h1 h2
      by_cases hq : q = p0
      · subst hq; simpa using hw
      · exact i4 q (by omega) h2

theorem pslide_none (W : Nat → Bool) (r p0 : Nat) (h : pslide W p0 r = none) :
    ∀ q, p0 ≤ q → q ≤ p0 + r → W q = false := by
  induction r generalizing p0 with
  | zero =>
    rw [pslide] at h
    by_cases hw : W p0 = true
    · rw [if_pos hw] at h; cases h
    · intro q h1 h2
      have : q = p0 := by omega
      subst this; simpa using hw
  | succ r ih =>
    rw [pslide] at h
    by_cases hw : W p0 = true
    · rw [if_pos hw] at h; cases h
    · rw [if_neg hw] at h
      intro q h1 h2
      by_cases hq : q = p0
      · subst hq; simpa using hw
      · exact ih (p0 + 1) h q (by omega) (by omega)

theorem pslide_eq_none (W : Nat → Bool) (r p0 : Nat)
    (h : ∀ q, p0 ≤ q → q ≤ p0 + r → W q = false) : pslide W p0 r = none := by
  cases hp : pslide W p0 r with
  | none => rfl
  | some p =>
    obtain ⟨i1, i2, i3, _⟩ := pslide_some W r p0 p hp
    rw [h p i1 i2] at i3
    cases i3

theorem pslide_eq_some (W : Nat → Bool) (r p0 p : Nat) (h1 : p0 ≤ p) (h2 : p ≤ p0 + r)
    (hw : W p = true) (hlt : ∀ q, p0 ≤ q → q < p → W q = false) : pslide W p0 r = some p := by
  cases hp : pslide W p0 r with
  | none =>
    have := pslide_none W r p0 hp p h1 h2
    rw [this] at hw; cases hw
  | some p2 =>
    obtain ⟨i1, i2, i3, i4⟩ := pslide_some W r p0 p2 hp
    have : p2 = p := by
      by_contra hne
      rcases Nat.lt_or_gt_of_ne hne with hl | hg
      · rw [hlt p2 i1 hl] at i3; cases i3
      · rw [i4 p h1 hg] at hw; cases hw
    rw [this]

theorem psearch_none (wa wb : Nat → Nat → Bool) (a b m : Nat)
    (h : psearch wa wb a b m = none) :
    ∀ L, 1 ≤ L → L ≤ m → (∀ q, q ≤ a → wa L q = false) ∧ (∀ q, q ≤ b → wb L q = false) := by
  induction m with
  | zero => intro L h1 h2; omega
  | succ m ih =>
    rw [psearch] at h
    cases hA : pslide (wa (m + 1)) 0 a with
    | some Ap => rw [hA] at h; cases h
    | none =>
      rw [hA] at h
      simp only at h
      cases hB : pslide (wb (m + 1)) 0 b with
      | some Bp => rw [hB] at h; cases h
      | none =>
        rw [hB] at h
        simp only at h
        intro L h1 h2
        by_cases hL : L = m + 1
        · subst hL
          exact ⟨fun q hq => pslide_none _ _ _ hA q (Nat.zero_le _) (by omega),
            fun q hq => pslide_none _ _ _ hB q (Nat.zero_le _) (by omega)⟩
        · exact ih h L h1 (by omega)

theorem psearch_inA (wa wb : Nat → Nat → Bool) (a b m Ap L : Nat)
    (h : psearch wa wb a b m = some (Hit.inA Ap L)) :
    1 ≤ L ∧ L ≤ m ∧ Ap ≤ a ∧ wa L Ap = true ∧ (∀ q, q < Ap → wa L q = false) ∧
    ∀ L2, L < L2 → L2 ≤ m → (∀ q, q ≤ a → wa L2 q = false) ∧ (∀ q, q ≤ b → wb L2 q = false) := by
  induction m with
  | zero => rw [psearch] at h; cases h
  | succ m ih =>
    rw [psearch] at h
    cases hA : pslide (wa (m + 1)) 0 a with
    | some Ap2 =>
      rw [hA] at h
      simp only [Option.some.injEq, Hit.inA.injEq] at h
      obtain ⟨e1, e2⟩ := h
      subst e1; subst e2
      obtain ⟨_, i2, i3, i4⟩ := pslide_some _ _ _ _ hA
      exact ⟨by omega, le_refl _, by omega, i3, fun q hq => i4 q (Nat.zero_le _) hq,
        fun L2 h1 h2 => by omega⟩
    | none =>
      rw [hA] at h
      simp only at h
      cases hB : pslide (wb (m + 1)) 0 b with
      | some Bp => rw [hB] at h; simp at h
      | none =>
        rw [hB] at h
        simp only at h
        obtain ⟨i1, i2, i3, i4, i5, i6⟩ := ih h
        refine ⟨i1, by omega, i3, i4, i5, ?_⟩
        intro L2 h1 h2
        by_cases hL : L2 = m + 1
        · subst hL
          exact ⟨fun q hq => pslide_none _ _ _ hA q (Nat.zero_le _) (by omega),
            fun q hq => pslide_none _ _ _ hB q (Nat.zero_le _) (by omega)⟩
        · exact i6 L2 h1 (by omega)

theorem psearch_inB (wa wb : Nat → Nat → Bool) (a b m Bp L : Nat)
    (h : psearch wa wb a b m = some (Hit.inB Bp L)) :
    1 ≤ L ∧ L ≤ m ∧ Bp ≤ b ∧ wb L Bp = true ∧ (∀ q, q < Bp → wb L q = false) ∧
    (∀ q, q ≤ a → wa L q = false) ∧
    ∀ L2, L < L2 → L2 ≤ m → (∀ q, q ≤ a → wa L2 q = false) ∧ (∀ q, q ≤ b → wb L2 q = false) := by
  induction m with
  | zero => rw [psearch] at h; cases h
  | succ m ih =>
    rw [psearch] at h
    cases hA : pslide (wa (m + 1)) 0 a with
    | some Ap2 => rw [hA] at h; simp at h
    | none =>
      rw [hA] at h
      simp only at h
      cases hB : pslide (wb (m + 1)) 0 b with
      | some Bp2 =>
        rw [hB] at h
        simp only [Option.some.injEq, Hit.inB.injEq] at h
        obtain ⟨e1, e2⟩ := h
        subst e1; subst e2
        obtain ⟨_, i2, i3, i4⟩ := pslide_some _ _ _ _ hB
        exact ⟨by omega, le_refl _, by omega, i3, fun q hq => i4 q (Nat.zero_le _) hq,
          fun q hq => pslide_none _ _ _ hA q (Nat.zero_le _) (by omega),
          fun L2 h1 h2 => by omega⟩
      | none =>
        rw [hB] at h
        simp only at h
        obtain ⟨i1, i2, i3, i4, i5, i6, i7⟩ := ih h
        refine ⟨i1, by omega, i3, i4, i5, i6, ?_⟩
        intro L2 h1 h2
        by_cases hL : L2 = m + 1
        · subst hL
          exact ⟨fun q hq => pslide_none _ _ _ hA q (Nat.zero_le _) (by omega),
            fun q hq => pslide_none _ _ _ hB q (Nat.zero_le _) (by omega)⟩
        · exact i7 L2 h1 (by omega)

theorem psearch_skip (wa wb : Nat → Nat → Bool) (a b k m : Nat) (hk : k ≤ m)
    (h : ∀ L, k < L → L ≤ m → (∀ q, q ≤ a → wa L q = false) ∧ (∀ q, q ≤ b → wb L q = false)) :
    psearch wa wb a b m = psearch wa wb a b k := by
  induction m with
  | zero =>
    have : k = 0 := by omega
    subst this; rfl
  | succ m ih =>
    by_cases hkm : k = m + 1
    · subst hkm; rfl
    · obtain ⟨hA, hB⟩ := h (m + 1) (by omega) (le_refl _)
      rw [psearch, pslide_eq_none _ _ _ (fun q _ h2 => hA q (by omega)),
        pslide_eq_none _ _ _ (fun q _ h2 => hB q (by omega))]
      exact ih (by omega) (fun L h1 h2 => h L h1 (by omega))

theorem psearch_first (wa wb : Nat → Nat → Bool) (a b m : Nat) (h : wa (m + 1) 0 = true) :
    psearch wa wb a b (m + 1) = some (Hit.inA 0 (m + 1)) := by
  rw [psearch, pslide_eq_some _ _ 0 0 (le_refl _) (Nat.zero_le _) h (fun q _ h2 => by omega)]

theorem PrintLoopB_eq (T : LineTable) (ls : List (List Nat)) (t : List Nat)
    (hT : IsTable T (spansOf ls t)) (off : Nat) (Base : Int) (Flag : Nat) (r I : Nat)
    (h : off + I + r < ls.length) :
    PrintLoop ⟨T, off⟩ Base Flag I r = Res.ok ((List.range' I (r + 1)).map
      (fun (i : Nat) => OutLine.text Flag (Base + (i : Int) + 1)
        (cstr (span T (off + i)).dropLast))) := by
  induction r generalizing I with
  | zero =>
    have := printLine_line T ls t hT off I (by omega) Flag (Base + (I : Int) + 1)
    simp [PrintLoop, this]
  | succ r ih =>
    have := printLine_line T ls t hT off I (by omega) Flag (Base + (I : Int) + 1)
    have ih2 := ih (I + 1) (by omega)
    rw [PrintLoop]
    simp only [this, ih2, Res.bind_eq, Res.bind_ok, Res.pure_eq]
    rw [List.range'_succ I (r + 1)]
    simp

theorem Print_eq (T : LineTable) (ls : List (List Nat)) (t : List Nat)
    (hT : IsTable T (spansOf ls t)) (off : Nat) (Base : Int) (Flag : Nat) (n : Nat)
    (h : off + n ≤ ls.length) :
    Print ⟨T, off⟩ Base 0 n Flag = Res.ok (printedB T Flag off Base n) := by
  unfold Print printedB
  by_cases hn : 0 = n
  · subst hn; simp
  · rw [if_neg hn, PrintLoopB_eq T ls t hT off Base Flag (n - 1 - 0) 0 (by omega)]
    have : n - 1 - 0 + 1 = n := by omega
    rw [this, List.range_eq_range']

theorem COMPARE_ind (TA TB : LineTable) (lsA lsB : List (List Nat)) (tA tB : List Nat)
    (hA : IsTable TA (spansOf lsA tA)) (hB : IsTable TB (spansOf lsB tB))
    (hG : Guarded (Mof (spansOf lsA tA) (spansOf lsB tB)) TA.lines TB.lines)
    (P : Nat → Nat → Int → Nat → Nat → Int → Out → Out → Prop)
    (h_done : ∀ oa ob Abase Bbase st, oa ≤ TA.lines → ob ≤ TB.lines →
      P oa 0 Abase ob 0 Bbase st { st with trace := st.trace ++ [Ev.call oa 0 ob 0] })
    (h_ins : ∀ oa ob b Abase Bbase st, 0 < b → oa ≤ TA.lines → ob + b ≤ TB.lines →
      P oa 0 Abase ob b Bbase st
        { stdout := st.stdout ++ printedB TB 1 ob Bbase b ++ [OutLine.dashes], Same := false,
          trace := st.trace ++ [Ev.call oa 0 ob b] ++ printedEvs 1 ⟨TB, ob⟩ b })
    (h_del : ∀ oa a ob Abase Bbase st, 0 < a → oa + a ≤ TA.lines → ob ≤ TB.lines →
      P oa a Abase ob 0 Bbase st
        { stdout := st.stdout ++ printedB TA 0 oa Abase a ++ [OutLine.dashes], Same := false,
          trace := st.trace ++ [Ev.call oa a ob 0] ++ printedEvs 0 ⟨TA, oa⟩ a })
    (h_hitA : ∀ oa a Abase ob b Bbase st Ap L st2 st3, 0 < a → 0 < b → oa + a = TA.lines →
      ob + b = TB.lines →
      psearch (WA (Mof (spansOf lsA tA) (spansOf lsB tB)) TA.lines oa ob)
        (WB (Mof (spansOf lsA tA) (spansOf lsB tB)) TB.lines oa ob) a b (min a b)
        = some (Hit.inA Ap L) →
      1 ≤ L → Ap + L ≤ a → L ≤ b →
      P oa Ap Abase ob 0 Bbase
        { st with trace := st.trace ++ [Ev.call oa a ob b] ++ [Ev.block (oa + Ap) ob L] } st2 →
      P (oa + (Ap + L)) (a - Ap - L) (Abase + Ap + L) (ob + (0 + L)) (b - 0 - L) (Bbase + 0 + L)
        st2 st3 →
      P oa a Abase ob b Bbase st st3)
    (h_hitB : ∀ oa a Abase ob b Bbase st Bp L st2 st3, 0 < a → 0 < b → oa + a = TA.lines →
      ob + b = TB.lines →
      psearch (WA (Mof (spansOf lsA tA) (spansOf lsB tB)) TA.lines oa ob)
        (WB (Mof (spansOf lsA tA) (spansOf lsB tB)) TB.lines oa ob) a b (min a b)
        = some (Hit.inB Bp L) →
      1 ≤ L → Bp + L ≤ b → L ≤ a →
      P oa 0 Abase ob Bp Bbase
        { st with trace := st.trace ++ [Ev.call oa a ob b] ++ [Ev.block oa (ob + Bp) L] } st2 →
      P (oa + (0 + L)) (a - 0 - L) (Abase + 0 + L) (ob + (Bp + L)) (b - Bp - L) (Bbase + 0 + L)
        st2 st3 →
      P oa a Abase ob b Bbase st st3)
    (h_none : ∀ oa a Abase ob b Bbase st st3, 0 < a → 0 < b → oa + a = TA.lines →
      ob + b = TB.lines →
      psearch (WA (Mof (spansOf lsA tA) (spansOf lsB tB)) TA.lines oa ob)
        (WB (Mof (spansOf lsA tA) (spansOf lsB tB)) TB.lines oa ob) a b (min a b) = none →
      P (oa + 1) (a - 1) (Abase + 1) (ob + 1) (b - 1) (Bbase + 1)
        { stdout := st.stdout ++ printedB TA 0 oa Abase 1 ++ printedB TB 1 ob Bbase 1
            ++ [OutLine.dashes],
          Same := false,
          trace := st.trace ++ [Ev.call oa a ob b] ++ [Ev.printed 0 oa, Ev.printed 1 ob] } st3 →
      P oa a Abase ob b Bbase st st3)
    (fuel : Nat) (oa a : Nat) (Abase : Int) (ob b : Nat) (Bbase : Int) (st : Out)
    (ha : oa + a ≤ TA.lines) (hb : ob + b ≤ TB.lines)
    (hx : 0 < a → 0 < b → oa + a = TA.lines ∧ ob + b = TB.lines) (hf : a + b < fuel) :
    ∃ st2, COMPARE fuel ⟨TA, oa⟩ a Abase ⟨TB, ob⟩ b Bbase st = Res.ok st2 ∧
      P oa a Abase ob b Bbase st st2 := by
  induction fuel generalizing oa a Abase ob b Bbase st with
  | zero => omega
  | succ fuel ih =>
    have hnA := hA.lines_eq
    have hnB := hB.lines_eq
    rw [COMPARE]
    rcases Nat.eq_zero_or_pos a with ha0 | hapos
    · subst ha0
      rcases Nat.eq_zero_or_pos b with hb0 | hbpos
      · subst hb0
        exact ⟨_, by simp, h_done oa ob Abase Bbase st (by omega) (by omega)⟩
      · have c1 : ¬ (((0 : Nat) : Int) ≤ 0 ∧ ((b : Nat) : Int) ≤ 0) := by omega
        have c2 : (((0 : Nat) : Int) ≤ 0) := by omega
        rw [if_neg c1, if_pos c2, Int.toNat_ofNat,
          Print_eq TB lsB tB hB ob Bbase 1 b (by omega)]
        exact ⟨_, rfl, h_ins oa ob b Abase Bbase st hbpos (by omega) hb⟩
    · rcases Nat.eq_zero_or_pos b with hb0 | hbpos
      · subst hb0
        have c1 : ¬ (((a : Nat) : Int) ≤ 0 ∧ ((0 : Nat) : Int) ≤ 0) := by omega
        have c2 : ¬ (((a : Nat) : Int) ≤ 0) := by omega
        have c3 : (((0 : Nat) : Int) ≤ 0) := by omega
        rw [if_neg c1, if_neg c2, if_pos c3, Int.toNat_ofNat,
          Print_eq TA lsA tA hA oa Abase 0 a (by omega)]
        exact ⟨_, rfl, h_del oa a ob Abase Bbase st hapos ha (by omega)⟩
      · obtain ⟨eA, eB⟩ := hx hapos hbpos
        have c1 : ¬ (((a : Nat) : Int) ≤ 0 ∧ ((b : Nat) : Int) ≤ 0) := by omega
        have c2 : ¬ (((a : Nat) : Int) ≤ 0) := by omega
        have c3 : ¬ (((b : Nat) : Int) ≤ 0) := by omega
        have hmin : (if (b : Int) < (a : Int) then (b : Int) else (a : Int)).toNat = min a b := by
          by_cases hlt : (b : Int) < (a : Int)
          · rw [if_pos hlt, Int.toNat_ofNat]; omega
          · rw [if_neg hlt, Int.toNat_ofNat]; omega
        rw [if_neg c1, if_neg c2, if_neg c3]
        simp only [hmin, Int.toNat_ofNat]
        rw [search_tables TA TB _ _ hA hB hG oa ob a b (min a b) (by omega) (by omega)
          (Nat.min_le_left _ _) (Nat.min_le_right _ _)]
        simp only [Res.bind_eq, Res.bind_ok]
        cases hs : psearch (WA (Mof (spansOf lsA tA) (spansOf lsB tB)) TA.lines oa ob)
            (WB (Mof (spansOf lsA tA) (spansOf lsB tB)) TB.lines oa ob) a b (min a b) with
        | none =>
          simp only
          rw [Print_eq TA lsA tA hA oa Abase 0 1 (by omega),
            Print_eq TB lsB tB hB ob Bbase 1 1 (by omega)]
          simp only [Res.bind_ok]
          obtain ⟨st3, e3, p3⟩ := ih (oa + 1) (a - 1) (Abase + 1) (ob + 1) (b - 1) (Bbase + 1)
            { stdout := st.stdout ++ printedB TA 0 oa Abase 1 ++ printedB TB 1 ob Bbase 1
                ++ [OutLine.dashes],
              Same := false,
              trace := st.trace ++ [Ev.call oa a ob b] ++ [Ev.printed 0 oa, Ev.printed 1 ob] }
            (by omega) (by omega) (fun _ _ => ⟨by omega, by omega⟩) (by omega)
          have ea : ((a : Int) - 1) = ((a - 1 : Nat) : Int) := by omega
          have eb : ((b : Int) - 1) = ((b - 1 : Nat) : Int) := by omega
          simp only [LinePtr.add, ea, eb]
          exact ⟨st3, e3, h_none oa a Abase ob b Bbase st st3 hapos hbpos eA eB hs p3⟩
        | some hit =>
          cases hit with
          | inA Ap L =>
            simp only
            obtain ⟨i1, i2, i3, i4, _, _⟩ := psearch_inA _ _ _ _ _ _ _ hs
            have hw : oa + Ap + L ≤ TA.lines := by
              simp only [WA, Bool.and_eq_true, decide_eq_true_eq] at i4
              exact i4.1
            have hLb : L ≤ b := le_trans i2 (Nat.min_le_right _ _)
            obtain ⟨st2, e2, p2⟩ := ih oa Ap Abase ob 0 Bbase
              { st with trace := st.trace ++ [Ev.call oa a ob b] ++ [Ev.block (oa + Ap) ob L] }
              (by omega) (by omega) (fun _ h0 => by omega) (by omega)
            obtain ⟨st3, e3, p3⟩ := ih (oa + (Ap + L)) (a - Ap - L) (Abase + Ap + L)
              (ob + (0 + L)) (b - 0 - L) (Bbase + 0 + L) st2
              (by omega) (by omega) (fun _ _ => ⟨by omega, by omega⟩) (by omega)
            have ea : ((a : Int) - (Ap : Int) - (L : Int)) = ((a - Ap - L : Nat) : Int) := by omega
            have eb : ((b : Int) - 0 - (L : Int)) = ((b - 0 - L : Nat) : Int) := by omega
            have e2b : COMPARE fuel ⟨TA, oa⟩ (Ap : Int) Abase ⟨TB, ob⟩ (0 : Int) Bbase
              { stdout := st.stdout, Same := st.Same,
                trace := st.trace ++ [Ev.call oa a ob b] ++ [Ev.block (oa + Ap) ob L] }
              = Res.ok st2 := e2
            simp only [LinePtr.add, ea, eb, e2b, Res.bind_ok]
            exact ⟨st3, e3, h_hitA oa a Abase ob b Bbase st Ap L st2 st3 hapos hbpos eA eB hs i1
              (by omega) hLb p2 p3⟩
          | inB Bp L =>
            simp only
            obtain ⟨i1, i2, i3, i4, _, _⟩ := psearch_inB _ _ _ _ _ _ _ hs
            have hw : ob + Bp + L ≤ TB.lines := by
              simp only [WB, Bool.and_eq_true, decide_eq_true_eq] at i4
              exact i4.1
            have hLa : L ≤ a := le_trans i2 (Nat.min_le_left _ _)
            obtain ⟨st2, e2, p2⟩ := ih oa 0 Abase ob Bp Bbase
              { st with trace := st.trace ++ [Ev.call oa a ob b] ++ [Ev.block oa (ob + Bp) L] }
              (by omega) (by omega) (fun h0 _ => by omega) (by omega)
            obtain ⟨st3, e3, p3⟩ := ih (oa + (0 + L)) (a - 0 - L) (Abase + 0 + L)
              (ob + (Bp + L)) (b - Bp - L) (Bbase + 0 + L) st2
              (by omega) (by omega) (fun _ _ => ⟨by omega, by omega⟩) (by omega)
            have ea : ((a : Int) - 0 - (L : Int)) = ((a - 0 - L : Nat) : Int) := by omega
            have eb : ((b : Int) - (Bp : Int) - (L : Int)) = ((b - Bp - L : Nat) : Int) := by omega
            have e2b : COMPARE fuel ⟨TA, oa⟩ (0 : Int) Abase ⟨TB, ob⟩ (Bp : Int) Bbase
              { stdout := st.stdout, Same := st.Same,
                trace := st.trace ++ [Ev.call oa a ob b] ++ [Ev.block oa (ob + Bp) L] }
              = Res.ok st2 := e2
            simp only [LinePtr.add, ea, eb, e2b, Res.bind_ok]
            exact ⟨st3, e3, h_hitB oa a Abase ob b Bbase st Bp L st2 st3 hapos hbpos eA eB hs i1
              (by omega) hLa p2 p3⟩

end smallcompare

namespace Compare

theorem spansOf_getD_line (ls : List (List Nat)) (t : List Nat) (i : Nat) (h : i < ls.length) :
    (spansOf ls t).getD i [] = ls.getD i [] ++ [10] := by
  have e := spansOf_get_line ls t i ls[i] (List.getElem?_eq_getElem h)
  rw [List.getD_eq_getElem?_getD, e, List.getD_eq_getElem?_getD, List.getElem?_eq_getElem h]
  rfl

theorem spansOf_getD_last (ls : List (List Nat)) (t : List Nat) :
    (spansOf ls t).getD ls.length [] = t := by
  rw [List.getD_eq_getElem?_getD, spansOf_get_last]
  rfl

theorem getD_mem (ls : List (List Nat)) (i : Nat) (h : i < ls.length) : ls.getD i [] ∈ ls := by
  rw [List.getD_eq_getElem?_getD, List.getElem?_eq_getElem h]
  exact List.getElem_mem h

theorem Mof_line (lsA lsB : List (List Nat)) (tA tB : List Nat) (i j : Nat)
    (hi : i < lsA.length) (hj : j < lsB.length)
    (h0 : 0 ∉ lsA.getD i [] ∨ 0 ∉ lsB.getD j []) :
    Mof (spansOf lsA tA) (spansOf lsB tB) i j = decide (lsA.getD i [] = lsB.getD j []) := by
  unfold Mof
  rw [spansOf_getD_line _ _ _ hi, spansOf_getD_line _ _ _ hj, lineEq_of_noNUL]
  · simp
  · rcases h0 with h | h
    · left; simpa using h
    · right; simpa using h

theorem Mof_lastA (lsA lsB : List (List Nat)) (tA tB : List Nat) (j : Nat)
    (hj : j < lsB.length) (ht : TextLine tA) :
    Mof (spansOf lsA tA) (spansOf lsB tB) lsA.length j = false := by
  unfold Mof
  rw [spansOf_getD_last, spansOf_getD_line _ _ _ hj, lineEq_of_noNUL _ _
    (Or.inl (fun h => (ht 0 h).2 rfl))]
  simp only [decide_eq_false_iff_not]
  intro e
  have : (10 : Nat) ∈ tA := by rw [e]; simp
  exact (ht 10 this).1 rfl

theorem Mof_lastB (lsA lsB : List (List Nat)) (tA tB : List Nat) (i : Nat)
    (hi : i < lsA.length) (ht : TextLine tB) :
    Mof (spansOf lsA tA) (spansOf lsB tB) i lsB.length = false := by
  unfold Mof
  rw [spansOf_getD_last, spansOf_getD_line _ _ _ hi, lineEq_of_noNUL _ _
    (Or.inr (fun h => (ht 0 h).2 rfl))]
  simp only [decide_eq_false_iff_not]
  intro e
  have : (10 : Nat) ∈ tB := by rw [← e]; simp
  exact (ht 10 this).1 rfl

theorem textLine_nil : TextLine [] := by
  intro c hc; cases hc

theorem cstr_text (l : List Nat) (h : TextLine l) : cstr l = l :=
  cstr_of_noNUL l (fun h0 => (h 0 h0).2 rfl)

theorem span_line (T : LineTable) (ls : List (List Nat)) (t : List Nat)
    (hT : IsTable T (spansOf ls t)) (i : Nat) (h : i < ls.length) :
    span T i = ls.getD i [] ++ [10] := by
  have e := spansOf_get_line ls t i ls[i] (List.getElem?_eq_getElem h)
  rw [span_eq T _ hT i _ e, List.getD_eq_getElem?_getD, List.getElem?_eq_getElem h]
  rfl

end Compare

namespace smallcompare
open Compare

theorem guarded_text (lsA lsB : List (List Nat)) (tA tB : List Nat) (nA nB : Nat)
    (hA : nA = lsA.length) (hB : nB = lsB.length) (htA : TextLine tA) (htB : TextLine tB) :
    Guarded (Mof (spansOf lsA tA) (spansOf lsB tB)) nA nB := by
  subst hA; subst hB
  exact ⟨fun j hj => Mof_lastA lsA lsB tA tB j hj htA, fun i hi => Mof_lastB lsA lsB tA tB i hi htB⟩

theorem win_true_iff (M : Nat → Nat → Bool) (a b k : Nat) :
    win M a b k = true ↔ ∀ i, i < k → M (a + i) (b + i) = true := by
  induction k generalizing a b with
  | zero => simp [win]
  | succ k ih =>
    rw [win, Bool.and_eq_true, ih]
    constructor
    · rintro ⟨h0, h1⟩ i hi
      cases i with
      | zero => simpa using h0
      | succ i =>
        have := h1 i (by omega)
        rwa [show a + 1 + i = a + (i + 1) by omega, show b + 1 + i = b + (i + 1) by omega] at this
    · intro h
      refine ⟨by simpa using h 0 (by omega), fun i hi => ?_⟩
      have := h (i + 1) (by omega)
      rwa [show a + (i + 1) = a + 1 + i by omega, show b + (i + 1) = b + 1 + i by omega] at this

theorem win_split (M : Nat → Nat → Bool) (a b k1 k2 : Nat) :
    win M a b (k1 + k2) = (win M a b k1 && win M (a + k1) (b + k1) k2) := by
  rw [Bool.eq_iff_iff, Bool.and_eq_true, win_true_iff, win_true_iff, win_true_iff]
  constructor
  · intro h
    refine ⟨fun i hi => h i (by omega), fun i hi => ?_⟩
    have := h (k1 + i) (by omega)
    rwa [← Nat.add_assoc, ← Nat.add_assoc] at this
  · rintro ⟨h1, h2⟩ i hi
    by_cases hlt : i < k1
    · exact h1 i hlt
    · have := h2 (i - k1) (by omega)
      rwa [show a + k1 + (i - k1) = a + i by omega, show b + k1 + (i - k1) = b + i by omega] at this

theorem MatchesLoop_refl (T : LineTable) (sp : List (List Nat)) (hT : IsTable T sp)
    (off k line : Nat) (h : off + line + k ≤ T.lines) :
    MatchesLoop ⟨T, off⟩ ⟨T, off⟩ line k = Res.ok true := by
  induction k generalizing line with
  | zero => rfl
  | succ k ih =>
    rw [MatchesLoop, Match_eq T T sp sp hT hT off line off line (by omega) (by omega)]
    simp only [Res.bind_eq, Res.bind_ok, Mof, lineEq_refl, if_true]
    exact ih (line + 1) (by omega)

theorem slideA_first (AA BB : LinePtr) (L p r : Nat)
    (h : Matches (AA.add p) (BB.add 0) L = Res.ok true) :
    slideA AA BB L p r = Res.ok (some p) := by
  cases r <;> simp [slideA, h]

theorem search_first (AA BB : LinePtr) (a b m : Nat)
    (h : Matches (AA.add 0) (BB.add 0) (m + 1) = Res.ok true) :
    search AA a BB b (m + 1) = Res.ok (some (Hit.inA 0 (m + 1))) := by
  rw [search, slideA_first AA BB (m + 1) 0 a h]
  rfl

theorem COMPARE_same (T : LineTable) (sp : List (List Nat)) (hT : IsTable T sp) (fuel : Nat)
    (hf : T.lines + 1 ≤ fuel) (st : Out) :
    ∃ st2, COMPARE fuel ⟨T, 0⟩ T.lines 0 ⟨T, 0⟩ T.lines 0 st = Res.ok st2 ∧
      st2.stdout = st.stdout ∧ st2.Same = st.Same := by
  rcases Nat.eq_zero_or_pos T.lines with h0 | hpos
  · obtain ⟨f, rfl⟩ : ∃ f, fuel = f + 1 := ⟨fuel - 1, by omega⟩
    rw [COMPARE, h0]
    exact ⟨{ st with trace := st.trace ++ [Ev.call 0 0 0 0] }, by simp, rfl, rfl⟩
  · obtain ⟨f, rfl⟩ : ∃ f, fuel = f + 1 + 1 := ⟨fuel - 2, by omega⟩
    rw [COMPARE]
    obtain ⟨m, hm⟩ : ∃ m, T.lines = m + 1 := ⟨T.lines - 1, by omega⟩
    have c1 : ¬ (((T.lines : Nat) : Int) ≤ 0 ∧ ((T.lines : Nat) : Int) ≤ 0) := by omega
    have c2 : ¬ (((T.lines : Nat) : Int) ≤ 0) := by omega
    have hs : search ⟨T, 0⟩ T.lines ⟨T, 0⟩ T.lines T.lines
        = Res.ok (some (Hit.inA 0 T.lines)) := by
      have hmm : Matches (LinePtr.add ⟨T, 0⟩ 0) (LinePtr.add ⟨T, 0⟩ 0) (m + 1) = Res.ok true := by
        have := MatchesLoop_refl T sp hT 0 (m + 1) 0 (by omega)
        simpa [Matches, LinePtr.add] using this
      have := search_first ⟨T, 0⟩ ⟨T, 0⟩ T.lines T.lines m hmm
      rwa [← hm] at this
    rw [if_neg c1, if_neg c2, if_neg c2]
    simp only [lt_self_iff_false, if_false, Int.toNat_ofNat, hs, Res.bind_eq, Res.bind_ok]
    rw [COMPARE]
    simp only [Nat.cast_zero, le_refl, and_self, if_true, Res.bind_ok]
    rw [COMPARE]
    have c3 : ((T.lines : Int) - 0 - (T.lines : Int) ≤ 0 ∧
        (T.lines : Int) - 0 - (T.lines : Int) ≤ 0) := by omega
    rw [if_pos c3]
    exact ⟨_, rfl, rfl, rfl⟩

end smallcompare

namespace Compare

theorem takeWhile_append_stop (p : Nat → Bool) (l r : List Nat) (hl : ∀ x ∈ l, p x = true)
    (hr : ∀ x, r.head? = some x → p x = false) : (l ++ r).takeWhile p = l := by
  induction l with
  | nil =>
    cases r with
    | nil => rfl
    | cons x xs => simp [List.takeWhile_cons, hr x rfl]
  | cons c cs ih =>
    have hc : p c = true := hl c (by simp)
    simp only [List.cons_append, List.takeWhile_cons, hc, if_true]
    rw [ih (fun x hx => hl x (by simp [hx]))]

theorem unlines_reverse_head (ls : List (List Nat)) (x : Nat)
    (h : (unlines ls).reverse.head? = some x) : x = 10 := by
  induction ls using List.reverseRecOn with
  | nil => simp [unlines] at h
  | append_singleton ls l _ =>
    have : unlines (ls ++ [l]) = unlines ls ++ l ++ [10] := by simp [unlines]
    rw [this] at h
    simp at h
    exact h.symm

theorem rest_eq (ls : List (List Nat)) (t : List Nat) (ht : 10 ∉ t) :
    ((unlines ls ++ t).reverse.takeWhile (fun c => decide (c ≠ 10))).reverse = t := by
  rw [List.reverse_append, takeWhile_append_stop]
  · simp
  · intro x hx
    have : x ≠ 10 := fun e => ht (by rw [← e]; simpa using hx)
    simpa using this
  · intro x hx
    have := unlines_reverse_head ls x hx
    simp [this]

end Compare

namespace bigcompare
open Compare

theorem printed_zero (T : LineTable) (Flag n : Nat) (h : 1 ≤ n) :
    printed T Flag 0 (n - 1) = (List.range n).map
      (fun (i : Nat) => OutLine.text Flag ((i : Int) + 1) (cstr (span T i).dropLast)) := by
  unfold printed
  have : n - 1 + 1 - 0 = n := by omega
  rw [this, List.range_eq_range']

theorem run_insert_all (TA TB : LineTable) (M : Nat → Nat → Bool) (hM : MatchIs TA TB M)
    (hPA : PrintIs TA) (hPB : PrintIs TB) (hA : TA.lines = 0) (hB : 1 ≤ TB.lines) :
    ∃ st, mainLoop TA TB (TA.lines + TB.lines + 1) initState = Res.ok st ∧
      records st.trace = [.Insertion 1 TB.lines] ∧
      st.stdout = OutLine.dashes :: printed TB 1 0 (TB.lines - 1) := by
  obtain ⟨k, hk⟩ : ∃ k, TA.lines + TB.lines = k + 1 := ⟨TB.lines - 1, by omega⟩
  have c1 : ¬ (initState.BaseA ≥ TA.lines ∧ initState.BaseB ≥ TB.lines) := by
    simp only [initState]; omega
  have c2 : initState.BaseA ≥ TA.lines := by simp only [initState]; omega
  have e1 : pstep M TA TB initState = some
      ({ Separator ((TB.lines : Int) - 1) 1 initState with
          stdout := (Separator ((TB.lines : Int) - 1) 1 initState).stdout
            ++ printed TB 1 initState.BaseB (TB.lines - 1),
          Same := false, BaseB := TB.lines }.log (.Insertion (initState.BaseB + 1) TB.lines)) := by
    rw [pstep, if_neg c1, if_pos c2]
  have e2 : pstep M TA TB
      ({ Separator ((TB.lines : Int) - 1) 1 initState with
          stdout := (Separator ((TB.lines : Int) - 1) 1 initState).stdout
            ++ printed TB 1 initState.BaseB (TB.lines - 1),
          Same := false, BaseB := TB.lines }.log (.Insertion (initState.BaseB + 1) TB.lines))
      = none := by
    rw [pstep_none]
    simp only [State.log, Separator_BaseA, initState]
    omega
  rw [mainLoop, step_eq TA TB M hM hPA hPB, e1]
  simp only [Res.bind_eq, Res.bind_ok]
  rw [hk, mainLoop, step_eq TA TB M hM hPA hPB, e2]
  refine ⟨_, rfl, ?_, ?_⟩
  · simp [State.log, initState, records]
  · have hs : ¬ ((1 : Int) = -1 ∧ (TB.lines : Int) - 1 = -1 + 1) := by omega
    simp [State.log, initState, Separator, hs]

theorem run_delete_all (TA TB : LineTable) (M : Nat → Nat → Bool) (hM : MatchIs TA TB M)
    (hPA : PrintIs TA) (hPB : PrintIs TB) (hA : 1 ≤ TA.lines) (hB : TB.lines = 0) :
    ∃ st, mainLoop TA TB (TA.lines + TB.lines + 1) initState = Res.ok st ∧
      records st.trace = [.Deletion 1 TA.lines] ∧
      st.stdout = OutLine.dashes :: printed TA 0 0 (TA.lines - 1) := by
  obtain ⟨k, hk⟩ : ∃ k, TA.lines + TB.lines = k + 1 := ⟨TA.lines - 1, by omega⟩
  have c1 : ¬ (initState.BaseA ≥ TA.lines ∧ initState.BaseB ≥ TB.lines) := by
    simp only [initState]; omega
  have c2 : ¬ (initState.BaseA ≥ TA.lines) := by simp only [initState]; omega
  have c3 : initState.BaseB ≥ TB.lines := by simp only [initState]; omega
  have e1 : pstep M TA TB initState = some
      ({ Separator ((TA.lines : Int) - 1) 0 initState with
          stdout := (Separator ((TA.lines : Int) - 1) 0 initState).stdout
            ++ printed TA 0 initState.BaseA (TA.lines - 1),
          Same := false, BaseA := TA.lines }.log (.Deletion (initState.BaseA + 1) TA.lines)) := by
    rw [pstep, if_neg c1, if_neg c2, if_pos c3]
  have e2 : pstep M TA TB
      ({ Separator ((TA.lines : Int) - 1) 0 initState with
          stdout := (Separator ((TA.lines : Int) - 1) 0 initState).stdout
            ++ printed TA 0 initState.BaseA (TA.lines - 1),
          Same := false, BaseA := TA.lines }.log (.Deletion (initState.BaseA + 1) TA.lines))
      = none := by
    rw [pstep_none]
    simp only [State.log, Separator_BaseB, initState]
    omega
  rw [mainLoop, step_eq TA TB M hM hPA hPB, e1]
  simp only [Res.bind_eq, Res.bind_ok]
  rw [hk, mainLoop, step_eq TA TB M hM hPA hPB, e2]
  refine ⟨_, rfl, ?_, ?_⟩
  · simp [State.log, initState, records]
  · have hs : ¬ ((0 : Int) = -1 ∧ (TA.lines : Int) - 1 = -1 + 1) := by omega
    simp [State.log, initState, Separator, hs]

end bigcompare

namespace Compare

theorem agree_iff_eq (ls ls2 : List (List Nat)) (t t2 : List Nat)
    (hl : ∀ l ∈ ls, TextLine l) :
    Agree (Mof (spansOf ls t) (spansOf ls2 t2)) ls.length ls2.length ↔ ls = ls2 := by
  constructor
  · rintro ⟨hn, hm⟩
    apply List.ext_getElem hn
    intro i h1 h2
    have h0 : 0 ∉ ls.getD i [] := fun h => (hl _ (getD_mem ls i h1) 0 h).2 rfl
    have := hm i h1
    rw [Mof_line ls ls2 t t2 i i h1 h2 (Or.inl h0)] at this
    have e := of_decide_eq_true this
    rwa [List.getD_eq_getElem _ _ h1, List.getD_eq_getElem _ _ h2] at e
  · intro e
    subst e
    refine ⟨rfl, fun i hi => ?_⟩
    have h0 : 0 ∉ ls.getD i [] := fun h => (hl _ (getD_mem ls i hi) 0 h).2 rfl
    rw [Mof_line ls ls t t2 i i hi hi (Or.inl h0)]
    simp

end Compare

namespace bigcompare
open Compare

theorem SameInv_step (M : Nat → Nat → Bool) (nA nB : Nat) (st st2 : State) (ev : Ev)
    (ht : st2.trace = st.trace ++ [ev]) (hm : Moved M nA nB st st2 ev)
    (hin : st.BaseA ≤ nA ∧ st.BaseB ≤ nB) (hP : SameInv M nA nB st) : SameInv M nA nB st2 := by
  obtain ⟨p1, p2, p3⟩ := hP
  have notAgree : (nB ≤ st.BaseB ∨ nA ≤ st.BaseA ∨ M st.BaseA st.BaseB = false) →
      (st.BaseA < nA ∨ st.BaseB < nB) → ¬ Agree M nA nB := by
    intro hor hlt hag
    cases hS : st.Same with
    | false => exact p3 hS hag
    | true =>
      obtain ⟨q1, _⟩ := p2 hS
      obtain ⟨a1, a2⟩ := hag
      rcases hor with h | h | h
      · omega
      · omega
      · rw [← q1] at h
        have hlt2 : st.BaseA < nA := by omega
        rw [a2 _ hlt2] at h
        cases h
  rcases hm with ⟨e, hM, ha, hb, eA, eB, eS, _⟩ | ⟨k, hk, e, hle, eA, eB, eS, hor⟩ |
    ⟨k, hk, e, hle, eA, eB, eS, hor⟩ | ⟨e, ha, hb, hf, eA, eB, eS⟩
  · subst e
    refine ⟨?_, ?_, ?_⟩
    · rw [eS, ht, records_append, p1]
      simp [records]
    · intro hS
      rw [eS] at hS
      obtain ⟨q1, q2⟩ := p2 hS
      refine ⟨by omega, fun i hi => ?_⟩
      by_cases hlt : i < st.BaseA
      · exact q2 i hlt
      · have : i = st.BaseA := by omega
        subst this
        have := hM
        rwa [← q1] at this
    · intro hS
      rw [eS] at hS
      exact p3 hS
  · subst e
    refine ⟨?_, ?_, fun _ => ?_⟩
    · rw [eS, ht, records_append]; simp [records]
    · intro hS; rw [eS] at hS; cases hS
    · apply notAgree
      · rcases hor with h | h
        · exact Or.inl h
        · exact Or.inr (Or.inr h)
      · left; omega
  · subst e
    refine ⟨?_, ?_, fun _ => ?_⟩
    · rw [eS, ht, records_append]; simp [records]
    · intro hS; rw [eS] at hS; cases hS
    · apply notAgree
      · rcases hor with h | h
        · exact Or.inr (Or.inl h)
        · exact Or.inr (Or.inr h)
      · right; omega
  · subst e
    refine ⟨?_, ?_, fun _ => ?_⟩
    · rw [eS, ht, records_append]; simp [records]
    · intro hS; rw [eS] at hS; cases hS
    · exact notAgree (Or.inr (Or.inr hf)) (Or.inl ha)

theorem run_same_iff (Aconad Bconad : List Nat) (lsA lsB : List (List Nat)) (tA tB : List Nat)
    (hA : IsTable (buildTable Aconad) (spansOf lsA tA))
    (hB : IsTable (buildTable Bconad) (spansOf lsB tB)) :
    ∃ st, run Aconad Bconad = Res.ok st ∧
      (st.Same = true ↔ Agree (Mof (spansOf lsA tA) (spansOf lsB tB)) lsA.length lsB.length) ∧
      (records st.trace = [] ↔
        Agree (Mof (spansOf lsA tA) (spansOf lsB tB)) lsA.length lsB.length) := by
  have hnA := hA.lines_eq
  have hnB := hB.lines_eq
  obtain ⟨st, e, ⟨p1, p2, p3⟩, eA, eB⟩ := run_inv Aconad Bconad lsA lsB tA tB hA hB
    (SameInv (Mof (spansOf lsA tA) (spansOf lsB tB)) lsA.length lsB.length)
    ⟨by simp [initState, records], fun _ => ⟨rfl, fun i hi => by simp [initState] at hi⟩,
      fun h => by simp [initState] at h⟩
    (fun st st2 hin hP hp => by
      obtain ⟨ev, ht, hm⟩ := pstep_some _ _ _ st st2 hp
      rw [hnA, hnB] at hm
      exact SameInv_step _ _ _ st st2 ev ht hm (by rw [← hnA, ← hnB]; exact hin) hP)
  have key : st.Same = true ↔
      Agree (Mof (spansOf lsA tA) (spansOf lsB tB)) lsA.length lsB.length := by
    constructor
    · intro hS
      obtain ⟨q1, q2⟩ := p2 hS
      exact ⟨by omega, fun i hi => q2 i (by omega)⟩
    · intro hag
      cases hS : st.Same with
      | true => rfl
      | false => exact absurd hag (p3 hS)
  exact ⟨st, e, key, by rw [← p1, key]⟩

end bigcompare

namespace smallcompare
open Compare

theorem agr_top (M : Nat → Nat → Bool) (nA oa a ob b : Nat) (wb : Nat → Nat → Bool)
    (ha : 0 < a) (hA : oa + a = nA) (hag : agr M oa a ob b) :
    psearch (WA M nA oa ob) wb a b (min a b) = some (Hit.inA 0 a) := by
  obtain ⟨e, hw⟩ := hag
  subst e
  obtain ⟨m, rfl⟩ : ∃ m, a = m + 1 := ⟨a - 1, by omega⟩
  rw [Nat.min_self]
  apply psearch_first
  simp only [WA, Nat.add_zero, Bool.and_eq_true, decide_eq_true_eq]
  exact ⟨by omega, hw⟩

theorem agr_hitA (M : Nat → Nat → Bool) (nA oa a ob b Ap L : Nat) (wb : Nat → Nat → Bool)
    (ha : 0 < a) (hA : oa + a = nA)
    (hs : psearch (WA M nA oa ob) wb a b (min a b) = some (Hit.inA Ap L))
    (hLa : Ap + L ≤ a) (hLb : L ≤ b) :
    agr M oa a ob b ↔
      (agr M oa Ap ob 0 ∧ agr M (oa + (Ap + L)) (a - Ap - L) (ob + (0 + L)) (b - 0 - L)) := by
  constructor
  · intro hag
    have := agr_top M nA oa a ob b wb ha hA hag
    rw [this] at hs
    simp only [Option.some.injEq, Hit.inA.injEq] at hs
    obtain ⟨e1, e2⟩ := hs
    subst e1; subst e2
    obtain ⟨e, _⟩ := hag
    subst e
    refine ⟨⟨rfl, rfl⟩, by omega, ?_⟩
    have : a - 0 - a = 0 := by omega
    rw [this]; rfl
  · rintro ⟨⟨e1, _⟩, e2, hw2⟩
    subst e1
    obtain ⟨_, _, _, i4, _, _⟩ := psearch_inA _ _ _ _ _ _ _ hs
    simp only [WA, Nat.add_zero, Bool.and_eq_true, decide_eq_true_eq] at i4
    have hab : a = b := by omega
    refine ⟨hab, ?_⟩
    have hsplit := win_split M oa ob L (a - L)
    rw [show L + (a - L) = a by omega] at hsplit
    rw [hsplit, i4.2]
    simp only [Nat.zero_add, Nat.sub_zero] at hw2
    simpa using hw2

theorem agr_hitB (M : Nat → Nat → Bool) (nA nB oa a ob b Bp L : Nat)
    (ha : 0 < a) (hA : oa + a = nA)
    (hs : psearch (WA M nA oa ob) (WB M nB oa ob) a b (min a b) = some (Hit.inB Bp L))
    (hLa : L ≤ a) (hLb : Bp + L ≤ b) :
    agr M oa a ob b ↔
      (agr M oa 0 ob Bp ∧ agr M (oa + (0 + L)) (a - 0 - L) (ob + (Bp + L)) (b - Bp - L)) := by
  constructor
  · intro hag
    have := agr_top M nA oa a ob b (WB M nB oa ob) ha hA hag
    rw [this] at hs
    cases hs
  · rintro ⟨⟨e1, _⟩, e2, hw2⟩
    subst e1
    obtain ⟨_, _, _, i4, _, _⟩ := psearch_inB _ _ _ _ _ _ _ hs
    simp only [WB, Nat.add_zero, Bool.and_eq_true, decide_eq_true_eq] at i4
    have hab : a = b := by omega
    refine ⟨hab, ?_⟩
    have hsplit := win_split M oa ob L (a - L)
    rw [show L + (a - L) = a by omega] at hsplit
    rw [hsplit, i4.2]
    simp only [Nat.zero_add, Nat.sub_zero] at hw2
    simpa using hw2

theorem SameRel_seq (st st1 st2 st3 : Out) (Q Q1 Q2 : Prop)
    (h01 : st1.stdout = st.stdout ∧ st1.Same = st.Same)
    (h12 : ∃ extra, st2.stdout = st1.stdout ++ extra ∧ (extra = [] ↔ Q1) ∧
      (Q1 → st2.Same = st1.Same) ∧ (¬ Q1 → st2.Same = false))
    (h23 : ∃ extra, st3.stdout = st2.stdout ++ extra ∧ (extra = [] ↔ Q2) ∧
      (Q2 → st3.Same = st2.Same) ∧ (¬ Q2 → st3.Same = false))
    (hQ : Q ↔ (Q1 ∧ Q2)) :
    ∃ extra, st3.stdout = st.stdout ++ extra ∧ (extra = [] ↔ Q) ∧
      (Q → st3.Same = st.Same) ∧ (¬ Q → st3.Same = false) := by
  obtain ⟨x1, a1, a2, a3, a4⟩ := h12
  obtain ⟨x2, b1, b2, b3, b4⟩ := h23
  refine ⟨x1 ++ x2, by rw [b1, a1, h01.1, List.append_assoc], ?_, ?_, ?_⟩
  · rw [List.append_eq_nil, a2, b2, hQ]
  · intro hq
    obtain ⟨q1, q2⟩ := hQ.1 hq
    rw [b3 q2, a3 q1, h01.2]
  · intro hq
    by_cases q2 : Q2
    · have q1 : ¬ Q1 := fun q1 => hq (hQ.2 ⟨q1, q2⟩)
      rw [b3 q2, a4 q1]
    · exact b4 q2

theorem COMPARE_same_iff (TA TB : LineTable) (lsA lsB : List (List Nat)) (tA tB : List Nat)
    (hA : IsTable TA (spansOf lsA tA)) (hB : IsTable TB (spansOf lsB tB))
    (hG : Guarded (Mof (spansOf lsA tA) (spansOf lsB tB)) TA.lines TB.lines)
    (fuel : Nat) (oa a : Nat) (Abase : Int) (ob b : Nat) (Bbase : Int) (st : Out)
    (ha : oa + a ≤ TA.lines) (hb : ob + b ≤ TB.lines)
    (hx : 0 < a → 0 < b → oa + a = TA.lines ∧ ob + b = TB.lines) (hf : a + b < fuel) :
    ∃ st2, COMPARE fuel ⟨TA, oa⟩ a Abase ⟨TB, ob⟩ b Bbase st = Res.ok st2 ∧
      SameRel (Mof (spansOf lsA tA) (spansOf lsB tB)) oa a Abase ob b Bbase st st2 := by
  apply COMPARE_ind TA TB lsA lsB tA tB hA hB hG
    (SameRel (Mof (spansOf lsA tA) (spansOf lsB tB)))
  · intro oa ob Abase Bbase st _ _
    exact ⟨[], by simp, by simp [agr, win], fun _ => rfl, fun h => absurd ⟨rfl, rfl⟩ h⟩
  · intro oa ob b Abase Bbase st hb _ _
    have hn : ¬ agr (Mof (spansOf lsA tA) (spansOf lsB tB)) oa 0 ob b := fun h => by
      have := h.1; omega
    exact ⟨printedB TB 1 ob Bbase b ++ [OutLine.dashes], by simp, by simp [hn],
      fun h => absurd h hn, fun _ => rfl⟩
  · intro oa a ob Abase Bbase st ha _ _
    have hn : ¬ agr (Mof (spansOf lsA tA) (spansOf lsB tB)) oa a ob 0 := fun h => by
      have := h.1; omega
    exact ⟨printedB TA 0 oa Abase a ++ [OutLine.dashes], by simp, by simp [hn],
      fun h => absurd h hn, fun _ => rfl⟩
  · intro oa a Abase ob b Bbase st Ap L st2 st3 ha hb eA eB hs hL hLa hLb p2 p3
    exact SameRel_seq st _ st2 st3 _ _ _ ⟨rfl, rfl⟩ p2 p3
      (agr_hitA _ _ oa a ob b Ap L _ ha eA hs hLa hLb)
  · intro oa a Abase ob b Bbase st Bp L st2 st3 ha hb eA eB hs hL hLb hLa p2 p3
    exact SameRel_seq st _ st2 st3 _ _ _ ⟨rfl, rfl⟩ p2 p3
      (agr_hitB _ _ _ oa a ob b Bp L ha eA hs hLa hLb)
  · intro oa a Abase ob b Bbase st st3 ha hb eA eB hs p3
    have hn : ¬ agr (Mof (spansOf lsA tA) (spansOf lsB tB)) oa a ob b := fun h => by
      have := agr_top _ _ oa a ob b (WB (Mof (spansOf lsA tA) (spansOf lsB tB)) TB.lines oa ob)
        ha eA h
      rw [this] at hs
      cases hs
    obtain ⟨x, a1, _, a3, a4⟩ := p3
    refine ⟨printedB TA 0 oa Abase 1 ++ printedB TB 1 ob Bbase 1 ++ [OutLine.dashes] ++ x,
      by rw [a1]; simp, by simp [hn], fun h => absurd h hn, fun _ => ?_⟩
    by_cases hq : agr (Mof (spansOf lsA tA) (spansOf lsB tB)) (oa + 1) (a - 1) (ob + 1) (b - 1)
    · rw [a3 hq]
    · exact a4 hq
  · exact ha
  · exact hb
  · exact hx
  · exact hf

theorem agr_iff_Agree (M : Nat → Nat → Bool) (nA nB : Nat) :
    agr M 0 nA 0 nB ↔ Agree M nA nB := by
  unfold agr Agree
  rw [win_true_iff]
  simp

theorem runB_same_iff (Aconad Bconad : List Nat) (lsA lsB : List (List Nat)) (tA tB : List Nat)
    (hA : IsTable (buildTable Aconad) (spansOf lsA tA))
    (hB : IsTable (buildTable Bconad) (spansOf lsB tB))
    (htA : TextLine tA) (htB : TextLine tB) :
    ∃ out, run Aconad Bconad = Res.ok out ∧
      (out.Same = true ↔ Agree (Mof (spansOf lsA tA) (spansOf lsB tB)) lsA.length lsB.length) ∧
      (out.stdout = [] ↔
        Agree (Mof (spansOf lsA tA) (spansOf lsB tB)) lsA.length lsB.length) := by
  have hnA := hA.lines_eq
  have hnB := hB.lines_eq
  have hG := guarded_text lsA lsB tA tB _ _ hnA hnB htA htB
  obtain ⟨out, e, x, a1, a2, a3, a4⟩ := COMPARE_same_iff _ _ lsA lsB tA tB hA hB hG
    ((buildTable Aconad).lines + (buildTable Bconad).lines + 1) 0 (buildTable Aconad).lines 0
    0 (buildTable Bconad).lines 0 { stdout := [], Same := true, trace := [] }
    (by omega) (by omega) (fun _ _ => ⟨by omega, by omega⟩) (by omega)
  rw [agr_iff_Agree, hnA, hnB] at a2 a3 a4
  refine ⟨out, e, ?_, ?_⟩
  · constructor
    · intro hS
      by_contra hn
      rw [a4 hn] at hS
      cases hS
    · intro h; rw [a3 h]
  · rw [a1]; simpa using a2

end smallcompare

namespace Compare

theorem Mof_text (lsA lsB : List (List Nat)) (tA tB : List Nat) (hA : ∀ l ∈ lsA, TextLine l)
    (i j : Nat) (hi : i < lsA.length) (hj : j < lsB.length) :
    Mof (spansOf lsA tA) (spansOf lsB tB) i j = true ↔ lsA.getD i [] = lsB.getD j [] := by
  have h0 : 0 ∉ lsA.getD i [] := fun h => (hA _ (getD_mem lsA i hi) 0 h).2 rfl
  rw [Mof_line lsA lsB tA tB i j hi hj (Or.inl h0)]
  simp

theorem Mof_text_false (lsA lsB : List (List Nat)) (tA tB : List Nat)
    (hA : ∀ l ∈ lsA, TextLine l) (i j : Nat) (hi : i < lsA.length) (hj : j < lsB.length)
    (hne : lsA.getD i [] ≠ lsB.getD j []) :
    Mof (spansOf lsA tA) (spansOf lsB tB) i j = false := by
  cases h : Mof (spansOf lsA tA) (spansOf lsB tB) i j with
  | false => rfl
  | true => exact absurd ((Mof_text lsA lsB tA tB hA i j hi hj).1 h) hne

theorem getD_mid (P S : List (List Nat)) (x : List Nat) :
    (P ++ x :: S).getD P.length [] = x := by
  rw [List.getD_append_right _ _ _ _ (le_refl _)]
  simp

theorem getD_after (P S : List (List Nat)) (x : List Nat) (i : Nat) (h : P.length < i) :
    (P ++ x :: S).getD i [] = S.getD (i - P.length - 1) [] := by
  rw [List.getD_append_right _ _ _ _ (by omega)]
  obtain ⟨k, hk⟩ : ∃ k, i - P.length = k + 1 := ⟨i - P.length - 1, by omega⟩
  rw [hk, List.getD_cons_succ]
  congr 1

theorem getD_not_mid (P S : List (List Nat)) (x z : List Nat) (i : Nat)
    (hi : i < (P ++ x :: S).length) (hne : i ≠ P.length) (hzP : z ∉ P) (hzS : z ∉ S) :
    (P ++ x :: S).getD i [] ≠ z := by
  intro e
  rcases Nat.lt_or_gt_of_ne hne with h | h
  · rw [List.getD_append _ _ _ _ h] at e
    exact hzP (e ▸ getD_mem P i h)
  · rw [getD_after _ _ _ _ h] at e
    have hl : i - P.length - 1 < S.length := by
      simp only [List.length_append, List.length_cons] at hi
      omega
    exact hzS (e ▸ getD_mem S _ hl)

theorem getD_same_off_mid (P S : List (List Nat)) (x y : List Nat) (i : Nat)
    (hne : i ≠ P.length) : (P ++ x :: S).getD i [] = (P ++ y :: S).getD i [] := by
  rcases Nat.lt_or_gt_of_ne hne with h | h
  · rw [List.getD_append _ _ _ _ h, List.getD_append _ _ _ _ h]
  · rw [getD_after _ _ _ _ h, getD_after _ _ _ _ h]

theorem textLine_mid (P S : List (List Nat)) (x : List Nat) (hP : ∀ l ∈ P, TextLine l)
    (hS : ∀ l ∈ S, TextLine l) (hx : TextLine x) : ∀ l ∈ P ++ x :: S, TextLine l := by
  intro l hl
  simp only [List.mem_append, List.mem_cons] at hl
  rcases hl with h | h | h
  · exact hP l h
  · exact h ▸ hx
  · exact hS l h

theorem textLine_cat (P S : List (List Nat)) (hP : ∀ l ∈ P, TextLine l)
    (hS : ∀ l ∈ S, TextLine l) : ∀ l ∈ P ++ S, TextLine l := by
  intro l hl
  simp only [List.mem_append] at hl
  rcases hl with h | h
  · exact hP l h
  · exact hS l h

theorem table_of_lines (ls : List (List Nat)) (h : ∀ l ∈ ls, TextLine l) :
    IsTable (buildTable (unlines ls)) (spansOf ls []) := by
  have := buildTable_isTable ls [] (fun l hl hm => (h l hl 10 hm).1 rfl) (by simp)
  simpa using this

end Compare

namespace bigcompare
open Compare

theorem printed_one (T : LineTable) (ls : List (List Nat)) (t : List Nat)
    (hT : IsTable T (spansOf ls t)) (Flag i : Nat) (hi : i < ls.length)
    (htl : TextLine (ls.getD i [])) :
    printed T Flag i i = [OutLine.text Flag ((i : Int) + 1) (ls.getD i [])] := by
  unfold printed
  have : i + 1 - i = 1 := by omega
  have e : cstr (span T i).dropLast = ls.getD i [] := by
    rw [span_line T ls t hT i hi, List.dropLast_concat, cstr_text _ htl]
  rw [this]
  simp only [List.range', List.map, e]

theorem pstep_matched (M : Nat → Nat → Bool) (TA TB : LineTable) (st : State)
    (ha : st.BaseA < TA.lines) (hb : st.BaseB < TB.lines) (hm : M st.BaseA st.BaseB = true) :
    pstep M TA TB st = some { st with BaseA := st.BaseA + 1, BaseB := st.BaseB + 1,
                                      trace := st.trace ++ [Ev.matched st.BaseA st.BaseB] } := by
  have c1 : ¬ (st.BaseA ≥ TA.lines ∧ st.BaseB ≥ TB.lines) := by omega
  have c2 : ¬ (st.BaseA ≥ TA.lines) := by omega
  have c3 : ¬ (st.BaseB ≥ TB.lines) := by omega
  rw [pstep, if_neg c1, if_neg c2, if_neg c3, if_pos hm]

theorem pscanB_fails (M : Nat → Nat → Bool) (nB a fuel b : Nat) (hf : nB ≤ b + fuel)
    (hpos : 0 < fuel) (h : ∀ k, b < k → k < nB → M a k = false) :
    (pscanB M nB a fuel b).2 = true := by
  obtain ⟨i1, _, i3, _⟩ := pscanB_spec M nB a fuel b hf hpos
  cases hc : (pscanB M nB a fuel b).2 with
  | true => rfl
  | false =>
    obtain ⟨j1, j2⟩ := i3 hc
    rw [h _ i1 j1] at j2
    cases j2

theorem pscanA_fails (M : Nat → Nat → Bool) (nA b fuel a : Nat) (hf : nA ≤ a + fuel)
    (hpos : 0 < fuel) (h : ∀ k, a < k → k < nA → M k b = false) :
    (pscanA M nA b fuel a).2 = true := by
  obtain ⟨i1, _, i3, _⟩ := pscanA_spec M nA b fuel a hf hpos
  cases hc : (pscanA M nA b fuel a).2 with
  | true => rfl
  | false =>
    obtain ⟨j1, j2⟩ := i3 hc
    rw [h _ i1 j1] at j2
    cases j2

theorem pscanB_finds (M : Nat → Nat → Bool) (nB a fuel b : Nat) (hf : nB ≤ b + fuel)
    (hpos : 0 < fuel) (k : Nat) (h1 : b < k) (h2 : k < nB) (h3 : M a k = true) :
    (pscanB M nB a fuel b).2 = false := by
  obtain ⟨_, i2, _, i4⟩ := pscanB_spec M nB a fuel b hf hpos
  cases hc : (pscanB M nB a fuel b).2 with
  | false => rfl
  | true =>
    have := i4 hc
    rw [i2 k h1 (by omega) h2] at h3
    cases h3

theorem pscanA_finds (M : Nat → Nat → Bool) (nA b fuel a : Nat) (hf : nA ≤ a + fuel)
    (hpos : 0 < fuel) (k : Nat) (h1 : a < k) (h2 : k < nA) (h3 : M k b = true) :
    (pscanA M nA b fuel a).2 = false := by
  obtain ⟨_, i2, _, i4⟩ := pscanA_spec M nA b fuel a hf hpos
  cases hc : (pscanA M nA b fuel a).2 with
  | false => rfl
  | true =>
    have := i4 hc
    rw [i2 k h1 (by omega) h2] at h3
    cases h3

theorem pstep_replace (M : Nat → Nat → Bool) (TA TB : LineTable) (st : State)
    (ha : st.BaseA < TA.lines) (hb : st.BaseB < TB.lines) (hm : M st.BaseA st.BaseB = false)
    (hB : ∀ k, st.BaseB < k → k < TB.lines → M st.BaseA k = false)
    (hA : ∀ k, st.BaseA < k → k < TA.lines → M k st.BaseB = false) :
    pstep M TA TB st = some (preplaceOne TA TB { st with Same := false }) := by
  have c1 : ¬ (st.BaseA ≥ TA.lines ∧ st.BaseB ≥ TB.lines) := by omega
  have c2 : ¬ (st.BaseA ≥ TA.lines) := by omega
  have c3 : ¬ (st.BaseB ≥ TB.lines) := by omega
  have c4 : ¬ (M st.BaseA st.BaseB = true) := by rw [hm]; simp
  have eB := pscanB_fails M TB.lines st.BaseA TB.lines st.BaseB (by omega) (by omega) hB
  have eA := pscanA_fails M TA.lines st.BaseB TA.lines st.BaseA (by omega) (by omega) hA
  rw [pstep, if_neg c1, if_neg c2, if_neg c3, if_neg c4]
  simp only [eB, eA, Bool.and_self, if_true]

theorem pstep_insert_one (M : Nat → Nat → Bool) (TA TB : LineTable) (st : State)
    (ha : st.BaseA < TA.lines) (hb : st.BaseB < TB.lines) (hm : M st.BaseA st.BaseB = false)
    (k : Nat) (h1 : st.BaseB < k) (h2 : k < TB.lines) (h3 : M st.BaseA k = true)
    (hA : ∀ k, st.BaseA < k → k < TA.lines → M k st.BaseB = false) :
    pstep M TA TB st = some
      ({ Separator st.BaseB 1 { st with Same := false } with
          stdout := (Separator st.BaseB 1 { st with Same := false }).stdout
            ++ printed TB 1 st.BaseB st.BaseB,
          BaseB := st.BaseB + 1, Same := false }.log
        (.Insertion (st.BaseB + 1) (st.BaseB + 1))) := by
  have c1 : ¬ (st.BaseA ≥ TA.lines ∧ st.BaseB ≥ TB.lines) := by omega
  have c2 : ¬ (st.BaseA ≥ TA.lines) := by omega
  have c3 : ¬ (st.BaseB ≥ TB.lines) := by omega
  have c4 : ¬ (M st.BaseA st.BaseB = true) := by rw [hm]; simp
  have eB := pscanB_finds M TB.lines st.BaseA TB.lines st.BaseB (by omega) (by omega) k h1 h2 h3
  have eA := pscanA_fails M TA.lines st.BaseB TA.lines st.BaseA (by omega) (by omega) hA
  rw [pstep, if_neg c1, if_neg c2, if_neg c3, if_neg c4]
  simp only [eB, eA, Bool.false_and, Bool.false_eq_true, if_false, if_true]

theorem pstep_rest_B (M : Nat → Nat → Bool) (TA TB : LineTable) (st : State)
    (ha : TA.lines ≤ st.BaseA) (hb : st.BaseB < TB.lines) :
    pstep M TA TB st = some
      ({ Separator ((TB.lines : Int) - 1) 1 st with
          stdout := (Separator ((TB.lines : Int) - 1) 1 st).stdout
            ++ printed TB 1 st.BaseB (TB.lines - 1),
          Same := false, BaseB := TB.lines }.log (.Insertion (st.BaseB + 1) TB.lines)) := by
  have c1 : ¬ (st.BaseA ≥ TA.lines ∧ st.BaseB ≥ TB.lines) := by omega
  have c2 : st.BaseA ≥ TA.lines := ha
  rw [pstep, if_neg c1, if_pos c2]

theorem run_single_change (P S : List (List Nat)) (x y : List Nat)
    (hP : ∀ l ∈ P, TextLine l) (hS : ∀ l ∈ S, TextLine l) (hx : TextLine x) (hy : TextLine y)
    (hxy : x ≠ y) (hxP : x ∉ P) (hxS : x ∉ S) (hyP : y ∉ P) (hyS : y ∉ S) :
    ∃ st, run (unlines (P ++ x :: S)) (unlines (P ++ y :: S)) = Res.ok st ∧
      records st.trace = [.Replacement (P.length + 1) (P.length + 1)] ∧
      st.stdout = [OutLine.dashes, OutLine.text 0 ((P.length : Int) + 1) x,
        OutLine.text 1 ((P.length : Int) + 1) y] := by
  have tA := textLine_mid P S x hP hS hx
  have tB := textLine_mid P S y hP hS hy
  have hA := table_of_lines _ tA
  have hB := table_of_lines _ tB
  have hnA := hA.lines_eq
  have hnB := hB.lines_eq
  have hlen : (P ++ x :: S).length = (P ++ y :: S).length := by simp
  have hp : P.length < (P ++ x :: S).length := by simp
  obtain ⟨st, e, ⟨_, hinv⟩, eA, _⟩ := run_inv _ _ _ _ [] [] hA hB
    (fun st => st.BaseA = st.BaseB ∧
      ((st.BaseA ≤ P.length ∧ records st.trace = [] ∧ st.stdout = [] ∧ st.LastLine = -1) ∨
       (P.length < st.BaseA ∧
        records st.trace = [.Replacement (P.length + 1) (P.length + 1)] ∧
        st.stdout = [OutLine.dashes, OutLine.text 0 ((P.length : Int) + 1) x,
          OutLine.text 1 ((P.length : Int) + 1) y])))
    ⟨rfl, Or.inl ⟨Nat.zero_le _, rfl, rfl, rfl⟩⟩
    (fun st st2 hin hI hstep => by
      obtain ⟨hab, hcase⟩ := hI
      have hlt : st.BaseA < (P ++ x :: S).length := by
        by_contra hc
        have hn : pstep (Mof (spansOf (P ++ x :: S) []) (spansOf (P ++ y :: S) []))
            (buildTable (unlines (P ++ x :: S))) (buildTable (unlines (P ++ y :: S))) st
            = none := by
          rw [pstep_none, hnA, hnB]
          omega
        rw [hn] at hstep
        cases hstep
      by_cases hc : st.BaseA = P.length
      · have hm : Mof (spansOf (P ++ x :: S) []) (spansOf (P ++ y :: S) []) st.BaseA st.BaseB
            = false := by
          apply Mof_text_false _ _ _ _ tA _ _ hlt (by omega)
          rw [← hab, hc, getD_mid, getD_mid]
          exact hxy
        have hBs : ∀ k, st.BaseB < k → k < (buildTable (unlines (P ++ y :: S))).lines →
            Mof (spansOf (P ++ x :: S) []) (spansOf (P ++ y :: S) []) st.BaseA k = false := by
          intro k h1 h2
          rw [hnB] at h2
          apply Mof_text_false _ _ _ _ tA _ _ hlt h2
          rw [hc, getD_mid]
          exact fun e => getD_not_mid P S y x k h2 (by omega) hxP hxS e.symm
        have hAs : ∀ k, st.BaseA < k → k < (buildTable (unlines (P ++ x :: S))).lines →
            Mof (spansOf (P ++ x :: S) []) (spansOf (P ++ y :: S) []) k st.BaseB = false := by
          intro k h1 h2
          rw [hnA] at h2
          apply Mof_text_false _ _ _ _ tA _ _ h2 (by omega)
          rw [← hab, hc, getD_mid]
          exact getD_not_mid P S x y k h2 (by omega) hyP hyS
        rw [pstep_replace _ _ _ st (by omega) (by omega) hm hBs hAs] at hstep
        have e2 := Option.some.inj hstep
        subst e2
        rcases hcase with ⟨_, r1, r2, r3⟩ | ⟨h, _⟩
        · refine ⟨by simp [preplaceOne, State.log, hab], Or.inr ⟨by simp [preplaceOne, State.log, hc],
            by simp [preplaceOne, State.log, records_append, r1, records, hc, ← hab], ?_⟩⟩
          have hs : ¬ ((-1 : Int) = st.LastFlag ∧ (-1 : Int) = st.LastLine + 1) := by omega
          have pa := printed_one _ _ _ hA 0 st.BaseA hlt (by rw [hc, getD_mid]; exact hx)
          have pb := printed_one _ _ _ hB 1 st.BaseB (by omega) (by
            rw [← hab, hc, getD_mid]; exact hy)
          rw [hc, getD_mid] at pa
          rw [← hab, hc, getD_mid] at pb
          simp only [preplaceOne, State.log, Separator, hs, if_false, r2, ← hab, hc, pa, pb]
          simp
        · omega
      · have hm : Mof (spansOf (P ++ x :: S) []) (spansOf (P ++ y :: S) []) st.BaseA st.BaseB
            = true := by
          rw [Mof_text _ _ _ _ tA _ _ hlt (by omega), ← hab]
          exact getD_same_off_mid P S x y _ hc
        rw [pstep_matched _ _ _ st (by omega) (by omega) hm] at hstep
        have e2 := Option.some.inj hstep
        subst e2
        refine ⟨by simp [hab], ?_⟩
        rcases hcase with ⟨h, r1, r2, r3⟩ | ⟨h, r1, r2⟩
        · exact Or.inl ⟨by simp; omega, by simp [records_append, r1, records], r2, r3⟩
        · exact Or.inr ⟨by simp; omega, by simp [records_append, r1, records], r2⟩)
  refine ⟨st, e, ?_⟩
  rcases hinv with ⟨h, _⟩ | ⟨_, r1, r2⟩
  · rw [eA, hnA] at h
    omega
  · exact ⟨r1, r2⟩

theorem run_pure_insertion (P S : List (List Nat)) (m : List Nat)
    (hP : ∀ l ∈ P, TextLine l) (hS : ∀ l ∈ S, TextLine l) (hm : TextLine m)
    (hmP : m ∉ P) (hmS : m ∉ S) :
    ∃ st, run (unlines (P ++ S)) (unlines (P ++ m :: S)) = Res.ok st ∧
      records st.trace = [.Insertion (P.length + 1) (P.length + 1)] ∧
      st.stdout = [OutLine.dashes, OutLine.text 1 ((P.length : Int) + 1) m] := by
  have tA := textLine_cat P S hP hS
  have tB := textLine_mid P S m hP hS hm
  have hA := table_of_lines _ tA
  have hB := table_of_lines _ tB
  have hnA := hA.lines_eq
  have hnB := hB.lines_eq
  have hlA : (P ++ S).length = P.length + S.length := by simp
  have hlB : (P ++ m :: S).length = P.length + S.length + 1 := by simp; omega
  have hmA : ∀ i, i < (P ++ S).length → (P ++ S).getD i [] ≠ m := by
    intro i hi e
    have := getD_mem (P ++ S) i hi
    rw [e, List.mem_append] at this
    rcases this with h | h
    · exact hmP h
    · exact hmS h
  have pb : printed (buildTable (unlines (P ++ m :: S))) 1 P.length P.length
      = [OutLine.text 1 ((P.length : Int) + 1) m] := by
    have := printed_one _ _ _ hB 1 P.length (by omega) (by rw [getD_mid]; exact hm)
    rwa [getD_mid] at this
  obtain ⟨st, e, hinv, eA, eB⟩ := run_inv _ _ _ _ [] [] hA hB
    (fun st =>
      (st.BaseB ≤ P.length ∧ st.BaseA = st.BaseB ∧ records st.trace = [] ∧ st.stdout = [] ∧
        st.LastFlag = -1) ∨
      (P.length < st.BaseB ∧ st.BaseB = st.BaseA + 1 ∧
        records st.trace = [.Insertion (P.length + 1) (P.length + 1)] ∧
        st.stdout = [OutLine.dashes, OutLine.text 1 ((P.length : Int) + 1) m]))
    (Or.inl ⟨Nat.zero_le _, rfl, rfl, rfl, rfl⟩)
    (fun st st2 hin hI hstep => by
      have hnn : ¬ (st.BaseA ≥ (P ++ S).length ∧ st.BaseB ≥ (P ++ m :: S).length) := by
        intro hc
        have hn : pstep (Mof (spansOf (P ++ S) []) (spansOf (P ++ m :: S) []))
            (buildTable (unlines (P ++ S))) (buildTable (unlines (P ++ m :: S))) st = none := by
          rw [pstep_none, hnA, hnB]
          exact hc
        rw [hn] at hstep
        cases hstep
      rcases hI with ⟨h1, hab, r1, r2, r3⟩ | ⟨h1, hab, r1, r2⟩
      · by_cases hc : st.BaseB = P.length
        · rcases Nat.eq_zero_or_pos S.length with hs | hs
          · rw [pstep_rest_B _ _ _ st (by omega) (by omega)] at hstep
            have e2 := Option.some.inj hstep
            subst e2
            refine Or.inr ⟨by simp [State.log]; omega, by simp [State.log]; omega, ?_, ?_⟩
            · simp only [State.log, Separator_trace, records_append, r1, records, List.nil_append,
                hc, hnB, hlB, hs]
            · have hF : ¬ ((1 : Int) = st.LastFlag) := by omega
              have hl1 : (buildTable (unlines (P ++ m :: S))).lines - 1 = P.length := by omega
              simp only [State.log, Separator, hF, false_and, if_false, r2, hc, hl1, pb]
              simp
          · have hlt : st.BaseA < (P ++ S).length := by omega
            have hm0 : Mof (spansOf (P ++ S) []) (spansOf (P ++ m :: S) []) st.BaseA st.BaseB
                = false := by
              apply Mof_text_false _ _ _ _ tA _ _ hlt (by omega)
              rw [hc, getD_mid]
              exact hmA _ hlt
            have hfind : Mof (spansOf (P ++ S) []) (spansOf (P ++ m :: S) []) st.BaseA
                (st.BaseB + 1) = true := by
              rw [Mof_text _ _ _ _ tA _ _ hlt (by omega), hab, hc,
                List.getD_append_right _ _ _ _ (le_refl _), getD_after _ _ _ _ (by omega)]
              congr 1
              omega
            have hAs : ∀ k, st.BaseA < k → k < (buildTable (unlines (P ++ S))).lines →
                Mof (spansOf (P ++ S) []) (spansOf (P ++ m :: S) []) k st.BaseB = false := by
              intro k _ h2
              rw [hnA] at h2
              apply Mof_text_false _ _ _ _ tA _ _ h2 (by omega)
              rw [hc, getD_mid]
              exact hmA _ h2
            rw [pstep_insert_one _ _ _ st (by omega) (by omega) hm0 (st.BaseB + 1) (by omega)
              (by omega) hfind hAs] at hstep
            have e2 := Option.some.inj hstep
            subst e2
            refine Or.inr ⟨by simp [State.log]; omega, by simp [State.log]; omega, ?_, ?_⟩
            · simp only [State.log, Separator_trace, records_append, r1, records, List.nil_append,
                hc]
            · have hF : ¬ ((1 : Int) = st.LastFlag) := by omega
              simp only [State.log, Separator, hF, false_and, if_false, r2, hc, pb]
              simp
        · have hlt : st.BaseA < P.length := by omega
          have hm0 : Mof (spansOf (P ++ S) []) (spansOf (P ++ m :: S) []) st.BaseA st.BaseB
              = true := by
            rw [Mof_text _ _ _ _ tA _ _ (by omega) (by omega), hab,
              List.getD_append _ _ _ _ (by omega), List.getD_append _ _ _ _ (by omega)]
          rw [pstep_matched _ _ _ st (by omega) (by omega) hm0] at hstep
          have e2 := Option.some.inj hstep
          subst e2
          exact Or.inl ⟨by simp; omega, by simp [hab], by simp [records_append, r1, records], r2, r3⟩
      · have hlt : st.BaseA < (P ++ S).length := by omega
        have hm0 : Mof (spansOf (P ++ S) []) (spansOf (P ++ m :: S) []) st.BaseA st.BaseB
            = true := by
          rw [Mof_text _ _ _ _ tA _ _ hlt (by omega), hab,
            List.getD_append_right _ _ _ _ (by omega), getD_after _ _ _ _ (by omega)]
          congr 1
          omega
        rw [pstep_matched _ _ _ st (by omega) (by omega) hm0] at hstep
        have e2 := Option.some.inj hstep
        subst e2
        exact Or.inr ⟨by simp; omega, by simp [hab], by simp [records_append, r1, records], r2⟩)
  refine ⟨st, e, ?_⟩
  rcases hinv with ⟨h, _⟩ | ⟨_, _, r1, r2⟩
  · rw [eB, hnB] at h
    omega
  · exact ⟨r1, r2⟩

end bigcompare

namespace smallcompare
open Compare

theorem win_false_of (M : Nat → Nat → Bool) (a b k i : Nat) (hi : i < k)
    (h : M (a + i) (b + i) = false) : win M a b k = false := by
  cases hw : win M a b k with
  | false => rfl
  | true =>
    rw [(win_true_iff M a b k).1 hw i hi] at h
    cases h

theorem WA_false_of (M : Nat → Nat → Bool) (nA oa ob L Ap i : Nat) (hi : i < L)
    (h : oa + Ap + L ≤ nA → M (oa + Ap + i) (ob + i) = false) : WA M nA oa ob L Ap = false := by
  unfold WA
  by_cases hd : oa + Ap + L ≤ nA
  · rw [win_false_of M _ _ L i hi (h hd)]
    simp
  · simp [hd]

theorem WB_false_of (M : Nat → Nat → Bool) (nB oa ob L Bp i : Nat) (hi : i < L)
    (h : ob + Bp + L ≤ nB → M (oa + i) (ob + Bp + i) = false) : WB M nB oa ob L Bp = false := by
  unfold WB
  by_cases hd : ob + Bp + L ≤ nB
  · rw [win_false_of M _ _ L i hi (h hd)]
    simp
  · simp [hd]

theorem psearch_second (wa wb : Nat → Nat → Bool) (a b m Bp : Nat)
    (hA : ∀ q, q ≤ a → wa (m + 1) q = false) (h1 : Bp ≤ b) (hw : wb (m + 1) Bp = true)
    (hlt : ∀ q, q < Bp → wb (m + 1) q = false) :
    psearch wa wb a b (m + 1) = some (Hit.inB Bp (m + 1)) := by
  rw [psearch, pslide_eq_none _ _ _ (fun q _ h2 => hA q (by omega)),
    pslide_eq_some _ _ 0 Bp (Nat.zero_le _) (by omega) hw (fun q _ h2 => hlt q h2)]

theorem psearch_all_false (wa wb : Nat → Nat → Bool) (a b m : Nat)
    (h : ∀ L, 0 < L → L ≤ m → (∀ q, q ≤ a → wa L q = false) ∧ (∀ q, q ≤ b → wb L q = false)) :
    psearch wa wb a b m = none := by
  rw [psearch_skip wa wb a b 0 m (Nat.zero_le _) h]
  rfl

theorem printedB_one (T : LineTable) (ls : List (List Nat)) (t : List Nat)
    (hT : IsTable T (spansOf ls t)) (Flag off : Nat) (Base : Int) (hi : off < ls.length)
    (htl : TextLine (ls.getD off [])) :
    printedB T Flag off Base 1 = [OutLine.text Flag (Base + 1) (ls.getD off [])] := by
  have e : cstr (span T off).dropLast = ls.getD off [] := by
    rw [span_line T ls t hT off hi, List.dropLast_concat, cstr_text _ htl]
  have r1 : List.range 1 = [0] := rfl
  rw [printedB, r1]
  simp only [List.map, Nat.add_zero, e, Nat.cast_zero, Int.add_zero]

/-- The search on `P ++ x :: S` against `P ++ y :: S` from the top, `P` not empty:
the window of `P.length` lines at the start of both files is the first hit. -/
theorem search_change_top (M : Nat → Nat → Bool) (n p : Nat) (hp : 0 < p) (hpn : p < n)
    (hdiag : ∀ i, i < n → i ≠ p → M i i = true)
    (hrow : ∀ j, j < n → M p j = false) (hcol : ∀ i, i < n → M i p = false) :
    psearch (WA M n 0 0) (WB M n 0 0) n n (min n n) = some (Hit.inA 0 p) := by
  rw [Nat.min_self, psearch_skip _ _ n n p n (by omega)]
  · obtain ⟨k, rfl⟩ : ∃ k, p = k + 1 := ⟨p - 1, by omega⟩
    apply psearch_first
    simp only [WA, Nat.add_zero, Bool.and_eq_true, decide_eq_true_eq]
    refine ⟨by omega, ?_⟩
    rw [win_true_iff]
    intro i hi
    simpa using hdiag i (by omega) (by omega)
  · intro L h1 h2
    refine ⟨fun q _ => ?_, fun q _ => ?_⟩
    · apply WA_false_of M n 0 0 L q p h1
      intro hd
      simpa using hcol (q + p) (by omega)
    · apply WB_false_of M n 0 0 L q p h1
      intro hd
      simpa using hrow (q + p) (by omega)

/-- The search on `x :: S` against `y :: S` finds no window. -/
theorem search_change_mid (M : Nat → Nat → Bool) (n p a b : Nat)
    (hrow : ∀ j, j < n → M p j = false) (hcol : ∀ i, i < n → M i p = false) :
    psearch (WA M n p p) (WB M n p p) a b (min a b) = none := by
  apply psearch_all_false
  intro L h1 _
  refine ⟨fun q _ => ?_, fun q _ => ?_⟩
  · apply WA_false_of M n p p L q 0 h1
    intro hd
    simpa using hcol (p + q) (by omega)
  · apply WB_false_of M n p p L q 0 h1
    intro hd
    simpa using hrow (p + q) (by omega)

/-- The search on `S` against `m :: S`, `S` not empty: the whole of `S`, found
one line down the B file. -/
theorem search_insert_mid (M : Nat → Nat → Bool) (p s : Nat) (hs : 0 < s)
    (hcol : ∀ i, i < p + s → M i p = false)
    (hshift : ∀ i, p ≤ i → i < p + s → M i (i + 1) = true) :
    psearch (WA M (p + s) p p) (WB M (p + s + 1) p p) s (s + 1) (min s (s + 1))
      = some (Hit.inB 1 s) := by
  rw [show min s (s + 1) = s by omega]
  obtain ⟨k, rfl⟩ : ∃ k, s = k + 1 := ⟨s - 1, by omega⟩
  apply psearch_second
  · intro q _
    apply WA_false_of M _ p p (k + 1) q 0 (by omega)
    intro hd
    simpa using hcol (p + q) (by omega)
  · omega
  · simp only [WB, Bool.and_eq_true, decide_eq_true_eq]
    refine ⟨by omega, ?_⟩
    rw [win_true_iff]
    intro i hi
    have := hshift (p + i) (by omega) (by omega)
    rwa [show p + i + 1 = p + 1 + i by omega] at this
  · intro q hq
    have hq0 : q = 0 := by omega
    subst hq0
    apply WB_false_of M _ p p (k + 1) 0 0 (by omega)
    intro hd
    simpa using hcol p (by omega)

theorem runB_single_change (P S : List (List Nat)) (x y : List Nat)
    (hP : ∀ l ∈ P, TextLine l) (hS : ∀ l ∈ S, TextLine l) (hx : TextLine x) (hy : TextLine y)
    (hxy : x ≠ y) (hxP : x ∉ P) (hxS : x ∉ S) (hyP : y ∉ P) (hyS : y ∉ S) :
    ∃ out, run (unlines (P ++ x :: S)) (unlines (P ++ y :: S)) = Res.ok out ∧
      out.stdout = [OutLine.text 0 ((P.length : Int) + 1) x,
        OutLine.text 1 ((P.length : Int) + 1) y, OutLine.dashes] ∧
      out.Same = false := by
  have tA := textLine_mid P S x hP hS hx
  have tB := textLine_mid P S y hP hS hy
  have hA := table_of_lines _ tA
  have hB := table_of_lines _ tB
  have hlA : (P ++ x :: S).length = P.length + S.length + 1 := by simp; omega
  have hlB : (P ++ y :: S).length = P.length + S.length + 1 := by simp; omega
  have hnA : (buildTable (unlines (P ++ x :: S))).lines = P.length + S.length + 1 := by
    rw [hA.lines_eq, hlA]
  have hnB : (buildTable (unlines (P ++ y :: S))).lines = P.length + S.length + 1 := by
    rw [hB.lines_eq, hlB]
  have hG := guarded_text (P ++ x :: S) (P ++ y :: S) [] [] _ _ hA.lines_eq hB.lines_eq
    textLine_nil textLine_nil
  have hdiag : ∀ i, i < P.length + S.length + 1 → i ≠ P.length →
      Mof (spansOf (P ++ x :: S) []) (spansOf (P ++ y :: S) []) i i = true := by
    intro i hi hne
    rw [Mof_text _ _ _ _ tA _ _ (by omega) (by omega)]
    exact getD_same_off_mid P S x y i hne
  have hrow : ∀ j, j < P.length + S.length + 1 →
      Mof (spansOf (P ++ x :: S) []) (spansOf (P ++ y :: S) []) P.length j = false := by
    intro j hj
    apply Mof_text_false _ _ _ _ tA _ _ (by omega) (by omega)
    rw [getD_mid]
    by_cases hjp : j = P.length
    · rw [hjp, getD_mid]; exact hxy
    · exact fun e => getD_not_mid P S y x j (by omega) hjp hxP hxS e.symm
  have hcol : ∀ i, i < P.length + S.length + 1 →
      Mof (spansOf (P ++ x :: S) []) (spansOf (P ++ y :: S) []) i P.length = false := by
    intro i hi
    apply Mof_text_false _ _ _ _ tA _ _ (by omega) (by omega)
    rw [getD_mid]
    by_cases hip : i = P.length
    · rw [hip, getD_mid]; exact hxy
    · exact getD_not_mid P S x y i (by omega) hip hyP hyS
  have pa : ∀ Base : Int, printedB (buildTable (unlines (P ++ x :: S))) 0 P.length Base 1
      = [OutLine.text 0 (Base + 1) x] := by
    intro Base
    have := printedB_one _ _ _ hA 0 P.length Base (by omega) (by rw [getD_mid]; exact hx)
    rwa [getD_mid] at this
  have pb : ∀ Base : Int, printedB (buildTable (unlines (P ++ y :: S))) 1 P.length Base 1
      = [OutLine.text 1 (Base + 1) y] := by
    intro Base
    have := printedB_one _ _ _ hB 1 P.length Base (by omega) (by rw [getD_mid]; exact hy)
    rwa [getD_mid] at this
  have tail : ∀ oa a ob b, oa = ob → a = b → P.length < oa → oa + a = P.length + S.length + 1 →
      agr (Mof (spansOf (P ++ x :: S) []) (spansOf (P ++ y :: S) [])) oa a ob b := by
    intro oa a ob b h1 h2 h3 h4
    refine ⟨h2, ?_⟩
    rw [win_true_iff]
    intro i hi
    rw [← h1]
    exact hdiag (oa + i) (by omega) (by omega)
  obtain ⟨out, e, _, _, _, r4⟩ := COMPARE_ind _ _ (P ++ x :: S) (P ++ y :: S) [] [] hA hB hG
    (fun oa a Abase ob b Bbase st st2 =>
      (a = 0 → b = 0 → st2.stdout = st.stdout ∧ st2.Same = st.Same) ∧
      (oa = ob → a = b → P.length < oa → oa + a = P.length + S.length + 1 →
        st2.stdout = st.stdout ∧ st2.Same = st.Same) ∧
      (oa = P.length → ob = P.length → a = S.length + 1 → b = S.length + 1 →
        Abase = (P.length : Int) → Bbase = (P.length : Int) →
        st2.stdout = st.stdout ++ [OutLine.text 0 ((P.length : Int) + 1) x,
          OutLine.text 1 ((P.length : Int) + 1) y, OutLine.dashes] ∧ st2.Same = false) ∧
      (oa = 0 → ob = 0 → a = P.length + S.length + 1 → b = P.length + S.length + 1 →
        Abase = 0 → Bbase = 0 →
        st2.stdout = st.stdout ++ [OutLine.text 0 ((P.length : Int) + 1) x,
          OutLine.text 1 ((P.length : Int) + 1) y, OutLine.dashes] ∧ st2.Same = false))
    (by
      intro oa ob Abase Bbase st _ _
      refine ⟨fun _ _ => ⟨rfl, rfl⟩, fun _ _ _ _ => ⟨rfl, rfl⟩, ?_, ?_⟩
      · intro _ _ h; omega
      · intro _ _ h; omega)
    (by
      intro oa ob b Abase Bbase st hb _ _
      refine ⟨?_, ?_, ?_, ?_⟩
      · intro _ h; omega
      · intro _ h; omega
      · intro _ _ h; omega
      · intro _ _ h; omega)
    (by
      intro oa a ob Abase Bbase st ha _ _
      refine ⟨?_, ?_, ?_, ?_⟩
      · intro h; omega
      · intro _ h; omega
      · intro _ _ _ h; omega
      · intro _ _ _ h; omega)
    (by
      intro oa a Abase ob b Bbase st Ap L st2 st3 ha hb eA eB hs hL hLa hLb p2 p3
      rw [hnA, hnB] at hs
      have hmid : oa = P.length → ob = P.length → False := by
        intro h1 h2
        rw [h1, h2, search_change_mid _ _ _ a b hrow hcol] at hs
        cases hs
      refine ⟨?_, ?_, ?_, ?_⟩
      · intro h; omega
      · intro h1 h2 h3 h4
        have hag := agr_top _ (P.length + S.length + 1) oa a ob b
          (WB (Mof (spansOf (P ++ x :: S) []) (spansOf (P ++ y :: S) []))
            (P.length + S.length + 1) oa ob) ha h4 (tail oa a ob b h1 h2 h3 h4)
        rw [hag] at hs
        simp only [Option.some.injEq, Hit.inA.injEq] at hs
        obtain ⟨e1, e2⟩ := hs
        subst e1; subst e2
        obtain ⟨q1, q2⟩ := p2.1 rfl rfl
        obtain ⟨q3, q4⟩ := p3.1 (by omega) (by omega)
        exact ⟨by rw [q3, q1], by rw [q4, q2]⟩
      · intro h1 h2 _ _ _ _
        exact (hmid h1 h2).elim
      · intro h1 h2 h3 h4 h5 h6
        rcases Nat.eq_zero_or_pos P.length with hp0 | hp
        · exact (hmid (by omega) (by omega)).elim
        · subst h1; subst h2; subst h3; subst h4
          rw [search_change_top _ _ P.length hp (by omega) hdiag hrow hcol] at hs
          simp only [Option.some.injEq, Hit.inA.injEq] at hs
          obtain ⟨e1, e2⟩ := hs
          subst e1; subst e2
          obtain ⟨q1, q2⟩ := p2.1 rfl rfl
          obtain ⟨q3, q4⟩ := p3.2.2.1 (by omega) (by omega) (by omega) (by omega)
            (by rw [h5]; simp) (by rw [h6]; simp)
          exact ⟨by rw [q3, q1], q4⟩)
    (by
      intro oa a Abase ob b Bbase st Bp L st2 st3 ha hb eA eB hs hL hLb hLa p2 p3
      rw [hnA, hnB] at hs
      have hmid : oa = P.length → ob = P.length → False := by
        intro h1 h2
        rw [h1, h2, search_change_mid _ _ _ a b hrow hcol] at hs
        cases hs
      refine ⟨?_, ?_, ?_, ?_⟩
      · intro h; omega
      · intro h1 h2 h3 h4
        have hag := agr_top _ (P.length + S.length + 1) oa a ob b
          (WB (Mof (spansOf (P ++ x :: S) []) (spansOf (P ++ y :: S) []))
            (P.length + S.length + 1) oa ob) ha h4 (tail oa a ob b h1 h2 h3 h4)
        rw [hag] at hs
        cases hs
      · intro h1 h2 _ _ _ _
        exact (hmid h1 h2).elim
      · intro h1 h2 h3 h4 h5 h6
        rcases Nat.eq_zero_or_pos P.length with hp0 | hp
        · exact (hmid (by omega) (by omega)).elim
        · subst h1; subst h2; subst h3; subst h4
          rw [search_change_top _ _ P.length hp (by omega) hdiag hrow hcol] at hs
          cases hs)
    (by
      intro oa a Abase ob b Bbase st st3 ha hb eA eB hs p3
      rw [hnA, hnB] at hs
      refine ⟨?_, ?_, ?_, ?_⟩
      · intro h; omega
      · intro h1 h2 h3 h4
        have hag := agr_top _ (P.length + S.length + 1) oa a ob b
          (WB (Mof (spansOf (P ++ x :: S) []) (spansOf (P ++ y :: S) []))
            (P.length + S.length + 1) oa ob) ha h4 (tail oa a ob b h1 h2 h3 h4)
        rw [hag] at hs
        cases hs
      · intro h1 h2 h3 h4 h5 h6
        subst h1; subst h2
        obtain ⟨q1, q2⟩ := p3.2.1 rfl (by omega) (by omega) (by omega)
        rw [q1, q2, h5, h6, pa, pb]
        exact ⟨by simp, rfl⟩
      · intro h1 h2 h3 h4 h5 h6
        rcases Nat.eq_zero_or_pos P.length with hp0 | hp
        · subst h1; subst h2
          obtain ⟨q1, q2⟩ := p3.2.1 rfl (by omega) (by omega) (by omega)
          have pa0 := pa Abase
          have pb0 := pb Bbase
          rw [hp0] at pa0 pb0
          rw [q1, q2, h5, h6] at *
          rw [pa0, pb0, hp0]
          exact ⟨by simp, rfl⟩
        · subst h1; subst h2; subst h3; subst h4
          rw [search_change_top _ _ P.length hp (by omega) hdiag hrow hcol] at hs
          cases hs)
    ((buildTable (unlines (P ++ x :: S))).lines + (buildTable (unlines (P ++ y :: S))).lines + 1)
    0 (buildTable (unlines (P ++ x :: S))).lines 0
    0 (buildTable (unlines (P ++ y :: S))).lines 0
    { stdout := [], Same := true, trace := [] }
    (by omega) (by omega) (fun _ _ => ⟨by omega, by omega⟩) (by omega)
  obtain ⟨o1, o2⟩ := r4 rfl rfl hnA hnB rfl rfl
  exact ⟨out, e, by simpa using o1, o2⟩

end smallcompare

namespace bigcompare
open Compare

theorem rangesA_append (xs ys : List Ev) : rangesA (xs ++ ys) = rangesA xs ++ rangesA ys := by
  induction xs with
  | nil => rfl
  | cons e es ih =>
    cases e with
    | matched a b => simp [rangesA, ih]
    | record r => cases r <;> simp [rangesA, ih]

theorem rangesB_append (xs ys : List Ev) : rangesB (xs ++ ys) = rangesB xs ++ rangesB ys := by
  induction xs with
  | nil => rfl
  | cons e es ih =>
    cases e with
    | matched a b => simp [rangesB, ih]
    | record r => cases r <;> simp [rangesB, ih]

theorem Ascending_mono (rs : List (Nat × Nat)) (n n2 : Nat) (h : n ≤ n2)
    (ha : Ascending rs n) : Ascending rs n2 :=
  ⟨ha.1, fun r hr => ⟨(ha.2 r hr).1, (ha.2 r hr).2.1, le_trans (ha.2 r hr).2.2 h⟩⟩

theorem Ascending_snoc (rs : List (Nat × Nat)) (n lo hi : Nat) (ha : Ascending rs n)
    (h1 : n < lo) (h2 : lo ≤ hi) : Ascending (rs ++ [(lo, hi)]) hi := by
  refine ⟨?_, ?_⟩
  · rw [List.pairwise_append]
    refine ⟨ha.1, by simp, ?_⟩
    intro r hr q hq
    simp only [List.mem_singleton] at hq
    subst hq
    have := (ha.2 r hr).2.2
    simp only
    omega
  · intro r hr
    simp only [List.mem_append, List.mem_singleton] at hr
    rcases hr with hr | hr
    · have := ha.2 r hr
      omega
    · subst hr
      simp only
      omega

theorem Ascending_step (M : Nat → Nat → Bool) (nA nB : Nat) (st st2 : State) (ev : Ev)
    (ht : st2.trace = st.trace ++ [ev]) (h : Moved M nA nB st st2 ev)
    (hc : Ascending (rangesA st.trace) st.BaseA ∧ Ascending (rangesB st.trace) st.BaseB) :
    Ascending (rangesA st2.trace) st2.BaseA ∧ Ascending (rangesB st2.trace) st2.BaseB := by
  obtain ⟨cA, cB⟩ := hc
  rw [ht, rangesA_append, rangesB_append]
  rcases h with ⟨e, _, _, _, eA, eB, _⟩ | ⟨k, hk, e, _, eA, eB, _⟩ | ⟨k, hk, e, _, eA, eB, _⟩ |
    ⟨e, _, _, _, eA, eB, _⟩
  · subst e
    rw [eA, eB]
    simp only [rangesA, rangesB, List.append_nil]
    exact ⟨Ascending_mono _ _ _ (by omega) cA, Ascending_mono _ _ _ (by omega) cB⟩
  · subst e
    rw [eA, eB]
    simp only [rangesA, rangesB, List.append_nil]
    exact ⟨Ascending_snoc _ _ _ _ cA (by omega) (by omega), cB⟩
  · subst e
    rw [eA, eB]
    simp only [rangesA, rangesB, List.append_nil]
    exact ⟨cA, Ascending_snoc _ _ _ _ cB (by omega) (by omega)⟩
  · subst e
    rw [eA, eB]
    simp only [rangesA, rangesB]
    exact ⟨Ascending_snoc _ _ _ _ cA (by omega) (by omega),
      Ascending_snoc _ _ _ _ cB (by omega) (by omega)⟩

end bigcompare

namespace Compare

theorem bind_ne_timeout {α β : Type} (x : Res α) (f : α → Res β) (hx : x ≠ Res.timeout)
    (hf : ∀ a, f a ≠ Res.timeout) : x.bind f ≠ Res.timeout := by
  cases x with
  | ok a => exact hf a
  | oob => intro h; cases h
  | timeout => exact absurd rfl hx

theorem bind_eq_ok {α β : Type} (x : Res α) (f : α → Res β) (b : β) :
    x.bind f = Res.ok b ↔ ∃ a, x = Res.ok a ∧ f a = Res.ok b := by
  cases x with
  | ok a => exact ⟨fun h => ⟨a, rfl, h⟩, fun ⟨a2, e, h⟩ => (by cases e; exact h)⟩
  | oob => exact ⟨fun h => (by cases h), fun ⟨a2, e, h⟩ => (by cases e)⟩
  | timeout => exact ⟨fun h => (by cases h), fun ⟨a2, e, h⟩ => (by cases e)⟩

theorem rd_ne_timeout (tbl : List Nat) (i : Nat) : rd tbl i ≠ Res.timeout := by
  unfold rd
  cases tbl[i]? with
  | none => intro h; cases h
  | some p => intro h; cases h

theorem strncmp_ne_timeout (n : Nat) : ∀ s1 s2 : List Nat, strncmp s1 s2 n ≠ Res.timeout := by
  induction n with
  | zero => intro s1 s2 h; rw [strncmp] at h; cases h
  | succ n ih =>
    intro s1 s2
    cases s1 with
    | nil => intro h; simp [strncmp] at h
    | cons c1 t1 =>
      cases s2 with
      | nil => intro h; simp [strncmp] at h
      | cons c2 t2 =>
        rw [strncmp]
        by_cases h1 : c1 ≠ c2
        · rw [if_pos h1]; intro h; cases h
        · rw [if_neg h1]
          by_cases h2 : c1 = 0
          · rw [if_pos h2]; intro h; cases h
          · rw [if_neg h2]; exact ih t1 t2

theorem Match_ne_timeout (AA : LinePtr) (i : Nat) (BB : LinePtr) (j : Nat) :
    Compare.Match AA i BB j ≠ Res.timeout := by
  unfold Compare.Match LinePtr.get
  simp only [Res.bind_eq, Res.pure_eq]
  refine bind_ne_timeout _ _ (rd_ne_timeout _ _) (fun a1 => ?_)
  refine bind_ne_timeout _ _ (rd_ne_timeout _ _) (fun a0 => ?_)
  refine bind_ne_timeout _ _ (rd_ne_timeout _ _) (fun b1 => ?_)
  refine bind_ne_timeout _ _ (rd_ne_timeout _ _) (fun b0 => ?_)
  split
  · intro h; cases h
  · exact bind_ne_timeout _ _ (strncmp_ne_timeout _ _ _) (fun r h => by cases h)

theorem putsN_ne_timeout (n : Nat) : ∀ s : List Nat, putsN s n ≠ Res.timeout := by
  induction n with
  | zero => intro s h; rw [putsN] at h; cases h
  | succ n ih =>
    intro s
    cases s with
    | nil => intro h; rw [putsN] at h; cases h
    | cons c t =>
      rw [putsN]
      split
      · intro h; cases h
      · exact bind_ne_timeout _ _ (ih t) (fun r h => by cases h)

theorem putsAll_ne_timeout : ∀ s : List Nat, putsAll s ≠ Res.timeout := by
  intro s
  induction s with
  | nil => intro h; rw [putsAll] at h; cases h
  | cons c t ih =>
    rw [putsAll]
    split
    · intro h; cases h
    · exact bind_ne_timeout _ _ ih (fun r h => by cases h)

theorem printLine_ne_timeout (AB : LinePtr) (I Flag : Nat) (num : Int) :
    printLine AB I Flag num ≠ Res.timeout := by
  unfold printLine LinePtr.get
  simp only [Res.bind_eq, Res.pure_eq]
  refine bind_ne_timeout _ _ (rd_ne_timeout _ _) (fun p1 => ?_)
  refine bind_ne_timeout _ _ (rd_ne_timeout _ _) (fun p0 => ?_)
  refine bind_ne_timeout _ _ ?_ (fun r h => by cases h)
  unfold fmtS
  split
  · exact putsAll_ne_timeout _
  · exact putsN_ne_timeout _ _

end Compare

namespace smallcompare
open Compare

theorem PrintLoopB_ne_timeout (AB : LinePtr) (Base : Int) (Flag : Nat) (r : Nat) :
    ∀ I, PrintLoop AB Base Flag I r ≠ Res.timeout := by
  induction r with
  | zero =>
    intro I
    rw [PrintLoop]
    simp only [Res.bind_eq, Res.pure_eq]
    exact bind_ne_timeout _ _ (printLine_ne_timeout _ _ _ _) (fun r h => by cases h)
  | succ r ih =>
    intro I
    rw [PrintLoop]
    simp only [Res.bind_eq, Res.pure_eq]
    refine bind_ne_timeout _ _ (printLine_ne_timeout _ _ _ _) (fun l => ?_)
    exact bind_ne_timeout _ _ (ih _) (fun r h => by cases h)

theorem PrintB_ne_timeout (AB : LinePtr) (Base : Int) (Low High Flag : Nat) :
    Print AB Base Low High Flag ≠ Res.timeout := by
  unfold Print
  split
  · intro h; cases h
  · exact PrintLoopB_ne_timeout _ _ _ _ _

theorem MatchesLoop_ne_timeout (AA BB : LinePtr) (k : Nat) :
    ∀ line, MatchesLoop AA BB line k ≠ Res.timeout := by
  induction k with
  | zero => intro line h; rw [MatchesLoop] at h; cases h
  | succ k ih =>
    intro line
    rw [MatchesLoop]
    simp only [Res.bind_eq, Res.pure_eq]
    refine bind_ne_timeout _ _ (Match_ne_timeout _ _ _ _) (fun m => ?_)
    split
    · exact ih _
    · intro h; cases h

theorem slideA_ne_timeout (AA BB : LinePtr) (L r : Nat) :
    ∀ Ap, slideA AA BB L Ap r ≠ Res.timeout := by
  induction r with
  | zero =>
    intro Ap
    rw [slideA]
    simp only [Res.bind_eq, Res.pure_eq]
    refine bind_ne_timeout _ _ (MatchesLoop_ne_timeout _ _ _ _) (fun m => ?_)
    split <;> (intro h; cases h)
  | succ r ih =>
    intro Ap
    rw [slideA]
    simp only [Res.bind_eq, Res.pure_eq]
    refine bind_ne_timeout _ _ (MatchesLoop_ne_timeout _ _ _ _) (fun m => ?_)
    split
    · intro h; cases h
    · exact ih _

theorem slideB_ne_timeout (AA BB : LinePtr) (L r : Nat) :
    ∀ Bp, slideB AA BB L Bp r ≠ Res.timeout := by
  induction r with
  | zero =>
    intro Bp
    rw [slideB]
    simp only [Res.bind_eq, Res.pure_eq]
    refine bind_ne_timeout _ _ (MatchesLoop_ne_timeout _ _ _ _) (fun m => ?_)
    split <;> (intro h; cases h)
  | succ r ih =>
    intro Bp
    rw [slideB]
    simp only [Res.bind_eq, Res.pure_eq]
    refine bind_ne_timeout _ _ (MatchesLoop_ne_timeout _ _ _ _) (fun m => ?_)
    split
    · intro h; cases h
    · exact ih _

theorem slideA_bound (AA BB : LinePtr) (L r : Nat) :
    ∀ p Ap, slideA AA BB L p r = Res.ok (some Ap) → p ≤ Ap ∧ Ap ≤ p + r := by
  induction r with
  | zero =>
    intro p Ap h
    rw [slideA] at h
    simp only [Res.bind_eq, Res.pure_eq] at h
    obtain ⟨m, _, h2⟩ := (bind_eq_ok _ _ _).1 h
    cases m with
    | true => simp only [if_true] at h2; cases h2; omega
    | false => simp at h2
  | succ r ih =>
    intro p Ap h
    rw [slideA] at h
    simp only [Res.bind_eq, Res.pure_eq] at h
    obtain ⟨m, _, h2⟩ := (bind_eq_ok _ _ _).1 h
    cases m with
    | true => simp only [if_true] at h2; cases h2; omega
    | false =>
      simp only [Bool.false_eq_true, if_false] at h2
      have := ih _ _ h2
      omega

theorem slideB_bound (AA BB : LinePtr) (L r : Nat) :
    ∀ p Bp, slideB AA BB L p r = Res.ok (some Bp) → p ≤ Bp ∧ Bp ≤ p + r := by
  induction r with
  | zero =>
    intro p Bp h
    rw [slideB] at h
    simp only [Res.bind_eq, Res.pure_eq] at h
    obtain ⟨m, _, h2⟩ := (bind_eq_ok _ _ _).1 h
    cases m with
    | true => simp only [if_true] at h2; cases h2; omega
    | false => simp at h2
  | succ r ih =>
    intro p Bp h
    rw [slideB] at h
    simp only [Res.bind_eq, Res.pure_eq] at h
    obtain ⟨m, _, h2⟩ := (bind_eq_ok _ _ _).1 h
    cases m with
    | true => simp only [if_true] at h2; cases h2; omega
    | false =>
      simp only [Bool.false_eq_true, if_false] at h2
      have := ih _ _ h2
      omega

theorem search_ne_timeout (AA : LinePtr) (a : Nat) (BB : LinePtr) (b : Nat) (m : Nat) :
    search AA a BB b m ≠ Res.timeout := by
  induction m with
  | zero => intro h; rw [search] at h; cases h
  | succ m ih =>
    rw [search]
    simp only [Res.bind_eq, Res.pure_eq]
    refine bind_ne_timeout _ _ (slideA_ne_timeout _ _ _ _ _) (fun r => ?_)
    cases r with
    | some Ap => intro h; cases h
    | none =>
      refine bind_ne_timeout _ _ (slideB_ne_timeout _ _ _ _ _) (fun r => ?_)
      cases r with
      | some Bp => intro h; cases h
      | none => exact ih

theorem search_bound (AA : LinePtr) (a : Nat) (BB : LinePtr) (b : Nat) (m : Nat) (hit : Hit)
    (h : search AA a BB b m = Res.ok (some hit)) :
    (∀ Ap L, hit = Hit.inA Ap L → 1 ≤ L ∧ L ≤ m ∧ Ap ≤ a) ∧
    (∀ Bp L, hit = Hit.inB Bp L → 1 ≤ L ∧ L ≤ m ∧ Bp ≤ b) := by
  induction m with
  | zero => rw [search] at h; cases h
  | succ m ih =>
    rw [search] at h
    simp only [Res.bind_eq, Res.pure_eq] at h
    obtain ⟨r, h1, h2⟩ := (bind_eq_ok _ _ _).1 h
    cases r with
    | some Ap =>
      cases h2
      have := slideA_bound _ _ _ _ _ _ h1
      refine ⟨fun Ap2 L e => ?_, fun Bp L e => (by cases e)⟩
      cases e
      omega
    | none =>
      obtain ⟨r2, h3, h4⟩ := (bind_eq_ok _ _ _).1 h2
      cases r2 with
      | some Bp =>
        cases h4
        have := slideB_bound _ _ _ _ _ _ h3
        refine ⟨fun Ap L e => (by cases e), fun Bp2 L e => ?_⟩
        cases e
        omega
      | none =>
        obtain ⟨i1, i2⟩ := ih h4
        refine ⟨fun Ap L e => ?_, fun Bp L e => ?_⟩
        · have := i1 Ap L e; omega
        · have := i2 Bp L e; omega

end smallcompare

namespace Compare

theorem bind_spec {α β : Type} (x : Res α) (f : α → Res β) (Q : β → Prop)
    (hx : x ≠ Res.timeout)
    (hf : ∀ a, x = Res.ok a → f a ≠ Res.timeout ∧ ∀ b, f a = Res.ok b → Q b) :
    x.bind f ≠ Res.timeout ∧ ∀ b, x.bind f = Res.ok b → Q b := by
  cases x with
  | ok a => exact hf a rfl
  | oob => exact ⟨fun h => (by cases h), fun b h => (by cases h)⟩
  | timeout => exact absurd rfl hx

end Compare

namespace smallcompare
open Compare

theorem callsBelow_nil (s : Int) : callsBelow s [] := by
  intro oa a ob b h
  cases h

theorem callsBelow_printed (s : Int) (Flag : Nat) (AB : LinePtr) (n : Nat) :
    callsBelow s (printedEvs Flag AB n) := by
  intro oa a ob b h
  simp [printedEvs] at h

theorem callsBelow_join (s : Int) (oa1 ob1 oa2 ob2 : Nat) (a1 b1 a2 b2 : Int)
    (e : Ev) (he : ∀ oa a ob b, e ≠ Ev.call oa a ob b) (r1 r2 : List Ev)
    (h1 : callsBelow (a1 + b1) r1) (h2 : callsBelow (a2 + b2) r2)
    (l1 : a1 + b1 < s) (l2 : a2 + b2 < s) :
    callsBelow s (e :: Ev.call oa1 a1 ob1 b1 :: r1 ++ Ev.call oa2 a2 ob2 b2 :: r2) := by
  intro oa a ob b h
  simp only [List.cons_append, List.mem_cons, List.mem_append] at h
  rcases h with h | h | h | h | h
  · exact absurd h.symm (he _ _ _ _)
  · cases h; exact l1
  · have := h1 _ _ _ _ h; omega
  · cases h; exact l2
  · have := h2 _ _ _ _ h; omega

theorem COMPARE_terminates (fuel : Nat) :
    ∀ (AA : LinePtr) (Alines Abase : Int) (BB : LinePtr) (Blines Bbase : Int) (st : Out),
    (Alines + Blines).toNat < fuel →
    COMPARE fuel AA Alines Abase BB Blines Bbase st ≠ Res.timeout ∧
    ∀ st2, COMPARE fuel AA Alines Abase BB Blines Bbase st = Res.ok st2 →
      ∃ rest, st2.trace = st.trace ++ Ev.call AA.off Alines BB.off Blines :: rest ∧
        callsBelow (Alines + Blines) rest := by
  induction fuel with
  | zero => intro AA Alines Abase BB Blines Bbase st hf; omega
  | succ fuel ih =>
    intro AA Alines Abase BB Blines Bbase st hf
    rw [COMPARE]
    by_cases c1 : Alines ≤ 0 ∧ Blines ≤ 0
    · simp only [if_pos c1]
      refine ⟨fun h => (by cases h), fun st2 h => ?_⟩
      cases h
      exact ⟨[], rfl, callsBelow_nil _⟩
    · by_cases c2 : Alines ≤ 0
      · simp only [if_neg c1, if_pos c2, Res.bind_eq, Res.pure_eq]
        refine bind_spec _ _ _ (PrintB_ne_timeout _ _ _ _ _) (fun ls _ => ?_)
        refine ⟨fun h => (by cases h), fun st2 h => ?_⟩
        cases h
        exact ⟨printedEvs 1 BB Blines.toNat, by simp, callsBelow_printed _ _ _ _⟩
      · by_cases c3 : Blines ≤ 0
        · simp only [if_neg c1, if_neg c2, if_pos c3, Res.bind_eq, Res.pure_eq]
          refine bind_spec _ _ _ (PrintB_ne_timeout _ _ _ _ _) (fun ls _ => ?_)
          refine ⟨fun h => (by cases h), fun st2 h => ?_⟩
          cases h
          exact ⟨printedEvs 0 AA Alines.toNat, by simp, callsBelow_printed _ _ _ _⟩
        · simp only [if_neg c1, if_neg c2, if_neg c3, Res.bind_eq, Res.pure_eq]
          refine bind_spec _ _ _ (search_ne_timeout _ _ _ _ _) (fun r hs => ?_)
          have hm : (if Blines < Alines then Blines else Alines).toNat ≤ Alines.toNat ∧
              (if Blines < Alines then Blines else Alines).toNat ≤ Blines.toNat := by
            split <;> omega
          cases r with
          | none =>
            simp only
            refine bind_spec _ _ _ (PrintB_ne_timeout _ _ _ _ _) (fun la _ => ?_)
            refine bind_spec _ _ _ (PrintB_ne_timeout _ _ _ _ _) (fun lb _ => ?_)
            obtain ⟨n1, n2⟩ := ih (AA.add 1) (Alines - 1) (Abase + 1) (BB.add 1) (Blines - 1)
              (Bbase + 1)
              { stdout := st.stdout ++ la ++ lb ++ [OutLine.dashes], Same := false,
                trace := st.trace ++ [Ev.call AA.off Alines BB.off Blines]
                  ++ [Ev.printed 0 AA.off, Ev.printed 1 BB.off] } (by omega)
            refine ⟨n1, fun st2 h => ?_⟩
            obtain ⟨rest, e, hb⟩ := n2 st2 h
            refine ⟨Ev.printed 0 AA.off :: Ev.printed 1 BB.off ::
              Ev.call (AA.add 1).off (Alines - 1) (BB.add 1).off (Blines - 1) :: rest, ?_, ?_⟩
            · rw [e]; simp
            · intro oa a ob b hmem
              simp only [List.mem_cons] at hmem
              rcases hmem with hmem | hmem | hmem | hmem
              · cases hmem
              · cases hmem
              · cases hmem; omega
              · have := hb _ _ _ _ hmem; omega
          | some hit =>
            obtain ⟨bA, bB⟩ := search_bound _ _ _ _ _ _ hs
            cases hit with
            | inA Ap L =>
              simp only
              obtain ⟨i1, i2, i3⟩ := bA Ap L rfl
              obtain ⟨n1, n2⟩ := ih AA Ap Abase BB 0 Bbase
                { st with trace := st.trace ++ [Ev.call AA.off Alines BB.off Blines]
                    ++ [Ev.block (AA.off + Ap) BB.off L] } (by omega)
              refine bind_spec _ _ _ n1 (fun st2 h2 => ?_)
              obtain ⟨r1, e1, hb1⟩ := n2 st2 h2
              obtain ⟨m1, m2⟩ := ih (AA.add (Ap + L)) (Alines - Ap - L) (Abase + Ap + L)
                (BB.add (0 + L)) (Blines - 0 - L) (Bbase + 0 + L) st2 (by omega)
              refine ⟨m1, fun st3 h3 => ?_⟩
              obtain ⟨r2, e2, hb2⟩ := m2 st3 h3
              refine ⟨Ev.block (AA.off + Ap) BB.off L :: Ev.call AA.off Ap BB.off 0 :: r1 ++
                Ev.call (AA.add (Ap + L)).off (Alines - Ap - L) (BB.add (0 + L)).off
                  (Blines - 0 - L) :: r2, ?_, ?_⟩
              · rw [e2, e1]; simp
              · exact callsBelow_join _ _ _ _ _ _ _ _ _ _ (fun _ _ _ _ h => (by cases h))
                  _ _ hb1 hb2 (by omega) (by omega)
            | inB Bp L =>
              simp only
              obtain ⟨i1, i2, i3⟩ := bB Bp L rfl
              obtain ⟨n1, n2⟩ := ih AA 0 Abase BB Bp Bbase
                { st with trace := st.trace ++ [Ev.call AA.off Alines BB.off Blines]
                    ++ [Ev.block AA.off (BB.off + Bp) L] } (by omega)
              refine bind_spec _ _ _ n1 (fun st2 h2 => ?_)
              obtain ⟨r1, e1, hb1⟩ := n2 st2 h2
              obtain ⟨m1, m2⟩ := ih (AA.add (0 + L)) (Alines - 0 - L) (Abase + 0 + L)
                (BB.add (Bp + L)) (Blines - Bp - L) (Bbase + 0 + L) st2 (by omega)
              refine ⟨m1, fun st3 h3 => ?_⟩
              obtain ⟨r2, e2, hb2⟩ := m2 st3 h3
              refine ⟨Ev.block AA.off (BB.off + Bp) L :: Ev.call AA.off 0 BB.off Bp :: r1 ++
                Ev.call (AA.add (0 + L)).off (Alines - 0 - L) (BB.add (Bp + L)).off
                  (Blines - Bp - L) :: r2, ?_, ?_⟩
              · rw [e2, e1]; simp
              · exact callsBelow_join _ _ _ _ _ _ _ _ _ _ (fun _ _ _ _ h => (by cases h))
                  _ _ hb1 hb2 (by omega) (by omega)

end smallcompare

namespace Compare

theorem mem_unlines (ls : List (List Nat)) (l : List Nat) (hl : l ∈ ls) (c : Nat) (hc : c ∈ l) :
    c ∈ unlines ls := by
  unfold unlines
  rw [List.mem_flatMap]
  exact ⟨l, hl, List.mem_append_left _ hc⟩

theorem split_text (buf : List Nat) (h0 : 0 ∉ buf) :
    (∀ l ∈ (splitLines buf).1, TextLine l) ∧ TextLine (splitLines buf).2 := by
  obtain ⟨e, h1, h2⟩ := splitLines_spec buf
  constructor
  · intro l hl c hc
    constructor
    · intro h10; subst h10; exact h1 l hl hc
    · intro hz; subst hz
      apply h0
      rw [← e]
      exact List.mem_append_left _ (mem_unlines _ l hl 0 hc)
  · intro c hc
    constructor
    · intro h10; subst h10; exact h2 hc
    · intro hz; subst hz
      apply h0
      rw [← e]
      exact List.mem_append_right _ hc

end Compare

namespace smallcompare
open Compare

theorem guarded_buf (Aconad Bconad : List Nat) (hA : 0 ∉ Aconad) (hB : 0 ∉ Bconad) :
    Guarded (Mof (spansOf (splitLines Aconad).1 (splitLines Aconad).2)
      (spansOf (splitLines Bconad).1 (splitLines Bconad).2))
      (buildTable Aconad).lines (buildTable Bconad).lines :=
  guarded_text _ _ _ _ _ _ (buildTable_split Aconad).lines_eq (buildTable_split Bconad).lines_eq
    (split_text Aconad hA).2 (split_text Bconad hB).2

theorem runB_ok (Aconad Bconad : List Nat) (hA : 0 ∉ Aconad) (hB : 0 ∉ Bconad) :
    ∃ out, run Aconad Bconad = Res.ok out := by
  obtain ⟨out, e, _⟩ := COMPARE_ind _ _ _ _ _ _ (buildTable_split Aconad)
    (buildTable_split Bconad) (guarded_buf Aconad Bconad hA hB)
    (fun _ _ _ _ _ _ _ _ => True)
    (fun _ _ _ _ _ _ _ => trivial) (fun _ _ _ _ _ _ _ _ _ => trivial)
    (fun _ _ _ _ _ _ _ _ _ => trivial)
    (fun _ _ _ _ _ _ _ _ _ _ _ _ _ _ _ _ _ _ _ _ _ => trivial)
    (fun _ _ _ _ _ _ _ _ _ _ _ _ _ _ _ _ _ _ _ _ _ => trivial)
    (fun _ _ _ _ _ _ _ _ _ _ _ _ _ _ => trivial)
    ((buildTable Aconad).lines + (buildTable Bconad).lines + 1) 0 (buildTable Aconad).lines 0
    0 (buildTable Bconad).lines 0 { stdout := [], Same := true, trace := [] }
    (by omega) (by omega) (fun _ _ => ⟨by omega, by omega⟩) (by omega)
  exact ⟨out, e⟩

end smallcompare

namespace Compare

theorem rd_oob_of_le (tbl : List Nat) (i : Nat) (h : tbl.length ≤ i) : rd tbl i = Res.oob := by
  unfold rd
  rw [List.getElem?_eq_none h]

theorem rd_ok_of_lt (tbl : List Nat) (i : Nat) (h : i < tbl.length) :
    ∃ p, rd tbl i = Res.ok p := by
  unfold rd
  rw [List.getElem?_eq_getElem h]
  exact ⟨_, rfl⟩

theorem buildTable_AA_length (buf : List Nat) :
    (buildTable buf).AA.length = (buildTable buf).lines + 2 := by
  have hT := buildTable_split buf
  rw [hT.AA, offsets_length, ← hT.lines]

theorem Match_oob (X Y : List Nat) (oa i ob j : Nat)
    (h : (buildTable X).lines < oa + i ∨ (buildTable Y).lines < ob + j) :
    Compare.Match ⟨buildTable X, oa⟩ i ⟨buildTable Y, ob⟩ j = Res.oob := by
  have lX := buildTable_AA_length X
  have lY := buildTable_AA_length Y
  unfold Compare.Match LinePtr.get
  simp only [Res.bind_eq, Res.pure_eq]
  by_cases hA : (buildTable X).lines < oa + i
  · rw [rd_oob_of_le _ _ (by omega)]
    rfl
  · obtain ⟨a1, e1⟩ := rd_ok_of_lt (buildTable X).AA (oa + (i + 1)) (by omega)
    obtain ⟨a0, e0⟩ := rd_ok_of_lt (buildTable X).AA (oa + i) (by omega)
    have hB : (buildTable Y).lines < ob + j := by
      rcases h with h | h
      · exact absurd h hA
      · exact h
    rw [e1, e0, rd_oob_of_le (buildTable Y).AA (ob + (j + 1)) (by omega)]
    rfl

end Compare

namespace smallcompare
open Compare

theorem callsInside_nil (nA nB : Nat) : callsInside nA nB [] := by
  intro oa a ob b h
  cases h

theorem callsInside_append (nA nB : Nat) (d1 d2 : List Ev) (h1 : callsInside nA nB d1)
    (h2 : callsInside nA nB d2) : callsInside nA nB (d1 ++ d2) := by
  intro oa a ob b h
  rcases List.mem_append.1 h with h | h
  · exact h1 _ _ _ _ h
  · exact h2 _ _ _ _ h

theorem callsInside_printed (nA nB : Nat) (Flag : Nat) (AB : LinePtr) (n : Nat) :
    callsInside nA nB (printedEvs Flag AB n) := by
  intro oa a ob b h
  simp [printedEvs] at h

theorem callsInside_call (nA nB : Nat) (oa a ob b : Nat) (ha : oa + a ≤ nA) (hb : ob + b ≤ nB)
    (hx : 0 < a → 0 < b → oa + a = nA ∧ ob + b = nB) :
    callsInside nA nB [Ev.call oa a ob b] := by
  intro oa2 a2 ob2 b2 h
  simp only [List.mem_singleton] at h
  cases h
  refine ⟨by omega, by omega, by omega, by omega, fun p q => ?_⟩
  have := hx (by omega) (by omega)
  omega

theorem callsInside_other (nA nB : Nat) (e : Ev) (he : ∀ oa a ob b, e ≠ Ev.call oa a ob b) :
    callsInside nA nB [e] := by
  intro oa a ob b h
  simp only [List.mem_singleton] at h
  exact absurd h.symm (he _ _ _ _)

theorem runB_callsInside (Aconad Bconad : List Nat) (hA : 0 ∉ Aconad) (hB : 0 ∉ Bconad) :
    ∃ out, run Aconad Bconad = Res.ok out ∧
      callsInside (buildTable Aconad).lines (buildTable Bconad).lines out.trace := by
  obtain ⟨out, e, d, ed, hd⟩ := COMPARE_ind _ _ _ _ _ _ (buildTable_split Aconad)
    (buildTable_split Bconad) (guarded_buf Aconad Bconad hA hB)
    (fun _ _ _ _ _ _ st st2 => ∃ d, st2.trace = st.trace ++ d ∧
      callsInside (buildTable Aconad).lines (buildTable Bconad).lines d)
    (fun oa ob _ _ st h1 h2 =>
      ⟨[Ev.call oa 0 ob 0], rfl, callsInside_call _ _ oa 0 ob 0 (by omega) (by omega)
        (fun h _ => by omega)⟩)
    (fun oa ob b _ _ st hb h1 h2 =>
      ⟨[Ev.call oa 0 ob b] ++ printedEvs 1 ⟨buildTable Bconad, ob⟩ b, by simp,
        callsInside_append _ _ _ _
          (callsInside_call _ _ oa 0 ob b (by omega) h2 (fun h _ => by omega))
          (callsInside_printed _ _ _ _ _)⟩)
    (fun oa a ob _ _ st ha h1 h2 =>
      ⟨[Ev.call oa a ob 0] ++ printedEvs 0 ⟨buildTable Aconad, oa⟩ a, by simp,
        callsInside_append _ _ _ _
          (callsInside_call _ _ oa a ob 0 h1 (by omega) (fun _ h => by omega))
          (callsInside_printed _ _ _ _ _)⟩)
    (fun oa a _ ob b _ st Ap L st2 st3 ha hb eA eB _ _ _ _ p2 p3 => by
      obtain ⟨d1, e1, h1⟩ := p2
      obtain ⟨d2, e2, h2⟩ := p3
      refine ⟨[Ev.call oa a ob b] ++ [Ev.block (oa + Ap) ob L] ++ d1 ++ d2, ?_, ?_⟩
      · rw [e2, e1]; simp
      · exact callsInside_append _ _ _ _ (callsInside_append _ _ _ _ (callsInside_append _ _ _ _
          (callsInside_call _ _ oa a ob b (by omega) (by omega) (fun _ _ => ⟨eA, eB⟩))
          (callsInside_other _ _ _ (fun _ _ _ _ h => by cases h))) h1) h2)
    (fun oa a _ ob b _ st Bp L st2 st3 ha hb eA eB _ _ _ _ p2 p3 => by
      obtain ⟨d1, e1, h1⟩ := p2
      obtain ⟨d2, e2, h2⟩ := p3
      refine ⟨[Ev.call oa a ob b] ++ [Ev.block oa (ob + Bp) L] ++ d1 ++ d2, ?_, ?_⟩
      · rw [e2, e1]; simp
      · exact callsInside_append _ _ _ _ (callsInside_append _ _ _ _ (callsInside_append _ _ _ _
          (callsInside_call _ _ oa a ob b (by omega) (by omega) (fun _ _ => ⟨eA, eB⟩))
          (callsInside_other _ _ _ (fun _ _ _ _ h => by cases h))) h1) h2)
    (fun oa a _ ob b _ st st3 ha hb eA eB _ p3 => by
      obtain ⟨d2, e2, h2⟩ := p3
      refine ⟨[Ev.call oa a ob b] ++ [Ev.printed 0 oa, Ev.printed 1 ob] ++ d2, ?_, ?_⟩
      · rw [e2]; simp
      · refine callsInside_append _ _ _ _ (callsInside_append _ _ _ _
          (callsInside_call _ _ oa a ob b (by omega) (by omega) (fun _ _ => ⟨eA, eB⟩)) ?_) h2
        intro oa2 a2 ob2 b2 h
        simp at h)
    ((buildTable Aconad).lines + (buildTable Bconad).lines + 1) 0 (buildTable Aconad).lines 0
    0 (buildTable Bconad).lines 0 { stdout := [], Same := true, trace := [] }
    (by omega) (by omega) (fun _ _ => ⟨by omega, by omega⟩) (by omega)
  refine ⟨out, e, ?_⟩
  simp only [List.nil_append] at ed
  rw [ed]
  exact hd

end smallcompare

namespace bigcompare
open Compare

theorem pstep_delete_one (M : Nat → Nat → Bool) (TA TB : LineTable) (st : State)
    (ha : st.BaseA < TA.lines) (hb : st.BaseB < TB.lines) (hm : M st.BaseA st.BaseB = false)
    (hB : ∀ k, st.BaseB < k → k < TB.lines → M st.BaseA k = false)
    (k : Nat) (h1 : st.BaseA < k) (h2 : k < TA.lines) (h3 : M k st.BaseB = true) :
    pstep M TA TB st = some
      ({ Separator st.BaseA 0 { st with Same := false } with
          stdout := (Separator st.BaseA 0 { st with Same := false }).stdout
            ++ printed TA 0 st.BaseA st.BaseA,
          BaseA := st.BaseA + 1, Same := false }.log
        (.Deletion (st.BaseA + 1) (st.BaseA + 1))) := by
  have c1 : ¬ (st.BaseA ≥ TA.lines ∧ st.BaseB ≥ TB.lines) := by omega
  have c2 : ¬ (st.BaseA ≥ TA.lines) := by omega
  have c3 : ¬ (st.BaseB ≥ TB.lines) := by omega
  have c4 : ¬ (M st.BaseA st.BaseB = true) := by rw [hm]; simp
  have eB := pscanB_fails M TB.lines st.BaseA TB.lines st.BaseB (by omega) (by omega) hB
  have eA := pscanA_finds M TA.lines st.BaseB TA.lines st.BaseA (by omega) (by omega) k h1 h2 h3
  rw [pstep, if_neg c1, if_neg c2, if_neg c3, if_neg c4]
  simp only [eB, eA, Bool.and_false, Bool.false_eq_true, if_false, if_true]

theorem Separator_stdout_same (Line Flag : Int) (st : State) (b : Bool) :
    (Separator Line Flag { st with Same := b }).stdout = (Separator Line Flag st).stdout := by
  unfold Separator
  split <;> rfl

theorem matchIs_val (TA TB : LineTable) (M : Nat → Nat → Bool) (hM : MatchIs TA TB M)
    (a b : Nat) (ha : a < TA.lines) (hb : b < TB.lines) (v : Bool)
    (h : Match TA TB a b = Res.ok v) : M a b = v := by
  rw [hM a b ha hb] at h
  cases h
  rfl

end bigcompare

namespace Compare

theorem lineEq_comm (s s2 : List Nat) : lineEq s s2 = lineEq s2 s := by
  unfold lineEq
  rw [decide_eq_decide]
  constructor
  · rintro ⟨h1, h2⟩; exact ⟨h1.symm, h2.symm⟩
  · rintro ⟨h1, h2⟩; exact ⟨h1.symm, h2.symm⟩

theorem Mof_comm (spA spB : List (List Nat)) (a b : Nat) : Mof spB spA b a = Mof spA spB a b := by
  unfold Mof
  exact lineEq_comm _ _

end Compare

namespace bigcompare
open Compare

theorem pscanB_flip (M : Nat → Nat → Bool) (n x : Nat) (fuel : Nat) :
    ∀ y, pscanB (fun p q => M q p) n x fuel y = pscanA M n x fuel y := by
  induction fuel with
  | zero => intro y; rfl
  | succ k ih => intro y; simp only [pscanB, pscanA, ih]

theorem pscanA_flip (M : Nat → Nat → Bool) (n x : Nat) (fuel : Nat) :
    ∀ y, pscanA (fun p q => M q p) n x fuel y = pscanB M n x fuel y := by
  induction fuel with
  | zero => intro y; rfl
  | succ k ih => intro y; simp only [pscanB, pscanA, ih]

theorem pstep_pdecide (M : Nat → Nat → Bool) (TA TB : LineTable) (st : State) :
    (pstep M TA TB st).map (fun s => (s.BaseA, s.BaseB, s.Same, records s.trace))
      = (pdecide M TA.lines TB.lines st.BaseA st.BaseB).map
          (fun d => (d.1, d.2.1, (if d.2.2 = none then st.Same else false),
            records st.trace ++ d.2.2.toList)) := by
  unfold pstep pdecide
  by_cases c1 : st.BaseA ≥ TA.lines ∧ st.BaseB ≥ TB.lines
  · simp only [if_pos c1]; rfl
  · by_cases c2 : st.BaseA ≥ TA.lines
    · simp only [if_neg c1, if_pos c2]
      simp [State.log, records_append, records]
    · by_cases c3 : st.BaseB ≥ TB.lines
      · simp only [if_neg c1, if_neg c2, if_pos c3]
        simp [State.log, records_append, records]
      · by_cases c4 : M st.BaseA st.BaseB = true
        · simp only [if_neg c1, if_neg c2, if_neg c3, if_pos c4]
          simp [records_append, records]
        · simp only [if_neg c1, if_neg c2, if_neg c3, if_neg c4]
          generalize pscanB M TB.lines st.BaseA TB.lines st.BaseB = rb
          generalize pscanA M TA.lines st.BaseB TA.lines st.BaseA = ra
          obtain ⟨rb1, rb2⟩ := rb
          obtain ⟨ra1, ra2⟩ := ra
          cases rb2 <;> cases ra2
          · simp only [Bool.and_self, Bool.false_eq_true, if_false]
            by_cases c5 : ra1 - st.BaseA < rb1 - st.BaseB
            · simp only [if_pos c5]
              simp [State.log, records_append, records]
            · by_cases c6 : rb1 - st.BaseB < ra1 - st.BaseA
              · simp only [if_neg c5, if_pos c6]
                simp [State.log, records_append, records]
              · simp only [if_neg c5, if_neg c6]
                simp [State.log, preplaceOne, records_append, records]
          · simp only [Bool.false_and, Bool.false_eq_true, if_false, if_true]
            simp [State.log, records_append, records]
          · simp only [Bool.and_false, Bool.false_eq_true, if_false, if_true]
            simp [State.log, records_append, records]
          · simp only [Bool.and_self, if_true]
            simp [State.log, preplaceOne, records_append, records]

theorem pdecide_swap (M : Nat → Nat → Bool) (nA nB a b : Nat) :
    pdecide (fun p q => M q p) nB nA b a
      = (pdecide M nA nB a b).map (fun d => (d.2.1, d.1, d.2.2.map ChangeRecord.swap)) := by
  unfold pdecide
  simp only [pscanB_flip, pscanA_flip]
  generalize pscanB M nB a nB b = rb
  generalize pscanA M nA b nA a = ra
  obtain ⟨rb1, rb2⟩ := rb
  obtain ⟨ra1, ra2⟩ := ra
  by_cases c1 : a ≥ nA
  · by_cases c2 : b ≥ nB
    · simp [c1, c2]
    · simp [c1, c2, ChangeRecord.swap]
  · by_cases c2 : b ≥ nB
    · simp [c1, c2, ChangeRecord.swap]
    · cases hm : M a b
      · cases rb2 <;> cases ra2
        · simp only [c1, c2, hm, and_self, if_false, Bool.false_eq_true, Bool.and_self]
          by_cases c3 : ra1 - a < rb1 - b
          · have c4 : ¬ (rb1 - b < ra1 - a) := by omega
            simp [c3, c4, ChangeRecord.swap]
          · by_cases c4 : rb1 - b < ra1 - a
            · simp [c3, c4, ChangeRecord.swap]
            · simp [c3, c4, ChangeRecord.swap]
        · simp [c1, c2, hm, ChangeRecord.swap]
        · simp [c1, c2, hm, ChangeRecord.swap]
        · simp [c1, c2, hm, ChangeRecord.swap]
      · simp [c1, c2, hm]

theorem pstep_swapped (M : Nat → Nat → Bool) (TA TB : LineTable) (st st2 : State)
    (h : Swapped st st2) :
    (pstep M TA TB st = none → pstep (fun p q => M q p) TB TA st2 = none) ∧
    (∀ s, pstep M TA TB st = some s →
      ∃ s2, pstep (fun p q => M q p) TB TA st2 = some s2 ∧ Swapped s s2) := by
  obtain ⟨h1, h2, h3, h4⟩ := h
  have e1 := pstep_pdecide M TA TB st
  have e2 := pstep_pdecide (fun p q => M q p) TB TA st2
  rw [h1, h2, pdecide_swap] at e2
  constructor
  · intro hn
    rw [hn] at e1
    cases hd : pdecide M TA.lines TB.lines st.BaseA st.BaseB with
    | some d => rw [hd] at e1; cases e1
    | none =>
      rw [hd] at e2
      cases hp : pstep (fun p q => M q p) TB TA st2 with
      | none => rfl
      | some s2 => rw [hp] at e2; cases e2
  · intro s hs
    rw [hs] at e1
    cases hd : pdecide M TA.lines TB.lines st.BaseA st.BaseB with
    | none => rw [hd] at e1; cases e1
    | some d =>
      rw [hd] at e1 e2
      cases hp : pstep (fun p q => M q p) TB TA st2 with
      | none => rw [hp] at e2; cases e2
      | some s2 =>
        rw [hp] at e2
        simp only [Option.map_some', Option.some.injEq, Prod.mk.injEq] at e1 e2
        obtain ⟨a1, a2, a3, a4⟩ := e1
        obtain ⟨b1, b2, b3, b4⟩ := e2
        refine ⟨s2, rfl, ?_, ?_, ?_, ?_⟩
        · rw [b1, a2]
        · rw [b2, a1]
        · rw [b3, a3, h3]
          cases d.2.2 <;> simp
        · rw [b4, a4, h4]
          cases d.2.2 <;> simp

theorem mainLoop_swapped (TA TB : LineTable) (M : Nat → Nat → Bool) (hM : MatchIs TA TB M)
    (hPA : PrintIs TA) (hPB : PrintIs TB) (hM2 : MatchIs TB TA (fun p q => M q p)) (fuel : Nat) :
    ∀ st st2 r, Swapped st st2 → mainLoop TA TB fuel st = Res.ok r →
      ∃ r2, mainLoop TB TA fuel st2 = Res.ok r2 ∧ Swapped r r2 := by
  induction fuel with
  | zero => intro st st2 r _ h; rw [mainLoop] at h; cases h
  | succ k ih =>
    intro st st2 r hs h
    rw [mainLoop, step_eq TA TB M hM hPA hPB st] at h
    rw [mainLoop, step_eq TB TA _ hM2 hPB hPA st2]
    obtain ⟨p1, p2⟩ := pstep_swapped M TA TB st st2 hs
    cases hp : pstep M TA TB st with
    | none =>
      rw [hp] at h
      rw [p1 hp]
      simp only [Res.bind_eq, Res.bind_ok, Res.pure_eq] at h ⊢
      cases h
      exact ⟨st2, rfl, hs⟩
    | some s =>
      rw [hp] at h
      obtain ⟨s2, e2, hs2⟩ := p2 s hp
      rw [e2]
      simp only [Res.bind_eq, Res.bind_ok] at h ⊢
      exact ih s s2 r hs2 h

theorem run_swapped (Aconad Bconad : List Nat) :
    ∃ st st2, run Aconad Bconad = Res.ok st ∧ run Bconad Aconad = Res.ok st2 ∧
      Swapped st st2 := by
  have hA := buildTable_split Aconad
  have hB := buildTable_split Bconad
  have hM := matchIs_of_tables _ _ _ _ hA hB
  have hM2 : MatchIs (buildTable Bconad) (buildTable Aconad)
      (fun p q => Mof (spansOf (splitLines Aconad).1 (splitLines Aconad).2)
        (spansOf (splitLines Bconad).1 (splitLines Bconad).2) q p) := by
    intro a b ha hb
    rw [matchIs_of_tables _ _ _ _ hB hA a b ha hb, Mof_comm]
  have hPA := printIs_of_table _ _ _ hA
  have hPB := printIs_of_table _ _ _ hB
  obtain ⟨st, e, _, _, _⟩ := run_inv Aconad Bconad _ _ _ _ hA hB (fun _ => True) trivial
    (fun _ _ _ _ _ => trivial)
  have e1 : mainLoop (buildTable Aconad) (buildTable Bconad)
      ((buildTable Aconad).lines + (buildTable Bconad).lines + 1) initState = Res.ok st := e
  obtain ⟨st2, e2, hs⟩ := mainLoop_swapped _ _ _ hM hPA hPB hM2 _ initState initState st
    ⟨rfl, rfl, rfl, rfl⟩ e1
  refine ⟨st, st2, e, ?_, hs⟩
  unfold run
  simp only []
  rw [Nat.add_comm (buildTable Bconad).lines (buildTable Aconad).lines]
  exact e2

theorem pairs_append (xs ys : List Ev) : pairs (xs ++ ys) = pairs xs ++ pairs ys := by
  induction xs with
  | nil => rfl
  | cons e es ih => cases e <;> simp [pairs, ih]

theorem kept_succ (rs : List (Nat × Nat)) (n : Nat) (h : ∀ r ∈ rs, r.2 ≤ n) :
    kept rs (n + 1) = kept rs n ++ [n + 1] := by
  unfold kept
  have e : ([1 + n] : List Nat).filter
      (fun i => rs.all (fun r => !(decide (r.1 ≤ i) && decide (i ≤ r.2)))) = [n + 1] := by
    rw [Nat.add_comm 1 n, List.filter_eq_self.2]
    intro i hi
    simp only [List.mem_singleton] at hi
    subst hi
    rw [List.all_eq_true]
    intro r hr
    have := h r hr
    have h2 : ¬ (n + 1 ≤ r.2) := by omega
    simp [h2]
  rw [List.range'_1_concat, List.filter_append, e]

theorem kept_snoc (rs : List (Nat × Nat)) (n k : Nat) :
    kept (rs ++ [(n + 1, n + k)]) (n + k) = kept rs n := by
  unfold kept
  rw [← range_snoc n k, List.filter_append]
  have e2 : (List.range' (n + 1) k).filter
      (fun i => (rs ++ [(n + 1, n + k)]).all
        (fun r => !(decide (r.1 ≤ i) && decide (i ≤ r.2)))) = [] := by
    rw [List.filter_eq_nil_iff]
    intro i hi
    rw [List.mem_range'_1] at hi
    simp only [List.all_append, List.all_cons, List.all_nil, Bool.and_true, Bool.and_eq_true,
      Bool.not_eq_true', Bool.and_eq_false_imp, decide_eq_true_eq, decide_eq_false_iff_not,
      not_and, not_forall]
    intro _
    exact ⟨by omega, by omega⟩
  rw [e2, List.append_nil]
  apply List.filter_congr
  intro i hi
  rw [List.mem_range'_1] at hi
  have h3 : ¬ (n + 1 ≤ i) := by omega
  simp [h3]

theorem Sound_step (M : Nat → Nat → Bool) (nA nB : Nat) (st st2 : State) (ev : Ev)
    (ht : st2.trace = st.trace ++ [ev]) (h : Moved M nA nB st st2 ev)
    (hc : Ascending (rangesA st.trace) st.BaseA ∧ Ascending (rangesB st.trace) st.BaseB)
    (hs : Sound M st) : Sound M st2 := by
  obtain ⟨s1, s2, s3⟩ := hs
  have bA : ∀ r ∈ rangesA st.trace, r.2 ≤ st.BaseA := fun r hr => (hc.1.2 r hr).2.2
  have bB : ∀ r ∈ rangesB st.trace, r.2 ≤ st.BaseB := fun r hr => (hc.2.2 r hr).2.2
  unfold Sound
  rw [ht, rangesA_append, rangesB_append, pairs_append]
  rcases h with ⟨e, hm, _, _, eA, eB, _⟩ | ⟨k, hk, e, _, eA, eB, _⟩ |
    ⟨k, hk, e, _, eA, eB, _⟩ | ⟨e, _, _, _, eA, eB, _⟩
  · subst e
    simp only [rangesA, rangesB, pairs, List.append_nil, List.map_append, List.map_cons,
      List.map_nil]
    rw [eA, eB, kept_succ _ _ bA, kept_succ _ _ bB, s1, s2]
    refine ⟨rfl, rfl, ?_⟩
    intro p hp
    rcases List.mem_append.1 hp with hp | hp
    · exact s3 p hp
    · simp only [List.mem_singleton] at hp
      subst hp
      simpa using hm
  · subst e
    simp only [rangesA, rangesB, pairs, List.append_nil]
    rw [eA, eB, kept_snoc _ _ _]
    exact ⟨s1, s2, s3⟩
  · subst e
    simp only [rangesA, rangesB, pairs, List.append_nil]
    rw [eA, eB, kept_snoc _ _ _]
    exact ⟨s1, s2, s3⟩
  · subst e
    simp only [rangesA, rangesB, pairs, List.append_nil]
    rw [eA, eB, kept_snoc _ _ 1, kept_snoc _ _ 1]
    exact ⟨s1, s2, s3⟩

theorem forall2_pairs (Q : Nat → Nat → Prop) (ps : List (Nat × Nat))
    (h : ∀ p ∈ ps, Q p.1 p.2) : List.Forall₂ Q (ps.map Prod.fst) (ps.map Prod.snd) := by
  induction ps with
  | nil => exact List.Forall₂.nil
  | cons p ps ih =>
    exact List.Forall₂.cons (h p (List.mem_cons_self _ _))
      (ih (fun q hq => h q (List.mem_cons_of_mem _ hq)))

theorem lastOr_snoc (prev : Option ChangeRecord) (rs : List ChangeRecord) (r : ChangeRecord) :
    lastOr prev (rs ++ [r]) = some r := by
  simp [lastOr]

theorem render_snoc (rule : ChangeRecord → ChangeRecord → Bool) (TA TB : LineTable)
    (rs : List ChangeRecord) (r : ChangeRecord) :
    ∀ prev, render rule TA TB prev (rs ++ [r])
      = render rule TA TB prev rs ++ (sepBefore rule (lastOr prev rs) r ++ linesOf TA TB r) := by
  induction rs with
  | nil => intro prev; simp [render, lastOr]
  | cons x xs ih =>
    intro prev
    have e : lastOr prev (x :: xs) = lastOr (some x) xs := by
      cases xs with
      | nil => simp [lastOr]
      | cons y ys =>
        cases hl : (y :: ys).getLast? with
        | none => simp at hl
        | some z => simp [lastOr, hl, List.getLast?_cons_cons]
    rw [List.cons_append, render, render, ih (some x), e]
    simp only [List.append_assoc]

@[simp] theorem Separator_LastLine (Line Flag : Int) (st : State) :
    (Separator Line Flag st).LastLine = Line := by
  unfold Separator; split <;> rfl

@[simp] theorem Separator_LastFlag (Line Flag : Int) (st : State) :
    (Separator Line Flag st).LastFlag = Flag := by
  unfold Separator; split <;> rfl

theorem Separator_stdout (Line Flag : Int) (st : State) :
    (Separator Line Flag st).stdout
      = st.stdout ++ (if Flag = st.LastFlag ∧ Line = st.LastLine + 1 then []
          else [OutLine.dashes]) := by
  unfold Separator
  split <;> simp

theorem pstep_out (M : Nat → Nat → Bool) (TA TB : LineTable) (st st2 : State)
    (h : pstep M TA TB st = some st2) :
    (records st2.trace = records st.trace ∧ st2.stdout = st.stdout ∧
      st2.LastLine = st.LastLine ∧ st2.LastFlag = st.LastFlag ∧
      st.BaseA ≤ st2.BaseA ∧ st.BaseB ≤ st2.BaseB) ∨
    (∃ r, st2.trace = st.trace ++ [Ev.record r] ∧
      st2.stdout = (Separator (sepArgs r).1 (sepArgs r).2 st).stdout ++ linesOf TA TB r ∧
      st2.LastLine = (sepArgs r).1 ∧ st2.LastFlag = (sepArgs r).2) := by
  unfold pstep at h
  by_cases c1 : st.BaseA ≥ TA.lines ∧ st.BaseB ≥ TB.lines
  · simp only [if_pos c1] at h; cases h
  · by_cases c2 : st.BaseA ≥ TA.lines
    · simp only [if_neg c1, if_pos c2, Option.some.injEq] at h
      subst h
      right
      refine ⟨ChangeRecord.Insertion (st.BaseB + 1) TB.lines, ?_, ?_, ?_, ?_⟩ <;> simp [State.log, sepArgs, linesOf]
    · by_cases c3 : st.BaseB ≥ TB.lines
      · simp only [if_neg c1, if_neg c2, if_pos c3, Option.some.injEq] at h
        subst h
        right
        refine ⟨ChangeRecord.Deletion (st.BaseA + 1) TA.lines, ?_, ?_, ?_, ?_⟩ <;> simp [State.log, sepArgs, linesOf]
      · by_cases c4 : M st.BaseA st.BaseB = true
        · simp only [if_neg c1, if_neg c2, if_neg c3, if_pos c4, Option.some.injEq] at h
          subst h
          left
          simp [records_append, records]
        · simp only [if_neg c1, if_neg c2, if_neg c3, if_neg c4] at h
          generalize pscanB M TB.lines st.BaseA TB.lines st.BaseB = rb at h
          generalize pscanA M TA.lines st.BaseB TA.lines st.BaseA = ra at h
          obtain ⟨rb1, rb2⟩ := rb
          obtain ⟨ra1, ra2⟩ := ra
          right
          cases rb2 <;> cases ra2
          · simp only [Bool.and_self, Bool.false_eq_true, if_false] at h
            by_cases c5 : ra1 - st.BaseA < rb1 - st.BaseB
            · simp only [if_pos c5, Option.some.injEq] at h
              subst h
              refine ⟨ChangeRecord.Deletion (st.BaseA + 1) (st.BaseA + (ra1 - st.BaseA)), ?_, ?_, ?_, ?_⟩ <;>
                simp [State.log, sepArgs, linesOf, Separator_stdout_same]
            · by_cases c6 : rb1 - st.BaseB < ra1 - st.BaseA
              · simp only [if_neg c5, if_pos c6, Option.some.injEq] at h
                subst h
                refine ⟨ChangeRecord.Insertion (st.BaseB + 1) (st.BaseB + (rb1 - st.BaseB)), ?_, ?_, ?_, ?_⟩ <;>
                  simp [State.log, sepArgs, linesOf, Separator_stdout_same]
              · simp only [if_neg c5, if_neg c6, Option.some.injEq] at h
                subst h
                refine ⟨ChangeRecord.Replacement (st.BaseA + 1) (st.BaseB + 1), ?_, ?_, ?_, ?_⟩ <;>
                  simp [State.log, preplaceOne, sepArgs, linesOf, Separator_stdout_same]
          · simp only [Bool.false_and, Bool.false_eq_true, if_false, if_true,
              Option.some.injEq] at h
            subst h
            refine ⟨ChangeRecord.Insertion (st.BaseB + 1) (st.BaseB + 1), ?_, ?_, ?_, ?_⟩ <;>
              simp [State.log, sepArgs, linesOf, Separator_stdout_same]
          · simp only [Bool.and_false, Bool.false_eq_true, if_false, if_true,
              Option.some.injEq] at h
            subst h
            refine ⟨ChangeRecord.Deletion (st.BaseA + 1) (st.BaseA + 1), ?_, ?_, ?_, ?_⟩ <;>
              simp [State.log, sepArgs, linesOf, Separator_stdout_same]
          · simp only [Bool.and_self, if_true, Option.some.injEq] at h
            subst h
            refine ⟨ChangeRecord.Replacement (st.BaseA + 1) (st.BaseB + 1), ?_, ?_, ?_, ?_⟩ <;>
              simp [State.log, preplaceOne, sepArgs, linesOf, Separator_stdout_same]

theorem sep_cond (p r : ChangeRecord) (h : follows p r) :
    ((sepArgs r).2 = (sepArgs p).2 ∧ (sepArgs r).1 = (sepArgs p).1 + 1) ↔ merged p r = true := by
  cases p <;> cases r <;>
    simp only [sepArgs, merged, adjacent, single, follows, Bool.and_eq_true, decide_eq_true_eq,
      Bool.false_and, Bool.false_eq_true, iff_false] at h ⊢ <;>
    (try simp) <;> (try omega)

theorem sep_first (r : ChangeRecord) :
    ¬ ((sepArgs r).2 = -1 ∧ (sepArgs r).1 = -1 + 1) := by
  cases r <;> simp [sepArgs]

theorem Rendered_step (M : Nat → Nat → Bool) (TA TB : LineTable) (st st2 : State)
    (hp : pstep M TA TB st = some st2) (hR : Rendered TA TB st) : Rendered TA TB st2 := by
  obtain ⟨ev, ht, hm⟩ := pstep_some M TA TB st st2 hp
  obtain ⟨r1, r2⟩ := hR
  rcases pstep_out M TA TB st st2 hp with ⟨e1, e2, e3, e4, e5, e6⟩ | ⟨r, e1, e2, e3, e4⟩
  · refine ⟨by rw [e2, e1]; exact r1, ?_⟩
    rw [e1]
    cases hl : (records st.trace).getLast? with
    | none =>
      rw [hl] at r2
      simp only [e3, e4]
      exact r2
    | some p =>
      rw [hl] at r2
      obtain ⟨q1, q2, q3⟩ := r2
      refine ⟨by rw [e3, q1], by rw [e4, q2], ?_⟩
      cases p <;> simp only [below] at q3 ⊢ <;> omega
  · have hev : ev = Ev.record r := by
      rw [ht] at e1
      have := List.append_cancel_left e1
      simpa using this
    have hrec : records st2.trace = records st.trace ++ [r] := by
      rw [e1, records_append]; rfl
    have hshape : (∀ p, below st p → follows p r) ∧ below st2 r := by
      subst hev
      rcases hm with ⟨e, _⟩ | ⟨k, hk, e, _, eA, eB, _⟩ | ⟨k, hk, e, _, eA, eB, _⟩ |
        ⟨e, _, _, _, eA, eB, _⟩
      · cases e
      · cases e
        refine ⟨fun p hb => ?_, ?_⟩
        · cases p <;> simp only [below, follows] at hb ⊢
          all_goals omega
        · simp only [below]; omega
      · cases e
        refine ⟨fun p hb => ?_, ?_⟩
        · cases p <;> simp only [below, follows] at hb ⊢
          all_goals omega
        · simp only [below]; omega
      · cases e
        refine ⟨fun p hb => ?_, ?_⟩
        · cases p <;> simp only [below, follows] at hb ⊢
        · simp only [below]
    refine ⟨?_, ?_⟩
    · rw [e2, hrec, render_snoc, Separator_stdout, r1, List.append_assoc]
      congr 2
      cases hl : (records st.trace).getLast? with
      | none =>
        rw [hl] at r2
        simp only [lastOr, hl, sepBefore, r2.1, r2.2]
        rw [if_neg (sep_first r)]
      | some p =>
        rw [hl] at r2
        obtain ⟨q1, q2, q3⟩ := r2
        simp only [lastOr, hl, sepBefore, q1, q2]
        have hc := sep_cond p r (hshape.1 p q3)
        by_cases hmg : merged p r = true
        · rw [if_pos (hc.2 hmg), if_pos hmg]
        · rw [if_neg (fun h => hmg (hc.1 h)), if_neg hmg]
    · rw [hrec]
      rw [List.getLast?_concat]
      exact ⟨e3, e4, hshape.2⟩

end bigcompare

namespace smallcompare
open Compare

theorem window_eq_iff (ls ls2 : List (List Nat)) (p p2 L : Nat) (h : p + L ≤ ls.length)
    (h2 : p2 + L ≤ ls2.length) :
    window ls p L = window ls2 p2 L ↔ ∀ i, i < L → ls.getD (p + i) [] = ls2.getD (p2 + i) [] := by
  unfold window
  constructor
  · intro e i hi
    have := congrArg (fun l => l.getD i []) e
    simp only [List.getD_eq_getElem?_getD] at this ⊢
    rw [List.getElem?_take_of_lt hi, List.getElem?_take_of_lt hi, List.getElem?_drop,
      List.getElem?_drop] at this
    exact this
  · intro e
    apply List.ext_getElem?
    intro i
    by_cases hi : i < L
    · rw [List.getElem?_take_of_lt hi, List.getElem?_take_of_lt hi, List.getElem?_drop,
        List.getElem?_drop]
      have := e i hi
      simp only [List.getD_eq_getElem?_getD] at this
      rw [List.getElem?_eq_getElem (by omega), List.getElem?_eq_getElem (by omega)] at this ⊢
      simpa using this
    · rw [List.getElem?_eq_none (by simp; omega), List.getElem?_eq_none (by simp; omega)]

theorem win_window (lsA lsB : List (List Nat)) (tA tB : List Nat) (hA : ∀ l ∈ lsA, TextLine l)
    (p p2 L : Nat) (h : p + L ≤ lsA.length) (h2 : p2 + L ≤ lsB.length) :
    win (Mof (spansOf lsA tA) (spansOf lsB tB)) p p2 L = true ↔
      window lsA p L = window lsB p2 L := by
  rw [win_true_iff, window_eq_iff lsA lsB p p2 L h h2]
  constructor
  · intro e i hi
    exact (Mof_text lsA lsB tA tB hA _ _ (by omega) (by omega)).1 (e i hi)
  · intro e i hi
    exact (Mof_text lsA lsB tA tB hA _ _ (by omega) (by omega)).2 (e i hi)

theorem WA_qualA (lsA lsB : List (List Nat)) (tA tB : List Nat) (hA : ∀ l ∈ lsA, TextLine l)
    (oa a ob b L q : Nat) (eA : oa + a = lsA.length) (eB : ob + b = lsB.length) (hL : L ≤ b) :
    WA (Mof (spansOf lsA tA) (spansOf lsB tB)) lsA.length oa ob L q = true ↔
      qualA lsA lsB oa a ob L q := by
  unfold WA qualA
  rw [Bool.and_eq_true, decide_eq_true_eq]
  constructor
  · rintro ⟨h1, h2⟩
    exact ⟨by omega, (win_window lsA lsB tA tB hA _ _ _ (by omega) (by omega)).1 h2⟩
  · rintro ⟨h1, h2⟩
    exact ⟨by omega, (win_window lsA lsB tA tB hA _ _ _ (by omega) (by omega)).2 h2⟩

theorem WB_qualB (lsA lsB : List (List Nat)) (tA tB : List Nat) (hA : ∀ l ∈ lsA, TextLine l)
    (oa a ob b L q : Nat) (eA : oa + a = lsA.length) (eB : ob + b = lsB.length) (hL : L ≤ a) :
    WB (Mof (spansOf lsA tA) (spansOf lsB tB)) lsB.length oa ob L q = true ↔
      qualB lsA lsB oa ob b L q := by
  unfold WB qualB
  rw [Bool.and_eq_true, decide_eq_true_eq]
  constructor
  · rintro ⟨h1, h2⟩
    exact ⟨by omega, (win_window lsA lsB tA tB hA _ _ _ (by omega) (by omega)).1 h2⟩
  · rintro ⟨h1, h2⟩
    exact ⟨by omega, (win_window lsA lsB tA tB hA _ _ _ (by omega) (by omega)).2 h2⟩

theorem selected_inA (lsA lsB : List (List Nat)) (tA tB : List Nat)
    (hA : ∀ l ∈ lsA, TextLine l) (nA nB oa a ob b Ap L : Nat) (hnA : nA = lsA.length)
    (hnB : nB = lsB.length) (eA : oa + a = nA) (eB : ob + b = nB)
    (hs : psearch (WA (Mof (spansOf lsA tA) (spansOf lsB tB)) nA oa ob)
      (WB (Mof (spansOf lsA tA) (spansOf lsB tB)) nB oa ob) a b (min a b)
        = some (Hit.inA Ap L)) :
    Selected lsA lsB oa a ob b (oa + Ap) ob L := by
  subst hnA; subst hnB
  obtain ⟨i1, i2, i3, i4, i5, i6⟩ := psearch_inA _ _ _ _ _ _ _ hs
  have hLa : L ≤ a := le_trans i2 (Nat.min_le_left _ _)
  have hLb : L ≤ b := le_trans i2 (Nat.min_le_right _ _)
  have q4 := (WA_qualA lsA lsB tA tB hA oa a ob b L Ap eA eB hLb).1 i4
  refine ⟨i1, i2, ?_, ?_, ?_⟩
  · intro L2 h1 h2
    have hL2a : L2 ≤ a := le_trans h2 (Nat.min_le_left _ _)
    have hL2b : L2 ≤ b := le_trans h2 (Nat.min_le_right _ _)
    obtain ⟨f1, f2⟩ := i6 L2 h1 h2
    refine ⟨fun q hq => ?_, fun q hq => ?_⟩
    · have := (WA_qualA lsA lsB tA tB hA oa a ob b L2 q eA eB hL2b).2 hq
      rw [f1 q (by have := hq.1; omega)] at this
      cases this
    · have := (WB_qualB lsA lsB tA tB hA oa a ob b L2 q eA eB hL2a).2 hq
      rw [f2 q (by have := hq.1; omega)] at this
      cases this
  · intro _
    refine ⟨rfl, by omega, ?_, ?_⟩
    · rw [Nat.add_sub_cancel_left]; exact q4
    · intro q hq hq2
      rw [Nat.add_sub_cancel_left] at hq
      have := (WA_qualA lsA lsB tA tB hA oa a ob b L q eA eB hLb).2 hq2
      rw [i5 q hq] at this
      cases this
  · intro hn
    exact absurd ⟨Ap, q4⟩ hn

theorem selected_inB (lsA lsB : List (List Nat)) (tA tB : List Nat)
    (hA : ∀ l ∈ lsA, TextLine l) (nA nB oa a ob b Bp L : Nat) (hnA : nA = lsA.length)
    (hnB : nB = lsB.length) (eA : oa + a = nA) (eB : ob + b = nB)
    (hs : psearch (WA (Mof (spansOf lsA tA) (spansOf lsB tB)) nA oa ob)
      (WB (Mof (spansOf lsA tA) (spansOf lsB tB)) nB oa ob) a b (min a b)
        = some (Hit.inB Bp L)) :
    Selected lsA lsB oa a ob b oa (ob + Bp) L := by
  subst hnA; subst hnB
  obtain ⟨i1, i2, i3, i4, i5, i6, i7⟩ := psearch_inB _ _ _ _ _ _ _ hs
  have hLa : L ≤ a := le_trans i2 (Nat.min_le_left _ _)
  have hLb : L ≤ b := le_trans i2 (Nat.min_le_right _ _)
  have q4 := (WB_qualB lsA lsB tA tB hA oa a ob b L Bp eA eB hLa).1 i4
  have noA : ¬ ∃ q, qualA lsA lsB oa a ob L q := by
    rintro ⟨q, hq⟩
    have := (WA_qualA lsA lsB tA tB hA oa a ob b L q eA eB hLb).2 hq
    rw [i6 q (by have := hq.1; omega)] at this
    cases this
  refine ⟨i1, i2, ?_, ?_, ?_⟩
  · intro L2 h1 h2
    have hL2a : L2 ≤ a := le_trans h2 (Nat.min_le_left _ _)
    have hL2b : L2 ≤ b := le_trans h2 (Nat.min_le_right _ _)
    obtain ⟨f1, f2⟩ := i7 L2 h1 h2
    refine ⟨fun q hq => ?_, fun q hq => ?_⟩
    · have := (WA_qualA lsA lsB tA tB hA oa a ob b L2 q eA eB hL2b).2 hq
      rw [f1 q (by have := hq.1; omega)] at this
      cases this
    · have := (WB_qualB lsA lsB tA tB hA oa a ob b L2 q eA eB hL2a).2 hq
      rw [f2 q (by have := hq.1; omega)] at this
      cases this
  · intro h
    exact absurd h noA
  · intro _
    refine ⟨rfl, by omega, ?_, ?_⟩
    · rw [Nat.add_sub_cancel_left]; exact q4
    · intro q hq hq2
      rw [Nat.add_sub_cancel_left] at hq
      have := (WB_qualB lsA lsB tA tB hA oa a ob b L q eA eB hLa).2 hq2
      rw [i5 q hq] at this
      cases this

theorem chain_trivial {R : Ev → Ev → Prop} (l : List Ev) (h : ∀ y ∈ l, ∀ x, R x y) :
    ∀ x0, List.Chain' R (x0 :: l) := by
  induction l with
  | nil => intro x0; exact List.chain'_singleton x0
  | cons y l ih =>
    intro x0
    rw [List.chain'_cons]
    exact ⟨h y (List.mem_cons_self _ _) x0, ih (fun z hz => h z (List.mem_cons_of_mem _ hz)) y⟩

theorem chain_join {R : Ev → Ev → Prop} (l1 l2 : List Ev) (y : Ev) (h1 : List.Chain' R l1)
    (h2 : List.Chain' R (y :: l2)) (hy : ∀ x, R x y) : List.Chain' R (l1 ++ y :: l2) := by
  apply List.Chain'.append h1 h2
  intro x _ z hz
  simp only [List.head?_cons, Option.mem_def, Option.some.injEq] at hz
  subst hz
  exact hy x

theorem blockRule_call (lsA lsB : List (List Nat)) (x : Ev) (oa : Nat) (a : Int) (ob : Nat)
    (b : Int) : BlockRule lsA lsB x (Ev.call oa a ob b) := by
  intro pa pb L h
  cases h

theorem blockRule_printed (lsA lsB : List (List Nat)) (x : Ev) (F p : Nat) :
    BlockRule lsA lsB x (Ev.printed F p) := by
  intro pa pb L h
  cases h

theorem runB_blockRule (Aconad Bconad : List Nat) (hA : 0 ∉ Aconad) (hB : 0 ∉ Bconad) :
    ∃ out rest, run Aconad Bconad = Res.ok out ∧
      out.trace = Ev.call 0 (buildTable Aconad).lines 0 (buildTable Bconad).lines :: rest ∧
      List.Chain' (BlockRule (splitLines Aconad).1 (splitLines Bconad).1) out.trace := by
  have tA := buildTable_split Aconad
  have tB := buildTable_split Bconad
  have xA := (split_text Aconad hA).1
  obtain ⟨out, e, rest, er, hc⟩ := COMPARE_ind _ _ _ _ _ _ tA tB (guarded_buf Aconad Bconad hA hB)
    (fun oa a _ ob b _ st st2 => ∃ rest, st2.trace = st.trace ++ Ev.call oa a ob b :: rest ∧
      List.Chain' (BlockRule (splitLines Aconad).1 (splitLines Bconad).1)
        (Ev.call oa a ob b :: rest))
    (fun oa ob _ _ st _ _ => ⟨[], rfl, List.chain'_singleton _⟩)
    (fun oa ob b _ _ st _ _ _ =>
      ⟨printedEvs 1 ⟨buildTable Bconad, ob⟩ b, by simp, chain_trivial _ (fun y hy x => by
        simp only [printedEvs, List.mem_map] at hy
        obtain ⟨i, _, rfl⟩ := hy
        exact blockRule_printed _ _ _ _ _) _⟩)
    (fun oa a ob _ _ st _ _ _ =>
      ⟨printedEvs 0 ⟨buildTable Aconad, oa⟩ a, by simp, chain_trivial _ (fun y hy x => by
        simp only [printedEvs, List.mem_map] at hy
        obtain ⟨i, _, rfl⟩ := hy
        exact blockRule_printed _ _ _ _ _) _⟩)
    (fun oa a _ ob b _ st Ap L st2 st3 ha hb eA eB hs _ _ _ p2 p3 => by
      obtain ⟨r1, e1, c1⟩ := p2
      obtain ⟨r2, e2, c2⟩ := p3
      refine ⟨Ev.block (oa + Ap) ob L :: ((Ev.call oa Ap ob 0 :: r1) ++
        Ev.call (oa + (Ap + L)) ((a - Ap - L : Nat) : Int) (ob + (0 + L))
          ((b - 0 - L : Nat) : Int) :: r2), ?_, ?_⟩
      · rw [e2, e1]; simp
      · rw [List.chain'_cons]
        refine ⟨?_, ?_⟩
        · intro pa pb L2 h
          cases h
          refine ⟨oa, a, ob, b, rfl, by omega, by omega, ?_⟩
          simp only [Int.toNat_ofNat]
          exact selected_inA _ _ _ _ xA _ _ oa a ob b Ap L tA.lines_eq tB.lines_eq eA eB hs
        · rw [List.cons_append, List.chain'_cons]
          exact ⟨blockRule_call _ _ _ _ _ _ _,
            chain_join _ _ _ c1 c2 (fun x => blockRule_call _ _ _ _ _ _ _)⟩)
    (fun oa a _ ob b _ st Bp L st2 st3 ha hb eA eB hs _ _ _ p2 p3 => by
      obtain ⟨r1, e1, c1⟩ := p2
      obtain ⟨r2, e2, c2⟩ := p3
      refine ⟨Ev.block oa (ob + Bp) L :: ((Ev.call oa 0 ob Bp :: r1) ++
        Ev.call (oa + (0 + L)) ((a - 0 - L : Nat) : Int) (ob + (Bp + L))
          ((b - Bp - L : Nat) : Int) :: r2), ?_, ?_⟩
      · rw [e2, e1]; simp
      · rw [List.chain'_cons]
        refine ⟨?_, ?_⟩
        · intro pa pb L2 h
          cases h
          refine ⟨oa, a, ob, b, rfl, by omega, by omega, ?_⟩
          simp only [Int.toNat_ofNat]
          exact selected_inB _ _ _ _ xA _ _ oa a ob b Bp L tA.lines_eq tB.lines_eq eA eB hs
        · rw [List.cons_append, List.chain'_cons]
          exact ⟨blockRule_call _ _ _ _ _ _ _,
            chain_join _ _ _ c1 c2 (fun x => blockRule_call _ _ _ _ _ _ _)⟩)
    (fun oa a _ ob b _ st st3 ha hb eA eB hs p3 => by
      obtain ⟨r2, e2, c2⟩ := p3
      refine ⟨Ev.printed 0 oa :: Ev.printed 1 ob ::
        Ev.call (oa + 1) ((a - 1 : Nat) : Int) (ob + 1) ((b - 1 : Nat) : Int) :: r2, ?_, ?_⟩
      · rw [e2]; simp
      · rw [List.chain'_cons, List.chain'_cons, List.chain'_cons]
        exact ⟨blockRule_printed _ _ _ _ _, blockRule_printed _ _ _ _ _,
          blockRule_call _ _ _ _ _ _ _, c2⟩)
    ((buildTable Aconad).lines + (buildTable Bconad).lines + 1) 0 (buildTable Aconad).lines 0
    0 (buildTable Bconad).lines 0 { stdout := [], Same := true, trace := [] }
    (by omega) (by omega) (fun _ _ => ⟨by omega, by omega⟩) (by omega)
  simp only [List.nil_append] at er
  refine ⟨out, rest, e, er, ?_⟩
  rw [er]
  exact hc

theorem slideA_none (AA BB : LinePtr) (L r : Nat) :
    ∀ p, slideA AA BB L p r = Res.ok none →
      ∀ q, p ≤ q → q ≤ p + r → Matches (AA.add q) (BB.add 0) L = Res.ok false := by
  induction r with
  | zero =>
    intro p h q h1 h2
    have hq : q = p := by omega
    subst hq
    rw [slideA] at h
    simp only [Res.bind_eq, Res.pure_eq] at h
    obtain ⟨m, e, h3⟩ := (bind_eq_ok _ _ _).1 h
    cases m with
    | true => simp at h3
    | false => exact e
  | succ r ih =>
    intro p h q h1 h2
    rw [slideA] at h
    simp only [Res.bind_eq, Res.pure_eq] at h
    obtain ⟨m, e, h3⟩ := (bind_eq_ok _ _ _).1 h
    cases m with
    | true => simp at h3
    | false =>
      simp only [Bool.false_eq_true, if_false] at h3
      by_cases hq : q = p
      · subst hq; exact e
      · exact ih (p + 1) h3 q (by omega) (by omega)

theorem slideB_none (AA BB : LinePtr) (L r : Nat) :
    ∀ p, slideB AA BB L p r = Res.ok none →
      ∀ q, p ≤ q → q ≤ p + r → Matches (AA.add 0) (BB.add q) L = Res.ok false := by
  induction r with
  | zero =>
    intro p h q h1 h2
    have hq : q = p := by omega
    subst hq
    rw [slideB] at h
    simp only [Res.bind_eq, Res.pure_eq] at h
    obtain ⟨m, e, h3⟩ := (bind_eq_ok _ _ _).1 h
    cases m with
    | true => simp at h3
    | false => exact e
  | succ r ih =>
    intro p h q h1 h2
    rw [slideB] at h
    simp only [Res.bind_eq, Res.pure_eq] at h
    obtain ⟨m, e, h3⟩ := (bind_eq_ok _ _ _).1 h
    cases m with
    | true => simp at h3
    | false =>
      simp only [Bool.false_eq_true, if_false] at h3
      by_cases hq : q = p
      · subst hq; exact e
      · exact ih (p + 1) h3 q (by omega) (by omega)

theorem search_none_one (AA : LinePtr) (a : Nat) (BB : LinePtr) (b : Nat) (m : Nat)
    (hm : 1 ≤ m) (h : search AA a BB b m = Res.ok none) :
    slideA AA BB 1 0 a = Res.ok none ∧ slideB AA BB 1 0 b = Res.ok none := by
  induction m with
  | zero => omega
  | succ m ih =>
    rw [search] at h
    simp only [Res.bind_eq, Res.pure_eq] at h
    obtain ⟨r, h1, h2⟩ := (bind_eq_ok _ _ _).1 h
    cases r with
    | some Ap => cases h2
    | none =>
      obtain ⟨r2, h3, h4⟩ := (bind_eq_ok _ _ _).1 h2
      cases r2 with
      | some Bp => cases h4
      | none =>
        by_cases h0 : m = 0
        · subst h0; exact ⟨h1, h3⟩
        · exact ih (by omega) h4

theorem Matches_one (AA BB : LinePtr) (h : Matches AA BB 1 = Res.ok false) :
    Compare.Match AA 0 BB 0 = Res.ok false := by
  unfold Matches at h
  rw [MatchesLoop] at h
  simp only [Res.bind_eq, Res.pure_eq] at h
  obtain ⟨m, e, h3⟩ := (bind_eq_ok _ _ _).1 h
  cases m with
  | true =>
    simp only [if_true] at h3
    rw [MatchesLoop] at h3
    cases h3
  | false => exact e

theorem Match_false_ne (X Y : List Nat) (i j : Nat) (hi : i ≤ (buildTable X).lines)
    (hj : j ≤ (buildTable Y).lines)
    (h : Compare.Match ⟨buildTable X, i⟩ 0 ⟨buildTable Y, j⟩ 0 = Res.ok false) :
    span (buildTable X) i ≠ span (buildTable Y) j := by
  have hX := buildTable_split X
  have hY := buildTable_split Y
  have lX := hX.lines
  have lY := hY.lines
  have eX : (spansOf (splitLines X).1 (splitLines X).2)[i + 0]?
      = some ((spansOf (splitLines X).1 (splitLines X).2).getD i []) := by
    rw [Nat.add_zero, List.getD_eq_getElem?_getD, List.getElem?_eq_getElem (by omega)]; rfl
  have eY : (spansOf (splitLines Y).1 (splitLines Y).2)[j + 0]?
      = some ((spansOf (splitLines Y).1 (splitLines Y).2).getD j []) := by
    rw [Nat.add_zero, List.getD_eq_getElem?_getD, List.getElem?_eq_getElem (by omega)]; rfl
  have sX := span_eq _ _ hX i _ (by rw [Nat.add_zero] at eX; exact eX)
  have sY := span_eq _ _ hY j _ (by rw [Nat.add_zero] at eY; exact eY)
  have key := Match_spec _ _ _ _ hX hY i 0 j 0 _ _ eX eY
  rw [← sX, ← sY, h] at key
  intro e
  rw [e, lineEq_refl] at key
  cases key

theorem printedPos_append (F : Nat) (xs ys : List Ev) :
    printedPos F (xs ++ ys) = printedPos F xs ++ printedPos F ys := by
  simp [printedPos]

theorem blockA_append (xs ys : List Ev) : blockA (xs ++ ys) = blockA xs ++ blockA ys := by
  simp [blockA]

theorem blockB_append (xs ys : List Ev) : blockB (xs ++ ys) = blockB xs ++ blockB ys := by
  simp [blockB]

theorem printedPos_printedEvs (F : Nat) (AB : LinePtr) (n : Nat) :
    printedPos F (printedEvs F AB n) = List.range' AB.off n := by
  simp only [printedPos, printedEvs, List.filterMap_map]
  rw [List.range'_eq_map_range]
  rw [← List.filterMap_eq_map]
  apply List.filterMap_congr
  intro i _
  simp

theorem printedPos_printedEvs_ne (F G : Nat) (h : G ≠ F) (AB : LinePtr) (n : Nat) :
    printedPos F (printedEvs G AB n) = [] := by
  simp only [printedPos, printedEvs, List.filterMap_map]
  rw [List.filterMap_eq_nil_iff]
  intro i _
  simp [h]

theorem blockA_printedEvs (G : Nat) (AB : LinePtr) (n : Nat) : blockA (printedEvs G AB n) = [] := by
  simp [blockA, printedEvs]

theorem blockB_printedEvs (G : Nat) (AB : LinePtr) (n : Nat) : blockB (printedEvs G AB n) = [] := by
  simp [blockB, printedEvs]

theorem filter_unprinted (P K : List Nat) (n : Nat) (hp : (P ++ K).Perm (List.range n))
    (hs : K.Sorted (fun x y => x < y)) :
    (List.range n).filter (fun i => decide (i ∉ P)) = K := by
  have nd : (P ++ K).Nodup := hp.nodup_iff.2 (List.nodup_range n)
  have dj := (List.nodup_append.1 nd).2.2
  have e1 : (P ++ K).filter (fun i => decide (i ∉ P)) = K := by
    rw [List.filter_append, List.filter_eq_nil_iff.2, List.filter_eq_self.2, List.nil_append]
    · intro x hx
      simp only [decide_eq_true_eq]
      exact fun h => dj h hx
    · intro x hx
      simp [hx]
  have p2 : ((List.range n).filter (fun i => decide (i ∉ P))).Perm K := by
    have := hp.filter (fun i => decide (i ∉ P))
    rw [e1] at this
    exact this.symm
  have s1 : ((List.range n).filter (fun i => decide (i ∉ P))).Sorted (fun x y => x < y) :=
    List.Pairwise.filter _ (List.sorted_lt_range n)
  exact List.eq_of_perm_of_sorted p2 s1 hs

theorem range'_split (s m n : Nat) :
    List.range' s (m + n) = List.range' s m ++ List.range' (s + m) n := by
  have := List.range'_append s m n 1
  simp only [Nat.one_mul] at this
  rw [this, Nat.add_comm]

theorem forall2_range' (E : Nat → Nat → Prop) (L : Nat) :
    ∀ p q, (∀ i, i < L → E (p + i) (q + i)) →
      List.Forall₂ E (List.range' p L) (List.range' q L) := by
  induction L with
  | zero => intro p q _; exact List.Forall₂.nil
  | succ L ih =>
    intro p q h
    rw [List.range'_succ, List.range'_succ]
    refine List.Forall₂.cons (h 0 (by omega)) (ih (p + 1) (q + 1) (fun i hi => ?_))
    have := h (i + 1) (by omega)
    rwa [show p + (i + 1) = p + 1 + i by omega, show q + (i + 1) = q + 1 + i by omega] at this

theorem forall2_append (E : Nat → Nat → Prop) (l1 l2 m1 m2 : List Nat)
    (h1 : List.Forall₂ E l1 m1) (h2 : List.Forall₂ E l2 m2) :
    List.Forall₂ E (l1 ++ l2) (m1 ++ m2) := by
  induction h1 with
  | nil => exact h2
  | cons h _ ih => exact List.Forall₂.cons h ih

theorem sorted_range'_append (p L : Nat) (K P : List Nat) (n : Nat)
    (hK : K.Sorted (fun x y => x < y)) (hp : (P ++ K).Perm (List.range' (p + L) n)) :
    (List.range' p L ++ K).Sorted (fun x y => x < y) := by
  unfold List.Sorted
  rw [List.pairwise_append]
  refine ⟨List.pairwise_lt_range' p L, hK, ?_⟩
  intro x hx y hy
  have hy2 : y ∈ List.range' (p + L) n := hp.mem_iff.1 (List.mem_append_right _ hy)
  rw [List.mem_range'_1] at hx hy2
  omega

theorem perm_nil_parts (P K : List Nat) (s : Nat) (h : (P ++ K).Perm (List.range' s 0)) :
    P = [] ∧ K = [] := by
  have := h.eq_nil
  exact List.append_eq_nil.1 this

theorem soundB_done (TA TB : LineTable) (oa ob : Nat) :
    SoundB TA TB oa 0 ob 0 [Ev.call oa 0 ob 0] := by
  refine ⟨?_, ?_, ?_, ?_, ?_, ?_⟩ <;> simp [printedPos, blockA, blockB]

theorem soundB_ins (TA TB : LineTable) (oa ob b : Nat) (AB : LinePtr) (hAB : AB.off = ob) :
    SoundB TA TB oa 0 ob b ([Ev.call oa 0 ob b] ++ printedEvs 1 AB b) := by
  unfold SoundB
  rw [printedPos_append, printedPos_append, blockA_append, blockB_append,
    printedPos_printedEvs, printedPos_printedEvs_ne 0 1 (by omega), blockA_printedEvs,
    blockB_printedEvs, hAB]
  refine ⟨?_, ?_, ?_, ?_, ?_, ?_⟩ <;> simp [printedPos, blockA, blockB]

theorem soundB_del (TA TB : LineTable) (oa a ob : Nat) (AB : LinePtr) (hAB : AB.off = oa) :
    SoundB TA TB oa a ob 0 ([Ev.call oa a ob 0] ++ printedEvs 0 AB a) := by
  unfold SoundB
  rw [printedPos_append, printedPos_append, blockA_append, blockB_append,
    printedPos_printedEvs, printedPos_printedEvs_ne 1 0 (by omega), blockA_printedEvs,
    blockB_printedEvs, hAB]
  refine ⟨?_, ?_, ?_, ?_, ?_, ?_⟩ <;> simp [printedPos, blockA, blockB]

theorem soundB_none (TA TB : LineTable) (oa a ob b : Nat) (d2 : List Ev) (ha : 0 < a)
    (hb : 0 < b) (h2 : SoundB TA TB (oa + 1) (a - 1) (ob + 1) (b - 1) d2) :
    SoundB TA TB oa a ob b
      ([Ev.call oa a ob b] ++ [Ev.printed 0 oa, Ev.printed 1 ob] ++ d2) := by
  obtain ⟨p1, p2, s1, s2, f, _⟩ := h2
  have eP0 : printedPos 0 ([Ev.call oa a ob b] ++ [Ev.printed 0 oa, Ev.printed 1 ob] ++ d2)
      = oa :: printedPos 0 d2 := by
    rw [printedPos_append, printedPos_append]; simp [printedPos]
  have eP1 : printedPos 1 ([Ev.call oa a ob b] ++ [Ev.printed 0 oa, Ev.printed 1 ob] ++ d2)
      = ob :: printedPos 1 d2 := by
    rw [printedPos_append, printedPos_append]; simp [printedPos]
  have eA : blockA ([Ev.call oa a ob b] ++ [Ev.printed 0 oa, Ev.printed 1 ob] ++ d2)
      = blockA d2 := by
    rw [blockA_append, blockA_append]; simp [blockA]
  have eB : blockB ([Ev.call oa a ob b] ++ [Ev.printed 0 oa, Ev.printed 1 ob] ++ d2)
      = blockB d2 := by
    rw [blockB_append, blockB_append]; simp [blockB]
  unfold SoundB
  rw [eP0, eP1, eA, eB]
  have ra : List.range' oa a = oa :: List.range' (oa + 1) (a - 1) := by
    rw [← List.range'_succ]; congr 1; omega
  have rb : List.range' ob b = ob :: List.range' (ob + 1) (b - 1) := by
    rw [← List.range'_succ]; congr 1; omega
  refine ⟨?_, ?_, s1, s2, f, fun h => by omega⟩
  · rw [ra, List.cons_append]; exact List.Perm.cons _ p1
  · rw [rb, List.cons_append]; exact List.Perm.cons _ p2

theorem soundB_hitA (TA TB : LineTable) (oa a ob b Ap L : Nat) (d1 d2 : List Ev)
    (hL : 1 ≤ L) (hA : Ap + L ≤ a) (hB : L ≤ b)
    (hw : ∀ i, i < L → span TA (oa + Ap + i) = span TB (ob + i))
    (h1 : SoundB TA TB oa Ap ob 0 d1)
    (h2 : SoundB TA TB (oa + (Ap + L)) (a - Ap - L) (ob + (0 + L)) (b - 0 - L) d2) :
    SoundB TA TB oa a ob b
      ([Ev.call oa a ob b] ++ [Ev.block (oa + Ap) ob L] ++ d1 ++ d2) := by
  obtain ⟨p1, p2, _, _, _, z⟩ := h1
  obtain ⟨zA, zB⟩ := z (Or.inr rfl)
  rw [zA, List.append_nil] at p1
  rw [zB] at p2
  obtain ⟨y1, _⟩ := perm_nil_parts _ _ _ p2
  obtain ⟨q1, q2, s1, s2, f, _⟩ := h2
  have eP0 : printedPos 0 ([Ev.call oa a ob b] ++ [Ev.block (oa + Ap) ob L] ++ d1 ++ d2)
      = printedPos 0 d1 ++ printedPos 0 d2 := by
    rw [printedPos_append, printedPos_append, printedPos_append]; simp [printedPos]
  have eP1 : printedPos 1 ([Ev.call oa a ob b] ++ [Ev.block (oa + Ap) ob L] ++ d1 ++ d2)
      = printedPos 1 d2 := by
    rw [printedPos_append, printedPos_append, printedPos_append, y1]; simp [printedPos]
  have eA : blockA ([Ev.call oa a ob b] ++ [Ev.block (oa + Ap) ob L] ++ d1 ++ d2)
      = List.range' (oa + Ap) L ++ blockA d2 := by
    rw [blockA_append, blockA_append, blockA_append, zA]; simp [blockA]
  have eB : blockB ([Ev.call oa a ob b] ++ [Ev.block (oa + Ap) ob L] ++ d1 ++ d2)
      = List.range' ob L ++ blockB d2 := by
    rw [blockB_append, blockB_append, blockB_append, zB]; simp [blockB]
  unfold SoundB
  rw [eP0, eP1, eA, eB]
  have ra : List.range' oa a = List.range' oa Ap ++ (List.range' (oa + Ap) L
      ++ List.range' (oa + (Ap + L)) (a - Ap - L)) := by
    rw [show oa + (Ap + L) = oa + Ap + L by omega, ← range'_split, ← range'_split]
    congr 1; omega
  have rb : List.range' ob b = List.range' ob L ++ List.range' (ob + (0 + L)) (b - 0 - L) := by
    rw [show ob + (0 + L) = ob + L by omega, ← range'_split]
    congr 1; omega
  refine ⟨?_, ?_, ?_, ?_, ?_, fun h => by omega⟩
  · rw [ra, List.perm_iff_count]
    intro x
    have c1 := List.perm_iff_count.1 p1 x
    have c2 := List.perm_iff_count.1 q1 x
    simp only [List.count_append] at c1 c2 ⊢
    omega
  · rw [rb, List.perm_iff_count]
    intro x
    have c2 := List.perm_iff_count.1 q2 x
    simp only [List.count_append] at c2 ⊢
    omega
  · exact sorted_range'_append (oa + Ap) L _ _ _ s1
      (by rw [show oa + Ap + L = oa + (Ap + L) by omega]; exact q1)
  · exact sorted_range'_append ob L _ _ _ s2
      (by rw [show ob + L = ob + (0 + L) by omega]; exact q2)
  · exact forall2_append _ _ _ _ _ (forall2_range' _ L _ _ hw) f

theorem soundB_hitB (TA TB : LineTable) (oa a ob b Bp L : Nat) (d1 d2 : List Ev)
    (hL : 1 ≤ L) (hB : Bp + L ≤ b) (hA : L ≤ a)
    (hw : ∀ i, i < L → span TA (oa + i) = span TB (ob + Bp + i))
    (h1 : SoundB TA TB oa 0 ob Bp d1)
    (h2 : SoundB TA TB (oa + (0 + L)) (a - 0 - L) (ob + (Bp + L)) (b - Bp - L) d2) :
    SoundB TA TB oa a ob b
      ([Ev.call oa a ob b] ++ [Ev.block oa (ob + Bp) L] ++ d1 ++ d2) := by
  obtain ⟨p1, p2, _, _, _, z⟩ := h1
  obtain ⟨zA, zB⟩ := z (Or.inl rfl)
  rw [zA] at p1
  rw [zB, List.append_nil] at p2
  obtain ⟨y1, _⟩ := perm_nil_parts _ _ _ p1
  obtain ⟨q1, q2, s1, s2, f, _⟩ := h2
  have eP0 : printedPos 0 ([Ev.call oa a ob b] ++ [Ev.block oa (ob + Bp) L] ++ d1 ++ d2)
      = printedPos 0 d2 := by
    rw [printedPos_append, printedPos_append, printedPos_append, y1]; simp [printedPos]
  have eP1 : printedPos 1 ([Ev.call oa a ob b] ++ [Ev.block oa (ob + Bp) L] ++ d1 ++ d2)
      = printedPos 1 d1 ++ printedPos 1 d2 := by
    rw [printedPos_append, printedPos_append, printedPos_append]; simp [printedPos]
  have eA : blockA ([Ev.call oa a ob b] ++ [Ev.block oa (ob + Bp) L] ++ d1 ++ d2)
      = List.range' oa L ++ blockA d2 := by
    rw [blockA_append, blockA_append, blockA_append, zA]; simp [blockA]
  have eB : blockB ([Ev.call oa a ob b] ++ [Ev.block oa (ob + Bp) L] ++ d1 ++ d2)
      = List.range' (ob + Bp) L ++ blockB d2 := by
    rw [blockB_append, blockB_append, blockB_append, zB]; simp [blockB]
  unfold SoundB
  rw [eP0, eP1, eA, eB]
  have rb : List.range' ob b = List.range' ob Bp ++ (List.range' (ob + Bp) L
      ++ List.range' (ob + (Bp + L)) (b - Bp - L)) := by
    rw [show ob + (Bp + L) = ob + Bp + L by omega, ← range'_split, ← range'_split]
    congr 1; omega
  have ra : List.range' oa a = List.range' oa L ++ List.range' (oa + (0 + L)) (a - 0 - L) := by
    rw [show oa + (0 + L) = oa + L by omega, ← range'_split]
    congr 1; omega
  refine ⟨?_, ?_, ?_, ?_, ?_, fun h => by omega⟩
  · rw [ra, List.perm_iff_count]
    intro x
    have c2 := List.perm_iff_count.1 q1 x
    simp only [List.count_append] at c2 ⊢
    omega
  · rw [rb, List.perm_iff_count]
    intro x
    have c1 := List.perm_iff_count.1 p2 x
    have c2 := List.perm_iff_count.1 q2 x
    simp only [List.count_append] at c1 c2 ⊢
    omega
  · exact sorted_range'_append oa L _ _ _ s1
      (by rw [show oa + L = oa + (0 + L) by omega]; exact q1)
  · exact sorted_range'_append (ob + Bp) L _ _ _ s2
      (by rw [show ob + Bp + L = ob + (Bp + L) by omega]; exact q2)
  · exact forall2_append _ _ _ _ _ (forall2_range' _ L _ _ hw) f

theorem win_spans (TA TB : LineTable) (lsA lsB : List (List Nat)) (tA tB : List Nat)
    (hA : IsTable TA (spansOf lsA tA)) (hB : IsTable TB (spansOf lsB tB))
    (xA : ∀ l ∈ lsA, TextLine l) (p q L : Nat) (h1 : p + L ≤ lsA.length)
    (h2 : q + L ≤ lsB.length)
    (hw : win (Mof (spansOf lsA tA) (spansOf lsB tB)) p q L = true) :
    ∀ i, i < L → span TA (p + i) = span TB (q + i) := by
  intro i hi
  have e := (win_true_iff _ _ _ _).1 hw i hi
  have e2 := (Mof_text lsA lsB tA tB xA _ _ (by omega) (by omega)).1 e
  rw [span_line TA lsA tA hA _ (by omega), span_line TB lsB tB hB _ (by omega), e2]

theorem runB_sound (Aconad Bconad : List Nat) (hA : 0 ∉ Aconad) (hB : 0 ∉ Bconad) :
    ∃ out, run Aconad Bconad = Res.ok out ∧
      SoundB (buildTable Aconad) (buildTable Bconad) 0 (buildTable Aconad).lines 0
        (buildTable Bconad).lines out.trace := by
  have tA := buildTable_split Aconad
  have tB := buildTable_split Bconad
  have xA := (split_text Aconad hA).1
  have nA := tA.lines_eq
  have nB := tB.lines_eq
  obtain ⟨out, e, d, ed, hd⟩ := COMPARE_ind _ _ _ _ _ _ tA tB (guarded_buf Aconad Bconad hA hB)
    (fun oa a _ ob b _ st st2 => ∃ d, st2.trace = st.trace ++ d ∧
      SoundB (buildTable Aconad) (buildTable Bconad) oa a ob b d)
    (fun oa ob _ _ st _ _ => ⟨[Ev.call oa 0 ob 0], rfl, soundB_done _ _ oa ob⟩)
    (fun oa ob b _ _ st _ _ _ =>
      ⟨[Ev.call oa 0 ob b] ++ printedEvs 1 ⟨buildTable Bconad, ob⟩ b, by simp,
        soundB_ins _ _ oa ob b _ rfl⟩)
    (fun oa a ob _ _ st _ _ _ =>
      ⟨[Ev.call oa a ob 0] ++ printedEvs 0 ⟨buildTable Aconad, oa⟩ a, by simp,
        soundB_del _ _ oa a ob _ rfl⟩)
    (fun oa a _ ob b _ st Ap L st2 st3 ha hb eA eB hs hL hAp hLb p2 p3 => by
      obtain ⟨d1, e1, h1⟩ := p2
      obtain ⟨d2, e2, h2⟩ := p3
      obtain ⟨_, _, _, i4, _, _⟩ := psearch_inA _ _ _ _ _ _ _ hs
      simp only [WA, Bool.and_eq_true, decide_eq_true_eq] at i4
      refine ⟨[Ev.call oa a ob b] ++ [Ev.block (oa + Ap) ob L] ++ d1 ++ d2, ?_, ?_⟩
      · rw [e2, e1]; simp
      · exact soundB_hitA _ _ oa a ob b Ap L d1 d2 hL hAp hLb
          (win_spans _ _ _ _ _ _ tA tB xA _ _ _ (by omega) (by omega) i4.2) h1 h2)
    (fun oa a _ ob b _ st Bp L st2 st3 ha hb eA eB hs hL hBp hLa p2 p3 => by
      obtain ⟨d1, e1, h1⟩ := p2
      obtain ⟨d2, e2, h2⟩ := p3
      obtain ⟨_, _, _, i4, _, _⟩ := psearch_inB _ _ _ _ _ _ _ hs
      simp only [WB, Bool.and_eq_true, decide_eq_true_eq] at i4
      refine ⟨[Ev.call oa a ob b] ++ [Ev.block oa (ob + Bp) L] ++ d1 ++ d2, ?_, ?_⟩
      · rw [e2, e1]; simp
      · exact soundB_hitB _ _ oa a ob b Bp L d1 d2 hL hBp hLa
          (win_spans _ _ _ _ _ _ tA tB xA _ _ _ (by omega) (by omega) i4.2) h1 h2)
    (fun oa a _ ob b _ st st3 ha hb eA eB hs p3 => by
      obtain ⟨d2, e2, h2⟩ := p3
      refine ⟨[Ev.call oa a ob b] ++ [Ev.printed 0 oa, Ev.printed 1 ob] ++ d2, ?_, ?_⟩
      · rw [e2]; simp
      · exact soundB_none _ _ oa a ob b d2 ha hb h2)
    ((buildTable Aconad).lines + (buildTable Bconad).lines + 1) 0 (buildTable Aconad).lines 0
    0 (buildTable Bconad).lines 0 { stdout := [], Same := true, trace := [] }
    (by omega) (by omega) (fun _ _ => ⟨by omega, by omega⟩) (by omega)
  simp only [List.nil_append] at ed
  refine ⟨out, e, ?_⟩
  rw [ed]
  exact hd

end smallcompare

namespace Compare

theorem asked_eq (conad : List Nat) : asked conad = (buildTable conad).lines + 1 := by
  rw [buildTable_lines]
  rfl

theorem stores_eq (conad : List Nat) : (buildTable conad).AA.length = asked conad + 1 := by
  rw [buildTable_AA_length, asked_eq]

theorem indexer_ok (slots : Nat) (conad : List Nat) (h : asked conad < slots) :
    indexer slots conad = Res.ok (buildTable conad) := by
  have : (buildTable conad).AA.length ≤ slots := by rw [stores_eq]; omega
  rw [indexer, if_pos this]

theorem indexer_oob (slots : Nat) (conad : List Nat) (h : slots ≤ asked conad) :
    indexer slots conad = Res.oob := by
  have : ¬ (buildTable conad).AA.length ≤ slots := by rw [stores_eq]; omega
  rw [indexer, if_neg this]

theorem indexer_eq_ok (slots : Nat) (conad : List Nat) (T : LineTable)
    (h : indexer slots conad = Res.ok T) : T = buildTable conad ∧ asked conad < slots := by
  by_cases hs : asked conad < slots
  · rw [indexer_ok _ _ hs] at h
    exact ⟨(Res.ok.inj h).symm, hs⟩
  · rw [indexer_oob _ _ (by omega)] at h
    cases h

end Compare

namespace bigcompare
open Compare

theorem exec_eq_run (slotsA slotsB : Nat) (Aconad Bconad : List Nat)
    (hA : asked Aconad < slotsA) (hB : asked Bconad < slotsB) :
    exec slotsA slotsB Aconad Bconad = run Aconad Bconad := by
  simp only [exec, indexer_ok _ _ hA, indexer_ok _ _ hB, Res.bind_eq, Res.bind_ok, run]

theorem program_eq_main (slotsA slotsB : Nat) (Aconad Bconad : List Nat)
    (hA : asked Aconad < slotsA) (hB : asked Bconad < slotsB) :
    program slotsA slotsB Aconad Bconad = main Aconad Bconad := by
  simp only [program, exec_eq_run _ _ _ _ hA hB, main]

theorem exec_oob (slotsA slotsB : Nat) (Aconad Bconad : List Nat)
    (h : slotsA ≤ asked Aconad ∨ slotsB ≤ asked Bconad) :
    exec slotsA slotsB Aconad Bconad = Res.oob := by
  by_cases hA : asked Aconad < slotsA
  · have hB : slotsB ≤ asked Bconad := by omega
    simp only [exec, indexer_ok _ _ hA, indexer_oob _ _ hB, Res.bind_eq, Res.bind_ok,
      Res.bind_oob]
  · simp only [exec, indexer_oob _ _ (by omega : slotsA ≤ asked Aconad), Res.bind_eq,
      Res.bind_oob]

theorem program_oob (slotsA slotsB : Nat) (Aconad Bconad : List Nat)
    (h : slotsA ≤ asked Aconad ∨ slotsB ≤ asked Bconad) :
    program slotsA slotsB Aconad Bconad = Res.oob := by
  simp only [program, exec_oob _ _ _ _ h, Res.bind_eq, Res.bind_oob]

end bigcompare

namespace smallcompare
open Compare

theorem execB_eq_run (slotsA slotsB : Nat) (Aconad Bconad : List Nat)
    (hA : asked Aconad < slotsA) (hB : asked Bconad < slotsB) :
    exec slotsA slotsB Aconad Bconad = run Aconad Bconad := by
  simp only [exec, indexer_ok _ _ hA, indexer_ok _ _ hB, Res.bind_eq, Res.bind_ok, run]

theorem programB_eq_main (slotsA slotsB : Nat) (Aconad Bconad : List Nat)
    (hA : asked Aconad < slotsA) (hB : asked Bconad < slotsB) :
    program slotsA slotsB Aconad Bconad = main Aconad Bconad := by
  simp only [program, execB_eq_run _ _ _ _ hA hB, main]

theorem execB_oob (slotsA slotsB : Nat) (Aconad Bconad : List Nat)
    (h : slotsA ≤ asked Aconad ∨ slotsB ≤ asked Bconad) :
    exec slotsA slotsB Aconad Bconad = Res.oob := by
  by_cases hA : asked Aconad < slotsA
  · have hB : slotsB ≤ asked Bconad := by omega
    simp only [exec, indexer_ok _ _ hA, indexer_oob _ _ hB, Res.bind_eq, Res.bind_ok,
      Res.bind_oob]
  · simp only [exec, indexer_oob _ _ (by omega : slotsA ≤ asked Aconad), Res.bind_eq,
      Res.bind_oob]

theorem programB_oob (slotsA slotsB : Nat) (Aconad Bconad : List Nat)
    (h : slotsA ≤ asked Aconad ∨ slotsB ≤ asked Bconad) :
    program slotsA slotsB Aconad Bconad = Res.oob := by
  simp only [program, execB_oob _ _ _ _ h, Res.bind_eq, Res.bind_oob]

end smallcompare

namespace bigcompare
open Compare

/-- The main loop ends, and standard output is the report of the records of the
log: what is logged is what is printed. -/
theorem run_report (Aconad Bconad : List Nat) :
    ∃ st, run Aconad Bconad = Res.ok st ∧
      st.stdout = render merged (buildTable Aconad) (buildTable Bconad) none
        (records st.trace) := by
  obtain ⟨st, e, ⟨h, _⟩, _, _⟩ := run_inv Aconad Bconad _ _ _ _
    (buildTable_split Aconad) (buildTable_split Bconad)
    (fun st => Rendered (buildTable Aconad) (buildTable Bconad) st)
    ⟨rfl, ⟨rfl, rfl⟩⟩
    (fun st st2 _ hR hp => Rendered_step _ _ _ st st2 hp hR)
  exact ⟨st, e, h⟩

theorem render_eq_nil (rule : ChangeRecord → ChangeRecord → Bool) (TA TB : LineTable)
    (rs : List ChangeRecord) : render rule TA TB none rs = [] ↔ rs = [] := by
  cases rs with
  | nil => simp [render]
  | cons r rs => simp [render, sepBefore]

end bigcompare

namespace Compare

theorem infix_of_window (P S : List (List Nat)) (k : Nat) (hk : k + P.length + 1 ≤ S.length)
    (h : ∀ i, i ≤ P.length → (P ++ S).getD i [] = S.getD (k + i) []) :
    (P ++ S.take 1) <:+: S := by
  have e : P ++ S.take 1 = (S.drop k).take (P.length + 1) := by
    have e1 : P ++ S.take 1 = (P ++ S).take (P.length + 1) := by
      rw [List.take_append_eq_append_take]
      simp
    rw [e1]
    apply List.ext_getElem?
    intro n
    rw [List.getElem?_take, List.getElem?_take, List.getElem?_drop]
    by_cases hn : n < P.length + 1
    · rw [if_pos hn, if_pos hn]
      have h1 := h n (by omega)
      have l1 : n < (P ++ S).length := by
        rw [List.length_append]
        omega
      have l2 : k + n < S.length := by omega
      rw [List.getD_eq_getElem?_getD, List.getD_eq_getElem?_getD,
        List.getElem?_eq_getElem l1, List.getElem?_eq_getElem l2] at h1
      rw [List.getElem?_eq_getElem l1, List.getElem?_eq_getElem l2]
      simpa using h1
    · rw [if_neg hn, if_neg hn]
  rw [e]
  exact List.infix_iff_prefix_suffix.2 ⟨_, List.take_prefix _ _, List.drop_suffix _ _⟩

theorem window_of_infix (P S : List (List Nat)) (hP : P ≠ [])
    (h : (P ++ S.take 1) <:+: S) :
    ∃ k, k + P.length + 1 ≤ S.length ∧
      ∀ i, i ≤ P.length → (P ++ S).getD i [] = S.getD (k + i) [] := by
  obtain ⟨s1, s2, e⟩ := h
  cases S with
  | nil =>
    simp at e
    exact absurd e.2.1 hP
  | cons x S2 =>
    have hlen := congrArg List.length e
    simp only [List.take_succ_cons, List.take_zero, List.length_append, List.length_cons,
      List.length_nil] at hlen
    refine ⟨s1.length, by simp only [List.length_cons]; omega, ?_⟩
    intro i hi
    have r1 : (x :: S2).getD (s1.length + i) [] = (P ++ [x]).getD i [] := by
      conv_lhs => rw [← e]
      rw [List.append_assoc, List.getD_append_right _ _ _ _ (by omega)]
      have : s1.length + i - s1.length = i := by omega
      rw [this]
      simp only [List.take_succ_cons, List.take_zero]
      rw [List.getD_append _ _ _ _ (by simp; omega)]
    rw [r1]
    by_cases hlt : i < P.length
    · rw [List.getD_append _ _ _ _ hlt, List.getD_append _ _ _ _ hlt]
    · have hi2 : i = P.length := by omega
      subst hi2
      rw [List.getD_append_right _ _ _ _ (le_refl _), List.getD_append_right _ _ _ _ (le_refl _)]
      simp

end Compare

namespace smallcompare
open Compare

/-- The search on `P ++ S` against `P ++ m :: S` from the top, `P` not empty and
no window of more than `P.length` lines further down the B file equal to the
top of the A file: the window of `P.length` lines at the start of both files is
the first hit. -/
theorem search_insert_head (M : Nat → Nat → Bool) (p s : Nat) (hp : 0 < p)
    (hdiag : ∀ i, i < p → M i i = true)
    (hcol : ∀ i, i < p + s → M i p = false)
    (hcross : ∀ q, p < q → q + p + 1 ≤ p + s + 1 → ∃ i, i ≤ p ∧ M i (q + i) = false) :
    psearch (WA M (p + s) 0 0) (WB M (p + s + 1) 0 0) (p + s) (p + s + 1)
      (min (p + s) (p + s + 1)) = some (Hit.inA 0 p) := by
  rw [show min (p + s) (p + s + 1) = p + s by omega,
    psearch_skip _ _ (p + s) (p + s + 1) p (p + s) (by omega)]
  · obtain ⟨k, rfl⟩ : ∃ k, p = k + 1 := ⟨p - 1, by omega⟩
    apply psearch_first
    simp only [WA, Nat.add_zero, Bool.and_eq_true, decide_eq_true_eq]
    refine ⟨by omega, ?_⟩
    rw [win_true_iff]
    intro i hi
    simpa using hdiag i (by omega)
  · intro L h1 h2
    refine ⟨fun q _ => ?_, fun q _ => ?_⟩
    · apply WA_false_of M (p + s) 0 0 L q p h1
      intro hd
      simpa using hcol (q + p) (by omega)
    · by_cases hq : q ≤ p
      · apply WB_false_of M (p + s + 1) 0 0 L q (p - q) (by omega)
        intro hd
        have := hcol (p - q) (by omega)
        rw [show 0 + q + (p - q) = p by omega]
        simpa using this
      · by_cases hv : q + L ≤ p + s + 1
        · obtain ⟨i, hi, hf⟩ := hcross q (by omega) (by omega)
          apply WB_false_of M (p + s + 1) 0 0 L q i (by omega)
          intro _
          simpa using hf
        · apply WB_false_of M (p + s + 1) 0 0 L q 0 (by omega)
          intro hd
          omega

/-- The search on `P ++ S` against `P ++ m :: S` from the top, `P` not empty,
when the first `P.length + 1` lines of the A file occur again below `m` in the B
file: the hit is a window slid down the B file past `m`. -/
theorem search_insert_off (M : Nat → Nat → Bool) (p s : Nat)
    (hcol : ∀ i, i < p + s → M i p = false)
    (q0 : Nat) (h1 : p < q0) (h2 : q0 + p + 1 ≤ p + s + 1)
    (hw : ∀ i, i ≤ p → M i (q0 + i) = true) (r : Option Hit)
    (hr : psearch (WA M (p + s) 0 0) (WB M (p + s + 1) 0 0) (p + s) (p + s + 1)
      (min (p + s) (p + s + 1)) = r) :
    ∃ Bp L, r = some (Hit.inB Bp L) ∧ p < Bp := by
  rw [show min (p + s) (p + s + 1) = p + s by omega] at hr
  have hwb : WB M (p + s + 1) 0 0 (p + 1) q0 = true := by
    simp only [WB, Bool.and_eq_true, decide_eq_true_eq]
    refine ⟨by omega, ?_⟩
    rw [win_true_iff]
    intro i hi
    simpa using hw i (by omega)
  cases r with
  | none =>
    have := (psearch_none _ _ _ _ _ hr (p + 1) (by omega) (by omega)).2 q0 (by omega)
    rw [hwb] at this
    cases this
  | some h =>
    cases h with
    | inA Ap L =>
      obtain ⟨i1, i2, i3, i4, i5, i6⟩ := psearch_inA _ _ _ _ _ _ _ hr
      have hL : p + 1 ≤ L := by
        by_contra hc
        have := (i6 (p + 1) (by omega) (by omega)).2 q0 (by omega)
        rw [hwb] at this
        cases this
      have : WA M (p + s) 0 0 L Ap = false := by
        apply WA_false_of M (p + s) 0 0 L Ap p (by omega)
        intro hd
        simpa using hcol (Ap + p) (by omega)
      rw [this] at i4
      cases i4
    | inB Bp L =>
      obtain ⟨i1, i2, i3, i4, i5, i6, i7⟩ := psearch_inB _ _ _ _ _ _ _ hr
      have hL : p + 1 ≤ L := by
        by_contra hc
        have := (i7 (p + 1) (by omega) (by omega)).2 q0 (by omega)
        rw [hwb] at this
        cases this
      refine ⟨Bp, L, rfl, ?_⟩
      by_contra hc
      have : WB M (p + s + 1) 0 0 L Bp = false := by
        apply WB_false_of M (p + s + 1) 0 0 L Bp (p - Bp) (by omega)
        intro hd
        have := hcol (p - Bp) (by omega)
        rw [show 0 + Bp + (p - Bp) = p by omega]
        simpa using this
      rw [this] at i4
      cases i4

theorem runB_insertion (P S : List (List Nat)) (m : List Nat)
    (hP : ∀ l ∈ P, TextLine l) (hS : ∀ l ∈ S, TextLine l) (hm : TextLine m)
    (hmP : m ∉ P) (hmS : m ∉ S) (hPS : P ≠ [] → ¬ (P ++ S.take 1) <:+: S) :
    ∃ out, run (unlines (P ++ S)) (unlines (P ++ m :: S)) = Res.ok out ∧
      out.stdout = [OutLine.text 1 ((P.length : Int) + 1) m, OutLine.dashes] ∧
      out.Same = false := by
  have tA := textLine_cat P S hP hS
  have tB := textLine_mid P S m hP hS hm
  have hA := table_of_lines _ tA
  have hB := table_of_lines _ tB
  have hlA : (P ++ S).length = P.length + S.length := by simp
  have hlB : (P ++ m :: S).length = P.length + S.length + 1 := by simp; omega
  have hnA : (buildTable (unlines (P ++ S))).lines = P.length + S.length := by
    rw [hA.lines_eq, hlA]
  have hnB : (buildTable (unlines (P ++ m :: S))).lines = P.length + S.length + 1 := by
    rw [hB.lines_eq, hlB]
  have hG := guarded_text (P ++ S) (P ++ m :: S) [] [] _ _ hA.lines_eq hB.lines_eq
    textLine_nil textLine_nil
  have hmA : ∀ i, i < (P ++ S).length → (P ++ S).getD i [] ≠ m := by
    intro i hi e
    have := getD_mem (P ++ S) i hi
    rw [e, List.mem_append] at this
    rcases this with h | h
    · exact hmP h
    · exact hmS h
  have hdiag : ∀ i, i < P.length →
      Mof (spansOf (P ++ S) []) (spansOf (P ++ m :: S) []) i i = true := by
    intro i hi
    rw [Mof_text _ _ _ _ tA _ _ (by omega) (by omega), List.getD_append _ _ _ _ hi,
      List.getD_append _ _ _ _ hi]
  have hcol : ∀ i, i < P.length + S.length →
      Mof (spansOf (P ++ S) []) (spansOf (P ++ m :: S) []) i P.length = false := by
    intro i hi
    apply Mof_text_false _ _ _ _ tA _ _ (by omega) (by omega)
    rw [getD_mid]
    exact hmA i (by omega)
  have hcross : 0 < P.length → ∀ q, P.length < q → q + P.length + 1 ≤ P.length + S.length + 1 →
      ∃ i, i ≤ P.length ∧
        Mof (spansOf (P ++ S) []) (spansOf (P ++ m :: S) []) i (q + i) = false := by
    intro hp q h1 h2
    by_contra hc
    have hc2 : ∀ i, i ≤ P.length →
        Mof (spansOf (P ++ S) []) (spansOf (P ++ m :: S) []) i (q + i) = true := by
      intro i hi
      cases hv : Mof (spansOf (P ++ S) []) (spansOf (P ++ m :: S) []) i (q + i) with
      | true => rfl
      | false => exact absurd ⟨i, hi, hv⟩ hc
    apply hPS (fun e => by rw [e] at hp; simp at hp)
    apply infix_of_window P S (q - P.length - 1) (by omega)
    intro i hi
    have := (Mof_text _ _ _ _ tA _ _ (by omega) (by omega)).1 (hc2 i hi)
    rw [this, getD_after _ _ _ _ (by omega)]
    congr 1
    omega
  have hshift : ∀ i, P.length ≤ i → i < P.length + S.length →
      Mof (spansOf (P ++ S) []) (spansOf (P ++ m :: S) []) i (i + 1) = true := by
    intro i h1 h2
    rw [Mof_text _ _ _ _ tA _ _ (by omega) (by omega),
      List.getD_append_right _ _ _ _ h1, getD_after _ _ _ _ (by omega)]
    congr 1
    omega
  have pb : ∀ Base : Int, printedB (buildTable (unlines (P ++ m :: S))) 1 P.length Base 1
      = [OutLine.text 1 (Base + 1) m] := by
    intro Base
    have := printedB_one _ _ _ hB 1 P.length Base (by omega) (by rw [getD_mid]; exact hm)
    rwa [getD_mid] at this
  obtain ⟨out, e, _, _, _, r4⟩ := COMPARE_ind _ _ (P ++ S) (P ++ m :: S) [] [] hA hB hG
    (fun oa a Abase ob b Bbase st st2 =>
      (a = 0 → b = 0 → st2.stdout = st.stdout ∧ st2.Same = st.Same) ∧
      (a = 0 → b = 1 → ob = P.length → Bbase = (P.length : Int) →
        st2.stdout = st.stdout ++ [OutLine.text 1 ((P.length : Int) + 1) m, OutLine.dashes] ∧
          st2.Same = false) ∧
      (oa = P.length → ob = P.length → a = S.length → b = S.length + 1 →
        Abase = (P.length : Int) → Bbase = (P.length : Int) →
        st2.stdout = st.stdout ++ [OutLine.text 1 ((P.length : Int) + 1) m, OutLine.dashes] ∧
          st2.Same = false) ∧
      (oa = 0 → ob = 0 → a = P.length + S.length → b = P.length + S.length + 1 →
        Abase = 0 → Bbase = 0 →
        st2.stdout = st.stdout ++ [OutLine.text 1 ((P.length : Int) + 1) m, OutLine.dashes] ∧
          st2.Same = false))
    (by
      intro oa ob Abase Bbase st _ _
      refine ⟨fun _ _ => ⟨rfl, rfl⟩, ?_, ?_, ?_⟩
      · intro _ h; omega
      · intro _ _ _ h; omega
      · intro _ _ _ h; omega)
    (by
      intro oa ob b Abase Bbase st hb _ _
      have key : b = 1 → ob = P.length → Bbase = (P.length : Int) →
          (st.stdout ++ printedB (buildTable (unlines (P ++ m :: S))) 1 ob Bbase b
              ++ [OutLine.dashes]
            = st.stdout ++ [OutLine.text 1 ((P.length : Int) + 1) m, OutLine.dashes]) := by
        intro h1 h2 h3
        rw [h1, h2, h3, pb]
        simp
      refine ⟨?_, ?_, ?_, ?_⟩
      · intro _ h; omega
      · intro _ h1 h2 h3
        exact ⟨key h1 h2 h3, rfl⟩
      · intro _ h2 h3 h4 _ h6
        exact ⟨key (by omega) h2 h6, rfl⟩
      · intro _ h2 h3 h4 _ h6
        exact ⟨key (by omega) (by omega) (by rw [h6]; omega), rfl⟩)
    (by
      intro oa a ob Abase Bbase st ha _ _
      refine ⟨?_, ?_, ?_, ?_⟩
      · intro h; omega
      · intro h; omega
      · intro _ _ _ h; omega
      · intro _ _ _ h; omega)
    (by
      intro oa a Abase ob b Bbase st Ap L st2 st3 ha hb eA eB hs hL hLa hLb p2 p3
      rw [hnA, hnB] at hs
      have hmid : oa = P.length → ob = P.length → a = S.length → b = S.length + 1 → False := by
        intro h1 h2 h3 h4
        rw [h1, h2, h3, h4, search_insert_mid _ _ _ (by omega) hcol hshift] at hs
        cases hs
      refine ⟨?_, ?_, ?_, ?_⟩
      · intro h; omega
      · intro h; omega
      · intro h1 h2 h3 h4 _ _
        exact (hmid h1 h2 h3 h4).elim
      · intro h1 h2 h3 h4 h5 h6
        rcases Nat.eq_zero_or_pos P.length with hp0 | hp
        · exact (hmid (by omega) (by omega) (by omega) (by omega)).elim
        · subst h1; subst h2; subst h3; subst h4
          rw [search_insert_head _ _ _ hp hdiag hcol (hcross hp)] at hs
          simp only [Option.some.injEq, Hit.inA.injEq] at hs
          obtain ⟨e1, e2⟩ := hs
          subst e1; subst e2
          obtain ⟨q1, q2⟩ := p2.1 rfl rfl
          obtain ⟨q3, q4⟩ := p3.2.2.1 (by omega) (by omega) (by omega) (by omega)
            (by rw [h5]; simp) (by rw [h6]; simp)
          exact ⟨by rw [q3, q1], q4⟩)
    (by
      intro oa a Abase ob b Bbase st Bp L st2 st3 ha hb eA eB hs hL hLb hLa p2 p3
      rw [hnA, hnB] at hs
      have hmid : oa = P.length → ob = P.length → a = S.length → b = S.length + 1 →
          Abase = (P.length : Int) → Bbase = (P.length : Int) →
          st3.stdout = st.stdout ++ [OutLine.text 1 ((P.length : Int) + 1) m, OutLine.dashes] ∧
            st3.Same = false := by
        intro h1 h2 h3 h4 h5 h6
        subst h1; subst h2; subst h3; subst h4
        rw [search_insert_mid _ _ _ (by omega) hcol hshift] at hs
        simp only [Option.some.injEq, Hit.inB.injEq] at hs
        obtain ⟨e1, e2⟩ := hs
        subst e1; subst e2
        obtain ⟨q1, q2⟩ := p2.2.1 rfl rfl rfl h6
        obtain ⟨q3, q4⟩ := p3.1 (by omega) (by omega)
        exact ⟨by rw [q3, q1], by rw [q4, q2]⟩
      refine ⟨?_, ?_, ?_, ?_⟩
      · intro h; omega
      · intro h; omega
      · exact hmid
      · intro h1 h2 h3 h4 h5 h6
        rcases Nat.eq_zero_or_pos P.length with hp0 | hp
        · exact hmid (by omega) (by omega) (by omega) (by omega) (by rw [h5]; omega)
            (by rw [h6]; omega)
        · subst h1; subst h2; subst h3; subst h4
          rw [search_insert_head _ _ _ hp hdiag hcol (hcross hp)] at hs
          cases hs)
    (by
      intro oa a Abase ob b Bbase st st3 ha hb eA eB hs p3
      rw [hnA, hnB] at hs
      have hmid : oa = P.length → ob = P.length → a = S.length → b = S.length + 1 → False := by
        intro h1 h2 h3 h4
        rw [h1, h2, h3, h4, search_insert_mid _ _ _ (by omega) hcol hshift] at hs
        cases hs
      refine ⟨?_, ?_, ?_, ?_⟩
      · intro h; omega
      · intro h; omega
      · intro h1 h2 h3 h4 _ _
        exact (hmid h1 h2 h3 h4).elim
      · intro h1 h2 h3 h4 h5 h6
        rcases Nat.eq_zero_or_pos P.length with hp0 | hp
        · exact (hmid (by omega) (by omega) (by omega) (by omega)).elim
        · subst h1; subst h2; subst h3; subst h4
          rw [search_insert_head _ _ _ hp hdiag hcol (hcross hp)] at hs
          cases hs)
    ((buildTable (unlines (P ++ S))).lines + (buildTable (unlines (P ++ m :: S))).lines + 1)
    0 (buildTable (unlines (P ++ S))).lines 0
    0 (buildTable (unlines (P ++ m :: S))).lines 0
    { stdout := [], Same := true, trace := [] }
    (by omega) (by omega) (fun _ _ => ⟨by omega, by omega⟩) (by omega)
  obtain ⟨o1, o2⟩ := r4 rfl rfl hnA hnB rfl rfl
  exact ⟨out, e, by simpa using o1, o2⟩

theorem printedB_length (T : LineTable) (Flag off : Nat) (Base : Int) (n : Nat) :
    (printedB T Flag off Base n).length = n := by
  simp [printedB]

/-- On `P ++ S` against `P ++ m :: S`, `P` not empty, when `P` followed by the
first line of `S` occurs in `S` as consecutive lines, COMPARE prints at least
two lines and a separator before it reaches the inserted line. -/
theorem runB_insertion_off (P S : List (List Nat)) (m : List Nat)
    (hP : ∀ l ∈ P, TextLine l) (hS : ∀ l ∈ S, TextLine l) (hm : TextLine m)
    (hmP : m ∉ P) (hmS : m ∉ S) (hP0 : P ≠ []) (hPS : (P ++ S.take 1) <:+: S) :
    ∃ out, run (unlines (P ++ S)) (unlines (P ++ m :: S)) = Res.ok out ∧
      3 ≤ out.stdout.length ∧ out.Same = false := by
  have tA := textLine_cat P S hP hS
  have tB := textLine_mid P S m hP hS hm
  have hA := table_of_lines _ tA
  have hB := table_of_lines _ tB
  have hlA : (P ++ S).length = P.length + S.length := by simp
  have hlB : (P ++ m :: S).length = P.length + S.length + 1 := by simp; omega
  have hnA : (buildTable (unlines (P ++ S))).lines = P.length + S.length := by
    rw [hA.lines_eq, hlA]
  have hnB : (buildTable (unlines (P ++ m :: S))).lines = P.length + S.length + 1 := by
    rw [hB.lines_eq, hlB]
  have hG := guarded_text (P ++ S) (P ++ m :: S) [] [] _ _ hA.lines_eq hB.lines_eq
    textLine_nil textLine_nil
  have hp : 0 < P.length := List.length_pos.2 hP0
  have hmA : ∀ i, i < (P ++ S).length → (P ++ S).getD i [] ≠ m := by
    intro i hi e
    have := getD_mem (P ++ S) i hi
    rw [e, List.mem_append] at this
    rcases this with h | h
    · exact hmP h
    · exact hmS h
  have hcol : ∀ i, i < P.length + S.length →
      Mof (spansOf (P ++ S) []) (spansOf (P ++ m :: S) []) i P.length = false := by
    intro i hi
    apply Mof_text_false _ _ _ _ tA _ _ (by omega) (by omega)
    rw [getD_mid]
    exact hmA i (by omega)
  obtain ⟨k, hk, hwin⟩ := window_of_infix P S hP0 hPS
  have hw : ∀ i, i ≤ P.length →
      Mof (spansOf (P ++ S) []) (spansOf (P ++ m :: S) []) i (k + P.length + 1 + i) = true := by
    intro i hi
    rw [Mof_text _ _ _ _ tA _ _ (by omega) (by omega), getD_after _ _ _ _ (by omega), hwin i hi]
    congr 1
    omega
  have hoff := search_insert_off _ P.length S.length hcol (k + P.length + 1) (by omega)
    (by omega) hw
  obtain ⟨out, e, _, _, _, r4⟩ := COMPARE_ind _ _ (P ++ S) (P ++ m :: S) [] [] hA hB hG
    (fun oa a _ ob b _ st st2 =>
      st.stdout.length ≤ st2.stdout.length ∧
      (st.Same = false → st2.Same = false) ∧
      (a = 0 → 0 < b → st.stdout.length + b + 1 ≤ st2.stdout.length ∧ st2.Same = false) ∧
      (oa = 0 → ob = 0 → a = P.length + S.length → b = P.length + S.length + 1 →
        st.stdout.length + 3 ≤ st2.stdout.length ∧ st2.Same = false))
    (by
      intro oa ob Abase Bbase st _ _
      refine ⟨le_refl _, fun h => h, ?_, ?_⟩
      · intro _ h; omega
      · intro _ _ _ h; omega)
    (by
      intro oa ob b Abase Bbase st hb _ _
      have hl : (st.stdout ++ printedB (buildTable (unlines (P ++ m :: S))) 1 ob Bbase b
          ++ [OutLine.dashes]).length = st.stdout.length + b + 1 := by
        simp only [List.length_append, printedB_length, List.length_singleton]
      refine ⟨?_, fun _ => rfl, ?_, ?_⟩
      · simp only [hl]; omega
      · intro _ _
        exact ⟨by simp only [hl]; omega, rfl⟩
      · intro _ _ h; omega)
    (by
      intro oa a ob Abase Bbase st ha _ _
      have hl : (st.stdout ++ printedB (buildTable (unlines (P ++ S))) 0 oa Abase a
          ++ [OutLine.dashes]).length = st.stdout.length + a + 1 := by
        simp only [List.length_append, printedB_length, List.length_singleton]
      refine ⟨?_, fun _ => rfl, ?_, ?_⟩
      · simp only [hl]; omega
      · intro h; omega
      · intro _ _ _ h; omega)
    (by
      intro oa a Abase ob b Bbase st Ap L st2 st3 ha hb eA eB hs hL hLa hLb p2 p3
      rw [hnA, hnB] at hs
      refine ⟨le_trans p2.1 p3.1, fun h => p3.2.1 (p2.2.1 h), ?_, ?_⟩
      · intro h; omega
      · intro h1 h2 h3 h4
        subst h1; subst h2; subst h3; subst h4
        obtain ⟨Bp, L2, e1, _⟩ := hoff _ hs
        cases e1)
    (by
      intro oa a Abase ob b Bbase st Bp L st2 st3 ha hb eA eB hs hL hLb hLa p2 p3
      rw [hnA, hnB] at hs
      refine ⟨le_trans p2.1 p3.1, fun h => p3.2.1 (p2.2.1 h), ?_, ?_⟩
      · intro h; omega
      · intro h1 h2 h3 h4
        subst h1; subst h2; subst h3; subst h4
        obtain ⟨Bp2, L2, e1, hlt⟩ := hoff _ hs
        simp only [Option.some.injEq, Hit.inB.injEq] at e1
        obtain ⟨e2, e3⟩ := e1
        subst e2; subst e3
        obtain ⟨q1, q2⟩ := p2.2.2.1 rfl (by omega)
        have q3 := p3.1
        have q4 := p3.2.1 q2
        simp only at q1
        exact ⟨by omega, q4⟩)
    (by
      intro oa a Abase ob b Bbase st st3 ha hb eA eB hs p3
      rw [hnA, hnB] at hs
      have hl : st.stdout.length ≤ (st.stdout ++ printedB (buildTable (unlines (P ++ S))) 0 oa Abase 1
          ++ printedB (buildTable (unlines (P ++ m :: S))) 1 ob Bbase 1
          ++ [OutLine.dashes]).length := by
        simp only [List.length_append]; omega
      refine ⟨le_trans hl p3.1, fun _ => p3.2.1 rfl, ?_, ?_⟩
      · intro h; omega
      · intro h1 h2 h3 h4
        subst h1; subst h2; subst h3; subst h4
        obtain ⟨Bp2, L2, e1, _⟩ := hoff _ hs
        cases e1)
    ((buildTable (unlines (P ++ S))).lines + (buildTable (unlines (P ++ m :: S))).lines + 1)
    0 (buildTable (unlines (P ++ S))).lines 0
    0 (buildTable (unlines (P ++ m :: S))).lines 0
    { stdout := [], Same := true, trace := [] }
    (by omega) (by omega) (fun _ _ => ⟨by omega, by omega⟩) (by omega)
  obtain ⟨o1, o2⟩ := r4 rfl rfl hnA hnB
  exact ⟨out, e, by simpa using o1, o2⟩

end smallcompare

namespace Compare

theorem lines_flatten (T : LineTable) (ls : List (List Nat)) (t : List Nat)
    (hT : IsTable T (spansOf ls t)) :
    (List.range T.lines).flatMap (span T) = unlines ls := by
  have e : (List.range T.lines).map (span T) = ls.map (fun l => l ++ [10]) := by
    apply List.ext_getElem
    · simp [hT.lines_eq]
    · intro i h1 h2
      have hi : i < ls.length := by simpa using h2
      simp only [List.getElem_map, List.getElem_range]
      rw [span_line T ls t hT i hi, List.getD_eq_getElem?_getD, List.getElem?_eq_getElem hi]
      rfl
  rw [List.flatMap_def, e]
  simp [unlines, List.flatMap_def]

end Compare

namespace bigcompare
open Compare

theorem textLines_append (xs ys : List OutLine) :
    textLines (xs ++ ys) = textLines xs ++ textLines ys := by
  simp [textLines]

theorem textLines_printed (T : LineTable) (F lo hi : Nat) :
    textLines (printed T F lo hi) = printed T F lo hi := by
  unfold textLines
  rw [List.filter_eq_self]
  intro l hl
  simp only [printed, List.mem_map] at hl
  obtain ⟨i, _, e⟩ := hl
  subst e
  simp

theorem textLines_render (rule : ChangeRecord → ChangeRecord → Bool) (TA TB : LineTable)
    (rs : List ChangeRecord) :
    ∀ prev, textLines (render rule TA TB prev rs) = rs.flatMap (linesOf TA TB) := by
  induction rs with
  | nil => intro prev; rfl
  | cons r rs ih =>
    intro prev
    have s : textLines (sepBefore rule prev r) = [] := by
      cases prev with
      | none => rfl
      | some p =>
        simp only [sepBefore]
        split <;> rfl
    have l : textLines (linesOf TA TB r) = linesOf TA TB r := by
      cases r with
      | Deletion lo hi => exact textLines_printed _ _ _ _
      | Insertion lo hi => exact textLines_printed _ _ _ _
      | Replacement a b =>
        simp only [linesOf, textLines_append, textLines_printed]
    rw [render, textLines_append, textLines_append, s, l, ih (some r)]
    simp

/-- The main loop ends; what it printed is the lines of the records of the log;
the lines that no record covers are the lines of the skipped pairs, and the
lines of every skipped pair match. -/
theorem run_sound (Aconad Bconad : List Nat) :
    ∃ st, run Aconad Bconad = Res.ok st ∧
      textLines st.stdout
        = (records st.trace).flatMap (linesOf (buildTable Aconad) (buildTable Bconad)) ∧
      kept (rangesA st.trace) (buildTable Aconad).lines = (pairs st.trace).map Prod.fst ∧
      kept (rangesB st.trace) (buildTable Bconad).lines = (pairs st.trace).map Prod.snd ∧
      ∀ p ∈ pairs st.trace, 1 ≤ p.1 ∧ p.1 ≤ (buildTable Aconad).lines ∧ 1 ≤ p.2 ∧
        p.2 ≤ (buildTable Bconad).lines ∧
        Mof (spansOf (splitLines Aconad).1 (splitLines Aconad).2)
          (spansOf (splitLines Bconad).1 (splitLines Bconad).2) (p.1 - 1) (p.2 - 1) = true := by
  have hA := buildTable_split Aconad
  have hB := buildTable_split Bconad
  obtain ⟨st, e, ⟨⟨s1, s2, s3⟩, _, ⟨r1, _⟩⟩, eA, eB⟩ := run_inv Aconad Bconad _ _ _ _ hA hB
    (fun st => Sound (Mof (spansOf (splitLines Aconad).1 (splitLines Aconad).2)
        (spansOf (splitLines Bconad).1 (splitLines Bconad).2)) st ∧
      (Ascending (rangesA st.trace) st.BaseA ∧ Ascending (rangesB st.trace) st.BaseB) ∧
      Rendered (buildTable Aconad) (buildTable Bconad) st)
    ⟨⟨rfl, rfl, fun p hp => (by cases hp)⟩,
      ⟨⟨by simp [initState, rangesA], by simp [initState, rangesA]⟩,
        ⟨by simp [initState, rangesB], by simp [initState, rangesB]⟩⟩,
      ⟨rfl, ⟨rfl, rfl⟩⟩⟩
    (fun st st2 _ hc hp => by
      obtain ⟨ev, ht, hm⟩ := pstep_some _ _ _ st st2 hp
      exact ⟨Sound_step _ _ _ st st2 ev ht hm hc.2.1 hc.1,
        Ascending_step _ _ _ st st2 ev ht hm hc.2.1,
        Rendered_step _ _ _ st st2 hp hc.2.2⟩)
  rw [eA] at s1
  rw [eB] at s2
  refine ⟨st, e, by rw [r1, textLines_render], s1, s2, ?_⟩
  intro p hp
  have m1 : p.1 ∈ kept (rangesA st.trace) (buildTable Aconad).lines := by
    rw [s1]; exact List.mem_map_of_mem _ hp
  have m2 : p.2 ∈ kept (rangesB st.trace) (buildTable Bconad).lines := by
    rw [s2]; exact List.mem_map_of_mem _ hp
  have r1 := (List.mem_range'_1.1 (List.mem_filter.1 m1).1)
  have r2 := (List.mem_range'_1.1 (List.mem_filter.1 m2).1)
  exact ⟨by omega, by omega, by omega, by omega, s3 p hp⟩

/-- On blocks with room for the pointers stored, the main loop ends, what it
printed is the lines of the records of its log, the A-side ranges of its
Deletion and Replacement records are not empty, lie in 1..|A| and each ends
before the next one starts, and the A line numbers accounted for by the log
entries are exactly 1, 2, ..., |A|, each once; the same for the B side. -/
theorem exec_coverage (slotsA slotsB : Nat) (Aconad Bconad : List Nat)
    (hA : asked Aconad < slotsA) (hB : asked Bconad < slotsB) :
    ∃ st, exec slotsA slotsB Aconad Bconad = Res.ok st ∧
      textLines st.stdout
        = (records st.trace).flatMap (linesOf (buildTable Aconad) (buildTable Bconad)) ∧
      (rangesA st.trace).Pairwise (fun r q => r.2 < q.1) ∧
      (∀ r ∈ rangesA st.trace, 1 ≤ r.1 ∧ r.1 ≤ r.2 ∧ r.2 ≤ (buildTable Aconad).lines) ∧
      st.trace.flatMap coverA = List.range' 1 (buildTable Aconad).lines ∧
      (rangesB st.trace).Pairwise (fun r q => r.2 < q.1) ∧
      (∀ r ∈ rangesB st.trace, 1 ≤ r.1 ∧ r.1 ≤ r.2 ∧ r.2 ≤ (buildTable Bconad).lines) ∧
      st.trace.flatMap coverB = List.range' 1 (buildTable Bconad).lines := by
  rw [exec_eq_run _ _ _ _ hA hB]
  obtain ⟨st, e, ⟨⟨c1, c2, _⟩, ⟨a1, a2⟩, ⟨b1, b2⟩⟩, eA, eB⟩ :=
    run_inv Aconad Bconad _ _ _ _
    (buildTable_split Aconad) (buildTable_split Bconad)
    (fun st => Covered st ∧
      Ascending (rangesA st.trace) st.BaseA ∧
      Ascending (rangesB st.trace) st.BaseB)
    ⟨⟨rfl, rfl, by simp [initState, records]⟩,
      ⟨by simp [initState, rangesA],
        by simp [initState, rangesA]⟩,
      ⟨by simp [initState, rangesB],
        by simp [initState, rangesB]⟩⟩
    (fun st st2 _ hc hp => by
      obtain ⟨ev, ht, hm⟩ := pstep_some _ _ _ st st2 hp
      exact ⟨Covered_step _ _ _ st st2 ev ht hm hc.1,
        Ascending_step _ _ _ st st2 ev ht hm hc.2⟩)
  obtain ⟨st2, e2, t, _⟩ := run_sound Aconad Bconad
  rw [e] at e2
  cases e2
  rw [eA] at a2 c1
  rw [eB] at b2 c2
  exact ⟨st, e, t, a1, a2, c1, b1, b2, c2⟩

/-- On blocks with room for the pointers stored, a file without line against a
file of n >= 1 lines gives one record, the Insertion of the B lines 1..n, and
the other way round one Deletion of the A lines 1..n. -/
theorem exec_one_sided (slotsE slotsT : Nat) (e buf : List Nat)
    (he : (buildTable e).lines = 0) (h : 1 ≤ (buildTable buf).lines)
    (hE : asked e < slotsE) (hT : asked buf < slotsT) :
    (∃ st, exec slotsE slotsT e buf = Res.ok st ∧
      records st.trace = [.Insertion 1 (buildTable buf).lines] ∧
      st.stdout = OutLine.dashes :: (List.range (buildTable buf).lines).map
        (fun (i : Nat) => OutLine.text 1 ((i : Int) + 1) (cstr (span (buildTable buf) i).dropLast))) ∧
    (∃ st, exec slotsT slotsE buf e = Res.ok st ∧
      records st.trace = [.Deletion 1 (buildTable buf).lines] ∧
      st.stdout = OutLine.dashes :: (List.range (buildTable buf).lines).map
        (fun (i : Nat) => OutLine.text 0 ((i : Int) + 1)
          (cstr (span (buildTable buf) i).dropLast))) := by
  rw [exec_eq_run _ _ _ _ hE hT, exec_eq_run _ _ _ _ hT hE]
  have hE2 := buildTable_split e
  have hT2 := buildTable_split buf
  have hME := matchIs_of_tables _ _ _ _ hE2 hT2
  have hMT := matchIs_of_tables _ _ _ _ hT2 hE2
  have hPE := printIs_of_table _ _ _ hE2
  have hPT := printIs_of_table _ _ _ hT2
  refine ⟨?_, ?_⟩
  · obtain ⟨st, e1, e2, e3⟩ := run_insert_all _ _ _ hME hPE hPT he h
    exact ⟨st, e1, e2, by rw [e3, printed_zero _ _ _ h]⟩
  · obtain ⟨st, e1, e2, e3⟩ := run_delete_all _ _ _ hMT hPT hPE h he
    exact ⟨st, e1, e2, by rw [e3, printed_zero _ _ _ h]⟩

/-- On blocks with room for the pointers stored, the records logged on (B, A)
are those logged on (A, B) with the two sides exchanged, in the same order, and
the flag Same ends with the same value. -/
theorem exec_symmetry (slotsA slotsB : Nat) (Aconad Bconad : List Nat)
    (hA : asked Aconad < slotsA) (hB : asked Bconad < slotsB) :
    ∃ st st2, exec slotsA slotsB Aconad Bconad = Res.ok st ∧
      exec slotsB slotsA Bconad Aconad = Res.ok st2 ∧
      records st2.trace = (records st.trace).map ChangeRecord.swap ∧
      st2.Same = st.Same := by
  rw [exec_eq_run _ _ _ _ hA hB, exec_eq_run _ _ _ _ hB hA]
  obtain ⟨st, st2, e1, e2, _, _, h3, h4⟩ := run_swapped Aconad Bconad
  exact ⟨st, st2, e1, e2, h4, h3⟩

/-- On blocks with room for the pointers stored, standard output is the report
of the records of the log in which a record is preceded by a separator line
unless it is a single line of the same file as the record before it and
follows that record's last line. -/
theorem exec_report (slotsA slotsB : Nat) (Aconad Bconad : List Nat)
    (hA : asked Aconad < slotsA) (hB : asked Bconad < slotsB) :
    ∃ st, exec slotsA slotsB Aconad Bconad = Res.ok st ∧
      st.stdout = render merged (buildTable Aconad) (buildTable Bconad) none
        (records st.trace) := by
  rw [exec_eq_run _ _ _ _ hA hB]
  exact run_report Aconad Bconad

end bigcompare

namespace smallcompare
open Compare

/-- On blocks with room for the pointers stored, a file without line against a
file of n >= 1 lines gives the B lines 1..n and a separator, and the other way
round the A lines 1..n and a separator. -/
theorem execB_one_sided (slotsE slotsT : Nat) (e buf : List Nat)
    (he : (buildTable e).lines = 0) (h : 1 ≤ (buildTable buf).lines)
    (hE : asked e < slotsE) (hT : asked buf < slotsT) :
    (∃ out, exec slotsE slotsT e buf = Res.ok out ∧ out.Same = false ∧
      out.stdout = (List.range (buildTable buf).lines).map
        (fun (i : Nat) => OutLine.text 1 ((i : Int) + 1) (cstr (span (buildTable buf) i).dropLast))
        ++ [OutLine.dashes]) ∧
    (∃ out, exec slotsT slotsE buf e = Res.ok out ∧ out.Same = false ∧
      out.stdout = (List.range (buildTable buf).lines).map
        (fun (i : Nat) => OutLine.text 0 ((i : Int) + 1) (cstr (span (buildTable buf) i).dropLast))
        ++ [OutLine.dashes]) := by
  rw [execB_eq_run _ _ _ _ hE hT, execB_eq_run _ _ _ _ hT hE]
  have hT2 := buildTable_split buf
  have hn := hT2.lines_eq
  have c1 : ¬ ((((buildTable buf).lines : Nat) : Int) ≤ 0) := by omega
  refine ⟨?_, ?_⟩
  · unfold run
    rw [COMPARE, he]
    have c0 : ¬ (((0 : Nat) : Int) ≤ 0 ∧ (((buildTable buf).lines : Nat) : Int) ≤ 0) := by omega
    have c2 : (((0 : Nat) : Int) ≤ 0) := by omega
    rw [if_neg c0, if_pos c2, Int.toNat_ofNat, Print_eq _ _ _ hT2 0 0 1 _ (by omega)]
    refine ⟨_, rfl, rfl, ?_⟩
    simp [printedB]
  · unfold run
    rw [COMPARE, he]
    have c0 : ¬ ((((buildTable buf).lines : Nat) : Int) ≤ 0 ∧ ((0 : Nat) : Int) ≤ 0) := by omega
    have c2 : (((0 : Nat) : Int) ≤ 0) := by omega
    rw [if_neg c0, if_neg c1, if_pos c2, Int.toNat_ofNat, Print_eq _ _ _ hT2 0 0 0 _ (by omega)]
    refine ⟨_, rfl, rfl, ?_⟩
    simp [printedB]

/-- On blocks with room for the pointers stored and buffers without NUL byte,
COMPARE returns; the table positions it never passes to Print hold pairwise
equal lines, they are the positions of the matched blocks, and every position
of either file is printed once or lies in one block. -/
theorem execB_sound (slotsA slotsB : Nat) (Aconad Bconad : List Nat)
    (h0A : 0 ∉ Aconad) (h0B : 0 ∉ Bconad)
    (hA : asked Aconad < slotsA) (hB : asked Bconad < slotsB) :
    ∃ out, exec slotsA slotsB Aconad Bconad = Res.ok out ∧
      List.Forall₂ (fun i j => span (buildTable Aconad) i = span (buildTable Bconad) j)
        (unprinted 0 (buildTable Aconad).lines out.trace)
        (unprinted 1 (buildTable Bconad).lines out.trace) ∧
      unprinted 0 (buildTable Aconad).lines out.trace = blockA out.trace ∧
      unprinted 1 (buildTable Bconad).lines out.trace = blockB out.trace ∧
      (printedPos 0 out.trace ++ blockA out.trace).Perm (List.range (buildTable Aconad).lines) ∧
      (printedPos 1 out.trace ++ blockB out.trace).Perm
        (List.range (buildTable Bconad).lines) := by
  rw [execB_eq_run _ _ _ _ hA hB]
  obtain ⟨out, e, p1, p2, s1, s2, f, _⟩ := runB_sound Aconad Bconad h0A h0B
  rw [← List.range_eq_range'] at p1 p2
  have uA := filter_unprinted _ _ _ p1 s1
  have uB := filter_unprinted _ _ _ p2 s2
  refine ⟨out, e, ?_, uA, uB, p1, p2⟩
  unfold unprinted
  rw [uA, uB]
  exact f

/-- On blocks with room for the pointers stored and buffers without NUL byte,
COMPARE returns, every call of it receives range sizes that are not negative
and ranges inside the tables, and a call of Match with a line index above the
line count of its table would read past the pointers stored. -/
theorem execB_bounds (slotsA slotsB : Nat) (Aconad Bconad : List Nat)
    (h0A : 0 ∉ Aconad) (h0B : 0 ∉ Bconad)
    (hA : asked Aconad < slotsA) (hB : asked Bconad < slotsB) :
    (∃ out, exec slotsA slotsB Aconad Bconad = Res.ok out ∧
      callsInside (buildTable Aconad).lines (buildTable Bconad).lines out.trace) ∧
    (∀ oa i ob j, (buildTable Aconad).lines < oa + i ∨ (buildTable Bconad).lines < ob + j →
      Match ⟨buildTable Aconad, oa⟩ i ⟨buildTable Bconad, ob⟩ j = Res.oob) := by
  rw [execB_eq_run _ _ _ _ hA hB]
  exact ⟨runB_callsInside Aconad Bconad h0A h0B, fun oa i ob j h => Match_oob Aconad Bconad oa i ob j h⟩

end smallcompare

/-! ## The claims -/


open Compare

/-- C1 (Identity): for every byte buffer, the empty one included, the main loop
of bigcompare.c and COMPARE of smallcompare.c, run on two tables built from
that buffer, print nothing, log no record and leave Same = TRUE, and both
main functions report `Files are identical`. -/
theorem C1_identity (buf : List Nat) :
    (∃ st, bigcompare.run buf buf = Res.ok st ∧ bigcompare.records st.trace = [] ∧
      st.Same = true ∧ st.stdout = []) ∧
    bigcompare.main buf buf = Res.ok { stdout := [], identical := true } ∧
    (∃ out, smallcompare.run buf buf = Res.ok out ∧ out.stdout = [] ∧ out.Same = true) ∧
    smallcompare.main buf buf = Res.ok { stdout := [], identical := true } := by
  have hA : ∃ st, bigcompare.run buf buf = Res.ok st ∧ bigcompare.records st.trace = [] ∧
      st.Same = true ∧ st.stdout = [] := by
    obtain ⟨st, e, ⟨_, p2, p3, p4⟩, _, _⟩ := bigcompare.run_inv buf buf _ _ _ _
      (buildTable_split buf) (buildTable_split buf)
      (fun st => st.BaseA = st.BaseB ∧ bigcompare.records st.trace = [] ∧ st.Same = true ∧
        st.stdout = [])
      ⟨rfl, rfl, rfl, rfl⟩
      (fun st st2 hin hP hp => by
        obtain ⟨q1, q2, q3, q4⟩ := hP
        obtain ⟨ev, ht, hm⟩ := bigcompare.pstep_some _ _ _ st st2 hp
        have hr : ∀ a, Mof (spansOf (splitLines buf).1 (splitLines buf).2)
            (spansOf (splitLines buf).1 (splitLines buf).2) a a ≠ false := by
          intro a h
          rw [bigcompare.Mof_refl] at h
          cases h
        rcases hm with ⟨e, _, _, _, eA, eB, eS, eO, _⟩ | ⟨k, hk, _, hle, _, _, _, hor⟩ |
          ⟨k, hk, _, hle, _, _, _, hor⟩ | ⟨_, _, _, hf, _⟩
        · refine ⟨by omega, ?_, by rw [eS, q3], by rw [eO, q4]⟩
          rw [ht, bigcompare.records_append, q2, e]
          rfl
        · rcases hor with h | h
          · omega
          · rw [q1] at h; exact absurd h (hr _)
        · rcases hor with h | h
          · omega
          · rw [q1] at h; exact absurd h (hr _)
        · rw [q1] at hf; exact absurd hf (hr _))
    exact ⟨st, e, p2, p3, p4⟩
  have hB : ∃ out, smallcompare.run buf buf = Res.ok out ∧ out.stdout = [] ∧ out.Same = true := by
    obtain ⟨out, e, p1, p2⟩ := smallcompare.COMPARE_same (buildTable buf) _ (buildTable_split buf)
      ((buildTable buf).lines + (buildTable buf).lines + 1) (by omega) { stdout := [], Same := true, trace := [] }
    exact ⟨out, e, p1, p2⟩
  obtain ⟨st, e1, _, s1, o1⟩ := hA
  obtain ⟨out, e2, o2, s2⟩ := hB
  refine ⟨⟨st, e1, by assumption, s1, o1⟩, ?_, ⟨out, e2, o2, s2⟩, ?_⟩
  · simp [bigcompare.main, e1, s1, o1]
  · simp [smallcompare.main, e2, s2, o2]

/-- C2, counterexample: the files `a` and `b`, which differ in content after
their last newline (they have none), are reported identical by both programs;
so are `a\nb` and `a\nc`, and so are the lines `\0a\n` and `\0b\n`, which
differ after a NUL byte. The blocks, of three pointers, have room for the
pointers stored. -/
theorem C2_counterexample :
    ([97] : List Nat) ≠ [98] ∧
    bigcompare.program 3 3 [97] [98] = Res.ok { stdout := [], identical := true } ∧
    smallcompare.program 3 3 [97] [98] = Res.ok { stdout := [], identical := true } ∧
    bigcompare.program 3 3 [97, 10, 98] [97, 10, 99]
      = Res.ok { stdout := [], identical := true } ∧
    smallcompare.program 3 3 [97, 10, 98] [97, 10, 99]
      = Res.ok { stdout := [], identical := true } ∧
    bigcompare.program 3 3 [0, 97, 10] [0, 98, 10]
      = Res.ok { stdout := [], identical := true } ∧
    smallcompare.program 3 3 [0, 97, 10] [0, 98, 10]
      = Res.ok { stdout := [], identical := true } := by
  refine ⟨by decide, by rfl, by rfl, by rfl, by rfl, by rfl, by rfl⟩

/-- C2, amended: for every pair of files without NUL byte, given as their
newline-terminated lines followed by the bytes after the last newline, and for
blocks that have room for the pointers the indexer stores (more than it asked
for), each program ends with Same = TRUE, emits no record and reports
`Files are identical` exactly when the two files have the same
newline-terminated lines, that is when they are equal up to and including
their last newline byte; in every other case at least one record is emitted.
The bytes after the last newline are not compared. Nothing is said of a run
whose indexer stores outside its block. -/
theorem C2_identical_iff (slotsA slotsB : Nat) (ls ls2 : List (List Nat)) (t t2 : List Nat)
    (hl : ∀ l ∈ ls, TextLine l) (hl2 : ∀ l ∈ ls2, TextLine l)
    (ht : TextLine t) (ht2 : TextLine t2)
    (hA : asked (unlines ls ++ t) < slotsA) (hB : asked (unlines ls2 ++ t2) < slotsB) :
    (∃ st, bigcompare.exec slotsA slotsB (unlines ls ++ t) (unlines ls2 ++ t2) = Res.ok st ∧
      (st.Same = true ↔ ls = ls2) ∧ (bigcompare.records st.trace = [] ↔ ls = ls2) ∧
      (st.stdout = [] ↔ ls = ls2)) ∧
    (∃ r, bigcompare.program slotsA slotsB (unlines ls ++ t) (unlines ls2 ++ t2) = Res.ok r ∧
      (r.identical = true ↔ ls = ls2) ∧ (r.stdout = [] ↔ ls = ls2)) ∧
    (∃ out, smallcompare.exec slotsA slotsB (unlines ls ++ t) (unlines ls2 ++ t2) = Res.ok out ∧
      (out.Same = true ↔ ls = ls2) ∧ (out.stdout = [] ↔ ls = ls2)) ∧
    (∃ r, smallcompare.program slotsA slotsB (unlines ls ++ t) (unlines ls2 ++ t2) = Res.ok r ∧
      (r.identical = true ↔ ls = ls2) ∧ (r.stdout = [] ↔ ls = ls2)) := by
  have nl : ∀ l : List Nat, TextLine l → 10 ∉ l := fun l h hm => (h 10 hm).1 rfl
  have hTA := buildTable_isTable ls t (fun l h => nl l (hl l h)) (nl t ht)
  have hTB := buildTable_isTable ls2 t2 (fun l h => nl l (hl2 l h)) (nl t2 ht2)
  have hag := agree_iff_eq ls ls2 t t2 hl
  obtain ⟨st, e1, s1, r1⟩ := bigcompare.run_same_iff _ _ ls ls2 t t2 hTA hTB
  obtain ⟨st3, e3, r3⟩ := bigcompare.run_report (unlines ls ++ t) (unlines ls2 ++ t2)
  obtain ⟨out, e2, s2, o2⟩ := smallcompare.runB_same_iff _ _ ls ls2 t t2 hTA hTB ht ht2
  rw [e1] at e3
  cases e3
  rw [hag] at s1 r1 s2 o2
  have q1 : st.stdout = [] ↔ ls = ls2 := by
    rw [← r1, r3]
    exact bigcompare.render_eq_nil _ _ _ _
  have x1 := bigcompare.exec_eq_run _ _ _ _ hA hB
  have x2 := smallcompare.execB_eq_run _ _ _ _ hA hB
  refine ⟨⟨st, by rw [x1, e1], s1, r1, q1⟩, ?_, ⟨out, by rw [x2, e2], s2, o2⟩, ?_⟩
  · cases hS : st.Same with
    | true =>
      refine ⟨{ stdout := st.stdout, identical := true },
        by simp [bigcompare.program, x1, e1, hS], ?_, q1⟩
      rw [hS] at s1
      exact s1
    | false =>
      refine ⟨{ stdout := (bigcompare.Separator (-1) (-1) st).stdout, identical := false },
        by simp [bigcompare.program, x1, e1, hS], ?_, ?_⟩
      · rw [hS] at s1
        exact s1
      · have hne : ¬ ls = ls2 := fun h => by
          have := s1.2 h
          rw [hS] at this
          cases this
        constructor
        · intro h
          rw [bigcompare.Separator_stdout] at h
          have h2 := (List.append_eq_nil.1 h).1
          exact absurd (q1.1 h2) hne
        · intro h
          exact absurd h hne
  · exact ⟨{ stdout := out.stdout, identical := out.Same },
      by simp [smallcompare.program, x2, e2], s2, o2⟩

/-- C2, the amended statement at the files `a\nb` and `a\nc`, on blocks of
three pointers. -/
theorem C2_identical_iff_witness :
    ((∀ l ∈ [[97]], TextLine l) ∧ (∀ l ∈ [[97]], TextLine l) ∧ TextLine [98] ∧ TextLine [99] ∧
      asked (unlines [[97]] ++ [98]) < 3 ∧ asked (unlines [[97]] ++ [99]) < 3) ∧
    (∃ r, bigcompare.program 3 3 (unlines [[97]] ++ [98]) (unlines [[97]] ++ [99]) = Res.ok r ∧
      (r.identical = true ↔ [[97]] = [[97]]) ∧ (r.stdout = [] ↔ [[97]] = [[97]])) ∧
    (∃ r, smallcompare.program 3 3 (unlines [[97]] ++ [98]) (unlines [[97]] ++ [99]) = Res.ok r ∧
      (r.identical = true ↔ [[97]] = [[97]]) ∧ (r.stdout = [] ↔ [[97]] = [[97]])) := by
  have h := C2_identical_iff 3 3 [[97]] [[97]] [98] [99] (by decide) (by decide) (by decide)
    (by decide) (by decide) (by decide)
  exact ⟨⟨by decide, by decide, by decide, by decide, by decide, by decide⟩, h.2.1, h.2.2.2⟩

/-- C3, failing input: A = `z\nu\nv\nw\n`, B = `w\nx\ny\nu\n`. B has four
newline bytes, so `calloc` is asked for five pointers, and the indexer stores
six, the last one at `BB[5]`, outside a block of five pointers: whatever the
block of A, the run of bigcompare.c is undefined from that store on, and no
record is emitted for the lines of A and B that differ. -/
theorem C3_store_outside_block :
    asked [119, 10, 120, 10, 121, 10, 117, 10] = 5 ∧
    (buildTable [119, 10, 120, 10, 121, 10, 117, 10]).AA.length = 6 ∧
    indexer 5 [119, 10, 120, 10, 121, 10, 117, 10] = Res.oob ∧
    (∀ slotsA, bigcompare.exec slotsA 5 [122, 10, 117, 10, 118, 10, 119, 10]
      [119, 10, 120, 10, 121, 10, 117, 10] = Res.oob) ∧
    (∀ slotsA, bigcompare.program slotsA 5 [122, 10, 117, 10, 118, 10, 119, 10]
      [119, 10, 120, 10, 121, 10, 117, 10] = Res.oob) :=
  ⟨by decide, by decide, by rfl,
    fun _ => bigcompare.exec_oob _ _ _ _ (Or.inr (by decide)),
    fun _ => bigcompare.program_oob _ _ _ _ (Or.inr (by decide))⟩


/-- C4, at the failing input A = "y\n", B = "x\ny\nz\n": COMPARE finds the
common line while sliding the window down the B file, and the call on the
ranges after it prints the third line of B, `z`, with the number 2. -/
theorem C4_mislabel :
    ∃ out, smallcompare.run [121, 10] [120, 10, 121, 10, 122, 10] = Res.ok out ∧
      out.stdout = [OutLine.text 1 1 [120], OutLine.dashes, OutLine.text 1 2 [122],
        OutLine.dashes] ∧
      span (buildTable [120, 10, 121, 10, 122, 10]) 1 = [121, 10] ∧
      span (buildTable [120, 10, 121, 10, 122, 10]) 2 = [122, 10] :=
  ⟨_, by rfl, by rfl, by decide, by decide⟩

/-- C5, counterexample: the lines `\0a` and `\0b` are different and occur in no
other line (P and S are empty), and neither engine emits a record for the
files `\0a\n` and `\0b\n`. The blocks have room for the pointers stored. -/
theorem C5_counterexample :
    ([0, 97] : List Nat) ≠ [0, 98] ∧
    (∃ st, bigcompare.exec 3 3 (unlines ([] ++ [[0, 97]] ++ [])) (unlines ([] ++ [[0, 98]] ++ []))
        = Res.ok st ∧ bigcompare.records st.trace = [] ∧ st.stdout = [] ∧ st.Same = true ∧
        bigcompare.records st.trace ≠ [.Replacement 1 1]) ∧
    (∃ out, smallcompare.exec 3 3 (unlines ([] ++ [[0, 97]] ++ [])) (unlines ([] ++ [[0, 98]] ++ []))
        = Res.ok out ∧ out.stdout = [] ∧ out.Same = true) :=
  ⟨by decide, ⟨_, by rfl, by rfl, by rfl, by rfl, by decide⟩, ⟨_, by rfl, by rfl, by rfl⟩⟩

/-- C5, amended (single-line change): for all sequences P and S of lines and
all lines x and y, none of them holding a NUL byte, with x different from y and
neither x nor y in P or in S, and for blocks that have room for the pointers
the indexer stores (more than it asked for), both engines run on
A = P ++ [x] ++ S and B = P ++ [y] ++ S emit exactly one record: Engine A logs
one Replacement of A line |P|+1 by B line |P|+1 and prints a separator, x and
y; Engine B prints x and y, each with the number |P|+1, and a separator. No
line of P or S is printed. Nothing is said of a run whose indexer stores
outside its block. -/
theorem C5_single_line_change (slotsA slotsB : Nat) (P S : List (List Nat)) (x y : List Nat)
    (hP : ∀ l ∈ P, TextLine l) (hS : ∀ l ∈ S, TextLine l) (hx : TextLine x) (hy : TextLine y)
    (hxy : x ≠ y) (hxP : x ∉ P) (hxS : x ∉ S) (hyP : y ∉ P) (hyS : y ∉ S)
    (hA : asked (unlines (P ++ [x] ++ S)) < slotsA)
    (hB : asked (unlines (P ++ [y] ++ S)) < slotsB) :
    (∃ st, bigcompare.exec slotsA slotsB (unlines (P ++ [x] ++ S)) (unlines (P ++ [y] ++ S))
        = Res.ok st ∧
      bigcompare.records st.trace = [.Replacement (P.length + 1) (P.length + 1)] ∧
      st.stdout = [OutLine.dashes, OutLine.text 0 ((P.length : Int) + 1) x,
        OutLine.text 1 ((P.length : Int) + 1) y]) ∧
    (∃ out, smallcompare.exec slotsA slotsB (unlines (P ++ [x] ++ S)) (unlines (P ++ [y] ++ S))
        = Res.ok out ∧
      out.stdout = [OutLine.text 0 ((P.length : Int) + 1) x,
        OutLine.text 1 ((P.length : Int) + 1) y, OutLine.dashes] ∧
      out.Same = false) := by
  rw [bigcompare.exec_eq_run _ _ _ _ hA hB, smallcompare.execB_eq_run _ _ _ _ hA hB]
  have ex : P ++ [x] ++ S = P ++ x :: S := by simp
  have ey : P ++ [y] ++ S = P ++ y :: S := by simp
  rw [ex, ey]
  exact ⟨bigcompare.run_single_change P S x y hP hS hx hy hxy hxP hxS hyP hyS,
    smallcompare.runB_single_change P S x y hP hS hx hy hxy hxP hxS hyP hyS⟩

/-- C5 at the spec's witness: P = [apple], x = banana, y = blueberry,
S = [cherry], on blocks of five pointers. -/
theorem C5_single_line_change_witness :
    ((∀ l ∈ [[97, 112, 112, 108, 101]], TextLine l) ∧
      (∀ l ∈ [[99, 104, 101, 114, 114, 121]], TextLine l) ∧
      TextLine [98, 97, 110, 97, 110, 97] ∧ TextLine [98, 108, 117, 101, 98, 101, 114, 114, 121] ∧
      ([98, 97, 110, 97, 110, 97] : List Nat) ≠ [98, 108, 117, 101, 98, 101, 114, 114, 121] ∧
      asked (unlines ([[97, 112, 112, 108, 101]] ++ [[98, 97, 110, 97, 110, 97]]
          ++ [[99, 104, 101, 114, 114, 121]])) < 5 ∧
      asked (unlines ([[97, 112, 112, 108, 101]] ++ [[98, 108, 117, 101, 98, 101, 114, 114, 121]]
          ++ [[99, 104, 101, 114, 114, 121]])) < 5) ∧
    (∃ st, bigcompare.exec 5 5
        (unlines ([[97, 112, 112, 108, 101]] ++ [[98, 97, 110, 97, 110, 97]]
          ++ [[99, 104, 101, 114, 114, 121]]))
        (unlines ([[97, 112, 112, 108, 101]] ++ [[98, 108, 117, 101, 98, 101, 114, 114, 121]]
          ++ [[99, 104, 101, 114, 114, 121]])) = Res.ok st ∧
      bigcompare.records st.trace = [.Replacement 2 2]) ∧
    (∃ out, smallcompare.exec 5 5
        (unlines ([[97, 112, 112, 108, 101]] ++ [[98, 97, 110, 97, 110, 97]]
          ++ [[99, 104, 101, 114, 114, 121]]))
        (unlines ([[97, 112, 112, 108, 101]] ++ [[98, 108, 117, 101, 98, 101, 114, 114, 121]]
          ++ [[99, 104, 101, 114, 114, 121]])) = Res.ok out ∧
      out.stdout = [OutLine.text 0 2 [98, 97, 110, 97, 110, 97],
        OutLine.text 1 2 [98, 108, 117, 101, 98, 101, 114, 114, 121], OutLine.dashes]) := by
  have h := C5_single_line_change 5 5 [[97, 112, 112, 108, 101]] [[99, 104, 101, 114, 114, 121]]
    [98, 97, 110, 97, 110, 97] [98, 108, 117, 101, 98, 101, 114, 114, 121]
    (by decide) (by decide) (by decide) (by decide) (by decide) (by decide) (by decide)
    (by decide) (by decide) (by decide) (by decide)
  obtain ⟨⟨st, a1, a2, _⟩, ⟨out, b1, b2, _⟩⟩ := h
  exact ⟨⟨by decide, by decide, by decide, by decide, by decide, by decide, by decide⟩,
    ⟨st, a1, a2⟩, ⟨out, b1, b2⟩⟩

/-- C6, counterexample: with P empty, S = [`\0b`, `c`] and m = `\0a`, a line
that occurs nowhere in S, Engine A reports the second line of B, not the
inserted first one. The blocks have room for the pointers stored. -/
theorem C6_counterexample :
    ([0, 97] : List Nat) ∉ ([] ++ [[0, 98], [99]] : List (List Nat)) ∧
    (∃ st, bigcompare.exec 4 5 (unlines ([] ++ [[0, 98], [99]]))
        (unlines ([] ++ [[0, 97]] ++ [[0, 98], [99]]))
        = Res.ok st ∧ bigcompare.records st.trace = [.Insertion 2 2] ∧
        st.stdout = [OutLine.dashes, OutLine.text 1 2 []] ∧
        bigcompare.records st.trace ≠ [.Insertion 1 1]) :=
  ⟨by decide, ⟨_, by rfl, by rfl, by rfl, by decide⟩⟩

/-- C6, amended (pure insertion, Engine A): for all sequences P and S of lines
and every line m, none of them holding a NUL byte, with m nowhere in P ++ S,
and for blocks that have room for the pointers the indexer stores (more than it
asked for), the main loop of bigcompare.c run on A = P ++ S and
B = P ++ [m] ++ S logs exactly one record, the Insertion of the single B line
|P|+1, and prints a separator and that line, whose content is m; it prints no
line of A. Nothing is said of a run whose indexer stores outside its block. -/
theorem C6_pure_insertion_A (slotsA slotsB : Nat) (P S : List (List Nat)) (m : List Nat)
    (hP : ∀ l ∈ P, TextLine l) (hS : ∀ l ∈ S, TextLine l) (hm : TextLine m)
    (hmPS : m ∉ P ++ S)
    (hA : asked (unlines (P ++ S)) < slotsA) (hB : asked (unlines (P ++ [m] ++ S)) < slotsB) :
    ∃ st, bigcompare.exec slotsA slotsB (unlines (P ++ S)) (unlines (P ++ [m] ++ S)) = Res.ok st ∧
      bigcompare.records st.trace = [.Insertion (P.length + 1) (P.length + 1)] ∧
      st.stdout = [OutLine.dashes, OutLine.text 1 ((P.length : Int) + 1) m] := by
  rw [bigcompare.exec_eq_run _ _ _ _ hA hB]
  have em : P ++ [m] ++ S = P ++ m :: S := by simp
  rw [em]
  exact bigcompare.run_pure_insertion P S m hP hS hm
    (fun h => hmPS (List.mem_append_left _ h)) (fun h => hmPS (List.mem_append_right _ h))

/-- C6 at the spec's witness: P = [x], m = mid, S = [y], on blocks of four and
five pointers. -/
theorem C6_pure_insertion_A_witness :
    ((∀ l ∈ [[120]], TextLine l) ∧ (∀ l ∈ [[121]], TextLine l) ∧ TextLine [109, 105, 100] ∧
      ([109, 105, 100] : List Nat) ∉ [[120]] ++ [[121]] ∧
      asked (unlines ([[120]] ++ [[121]])) < 4 ∧
      asked (unlines ([[120]] ++ [[109, 105, 100]] ++ [[121]])) < 5) ∧
    ∃ st, bigcompare.exec 4 5 (unlines ([[120]] ++ [[121]]))
        (unlines ([[120]] ++ [[109, 105, 100]] ++ [[121]])) = Res.ok st ∧
      bigcompare.records st.trace = [.Insertion 2 2] ∧
      st.stdout = [OutLine.dashes, OutLine.text 1 2 [109, 105, 100]] :=
  ⟨⟨by decide, by decide, by decide, by decide, by decide, by decide⟩,
    C6_pure_insertion_A 4 5 [[120]] [[121]] [109, 105, 100] (by decide) (by decide) (by decide)
      (by decide) (by decide) (by decide)⟩

/-- C7, counterexample: with P = [a], S = [a, a, a] and m a line that occurs
nowhere in P ++ S, COMPARE takes the three-line block `a a a` at the top of A
and two lines down B as the common block; it prints the B lines 1..2 (`a` and
m) as one record and the A line 4 as a second one. The blocks have room for the
pointers stored. -/
theorem C7_counterexample :
    ([109] : List Nat) ∉ ([[97]] ++ [[97], [97], [97]] : List (List Nat)) ∧
    (∃ out, smallcompare.exec 6 7 (unlines ([[97]] ++ [[97], [97], [97]]))
        (unlines ([[97]] ++ [[109]] ++ [[97], [97], [97]])) = Res.ok out ∧
      out.stdout = [OutLine.text 1 1 [97], OutLine.text 1 2 [109], OutLine.dashes,
        OutLine.text 0 4 [97], OutLine.dashes] ∧
      out.stdout ≠ [OutLine.text 1 2 [109], OutLine.dashes]) :=
  ⟨by decide, ⟨_, by rfl, by rfl, by decide⟩⟩

/-- C7, amended (pure insertion, Engine B): for all sequences P and S of lines
and every line m, none of them holding a NUL byte, with m nowhere in P ++ S,
and for blocks that have room for the pointers the indexer stores (more than it
asked for), COMPARE run on A = P ++ S and B = P ++ [m] ++ S returns with
Same = FALSE, and it prints exactly one record, the single B line m with the
number |P|+1 followed by a separator, and no line of A, if and only if P is
empty or the lines of P followed by the first line of S do not occur in S as
consecutive lines. Nothing is said of a run whose indexer stores outside its
block. -/
theorem C7_pure_insertion_B (slotsA slotsB : Nat) (P S : List (List Nat)) (m : List Nat)
    (hP : ∀ l ∈ P, TextLine l) (hS : ∀ l ∈ S, TextLine l) (hm : TextLine m)
    (hmPS : m ∉ P ++ S)
    (hA : asked (unlines (P ++ S)) < slotsA) (hB : asked (unlines (P ++ [m] ++ S)) < slotsB) :
    ∃ out, smallcompare.exec slotsA slotsB (unlines (P ++ S)) (unlines (P ++ [m] ++ S))
        = Res.ok out ∧ out.Same = false ∧
      (out.stdout = [OutLine.text 1 ((P.length : Int) + 1) m, OutLine.dashes] ↔
        (P = [] ∨ ¬ (P ++ S.take 1) <:+: S)) := by
  rw [smallcompare.execB_eq_run _ _ _ _ hA hB]
  have em : P ++ [m] ++ S = P ++ m :: S := by simp
  rw [em]
  have hmP : m ∉ P := fun h => hmPS (List.mem_append_left _ h)
  have hmS : m ∉ S := fun h => hmPS (List.mem_append_right _ h)
  by_cases hc : P = [] ∨ ¬ (P ++ S.take 1) <:+: S
  · obtain ⟨out, e, o1, o2⟩ := smallcompare.runB_insertion P S m hP hS hm hmP hmS
      (fun hne => hc.resolve_left hne)
    exact ⟨out, e, o2, fun _ => hc, fun _ => o1⟩
  · have h1 : P ≠ [] := fun h => hc (Or.inl h)
    have h2 : (P ++ S.take 1) <:+: S := by
      by_contra h
      exact hc (Or.inr h)
    obtain ⟨out, e, o1, o2⟩ := smallcompare.runB_insertion_off P S m hP hS hm hmP hmS h1 h2
    refine ⟨out, e, o2, fun h => ?_, fun h => absurd h hc⟩
    rw [h] at o1
    simp at o1

/-- C7 at the spec's witness: P = [x], m = mid, S = [y], on blocks of four and
five pointers; the lines `x y` do not occur in S. -/
theorem C7_pure_insertion_B_witness :
    ((∀ l ∈ [[120]], TextLine l) ∧ (∀ l ∈ [[121]], TextLine l) ∧ TextLine [109, 105, 100] ∧
      ([109, 105, 100] : List Nat) ∉ [[120]] ++ [[121]] ∧
      asked (unlines ([[120]] ++ [[121]])) < 4 ∧
      asked (unlines ([[120]] ++ [[109, 105, 100]] ++ [[121]])) < 5) ∧
    ∃ out, smallcompare.exec 4 5 (unlines ([[120]] ++ [[121]]))
        (unlines ([[120]] ++ [[109, 105, 100]] ++ [[121]])) = Res.ok out ∧ out.Same = false ∧
      out.stdout = [OutLine.text 1 2 [109, 105, 100], OutLine.dashes] := by
  obtain ⟨out, e, s, h⟩ := C7_pure_insertion_B 4 5 [[120]] [[121]] [109, 105, 100] (by decide)
    (by decide) (by decide) (by decide) (by decide) (by decide)
  exact ⟨⟨by decide, by decide, by decide, by decide, by decide, by decide⟩, out, e, s,
    h.2 (Or.inr (by decide))⟩

/-- C8, failing input: A = `q` (no line), B = `a\nb\n` (n = 2). B has two
newline bytes, so `calloc` is asked for three pointers, and the indexer stores
four, the last one at `BB[3]`, outside a block of three pointers: whatever the
block of A, the run of either program is undefined from that store on, and the
Insertion of the B lines 1..2 is not emitted. -/
theorem C8_store_outside_block :
    (buildTable [113]).lines = 0 ∧ (buildTable [97, 10, 98, 10]).lines = 2 ∧
    asked [97, 10, 98, 10] = 3 ∧ (buildTable [97, 10, 98, 10]).AA.length = 4 ∧
    indexer 3 [97, 10, 98, 10] = Res.oob ∧
    (∀ slotsA, bigcompare.program slotsA 3 [113] [97, 10, 98, 10] = Res.oob) ∧
    (∀ slotsA, smallcompare.program slotsA 3 [113] [97, 10, 98, 10] = Res.oob) :=
  ⟨by decide, by decide, by decide, by decide, by rfl,
    fun _ => bigcompare.program_oob _ _ _ _ (Or.inr (by decide)),
    fun _ => smallcompare.programB_oob _ _ _ _ (Or.inr (by decide))⟩


/-- C9, counterexample: the lines `\0a\n` and `\0b\n` differ at their second
byte, and both Match functions return true on them. -/
theorem C9_counterexample :
    bigcompare.Match (buildTable [0, 97, 10]) (buildTable [0, 98, 10]) 0 0 = Res.ok true ∧
    smallcompare.Match ⟨buildTable [0, 97, 10], 0⟩ 0 ⟨buildTable [0, 98, 10], 0⟩ 0
      = Res.ok true ∧
    (span (buildTable [0, 97, 10]) 0).length = (span (buildTable [0, 98, 10]) 0).length ∧
    span (buildTable [0, 97, 10]) 0 ≠ span (buildTable [0, 98, 10]) 0 := by
  refine ⟨by rfl, by rfl, by decide, by decide⟩

/-- C9, amended: for all buffers X and Y and all spans i and j of their tables
(the lines and the span after the last newline), both Match functions return
true if and only if the two spans have the same byte length and the same bytes
up to the first NUL byte; when one of the two spans holds no NUL byte this is
if and only if the two spans are the same bytes. -/
theorem C9_match (X Y : List Nat) (i j : Nat) (hi : i ≤ (buildTable X).lines)
    (hj : j ≤ (buildTable Y).lines) :
    bigcompare.Match (buildTable X) (buildTable Y) i j
      = Res.ok (decide ((span (buildTable X) i).length = (span (buildTable Y) j).length ∧
          cstr (span (buildTable X) i) = cstr (span (buildTable Y) j))) ∧
    smallcompare.Match ⟨buildTable X, 0⟩ i ⟨buildTable Y, 0⟩ j
      = Res.ok (decide ((span (buildTable X) i).length = (span (buildTable Y) j).length ∧
          cstr (span (buildTable X) i) = cstr (span (buildTable Y) j))) ∧
    ((0 ∉ span (buildTable X) i ∨ 0 ∉ span (buildTable Y) j) →
      bigcompare.Match (buildTable X) (buildTable Y) i j
        = Res.ok (decide (span (buildTable X) i = span (buildTable Y) j)) ∧
      smallcompare.Match ⟨buildTable X, 0⟩ i ⟨buildTable Y, 0⟩ j
        = Res.ok (decide (span (buildTable X) i = span (buildTable Y) j))) := by
  have hX := buildTable_split X
  have hY := buildTable_split Y
  have lX := hX.lines
  have lY := hY.lines
  have eX : (spansOf (splitLines X).1 (splitLines X).2)[0 + i]?
      = some ((spansOf (splitLines X).1 (splitLines X).2).getD i []) := by
    rw [Nat.zero_add, List.getD_eq_getElem?_getD, List.getElem?_eq_getElem (by omega)]; rfl
  have eY : (spansOf (splitLines Y).1 (splitLines Y).2)[0 + j]?
      = some ((spansOf (splitLines Y).1 (splitLines Y).2).getD j []) := by
    rw [Nat.zero_add, List.getD_eq_getElem?_getD, List.getElem?_eq_getElem (by omega)]; rfl
  have sX := span_eq _ _ hX i _ (by rw [Nat.zero_add] at eX; exact eX)
  have sY := span_eq _ _ hY j _ (by rw [Nat.zero_add] at eY; exact eY)
  have key := Match_spec _ _ _ _ hX hY 0 i 0 j _ _ eX eY
  rw [← sX, ← sY] at key
  refine ⟨key, key, fun h0 => ?_⟩
  have e := lineEq_of_noNUL _ _ h0
  rw [e] at key
  exact ⟨key, key⟩

/-- C9, the amended statement at line 1 of `ab\n` and line 2 of `x\nab\n`. -/
theorem C9_match_witness :
    (0 ≤ (buildTable [97, 98, 10]).lines ∧ 1 ≤ (buildTable [120, 10, 97, 98, 10]).lines) ∧
    bigcompare.Match (buildTable [97, 98, 10]) (buildTable [120, 10, 97, 98, 10]) 0 1
      = Res.ok true ∧
    smallcompare.Match ⟨buildTable [97, 98, 10], 0⟩ 0 ⟨buildTable [120, 10, 97, 98, 10], 0⟩ 1
      = Res.ok true :=
  ⟨by decide,
    (C9_match [97, 98, 10] [120, 10, 97, 98, 10] 0 1 (by decide) (by decide)).2.2
      (Or.inl (by decide))⟩

/-- C10, counterexample: the file `a\n` is not empty and has one newline byte,
and its table has one line, not two; the file `a` is not empty and its table
has no line, not one. -/
theorem C10_counterexample :
    ([97, 10] : List Nat) ≠ [] ∧
    (buildTable [97, 10]).lines = 1 ∧ List.count 10 [97, 10] + 1 = 2 ∧
    (buildTable [97, 10]).lines ≠ List.count 10 [97, 10] + 1 ∧
    ([97] : List Nat) ≠ [] ∧ (buildTable [97]).lines = 0 ∧ List.count 10 [97] + 1 = 1 := by
  decide

/-- C10, amended: for every byte buffer the line count that the engines
iterate over is the number of newline bytes of the buffer, not that number
plus one (zero for the empty buffer and for a buffer without newline byte);
each of these lines ends with its newline byte, and the lines together are the
buffer up to and including its last newline byte: the content after the final
newline is not one of the counted lines. -/
theorem C10_line_count (buf : List Nat) :
    (buildTable buf).lines = buf.count 10 ∧
    (∀ i, i < (buildTable buf).lines → (span (buildTable buf) i).getLast? = some 10) ∧
    (List.range (buildTable buf).lines).flatMap (span (buildTable buf))
        ++ (buf.reverse.takeWhile (fun c => decide (c ≠ 10))).reverse = buf := by
  have hT := buildTable_split buf
  obtain ⟨h1, h2, h3⟩ := splitLines_spec buf
  have hl := buildTable_lines buf
  refine ⟨hl, ?_, ?_⟩
  · intro i hi
    rw [hT.lines_eq] at hi
    rw [span_line _ _ _ hT i hi]
    simp
  · have r : (buf.reverse.takeWhile (fun c => decide (c ≠ 10))).reverse = (splitLines buf).2 := by
      conv_lhs => rw [← h1]
      rw [rest_eq _ _ h3]
    rw [lines_flatten _ _ _ hT, r]
    exact h1


/-- C11 (monotonic progress of Engine A): on the tables of any two buffers,
(1) the main loop started from the initial globals ends within
|A| + |B| + 1 iterations, with both cursors at the line counts; (2) from every
state whose cursors are inside the tables, one iteration returns, it is the
terminating one exactly when both cursors have reached the line counts, and
otherwise neither cursor decreases, the sum Base[A] + Base[B] strictly
increases and both cursors stay at most the line counts; (3) from every such
state the loop ends within as many iterations as lines are left, plus one. -/
theorem C11_progress (Aconad Bconad : List Nat) :
    (∃ st, bigcompare.mainLoop (buildTable Aconad) (buildTable Bconad)
        ((buildTable Aconad).lines + (buildTable Bconad).lines + 1) bigcompare.initState
          = Res.ok st ∧
      bigcompare.run Aconad Bconad = Res.ok st ∧
      st.BaseA = (buildTable Aconad).lines ∧ st.BaseB = (buildTable Bconad).lines) ∧
    ∀ st : bigcompare.State,
      st.BaseA ≤ (buildTable Aconad).lines → st.BaseB ≤ (buildTable Bconad).lines →
      (∃ r, bigcompare.step (buildTable Aconad) (buildTable Bconad) st = Res.ok r ∧
        (r = none ↔ (buildTable Aconad).lines ≤ st.BaseA ∧ (buildTable Bconad).lines ≤ st.BaseB) ∧
        ∀ st2, r = some st2 →
          st.BaseA ≤ st2.BaseA ∧ st.BaseB ≤ st2.BaseB ∧
          st.BaseA + st.BaseB < st2.BaseA + st2.BaseB ∧
          st2.BaseA ≤ (buildTable Aconad).lines ∧ st2.BaseB ≤ (buildTable Bconad).lines) ∧
      ∃ st2, bigcompare.mainLoop (buildTable Aconad) (buildTable Bconad)
          (((buildTable Aconad).lines - st.BaseA) + ((buildTable Bconad).lines - st.BaseB) + 1) st
            = Res.ok st2 ∧
        st2.BaseA = (buildTable Aconad).lines ∧ st2.BaseB = (buildTable Bconad).lines := by
  have hA := buildTable_split Aconad
  have hB := buildTable_split Bconad
  have hM := bigcompare.matchIs_of_tables _ _ _ _ hA hB
  have hPA := bigcompare.printIs_of_table _ _ _ hA
  have hPB := bigcompare.printIs_of_table _ _ _ hB
  refine ⟨?_, ?_⟩
  · obtain ⟨st, e, _, eA, eB⟩ := bigcompare.mainLoop_inv _ _ _ hM hPA hPB (fun _ => True)
      (fun _ _ _ _ _ => trivial)
      ((buildTable Aconad).lines + (buildTable Bconad).lines + 1) bigcompare.initState
      ⟨Nat.zero_le _, Nat.zero_le _⟩ trivial
      (by simp only [bigcompare.initState]; omega)
    exact ⟨st, e, e, eA, eB⟩
  · intro st h1 h2
    refine ⟨⟨_, bigcompare.step_eq _ _ _ hM hPA hPB st, ?_, ?_⟩, ?_⟩
    · rw [bigcompare.pstep_none]
    · intro st2 h
      obtain ⟨ev, _, hm⟩ := bigcompare.pstep_some _ _ _ st st2 h
      obtain ⟨⟨i1, i2⟩, m1, m2, m3⟩ := bigcompare.Moved_progress _ _ _ st st2 ev hm ⟨h1, h2⟩
      exact ⟨m1, m2, m3, i1, i2⟩
    · obtain ⟨st2, e, _, eA, eB⟩ := bigcompare.mainLoop_inv _ _ _ hM hPA hPB (fun _ => True)
        (fun _ _ _ _ _ => trivial) _ st ⟨h1, h2⟩ trivial (Nat.lt_succ_self _)
      exact ⟨st2, e, eA, eB⟩


/-- C12 (termination of Engine B): (1) for every call of COMPARE, on any
pointers and range sizes, whose budget of nested calls exceeds the combined
size Alines + Blines, the budget is not exhausted, and when the call returns,
its log starts with the entry of the call itself and every later call entry,
that is every call made directly or indirectly by it (before a match, after a
match, after a one-line Replacement), is on ranges of strictly smaller combined
size; (2) the call of main on the tables of any two buffers, with a budget of
|A| + |B| + 1 nested calls, never exhausts it; (3) on buffers without NUL byte
that call returns. -/
theorem C12_termination :
    (∀ (fuel : Nat) (AA : LinePtr) (Alines Abase : Int) (BB : LinePtr) (Blines Bbase : Int)
        (st : smallcompare.Out), (Alines + Blines).toNat < fuel →
      smallcompare.COMPARE fuel AA Alines Abase BB Blines Bbase st ≠ Res.timeout ∧
      ∀ st2, smallcompare.COMPARE fuel AA Alines Abase BB Blines Bbase st = Res.ok st2 →
        ∃ rest, st2.trace = st.trace ++ smallcompare.Ev.call AA.off Alines BB.off Blines :: rest ∧
          smallcompare.callsBelow (Alines + Blines) rest) ∧
    (∀ Aconad Bconad : List Nat, smallcompare.run Aconad Bconad ≠ Res.timeout) ∧
    (∀ Aconad Bconad : List Nat, 0 ∉ Aconad → 0 ∉ Bconad →
      ∃ out, smallcompare.run Aconad Bconad = Res.ok out) := by
  refine ⟨fun fuel AA Alines Abase BB Blines Bbase st hf =>
    smallcompare.COMPARE_terminates fuel AA Alines Abase BB Blines Bbase st hf, ?_, ?_⟩
  · intro Aconad Bconad
    exact (smallcompare.COMPARE_terminates _ _ _ _ _ _ _ _ (by omega)).1
  · intro Aconad Bconad hA hB
    exact smallcompare.runB_ok Aconad Bconad hA hB

/-- C12 at the files `y\n` and `x\ny\n` with a budget of four nested calls. -/
theorem C12_termination_witness :
    ((1 : Int) + 2).toNat < 4 ∧
    smallcompare.COMPARE 4 ⟨buildTable [121, 10], 0⟩ 1 0 ⟨buildTable [120, 10, 121, 10], 0⟩ 2 0
      { stdout := [], Same := true, trace := [] } ≠ Res.timeout ∧
    (∃ out, smallcompare.run [121, 10] [120, 10, 121, 10] = Res.ok out ∧
      out.trace = [.call 0 1 0 2, .block 0 1 1, .call 0 0 0 1, .printed 1 0, .call 1 0 2 0]) :=
  ⟨by decide, (C12_termination.1 4 ⟨buildTable [121, 10], 0⟩ 1 0
    ⟨buildTable [120, 10, 121, 10], 0⟩ 2 0 { stdout := [], Same := true, trace := [] }
    (by decide)).1, ⟨_, by rfl, by rfl⟩⟩

/-- C13, failing input: A = `z\nu\nv\nw\nq\n`, B = `w\nx\ny\nu\nq\n`, on blocks
with room for the seven pointers stored. The main loop logs the Deletion of A
line 1, then the Deletion of A lines 2..3, then the Insertions of the B lines
2, 3 and 4. The first two records are of the same file and the first line of
the second one follows the last line of the first one, yet a separator is
printed between them: standard output is not the report that the rule of the
claim gives. -/
theorem C13_block_after_line :
    ∃ st, bigcompare.exec 7 7 [122, 10, 117, 10, 118, 10, 119, 10, 113, 10]
        [119, 10, 120, 10, 121, 10, 117, 10, 113, 10] = Res.ok st ∧
      bigcompare.records st.trace
        = [.Deletion 1 1, .Deletion 2 3, .Insertion 2 2, .Insertion 3 3, .Insertion 4 4] ∧
      bigcompare.adjacent (.Deletion 1 1) (.Deletion 2 3) = true ∧
      st.stdout = [OutLine.dashes, OutLine.text 0 1 [122], OutLine.dashes,
        OutLine.text 0 2 [117], OutLine.text 0 3 [118], OutLine.dashes,
        OutLine.text 1 2 [120], OutLine.text 1 3 [121], OutLine.text 1 4 [117]] ∧
      bigcompare.render bigcompare.adjacent
          (buildTable [122, 10, 117, 10, 118, 10, 119, 10, 113, 10])
          (buildTable [119, 10, 120, 10, 121, 10, 117, 10, 113, 10]) none
          (bigcompare.records st.trace)
        = [OutLine.dashes, OutLine.text 0 1 [122],
          OutLine.text 0 2 [117], OutLine.text 0 3 [118], OutLine.dashes,
          OutLine.text 1 2 [120], OutLine.text 1 3 [121], OutLine.text 1 4 [117]] ∧
      st.stdout ≠ bigcompare.render bigcompare.adjacent
          (buildTable [122, 10, 117, 10, 118, 10, 119, 10, 113, 10])
          (buildTable [119, 10, 120, 10, 121, 10, 117, 10, 113, 10]) none
          (bigcompare.records st.trace) :=
  ⟨_, by rfl, by rfl, by rfl, by rfl, by rfl, by decide⟩

/-- C14, counterexample: on A = `u\n`, B = `x\nu\nv\n`, with tables filled
inside blocks of three and five pointers, the first lines differ, the scan
forward in B finds A's line at B line 2 and the scan forward in A finds nothing
(A has no further line); the main loop logs the Insertion of B line 1 and
advances only the B cursor, it logs no Deletion. With the two files exchanged
only the scan forward in A finds a line, and the main loop logs the Deletion of
A line 1. -/
theorem C14_counterexample :
    ∃ T1 T3, indexer 3 [117, 10] = Res.ok T1 ∧
      indexer 5 [120, 10, 117, 10, 118, 10] = Res.ok T3 ∧
      bigcompare.Match T1 T3 0 0 = Res.ok false ∧
      bigcompare.Match T1 T3 0 1 = Res.ok true ∧
      T1.lines = 1 ∧
      (∃ st2, bigcompare.step T1 T3 bigcompare.initState = Res.ok (some st2) ∧
        st2.trace = [.record (.Insertion 1 1)] ∧ st2.BaseA = 0 ∧ st2.BaseB = 1 ∧
        st2.stdout = [OutLine.dashes, OutLine.text 1 1 [120]] ∧
        st2.trace ≠ [.record (.Deletion 1 1)]) ∧
      bigcompare.Match T3 T1 0 0 = Res.ok false ∧
      bigcompare.Match T3 T1 1 0 = Res.ok true ∧
      (∃ st2, bigcompare.step T3 T1 bigcompare.initState = Res.ok (some st2) ∧
        st2.trace = [.record (.Deletion 1 1)] ∧ st2.BaseA = 1 ∧ st2.BaseB = 0 ∧
        st2.stdout = [OutLine.dashes, OutLine.text 0 1 [120]] ∧
        st2.trace ≠ [.record (.Insertion 1 1)]) :=
  ⟨_, _, by rfl, by rfl, by rfl, by rfl, by rfl,
    ⟨_, by rfl, by rfl, by rfl, by rfl, by rfl, by decide⟩,
    by rfl, by rfl, ⟨_, by rfl, by rfl, by rfl, by rfl, by rfl, by decide⟩⟩

/-- C14, amended (one-sided resynchronisation of Engine A): on tables that the
indexer filled inside their blocks (blocks with room for more pointers than it
asked for), at a mismatch with the cursors (a, b) inside the tables, (1) if
only the scan forward in B from b+1 for a line matching A's line a finds one
(A's line a is in B further down, B's line b is nowhere further down in A),
one iteration logs the Insertion of exactly the single B line at b, prints that
line with the number b+1, and advances only b, by one; (2) if only the scan
forward in A from a+1 for a line matching B's line b finds one, the iteration
logs the Deletion of exactly the single A line at a, prints it with the number
a+1, and advances only a, by one. Nothing is said of a run whose indexer stores
outside its block. -/
theorem C14_one_sided (slotsA slotsB : Nat) (Aconad Bconad : List Nat) (TA TB : LineTable)
    (st : bigcompare.State)
    (hTA : indexer slotsA Aconad = Res.ok TA) (hTB : indexer slotsB Bconad = Res.ok TB)
    (ha : st.BaseA < TA.lines) (hb : st.BaseB < TB.lines)
    (hm : bigcompare.Match TA TB st.BaseA st.BaseB = Res.ok false) :
    ((∃ k, st.BaseB < k ∧ k < TB.lines ∧ bigcompare.Match TA TB st.BaseA k = Res.ok true) →
      (∀ k, st.BaseA < k → k < TA.lines →
        bigcompare.Match TA TB k st.BaseB = Res.ok false) →
      ∃ st2, bigcompare.step TA TB st = Res.ok (some st2) ∧
        st2.trace = st.trace ++ [.record (.Insertion (st.BaseB + 1) (st.BaseB + 1))] ∧
        st2.BaseA = st.BaseA ∧ st2.BaseB = st.BaseB + 1 ∧
        st2.stdout = (bigcompare.Separator st.BaseB 1 st).stdout
          ++ [OutLine.text 1 ((st.BaseB : Int) + 1) (cstr (span TB st.BaseB).dropLast)]) ∧
    ((∀ k, st.BaseB < k → k < TB.lines →
        bigcompare.Match TA TB st.BaseA k = Res.ok false) →
      (∃ k, st.BaseA < k ∧ k < TA.lines ∧ bigcompare.Match TA TB k st.BaseB = Res.ok true) →
      ∃ st2, bigcompare.step TA TB st = Res.ok (some st2) ∧
        st2.trace = st.trace ++ [.record (.Deletion (st.BaseA + 1) (st.BaseA + 1))] ∧
        st2.BaseA = st.BaseA + 1 ∧ st2.BaseB = st.BaseB ∧
        st2.stdout = (bigcompare.Separator st.BaseA 0 st).stdout
          ++ [OutLine.text 0 ((st.BaseA : Int) + 1) (cstr (span TA st.BaseA).dropLast)]) := by
  obtain ⟨eA, _⟩ := indexer_eq_ok _ _ _ hTA
  obtain ⟨eB, _⟩ := indexer_eq_ok _ _ _ hTB
  subst eA
  subst eB
  have hA := buildTable_split Aconad
  have hB := buildTable_split Bconad
  have hM := bigcompare.matchIs_of_tables _ _ _ _ hA hB
  have hPA := bigcompare.printIs_of_table _ _ _ hA
  have hPB := bigcompare.printIs_of_table _ _ _ hB
  have e := bigcompare.step_eq _ _ _ hM hPA hPB st
  have m0 := bigcompare.matchIs_val _ _ _ hM _ _ ha hb _ hm
  have pr : ∀ (T : LineTable) (F i : Nat), bigcompare.printed T F i i
      = [OutLine.text F ((i : Int) + 1) (cstr (span T i).dropLast)] := by
    intro T F i
    simp [bigcompare.printed]
  constructor
  · rintro ⟨k, k1, k2, k3⟩ hAll
    have k3b := bigcompare.matchIs_val _ _ _ hM _ _ ha k2 _ k3
    have hAll2 : ∀ k, st.BaseA < k → k < (buildTable Aconad).lines →
        Mof (spansOf (splitLines Aconad).1 (splitLines Aconad).2)
          (spansOf (splitLines Bconad).1 (splitLines Bconad).2) k st.BaseB = false :=
      fun k h1 h2 => bigcompare.matchIs_val _ _ _ hM _ _ h2 hb _ (hAll k h1 h2)
    rw [bigcompare.pstep_insert_one _ _ _ st ha hb m0 k k1 k2 k3b hAll2] at e
    refine ⟨_, e, ?_, ?_, ?_, ?_⟩
    · simp [bigcompare.State.log]
    · simp [bigcompare.State.log]
    · simp [bigcompare.State.log]
    · simp only [bigcompare.State.log, bigcompare.Separator_stdout_same, pr]
  · rintro hAll ⟨k, k1, k2, k3⟩
    have k3b := bigcompare.matchIs_val _ _ _ hM _ _ k2 hb _ k3
    have hAll2 : ∀ k, st.BaseB < k → k < (buildTable Bconad).lines →
        Mof (spansOf (splitLines Aconad).1 (splitLines Aconad).2)
          (spansOf (splitLines Bconad).1 (splitLines Bconad).2) st.BaseA k = false :=
      fun k h1 h2 => bigcompare.matchIs_val _ _ _ hM _ _ ha h2 _ (hAll k h1 h2)
    rw [bigcompare.pstep_delete_one _ _ _ st ha hb m0 hAll2 k k1 k2 k3b] at e
    refine ⟨_, e, ?_, ?_, ?_, ?_⟩
    · simp [bigcompare.State.log]
    · simp [bigcompare.State.log]
    · simp [bigcompare.State.log]
    · simp only [bigcompare.State.log, bigcompare.Separator_stdout_same, pr]

/-- C14, the amended statement from the initial globals, on blocks of three and
five pointers: at A = `u\n`, B = `x\nu\nv\n` only the scan forward in B finds a
line, and with the two files exchanged only the scan forward in A finds one. -/
theorem C14_one_sided_witness :
    (indexer 3 [117, 10] = Res.ok (buildTable [117, 10]) ∧
      indexer 5 [120, 10, 117, 10, 118, 10] = Res.ok (buildTable [120, 10, 117, 10, 118, 10]) ∧
      bigcompare.initState.BaseA < (buildTable [117, 10]).lines ∧
      bigcompare.initState.BaseB < (buildTable [120, 10, 117, 10, 118, 10]).lines ∧
      bigcompare.Match (buildTable [117, 10]) (buildTable [120, 10, 117, 10, 118, 10]) 0 0
        = Res.ok false) ∧
    (∃ st2, bigcompare.step (buildTable [117, 10]) (buildTable [120, 10, 117, 10, 118, 10])
        bigcompare.initState = Res.ok (some st2) ∧
      st2.trace = [] ++ [.record (.Insertion (0 + 1) (0 + 1))] ∧
      st2.BaseA = 0 ∧ st2.BaseB = 0 + 1) ∧
    (∃ st2, bigcompare.step (buildTable [120, 10, 117, 10, 118, 10]) (buildTable [117, 10])
        bigcompare.initState = Res.ok (some st2) ∧
      st2.trace = [] ++ [.record (.Deletion (0 + 1) (0 + 1))] ∧
      st2.BaseA = 0 + 1 ∧ st2.BaseB = 0) :=
  ⟨⟨by rfl, by rfl, by decide, by decide, by rfl⟩, by
    obtain ⟨st2, e, t, a, b, _⟩ := (C14_one_sided 3 5 [117, 10] [120, 10, 117, 10, 118, 10]
      _ _ bigcompare.initState (by rfl) (by rfl) (by decide) (by decide) (by rfl)).1
      ⟨1, by decide, by decide, by rfl⟩
      (fun k h1 h2 => absurd h2 (by
        have : (buildTable [117, 10]).lines = 1 := by decide
        rw [this]
        exact Nat.not_lt.2 h1))
    exact ⟨st2, e, t, a, b⟩, by
    obtain ⟨st2, e, t, a, b, _⟩ := (C14_one_sided 5 3 [120, 10, 117, 10, 118, 10] [117, 10]
      _ _ bigcompare.initState (by rfl) (by rfl) (by decide) (by decide) (by rfl)).2
      (fun k h1 h2 => absurd h2 (by
        have : (buildTable [117, 10]).lines = 1 := by decide
        rw [this]
        exact Nat.not_lt.2 h1))
      ⟨1, by decide, by decide, by rfl⟩
    exact ⟨st2, e, t, a, b⟩⟩


/-- C15, counterexample: on A = `x\nc\n`, B = `y\nc\n` the search loop of
COMPARE finds no match at the lengths 2 and 1, and COMPARE prints the one-line
Replacement of `x` by `y`; yet the second line of A equals the second line of
B (the call on the remaining ranges then finds that block). -/
theorem C15_counterexample :
    smallcompare.search ⟨buildTable [120, 10, 99, 10], 0⟩ 2 ⟨buildTable [121, 10, 99, 10], 0⟩ 2
      (min 2 2) = Res.ok none ∧
    span (buildTable [120, 10, 99, 10]) 1 = span (buildTable [121, 10, 99, 10]) 1 ∧
    (∃ out, smallcompare.run [120, 10, 99, 10] [121, 10, 99, 10] = Res.ok out ∧
      out.stdout = [OutLine.text 0 1 [120], OutLine.text 1 1 [121], OutLine.dashes] ∧
      out.trace = [.call 0 2 0 2, .printed 0 0, .printed 1 0, .call 1 1 1 1, .block 1 1 1,
        .call 1 0 1 0, .call 2 0 2 0]) :=
  ⟨by rfl, by decide, ⟨_, by rfl, by rfl, by rfl⟩⟩

/-- C15, amended (meaning of `no match` in Engine B): for all buffers and all
non-empty ranges (oa, a) of the lines of A and (ob, b) of the lines of B, if
the search loop of COMPARE finds no match at any candidate length from
min a b down to 1 (COMPARE then prints the one-line Replacement), then no line
of the A range equals the first line of the B range and no line of the B range
equals the first line of the A range. Lines further down the two ranges may be
equal. -/
theorem C15_no_match (Aconad Bconad : List Nat) (oa a ob b : Nat) (ha : 0 < a) (hb : 0 < b)
    (hA : oa + a ≤ (buildTable Aconad).lines) (hB : ob + b ≤ (buildTable Bconad).lines)
    (h : smallcompare.search ⟨buildTable Aconad, oa⟩ a ⟨buildTable Bconad, ob⟩ b (min a b)
      = Res.ok none) :
    (∀ i, i < a → span (buildTable Aconad) (oa + i) ≠ span (buildTable Bconad) ob) ∧
    (∀ j, j < b → span (buildTable Aconad) oa ≠ span (buildTable Bconad) (ob + j)) := by
  obtain ⟨h1, h2⟩ := smallcompare.search_none_one _ _ _ _ _ (by omega) h
  constructor
  · intro i hi
    have m := smallcompare.Matches_one _ _
      (smallcompare.slideA_none _ _ _ _ _ h1 i (by omega) (by omega))
    exact smallcompare.Match_false_ne Aconad Bconad (oa + i) ob (by omega) (by omega) m
  · intro j hj
    have m := smallcompare.Matches_one _ _
      (smallcompare.slideB_none _ _ _ _ _ h2 j (by omega) (by omega))
    exact smallcompare.Match_false_ne Aconad Bconad oa (ob + j) (by omega) (by omega) m

/-- C15, the amended statement at the files `a\n` and `b\n`. -/
theorem C15_no_match_witness :
    (0 < 1 ∧ 0 + 1 ≤ (buildTable [97, 10]).lines ∧ 0 + 1 ≤ (buildTable [98, 10]).lines ∧
      smallcompare.search ⟨buildTable [97, 10], 0⟩ 1 ⟨buildTable [98, 10], 0⟩ 1 (min 1 1)
        = Res.ok none) ∧
    (∀ i, i < 1 → span (buildTable [97, 10]) (0 + i) ≠ span (buildTable [98, 10]) 0) ∧
    (∀ j, j < 1 → span (buildTable [97, 10]) 0 ≠ span (buildTable [98, 10]) (0 + j)) :=
  ⟨⟨by decide, by decide, by decide, by rfl⟩,
    C15_no_match [97, 10] [98, 10] 0 1 0 1 (by decide) (by decide) (by decide) (by decide)
      (by rfl)⟩


/-- C16, counterexample: A = `y\n` followed by the two bytes NUL and 5, and
B = NUL followed by a newline. COMPARE is called on the ranges of one line
each, and recurses around a block of length 1 at A-offset 1: the window is the
span after the last newline of A, which strncmp takes for equal to the line of
B; it does not lie inside the A range (1 + 1 > 1), and no window inside either
range equals the first line of the other, so the block is not the one the
claim describes. The call after the block receives the range size -1. -/
theorem C16_counterexample :
    (∃ out, smallcompare.run [121, 10, 0, 5] [0, 10] = Res.ok out ∧
      out.trace = [.call 0 1 0 1, .block 1 0 1, .call 0 1 0 0, .printed 0 0,
        .call 2 (-1) 1 0]) ∧
    (splitLines [121, 10, 0, 5]).1 = [[121]] ∧ (splitLines [0, 10]).1 = [[0]] ∧
    ¬ smallcompare.Selected [[121]] [[0]] 0 1 0 1 1 0 1 := by
  refine ⟨⟨_, by rfl, by rfl⟩, by decide, by decide, ?_⟩
  rintro ⟨_, _, _, _, h⟩
  have hn : ¬ ∃ q, smallcompare.qualA [[121]] [[0]] 0 1 0 1 q := by
    rintro ⟨q, h1, h2⟩
    have hq : q = 0 := by omega
    subst hq
    revert h2
    decide
  have := (h hn).1
  omega

/-- C16, amended (match selection and tie-break of Engine B): for every pair of
buffers without NUL byte, COMPARE started on the full tables returns, its log
starts with the entry of that call, and for every two neighbours of the log of
which the second is a block entry (COMPARE recursing around a match of length
L at the table positions pa, pb), the first is the entry of the call that found
the block, on two non-empty ranges (oa, a) and (ob, b), and: L is in
1..min a b; at no greater length up to min a b does a window inside the A range
equal the first lines of the B range or a window inside the B range equal the
first lines of the A range; if some window of length L inside the A range
equals the first L lines of the B range then pb = ob and pa - oa is the least
offset of such a window, otherwise pa = oa and pb - ob is the least offset of a
window of length L inside the B range that equals the first L lines of the A
range. -/
theorem C16_selection (Aconad Bconad : List Nat) (hA : 0 ∉ Aconad) (hB : 0 ∉ Bconad) :
    ∃ out rest, smallcompare.run Aconad Bconad = Res.ok out ∧
      out.trace = smallcompare.Ev.call 0 (buildTable Aconad).lines 0 (buildTable Bconad).lines
        :: rest ∧
      List.Chain' (smallcompare.BlockRule (splitLines Aconad).1 (splitLines Bconad).1)
        out.trace :=
  smallcompare.runB_blockRule Aconad Bconad hA hB

/-- C16, the amended statement at the files `a\nb\n` and `b\n`, where the
block is the line `b` at A-offset 1. -/
theorem C16_selection_witness :
    ((0 : Nat) ∉ [97, 10, 98, 10] ∧ (0 : Nat) ∉ [98, 10]) ∧
    (∃ out, smallcompare.run [97, 10, 98, 10] [98, 10] = Res.ok out ∧
      out.trace = [.call 0 2 0 1, .block 1 0 1, .call 0 1 0 0, .printed 0 0, .call 2 0 1 0]) ∧
    ∃ out rest, smallcompare.run [97, 10, 98, 10] [98, 10] = Res.ok out ∧
      out.trace = smallcompare.Ev.call 0 (buildTable [97, 10, 98, 10]).lines 0
        (buildTable [98, 10]).lines :: rest ∧
      List.Chain' (smallcompare.BlockRule (splitLines [97, 10, 98, 10]).1 (splitLines [98, 10]).1)
        out.trace :=
  ⟨⟨by decide, by decide⟩, ⟨_, by rfl, by rfl⟩,
    C16_selection [97, 10, 98, 10] [98, 10] (by decide) (by decide)⟩

/-- C17, counterexample: on the files `\0a\n` and `\0b\n`, on blocks of three
pointers, the main loop emits no record, so line 1 of A and line 1 of B are
covered by no record; Match returns true on them, and they are not identical:
removing the reported lines leaves two different line sequences. -/
theorem C17_counterexample :
    ∃ st, bigcompare.exec 3 3 [0, 97, 10] [0, 98, 10] = Res.ok st ∧
      bigcompare.records st.trace = [] ∧ st.stdout = [] ∧
      bigcompare.kept (bigcompare.rangesA st.trace) (buildTable [0, 97, 10]).lines = [1] ∧
      bigcompare.kept (bigcompare.rangesB st.trace) (buildTable [0, 98, 10]).lines = [1] ∧
      bigcompare.Match (buildTable [0, 97, 10]) (buildTable [0, 98, 10]) (1 - 1) (1 - 1)
        = Res.ok true ∧
      (bigcompare.kept (bigcompare.rangesA st.trace) (buildTable [0, 97, 10]).lines).map
          (fun i => span (buildTable [0, 97, 10]) (i - 1)) = [[0, 97, 10]] ∧
      (bigcompare.kept (bigcompare.rangesB st.trace) (buildTable [0, 98, 10]).lines).map
          (fun j => span (buildTable [0, 98, 10]) (j - 1)) = [[0, 98, 10]] ∧
      (bigcompare.kept (bigcompare.rangesA st.trace) (buildTable [0, 97, 10]).lines).map
          (fun i => span (buildTable [0, 97, 10]) (i - 1))
        ≠ (bigcompare.kept (bigcompare.rangesB st.trace) (buildTable [0, 98, 10]).lines).map
          (fun j => span (buildTable [0, 98, 10]) (j - 1)) :=
  ⟨_, by rfl, by rfl, by rfl, by rfl, by rfl, by rfl, by rfl, by rfl, by decide⟩

/-- C17, amended (soundness of the report of Engine A): for every pair of
buffers and blocks that have room for the pointers the indexer stores (more
than it asked for), the main loop of bigcompare.c ends; the lines it printed are
the lines of the records of its log, in order; the line numbers of A that lie
in the range of no Deletion or Replacement record and the line numbers of B
that lie in the range of no Insertion or Replacement record, both taken in
increasing order, are equal in number and pairwise equal under Match; and when
one of the two buffers holds no NUL byte, the lines of A and the lines of B at
these numbers are the same sequence of lines: removing every reported line from
both files leaves two identical line sequences. Nothing is said of a run whose
indexer stores outside its block. -/
theorem C17_soundness_A (slotsA slotsB : Nat) (Aconad Bconad : List Nat)
    (hA : asked Aconad < slotsA) (hB : asked Bconad < slotsB) :
    ∃ st, bigcompare.exec slotsA slotsB Aconad Bconad = Res.ok st ∧
      bigcompare.textLines st.stdout = (bigcompare.records st.trace).flatMap
        (bigcompare.linesOf (buildTable Aconad) (buildTable Bconad)) ∧
      (bigcompare.kept (bigcompare.rangesA st.trace) (buildTable Aconad).lines).length
        = (bigcompare.kept (bigcompare.rangesB st.trace) (buildTable Bconad).lines).length ∧
      List.Forall₂
        (fun i j => bigcompare.Match (buildTable Aconad) (buildTable Bconad) (i - 1) (j - 1)
          = Res.ok true)
        (bigcompare.kept (bigcompare.rangesA st.trace) (buildTable Aconad).lines)
        (bigcompare.kept (bigcompare.rangesB st.trace) (buildTable Bconad).lines) ∧
      ((0 ∉ Aconad ∨ 0 ∉ Bconad) →
        (bigcompare.kept (bigcompare.rangesA st.trace) (buildTable Aconad).lines).map
            (fun i => span (buildTable Aconad) (i - 1))
          = (bigcompare.kept (bigcompare.rangesB st.trace) (buildTable Bconad).lines).map
            (fun j => span (buildTable Bconad) (j - 1))) := by
  rw [bigcompare.exec_eq_run _ _ _ _ hA hB]
  have hTA := buildTable_split Aconad
  have hTB := buildTable_split Bconad
  have hM := bigcompare.matchIs_of_tables _ _ _ _ hTA hTB
  obtain ⟨st, e, t, s1, s2, s3⟩ := bigcompare.run_sound Aconad Bconad
  refine ⟨st, e, t, by rw [s1, s2]; simp, ?_, ?_⟩
  · rw [s1, s2]
    apply bigcompare.forall2_pairs
    intro p hp
    obtain ⟨b1, b2, b3, b4, b5⟩ := s3 p hp
    rw [hM (p.1 - 1) (p.2 - 1) (by omega) (by omega), b5]
  · intro h0
    rw [s1, s2, List.map_map, List.map_map]
    apply List.map_congr_left
    intro p hp
    obtain ⟨b1, b2, b3, b4, b5⟩ := s3 p hp
    have lA := hTA.lines
    have lB := hTB.lines
    have gA : (spansOf (splitLines Aconad).1 (splitLines Aconad).2)[p.1 - 1]?
        = some ((spansOf (splitLines Aconad).1 (splitLines Aconad).2).getD (p.1 - 1) []) := by
      rw [List.getD_eq_getElem?_getD, List.getElem?_eq_getElem (by omega)]; rfl
    have gB : (spansOf (splitLines Bconad).1 (splitLines Bconad).2)[p.2 - 1]?
        = some ((spansOf (splitLines Bconad).1 (splitLines Bconad).2).getD (p.2 - 1) []) := by
      rw [List.getD_eq_getElem?_getD, List.getElem?_eq_getElem (by omega)]; rfl
    have sA := span_eq _ _ hTA (p.1 - 1) _ gA
    have sB := span_eq _ _ hTB (p.2 - 1) _ gB
    have inA : ∀ c ∈ span (buildTable Aconad) (p.1 - 1), c ∈ Aconad := by
      intro c hc
      exact List.mem_of_mem_drop (List.mem_of_mem_take hc)
    have inB : ∀ c ∈ span (buildTable Bconad) (p.2 - 1), c ∈ Bconad := by
      intro c hc
      exact List.mem_of_mem_drop (List.mem_of_mem_take hc)
    have h1 : 0 ∉ span (buildTable Aconad) (p.1 - 1) ∨ 0 ∉ span (buildTable Bconad) (p.2 - 1) := by
      rcases h0 with h | h
      · exact Or.inl (fun hc => h (inA 0 hc))
      · exact Or.inr (fun hc => h (inB 0 hc))
    unfold Mof at b5
    rw [← sA, ← sB, lineEq_of_noNUL _ _ h1] at b5
    simpa using b5

/-- C17, the amended statement at A = `a\nb\nc\n`, B = `a\nx\nc\n`, on blocks
of five pointers: the Replacement of line 2 is printed, and the lines 1 and 3
that remain are the same in both files. -/
theorem C17_soundness_A_witness :
    (asked [97, 10, 98, 10, 99, 10] < 5 ∧ asked [97, 10, 120, 10, 99, 10] < 5) ∧
    (∃ st, bigcompare.exec 5 5 [97, 10, 98, 10, 99, 10] [97, 10, 120, 10, 99, 10] = Res.ok st ∧
      bigcompare.records st.trace = [.Replacement 2 2] ∧
      st.stdout = [OutLine.dashes, OutLine.text 0 2 [98], OutLine.text 1 2 [120]] ∧
      bigcompare.kept (bigcompare.rangesA st.trace) (buildTable [97, 10, 98, 10, 99, 10]).lines
        = [1, 3] ∧
      bigcompare.kept (bigcompare.rangesB st.trace) (buildTable [97, 10, 120, 10, 99, 10]).lines
        = [1, 3]) ∧
    ∃ st, bigcompare.exec 5 5 [97, 10, 98, 10, 99, 10] [97, 10, 120, 10, 99, 10] = Res.ok st ∧
      (bigcompare.kept (bigcompare.rangesA st.trace)
          (buildTable [97, 10, 98, 10, 99, 10]).lines).map
          (fun i => span (buildTable [97, 10, 98, 10, 99, 10]) (i - 1))
        = (bigcompare.kept (bigcompare.rangesB st.trace)
          (buildTable [97, 10, 120, 10, 99, 10]).lines).map
          (fun j => span (buildTable [97, 10, 120, 10, 99, 10]) (j - 1)) := by
  obtain ⟨st, e, _, _, _, h⟩ := C17_soundness_A 5 5 [97, 10, 98, 10, 99, 10]
    [97, 10, 120, 10, 99, 10] (by decide) (by decide)
  exact ⟨⟨by decide, by decide⟩, ⟨_, by rfl, by rfl, by rfl, by rfl, by rfl⟩,
    ⟨st, e, h (Or.inl (by decide))⟩⟩

/-- C18, failing input: A = `x\nc\n`, B = `y\nc\n`, two files without NUL byte.
B has two newline bytes, so `calloc` is asked for three pointers, and the
indexer stores four, the last one at `BB[3]`, outside a block of three
pointers: whatever the block of A, the run of smallcompare.c is undefined from
that store on, and the lines `x` and `y` are not printed. -/
theorem C18_store_outside_block :
    (0 : Nat) ∉ [120, 10, 99, 10] ∧ (0 : Nat) ∉ [121, 10, 99, 10] ∧
    asked [121, 10, 99, 10] = 3 ∧ (buildTable [121, 10, 99, 10]).AA.length = 4 ∧
    indexer 3 [121, 10, 99, 10] = Res.oob ∧
    (∀ slotsA, smallcompare.exec slotsA 3 [120, 10, 99, 10] [121, 10, 99, 10] = Res.oob) ∧
    (∀ slotsA, smallcompare.program slotsA 3 [120, 10, 99, 10] [121, 10, 99, 10] = Res.oob) :=
  ⟨by decide, by decide, by decide, by decide, by rfl,
    fun _ => smallcompare.execB_oob _ _ _ _ (Or.inr (by decide)),
    fun _ => smallcompare.programB_oob _ _ _ _ (Or.inr (by decide))⟩

/-- C19, failing input: the pair A = `x\nu\n`, B = `u\n`, taken as (B, A). The
second file of that run has two newline bytes, so `calloc` is asked for three
pointers, and the indexer stores four, the last one outside a block of three
pointers: whatever the block of the first file, the run of bigcompare.c on
(B, A) is undefined from that store on, and the Insertion that mirrors the
Deletion of A line 1 is not emitted. -/
theorem C19_store_outside_block :
    asked [120, 10, 117, 10] = 3 ∧ (buildTable [120, 10, 117, 10]).AA.length = 4 ∧
    indexer 3 [120, 10, 117, 10] = Res.oob ∧
    (∀ slotsB, bigcompare.exec slotsB 3 [117, 10] [120, 10, 117, 10] = Res.oob) ∧
    (∀ slotsB, bigcompare.program slotsB 3 [117, 10] [120, 10, 117, 10] = Res.oob) :=
  ⟨by decide, by decide, by rfl,
    fun _ => bigcompare.exec_oob _ _ _ _ (Or.inr (by decide)),
    fun _ => bigcompare.program_oob _ _ _ _ (Or.inr (by decide))⟩

/-- C20, failing input: A = `x\nc\n`, B = `y\nc\n`, two files without NUL byte.
Each has two newline bytes, so `calloc` is asked for three pointers per table,
the entries 0..2, and the indexer stores a fourth one. The first search of
COMPARE slides its window of two lines down the A file to the offset
Ap = Alines = 2 (on the tables as stored no window matches), where Match reads
`AA[3]`, an entry outside the block asked for: on the tables cut to the blocks
asked for, that call of Match, the slide, the search and COMPARE are faults. -/
theorem C20_read_outside_block :
    ((0 : Nat) ∉ [120, 10, 99, 10] ∧ (0 : Nat) ∉ [121, 10, 99, 10]) ∧
    asked [120, 10, 99, 10] = 3 ∧ asked [121, 10, 99, 10] = 3 ∧
    (buildTable [120, 10, 99, 10]).lines = 2 ∧
    (buildTable [120, 10, 99, 10]).AA.length = 4 ∧
    indexer 3 [120, 10, 99, 10] = Res.oob ∧
    smallcompare.slideA ⟨buildTable [120, 10, 99, 10], 0⟩ ⟨buildTable [121, 10, 99, 10], 0⟩ 2 0 2
      = Res.ok none ∧
    smallcompare.Match ⟨(buildTable [120, 10, 99, 10]).cut 3, 2⟩ 0
      ⟨(buildTable [121, 10, 99, 10]).cut 3, 0⟩ 0 = Res.oob ∧
    smallcompare.slideA ⟨(buildTable [120, 10, 99, 10]).cut 3, 0⟩
      ⟨(buildTable [121, 10, 99, 10]).cut 3, 0⟩ 2 0 2 = Res.oob ∧
    smallcompare.search ⟨(buildTable [120, 10, 99, 10]).cut 3, 0⟩ 2
      ⟨(buildTable [121, 10, 99, 10]).cut 3, 0⟩ 2 2 = Res.oob ∧
    smallcompare.COMPARE 5 ⟨(buildTable [120, 10, 99, 10]).cut 3, 0⟩ 2 0
      ⟨(buildTable [121, 10, 99, 10]).cut 3, 0⟩ 2 0 { stdout := [], Same := true, trace := [] }
      = Res.oob :=
  ⟨⟨by decide, by decide⟩, by decide, by decide, by decide, by decide, by rfl, by rfl, by rfl,
    by rfl, by rfl, by rfl⟩
